import Mathlib

/-!
# Enblend pyramid engine: a shallow embedding of `src/pyramid.cc`

The development follows the C++ source function by function.  It also covers
`blend` (`src/blend.h`), `assemble` (`src/assemble.h`) and, of `src/vigra_impex`, the
settings of the JPEG encoder, the lookup of an encoder by `CodecManager` and the
function `encoder`.

Modelling conventions.

* A C array (`LPPixel*`, `uint32*`, `MaskPixel*`) is a `List`; `a[i]` is
  `a.getD i default` and `a[i] = v` is `a.set i v`.  A `vector<LPPixel*>` is a
  list of such lists.
* `double` values are rationals (`ℚ`).  `reduce` and `expand` are embedded twice:
  `reduce`, `expand` and the pyramids built on them take every operation on a
  `double` as exact; `Binary64.reduce` and `Binary64.expand` round every operation
  on a `double` to binary64 by `fl64`, in the order in which the source evaluates
  it, without extended precision and without fused multiply-add.  The properties
  that depend on the rounded channel values (the weighted mean of `reduce`, the
  zero-stuffed convolution of `expand`) are stated over the binary64 embedding;
  `reduceAcc_near` and `expandAcc_near` bound the distance between the
  accumulators of the two embeddings.  `rint` is the C library function in the
  default rounding mode (nearest, ties to even).
* The extraction of an `int` from a string stream in `encoder` is the one of the
  C++ standard library (`extractInt`), which is not part of the sources.
* `int16` and `uint32` values are integers; every narrowing conversion and
  every unsigned subtraction is written with an explicit modulus.  Raster
  dimensions and coordinates are assumed to be below `2^31`, so the `(int32)`
  casts of coordinates are value preserving and are not written.
* The globals `OutputWidth`, `ROIFirstX`, ... are collected in `Globals`.
* A `vigra` image is a row-major `List` of pixels.  The `vigra` operations used by
  `blend` and `assemble` are not part of the sources; each one is a definition that
  says so, written from its documented behaviour.
-/

namespace Enblend

/-! ## Data model -/

/-- Modelled from the spec: the pyramid pixel type `LPPixel` is declared in
`enblend.h`, which is not part of the sources.  The code stores `(int16)` values
in the channels `r`, `g`, `b` and compares `a` with 255. -/
structure LPPixel where
  r : Int
  g : Int
  b : Int
  a : Int
deriving DecidableEq, Repr, Inhabited

/-- Modelled from the spec: the 8-bit mask pixel type `MaskPixel` is declared in
`enblend.h`, which is not part of the sources. -/
structure MaskPixel where
  r : Nat
  g : Nat
  b : Nat
  a : Nat
deriving DecidableEq, Repr, Inhabited

/-- The global variables read by `pyramid.cc`. -/
structure Globals where
  OutputWidth : Nat
  OutputHeight : Nat
  ROIFirstX : Nat
  ROILastX : Nat
  ROIFirstY : Nat
  ROILastY : Nat
deriving DecidableEq, Repr

/-- Conversion of an integer to `int16` (two's complement wrap-around). -/
def toInt16 (x : Int) : Int := (x + 32768) % 65536 - 32768

/-- The bit pattern of an `int32` value, as a natural number below `2^32`. -/
def bits32 (x : Int) : Nat := (x % 4294967296).toNat

/-- The operator `&` on two `int` operands; the result is given as its bit pattern. -/
def bitand32 (x y : Int) : Nat := bits32 x &&& bits32 y

/-- The value of the C++ comparison `1 == 1` used as an `int` operand. -/
def oneEqOne : Int := if (1 : Int) = 1 then 1 else 0

/-- The libtiff macro `TIFFGetR(abgr)`, `((abgr) & 0xff)`. -/
def TIFFGetR (abgr : Nat) : Nat := abgr &&& 0xff
/-- The libtiff macro `TIFFGetG(abgr)`, `(((abgr) >> 8) & 0xff)`. -/
def TIFFGetG (abgr : Nat) : Nat := (abgr >>> 8) &&& 0xff
/-- The libtiff macro `TIFFGetB(abgr)`, `(((abgr) >> 16) & 0xff)`. -/
def TIFFGetB (abgr : Nat) : Nat := (abgr >>> 16) &&& 0xff
/-- The libtiff macro `TIFFGetA(abgr)`, `(((abgr) >> 24) & 0xff)`. -/
def TIFFGetA (abgr : Nat) : Nat := (abgr >>> 24) &&& 0xff

/-- The C function `rint` in the default rounding mode: the nearest integer,
a tie going to the even neighbour. -/
def rint (x : ℚ) : Int :=
  let f := ⌊x⌋
  let d := x - f
  if d < 1 / 2 then f else if 1 / 2 < d then f + 1 else if f % 2 = 0 then f else f + 1

/-! ## Filter coefficients (`pyramid.cc`, lines 46-50) -/

/-- `static const double A = 0.4;` -/
def A : ℚ := 4 / 10

/-- `static const double W[] = {0.25 - A / 2.0, 0.25, A, 0.25, 0.25 - A / 2.0};` -/
def W (m : Nat) : ℚ :=
  [25 / 100 - A / 2, 25 / 100, A, 25 / 100, 25 / 100 - A / 2].getD m 0

/-- `static const uint32 A100 = 40;` -/
def A100 : Nat := 40

/-- `static const uint32 W100[] = {25 - A100 / 2, 25, A100, 25, 25 - A100 / 2};` -/
def W100 (m : Nat) : Nat :=
  [25 - A100 / 2, 25, A100, 25, 25 - A100 / 2].getD m 0

/-! ## Loops over a buffer -/

/-- One row of a raster loop `for (x ...) { *p = f x (*p); p++; }`.  The state is
the buffer together with the running pointer. -/
def sweepRow {α : Type} [Inhabited α] (xs : List Nat) (f : Nat → α → α)
    (st : List α × Nat) : List α × Nat :=
  xs.foldl (fun st x => (st.1.set st.2 (f x (st.1.getD st.2 default)), st.2 + 1)) st

/-- The raster loop `for (y ...) for (x ...) { *p = f y x (*p); p++; }` with `p`
starting at the first element of `buf`. -/
def sweep {α : Type} [Inhabited α] (ys xs : List Nat) (f : Nat → Nat → α → α)
    (buf : List α) : List α :=
  (ys.foldl (fun st y => sweepRow xs (f y) st) (buf, 0)).1

/-- Boundary condition of `reduce` and `expand`:
`if (i >= (int32)w) i = w - 1; if (i < 0) i = 0;`. -/
def clampIndex (i : Int) (w : Nat) : Int :=
  let i1 := if i ≥ (w : Int) then (w : Int) - 1 else i
  if i1 < 0 then 0 else i1

/-! ## `expand` (`pyramid.cc`, lines 103-158) -/

/-- The three `double` accumulators `r`, `g`, `b`. -/
structure RGBAcc where
  r : ℚ
  g : ℚ
  b : ℚ
deriving DecidableEq

/-- The test `((int32)outX - (m-2)) & 1 == 1`, which C++ parses as
`((int32)outX - (m-2)) & (1 == 1)`; the tap is skipped when the value is non-zero. -/
def expandSkip (o : Nat) (m : Nat) : Bool :=
  bitand32 ((o : Int) - ((m : Int) - 2)) oneEqOne != 0

/-- The source index `((int32)outX - (m-2)) >> 1` after the boundary condition. -/
def expandIndex (o : Nat) (m : Nat) (inW : Nat) : Int :=
  clampIndex (((o : Int) - ((m : Int) - 2)) >>> (1 : Nat)) inW

/-- Body of the inner loop of `expand` (loop variable `n`). -/
def expandInner (inp : List LPPixel) (inW inH outY : Nat) (m : Nat) (inX : Int)
    (acc : RGBAcc) (n : Nat) : RGBAcc :=
  if expandSkip outY n then acc
  else
    let inY := expandIndex outY n inH
    let inPixel := inp.getD (inY * inW + inX).toNat default
    { r := acc.r + W m * W n * inPixel.r
      g := acc.g + W m * W n * inPixel.g
      b := acc.b + W m * W n * inPixel.b }

/-- Body of the outer loop of `expand` (loop variable `m`). -/
def expandOuter (inp : List LPPixel) (inW inH outX outY : Nat)
    (acc : RGBAcc) (m : Nat) : RGBAcc :=
  if expandSkip outX m then acc
  else (List.range 5).foldl (expandInner inp inW inH outY m (expandIndex outX m inW)) acc

/-- The accumulators of `expand` for the output pixel `(outX, outY)` after both loops. -/
def expandAcc (inp : List LPPixel) (inW inH outX outY : Nat) : RGBAcc :=
  (List.range 5).foldl (expandOuter inp inW inH outX outY) ⟨0, 0, 0⟩

/-- The value `(int16)rint(r * 4.0)` for each channel. -/
def expandDelta (inp : List LPPixel) (inW inH outX outY : Nat) : Int × Int × Int :=
  let acc := expandAcc inp inW inH outX outY
  (toInt16 (rint (acc.r * 4)), toInt16 (rint (acc.g * 4)), toInt16 (rint (acc.b * 4)))

/-- The update of one destination pixel: `out->r += ...` or `out->r -= ...`. -/
def expandPixel (inp : List LPPixel) (inW inH : Nat) (add : Bool)
    (outY outX : Nat) (o : LPPixel) : LPPixel :=
  let d := expandDelta inp inW inH outX outY
  if add then
    { o with r := toInt16 (o.r + d.1), g := toInt16 (o.g + d.2.1), b := toInt16 (o.b + d.2.2) }
  else
    { o with r := toInt16 (o.r - d.1), g := toInt16 (o.g - d.2.1), b := toInt16 (o.b - d.2.2) }

/-- The Burt and Adelson Expand operation: expand `inp` and either add to or
subtract from `out`.  Returns the new contents of `out`. -/
def expand (inp : List LPPixel) (inW inH : Nat) (out : List LPPixel) (outW outH : Nat)
    (add : Bool) : List LPPixel :=
  sweep (List.range outH) (List.range outW) (expandPixel inp inW inH add) out

/-! ## `reduce` (`pyramid.cc`, lines 163-225) -/

/-- The accumulators of `reduce`: the three `double` sums and `uint32 noContrib`. -/
structure ReduceAcc where
  r : ℚ
  g : ℚ
  b : ℚ
  noContrib : Nat
deriving DecidableEq

/-- The source index `2 * (int32)outX + m - 2` after the boundary condition. -/
def reduceIndex (o : Nat) (m : Nat) (w : Nat) : Int :=
  clampIndex (2 * (o : Int) + (m : Int) - 2) w

/-- The input pixel read by `reduce` for tap `(m, n)` of output pixel `(outX, outY)`. -/
def reduceTap (inp : List LPPixel) (w h outX outY : Nat) (m n : Nat) : LPPixel :=
  inp.getD (reduceIndex outY n h * w + reduceIndex outX m w).toNat default

/-- Body of the inner loop of `reduce` (loop variable `n`). -/
def reduceInner (inp : List LPPixel) (w h outX outY : Nat) (m : Nat)
    (acc : ReduceAcc) (n : Nat) : ReduceAcc :=
  let inPixel := reduceTap inp w h outX outY m n
  if inPixel.a ≠ 255 then
    { acc with noContrib := (acc.noContrib + 4294967296 - W100 m * W100 n) % 4294967296 }
  else
    { acc with
      r := acc.r + W m * W n * inPixel.r
      g := acc.g + W m * W n * inPixel.g
      b := acc.b + W m * W n * inPixel.b }

/-- Body of the outer loop of `reduce` (loop variable `m`). -/
def reduceOuter (inp : List LPPixel) (w h outX outY : Nat)
    (acc : ReduceAcc) (m : Nat) : ReduceAcc :=
  (List.range 5).foldl (reduceInner inp w h outX outY m) acc

/-- The accumulators of `reduce` for the output pixel `(outX, outY)` after both loops. -/
def reduceAcc (inp : List LPPixel) (w h outX outY : Nat) : ReduceAcc :=
  (List.range 5).foldl (reduceOuter inp w h outX outY) ⟨0, 0, 0, 10000⟩

/-- The adjustment `(noContrib == 0) ? 0.0 : r / (noContrib / 10000.0)`. -/
def reduceAdjust (noContrib : Nat) (r : ℚ) : ℚ :=
  if noContrib = 0 then 0 else r / ((noContrib : ℚ) / 10000)

/-- The output pixel of `reduce` at `(outX, outY)`. -/
def reducePixel (inp : List LPPixel) (w h : Nat) (outY outX : Nat) : LPPixel :=
  let acc := reduceAcc inp w h outX outY
  { r := toInt16 (rint (reduceAdjust acc.noContrib acc.r))
    g := toInt16 (rint (reduceAdjust acc.noContrib acc.g))
    b := toInt16 (rint (reduceAdjust acc.noContrib acc.b))
    a := if acc.noContrib = 0 then 0 else 255 }

/-- The Burt and Adelson Reduce operation: a new raster of size `(w >> 1) x (h >> 1)`. -/
def reduce (inp : List LPPixel) (w h : Nat) : List LPPixel :=
  let outW := w >>> 1
  let outH := h >>> 1
  sweep (List.range outH) (List.range outW) (fun outY outX _ => reducePixel inp w h outY outX)
    (List.replicate (outW * outH) ⟨0, 0, 0, 0⟩)

/-! ## Pyramids (`pyramid.cc`, lines 231-415) -/

/-- `uint32 roiWidth = ROILastX - ROIFirstX + 1;` -/
def roiWidth (G : Globals) : Nat :=
  (G.ROILastX + 4294967296 - G.ROIFirstX + 1) % 4294967296

/-- `uint32 roiHeight = ROILastY - ROIFirstY + 1;` -/
def roiHeight (G : Globals) : Nat :=
  (G.ROILastY + 4294967296 - G.ROIFirstY + 1) % 4294967296

/-- The values taken by `x` in `for (uint32 x = ROIFirstX; x <= ROILastX; x++)`. -/
def roiXs (G : Globals) : List Nat := List.range' G.ROIFirstX (G.ROILastX + 1 - G.ROIFirstX)

/-- The values taken by `y` in `for (uint32 y = ROIFirstY; y <= ROILastY; y++)`. -/
def roiYs (G : Globals) : List Nat := List.range' G.ROIFirstY (G.ROILastY + 1 - G.ROIFirstY)

/-- The pyramid pixel built from a TIFF pixel in `gaussianPyramid`. -/
def fromTIFF (pixel : Nat) : LPPixel :=
  { r := TIFFGetR pixel, g := TIFFGetG pixel, b := TIFFGetB pixel, a := TIFFGetA pixel }

/-- Level 0 of `gaussianPyramid`: the region of interest of `image` copied verbatim
into a freshly allocated buffer of `roiWidth * roiHeight` pixels. -/
def gaussianLevel0 (G : Globals) (image : List Nat) : List LPPixel :=
  sweep (roiYs G) (roiXs G)
    (fun y x _ => fromTIFF (image.getD (y * G.OutputWidth + x) 0))
    (List.replicate (roiWidth G * roiHeight G) default)

/-- The local variables of `gaussianPyramid` that change in its `while` loop. -/
structure GPState where
  v : List (List LPPixel)
  g : List LPPixel
  roiWidth : Nat
  roiHeight : Nat

/-- Body of the loop `while (l < levels)` of `gaussianPyramid`. -/
def gaussianStep (st : GPState) (_l : Nat) : GPState :=
  let g := reduce st.g st.roiWidth st.roiHeight
  { v := st.v ++ [g], g := g, roiWidth := st.roiWidth >>> 1, roiHeight := st.roiHeight >>> 1 }

/-- The function `gaussianPyramid(uint32 *image, uint32 levels)`. -/
def gaussianPyramid (G : Globals) (image : List Nat) (levels : Nat) : List (List LPPixel) :=
  let g := gaussianLevel0 G image
  ((List.range' 1 (levels - 1)).foldl gaussianStep ⟨[g], g, roiWidth G, roiHeight G⟩).v

/-- The call `expand(p[l + 1], roiWidth >> (l+1), roiHeight >> (l+1), p[l], roiWidth >> l,
roiHeight >> l, add)` shared by `laplacianPyramid` and `collapsePyramid`. -/
def expandLevel (rw rh : Nat) (add : Bool) (p : List (List LPPixel)) (l : Nat) :
    List (List LPPixel) :=
  p.set l (expand (p.getD (l + 1) []) (rw >>> (l + 1)) (rh >>> (l + 1))
    (p.getD l []) (rw >>> l) (rh >>> l) add)

/-- The function `laplacianPyramid(uint32 *image, uint32 levels)`; the loop bound
`levels - 1` is a `uint32` subtraction. -/
def laplacianPyramid (G : Globals) (image : List Nat) (levels : Nat) : List (List LPPixel) :=
  (List.range ((levels + 4294967296 - 1) % 4294967296)).foldl
    (expandLevel (roiWidth G) (roiHeight G) false) (gaussianPyramid G image levels)

/-- First loop of `collapsePyramid`: `for (int l = (p.size()-2); l >= 0; l--)`. -/
def collapseLevels (G : Globals) (p : List (List LPPixel)) : List (List LPPixel) :=
  (List.range (p.length - 1)).reverse.foldl (expandLevel (roiWidth G) (roiHeight G) true) p

/-- `min(255, max(0, (int)c))`. -/
def clamp255 (c : Int) : Int := min 255 (max 0 c)

/-- The conversion of a pyramid pixel back to 8-bit data in `collapsePyramid`. -/
def clampPixel (px : LPPixel) : LPPixel :=
  { px with r := clamp255 px.r, g := clamp255 px.g, b := clamp255 px.b }

/-- The `uint32` value
`(r & 0xFF) | ((g & 0xFF) << 8) | ((b & 0xFF) << 16) | (0xFF << 24)`. -/
def packPixel (px : LPPixel) : Nat :=
  (bitand32 px.r 0xFF ||| (bitand32 px.g 0xFF <<< 8) ||| (bitand32 px.b 0xFF <<< 16)
    ||| (0xFF <<< 24)) % 4294967296

/-- The state of the copy loop of `collapsePyramid`: the level `p[0]`, the
destination image and the pointer `pixel` (as an offset into `p[0]`). -/
structure CopyState where
  p0 : List LPPixel
  dest : List Nat
  pixel : Nat

/-- Body of the copy loop of `collapsePyramid` at image position `(x, y)`. -/
def collapseCopyStep (G : Globals) (mask : List MaskPixel) (y : Nat)
    (st : CopyState) (x : Nat) : CopyState :=
  let px := clampPixel (st.p0.getD st.pixel default)
  let maskPixel := mask.getD (y * G.OutputWidth + x) default
  { p0 := st.p0.set st.pixel px
    dest := st.dest.set (y * G.OutputWidth + x) (if maskPixel.a ≠ 255 then 0 else packPixel px)
    pixel := st.pixel + 1 }

/-- The copy loop of `collapsePyramid` over the region of interest. -/
def collapseCopy (G : Globals) (mask : List MaskPixel) (p0 : List LPPixel) (dest : List Nat) :
    CopyState :=
  (roiYs G).foldl (fun st y => (roiXs G).foldl (collapseCopyStep G mask y) st) ⟨p0, dest, 0⟩

/-- The function `collapsePyramid`: returns the pyramid and the destination image
as they are left by the call. -/
def collapsePyramid (G : Globals) (p : List (List LPPixel)) (dest : List Nat)
    (mask : List MaskPixel) : List (List LPPixel) × List Nat :=
  let p1 := collapseLevels G p
  let st := collapseCopy G mask (p1.getD 0 []) dest
  (p1.set 0 st.p0, st.dest)

/-! ## Quantities used to state the properties of `reduce` -/

/-- The term that tap `(m, n)` adds to the channel sum `ch` in `reduce`:
`W[m] * W[n] * channel` when the input pixel is opaque, nothing otherwise. -/
def tapTerm (ch : LPPixel → Int) (inp : List LPPixel) (w h outX outY m n : Nat) : ℚ :=
  if (reduceTap inp w h outX outY m n).a = 255 then
    W m * W n * (ch (reduceTap inp w h outX outY m n) : ℚ) else 0

/-- The amount that tap `(m, n)` takes from `noContrib` in `reduce`. -/
def tapLoss (inp : List LPPixel) (w h outX outY m n : Nat) : Nat :=
  if (reduceTap inp w h outX outY m n).a = 255 then 0 else W100 m * W100 n

/-- The sum of `W[m] * W[n]` over the opaque positions of the 5x5 window. -/
def opaqueWeight (inp : List LPPixel) (w h outX outY : Nat) : ℚ :=
  ∑ m ∈ Finset.range 5, ∑ n ∈ Finset.range 5,
    if (reduceTap inp w h outX outY m n).a = 255 then W m * W n else 0

/-- The sum of `W[m] * W[n] * channel` over the opaque positions of the 5x5 window. -/
def opaqueSum (ch : LPPixel → Int) (inp : List LPPixel) (w h outX outY : Nat) : ℚ :=
  ∑ m ∈ Finset.range 5, ∑ n ∈ Finset.range 5, tapTerm ch inp w h outX outY m n

/-- The state of `reduce` just before tap `(m, n)` of output pixel `(outX, outY)` is
processed: `m` complete iterations of the outer loop and `n` of the inner loop. -/
def reduceBefore (inp : List LPPixel) (w h outX outY m n : Nat) : ReduceAcc :=
  (List.range n).foldl (reduceInner inp w h outX outY m)
    ((List.range m).foldl (reduceOuter inp w h outX outY) ⟨0, 0, 0, 10000⟩)

/-- A pyramid pixel whose colour channels are `int16` values. -/
def LPPixel.Valid (p : LPPixel) : Prop :=
  (-32768 ≤ p.r ∧ p.r ≤ 32767) ∧ (-32768 ≤ p.g ∧ p.g ≤ 32767) ∧ (-32768 ≤ p.b ∧ p.b ≤ 32767)

instance (p : LPPixel) : Decidable p.Valid := by
  unfold LPPixel.Valid; infer_instance

/-- The 8x8 test raster of the transparency-aware reduce scenario: the left four
columns are opaque with value 100, the right four columns are transparent. -/
def halfOpaqueRaster : List LPPixel :=
  (List.range 64).map (fun i => if i % 8 < 4 then ⟨100, 100, 100, 255⟩ else ⟨0, 0, 0, 0⟩)

/-! ## Quantities used to state the properties of `expand` -/

/-- The input pixel read by `expand` for tap `(m, n)` of output pixel `(outX, outY)`. -/
def expandTap (inp : List LPPixel) (inW inH outX outY m n : Nat) : LPPixel :=
  inp.getD (expandIndex outY n inH * inW + expandIndex outX m inW).toNat default

/-- The term that tap `(m, n)` adds to the channel sum `ch` in `expand`. -/
def expandTerm (ch : LPPixel → Int) (inp : List LPPixel) (inW inH outX outY m n : Nat) : ℚ :=
  if expandSkip outX m || expandSkip outY n then 0
  else W m * W n * (ch (expandTap inp inW inH outX outY m n) : ℚ)

/-- The channel sum `ch` of `expand` for output pixel `(outX, outY)`. -/
def expandSum (ch : LPPixel → Int) (inp : List LPPixel) (inW inH outX outY : Nat) : ℚ :=
  ∑ m ∈ Finset.range 5, ∑ n ∈ Finset.range 5, expandTerm ch inp inW inH outX outY m n

/-- Specification of Expand, following the words of the design: the grid that holds
source pixel `(i, j)` at position `(2i, 2j)` and zero elsewhere. -/
def zeroStuffedGrid (ch : LPPixel → Int) (inp : List LPPixel) (inW inH : Nat) (x y : Int) : ℚ :=
  if x % 2 = 0 ∧ y % 2 = 0 ∧ 0 ≤ x / 2 ∧ x / 2 < inW ∧ 0 ≤ y / 2 ∧ y / 2 < inH then
    (ch (inp.getD ((y / 2) * inW + x / 2).toNat default) : ℚ)
  else 0

/-- Specification of Expand, following the words of the design: the separable 5-tap
convolution of the zero-stuffed grid with `W`, evaluated at `(outX, outY)`. -/
def zeroStuffedConv (ch : LPPixel → Int) (inp : List LPPixel) (inW inH outX outY : Nat) : ℚ :=
  ∑ m ∈ Finset.range 5, ∑ n ∈ Finset.range 5,
    W m * W n * zeroStuffedGrid ch inp inW inH
      ((outX : Int) - ((m : Int) - 2)) ((outY : Int) - ((n : Int) - 2))

/-! ## Well-formed inputs -/

/-- The region of interest is a non-empty rectangle inside the output canvas, whose
dimensions are `uint32` values. -/
def Globals.WF (G : Globals) : Prop :=
  G.ROIFirstX ≤ G.ROILastX ∧ G.ROILastX < G.OutputWidth ∧
  G.ROIFirstY ≤ G.ROILastY ∧ G.ROILastY < G.OutputHeight ∧
  G.OutputWidth < 4294967296 ∧ G.OutputHeight < 4294967296

instance (G : Globals) : Decidable G.WF := by
  unfold Globals.WF; infer_instance

/-- A pyramid pixel whose colour channels are 8-bit values. -/
def LPPixel.Is8 (p : LPPixel) : Prop :=
  (0 ≤ p.r ∧ p.r ≤ 255) ∧ (0 ≤ p.g ∧ p.g ≤ 255) ∧ (0 ≤ p.b ∧ p.b ≤ 255)

instance (p : LPPixel) : Decidable p.Is8 := by
  unfold LPPixel.Is8; infer_instance

/-! ## Quantities used to state the properties of `collapsePyramid` -/

/-- The value that the copy loop of `collapsePyramid` stores at index `idx` of the
destination, for a position `(idx % OutputWidth, idx / OutputWidth)` of the region of
interest: 0 where the mask is not opaque, otherwise the packed clamped pixel of `p0`
at the offset of that position inside the region of interest. -/
def copyValue (G : Globals) (mask : List MaskPixel) (p0 : List LPPixel) (idx : Nat) : Nat :=
  if (mask.getD idx default).a ≠ 255 then 0
  else packPixel (clampPixel (p0.getD
    ((idx / G.OutputWidth - G.ROIFirstY) * (G.ROILastX + 1 - G.ROIFirstX) +
      (idx % G.OutputWidth - G.ROIFirstX)) default))

/-- The positions of the region of interest visited by the copy loop of
`collapsePyramid` before it reaches column offset `i` of row offset `j`. -/
def copyDone (G : Globals) (j i idx : Nat) : Prop :=
  (G.ROIFirstY ≤ idx / G.OutputWidth ∧ idx / G.OutputWidth < G.ROIFirstY + j ∧
    G.ROIFirstX ≤ idx % G.OutputWidth ∧
    idx % G.OutputWidth < G.ROIFirstX + (G.ROILastX + 1 - G.ROIFirstX)) ∨
  (idx / G.OutputWidth = G.ROIFirstY + j ∧ G.ROIFirstX ≤ idx % G.OutputWidth ∧
    idx % G.OutputWidth < G.ROIFirstX + i)

instance (G : Globals) (j i idx : Nat) : Decidable (copyDone G j i idx) := by
  unfold copyDone; infer_instance

/-- Invariant of the copy loop of `collapsePyramid`, after the rows before row offset
`j` and the columns before column offset `i` of that row. -/
def CopyInv (G : Globals) (mask : List MaskPixel) (p0 : List LPPixel) (dest : List Nat)
    (j i : Nat) (st : CopyState) : Prop :=
  st.pixel = j * (G.ROILastX + 1 - G.ROIFirstX) + i ∧
  st.p0.length = p0.length ∧ st.dest.length = dest.length ∧
  (∀ t, st.p0.getD t default =
    if t < j * (G.ROILastX + 1 - G.ROIFirstX) + i ∧ t < p0.length then
      clampPixel (p0.getD t default) else p0.getD t default) ∧
  (∀ idx, st.dest.getD idx 0 =
    if copyDone G j i idx ∧ idx < dest.length then copyValue G mask p0 idx
    else dest.getD idx 0)

/-- The three buffers reachable from the arguments of `collapsePyramid`, as the call
leaves them: the pyramid, the destination and the mask.  The function contains no
assignment through `mask`; it only reads `maskPixel->a`. -/
def collapsePyramidMemory (G : Globals) (p : List (List LPPixel)) (dest : List Nat)
    (mask : List MaskPixel) : List (List LPPixel) × List Nat × List MaskPixel :=
  ((collapsePyramid G p dest mask).1, (collapsePyramid G p dest mask).2, mask)

/-! ## `filterHalfWidth` (`pyramid.cc`, lines 55-98) -/

/-- The local state of `filterHalfWidth` that changes in its loop: the `int16` array
`f`, given as a function from indices (`calloc` fills it with zeros, and only the
indices up to `1 << level` are used), and the value returned from inside the loop
once the loop has returned. -/
structure HalfWidthState where
  f : Nat → Int
  returned : Option Nat

/-- Body of the loop `for (uint32 l = 1; l <= level; l++)` of `filterHalfWidth`. -/
def filterHalfWidthStep (maxPixelValue : Nat) (st : HalfWidthState) (l : Nat) :
    HalfWidthState :=
  match st.returned with
  | some _ => st
  | none =>
    let pZero : ℚ := st.f 0
    let pOne : ℚ := st.f (1 <<< (l - 1))
    let nZero : ℚ := (pZero * W 2) + (pOne * W 3)
      + ((maxPixelValue : ℚ) * W 0) + ((maxPixelValue : ℚ) * W 1)
    let fa := Function.update st.f 0 (toInt16 (rint nZero))
    let nOne : ℚ := (pZero * W 0) + (pOne * W 1)
    let fb := Function.update fa (1 <<< l) (toInt16 (rint nOne))
    if fb (1 <<< l) = 0 then ⟨fb, some (1 <<< (l - 1))⟩ else ⟨fb, none⟩

/-- The state of `filterHalfWidth` when its loop is entered: `f[0] = maxPixelValue`
(a conversion from `uint32` to `int16`), all other samples zero. -/
def filterHalfWidthInit (maxPixelValue : Nat) : HalfWidthState :=
  ⟨Function.update (fun _ => 0) 0 (toInt16 maxPixelValue), none⟩

/-- The function `filterHalfWidth(uint32 level, uint32 maxPixelValue)`.  The shifts
`1 << level` are those of the source for `level <= 30`. -/
def filterHalfWidth (level maxPixelValue : Nat) : Nat :=
  let length := (1 + (1 <<< level)) % 4294967296
  match ((List.range' 1 level).foldl (filterHalfWidthStep maxPixelValue)
      (filterHalfWidthInit maxPixelValue)).returned with
  | some r => r
  | none => (length + 4294967296 - 1) % 4294967296

/-- Specification of the samples of the half-width computation, following the words
of the claim: `f0_0 = M`, `f1_0 = 0`,
`f0_l = rint(0.4*f0_(l-1) + 0.25*f1_(l-1) + 0.3*M)` and
`f1_l = rint(0.05*f0_(l-1) + 0.25*f1_(l-1))`.  The pair is `(f0_l, f1_l)`. -/
def halfWidthSamples (M : Nat) : Nat → Int × Int
  | 0 => ((M : Int), 0)
  | l + 1 =>
    (rint ((4 / 10 : ℚ) * ((halfWidthSamples M l).1 : ℚ)
        + (25 / 100 : ℚ) * ((halfWidthSamples M l).2 : ℚ) + (3 / 10 : ℚ) * (M : ℚ)),
     rint ((5 / 100 : ℚ) * ((halfWidthSamples M l).1 : ℚ)
        + (25 / 100 : ℚ) * ((halfWidthSamples M l).2 : ℚ)))

/-- The outcome of a call of `filterHalfWidth`: a fatal error or the value returned.
The body of the function contains no `exit`, `abort` or `throw`, and no test of
`maxPixelValue`: every path through it ends in a `return`. -/
def filterHalfWidthOutcome (level maxPixelValue : Nat) : Except String Nat :=
  Except.ok (filterHalfWidth level maxPixelValue)

/-! ## `blend.h` -/

/-- Modelled from the spec: `NumericTraits<ImagePixelType>::fromRealPromote` is declared
in `vigra/numerictraits.hxx`, which is not part of the sources.  The design says that
the real result is "rounded back to the pyramid pixel type": a conversion from the
real promotion is a rounding when its result is within 1/2 of its argument. -/
def IsRounding (fromRealPromote : ℚ → Int) : Prop :=
  ∀ x : ℚ, |((fromRealPromote x : Int) : ℚ) - x| ≤ 1 / 2

/-- `double whiteCoeff = NumericTraits<MaskPixelType>::toRealPromote(maskP) / scale;`
for an integer mask pixel, whose real promotion is its conversion to `double`. -/
def whiteCoeff (scale : ℚ) (maskP : Int) : ℚ := (maskP : ℚ) / scale

/-- `double blackCoeff = 1.0 - whiteCoeff;` -/
def blackCoeff (scale : ℚ) (maskP : Int) : ℚ := 1 - whiteCoeff scale maskP

/-- `BlendFunctor::operator()` for an integer image pixel type (one channel).  The
conversion `fromRealPromote` of the absent `NumericTraits` is a parameter. -/
def BlendFunctor (fromRealPromote : ℚ → Int) (scale : ℚ) (maskP : Int) (wP bP : Int) : Int :=
  let rwP : ℚ := (wP : ℚ)
  let rbP : ℚ := (bP : ℚ)
  let blendP : ℚ := (whiteCoeff scale maskP * rwP) + (blackCoeff scale maskP * rbP)
  fromRealPromote blendP

/-- `BlendFunctor::operator()` for the pyramid pixel type `LPPixel`.  Modelled from the
spec: the real promotion of a pixel with several channels and the arithmetic on it
(`vigra/numerictraits.hxx`, absent) act channel by channel. -/
def BlendFunctorLP (fromRealPromote : ℚ → Int) (scale : ℚ) (maskP : Int) (wP bP : LPPixel) :
    LPPixel :=
  { r := BlendFunctor fromRealPromote scale maskP wP.r bP.r
    g := BlendFunctor fromRealPromote scale maskP wP.g bP.g
    b := BlendFunctor fromRealPromote scale maskP wP.b bP.b
    a := BlendFunctor fromRealPromote scale maskP wP.a bP.a }

/-- Modelled from the spec: `vigra::combineThreeImages` is declared in
`vigra/combineimages.hxx`, which is not part of the sources.  As `blend` calls it, the
third source and the destination are the same image: for every pixel of the range of
the first source, the destination pixel at the same position receives the functor
applied to the three source pixels at that position.  Images of one level are lists
of pixels in row-major order. -/
def combineThreeImages {M P : Type} [Inhabited M] [Inhabited P] (f : M → P → P → P)
    (src1 : List M) (src2 : List P) (dest : List P) : List P :=
  (List.range src1.length).foldl
    (fun d i => d.set i (f (src1.getD i default) (src2.getD i default) (d.getD i default)))
    dest

/-- The three pyramids that `blend` receives by pointer. -/
structure BlendMemory where
  maskGP : List (List Int)
  whiteLP : List (List LPPixel)
  blackLP : List (List LPPixel)

/-- Body of the loop `for (unsigned int layer = 0; layer < maskGP->size(); layer++)`
of `blend`. -/
def blendLayer (fromRealPromote : ℚ → Int) (maxMaskPixelD : ℚ) (mem : BlendMemory)
    (layer : Nat) : BlendMemory :=
  { mem with
    blackLP := mem.blackLP.set layer
      (combineThreeImages (BlendFunctorLP fromRealPromote maxMaskPixelD)
        (mem.maskGP.getD layer []) (mem.whiteLP.getD layer []) (mem.blackLP.getD layer [])) }

/-- The function `blend`.  `maxMaskPixel` is the value
`f(NumericTraits<OrigMaskPixelType>::max())`, computed with components that are not
part of the sources.  The result is the three pyramids as the call leaves them. -/
def blend (fromRealPromote : ℚ → Int) (maxMaskPixel : Int) (maskGP : List (List Int))
    (whiteLP blackLP : List (List LPPixel)) : BlendMemory :=
  let maxMaskPixelD : ℚ := (maxMaskPixel : ℚ)
  (List.range maskGP.length).foldl (blendLayer fromRealPromote maxMaskPixelD)
    ⟨maskGP, whiteLP, blackLP⟩

/-- Two pyramids have the same level count and the same size at every level. -/
def SameShape {α β : Type} (p : List (List α)) (q : List (List β)) : Prop :=
  p.length = q.length ∧ ∀ l, (p.getD l []).length = (q.getD l []).length

/-! ## `assemble` (`assemble.h`) -/

/-- Modelled from the spec: `vigra::ImageImportInfo` (`vigra/impex.hxx`, absent) together
with the content of the file it names: the position of the image on the canvas, its
size, and its colour pixels and alpha values in row-major order. -/
structure ImageImportInfo where
  fileName : String
  posX : Int
  posY : Int
  width : Nat
  height : Nat
  pixels : List Nat
  alpha : List Nat
deriving DecidableEq, Repr

/-- Modelled from the spec: `EnblendROI` is declared in `common.h`, which is not part
of the sources; `getUL()` is its upper left corner and `size()` its size. -/
structure EnblendROI where
  ulX : Int
  ulY : Int
  sizeX : Nat
  sizeY : Nat
deriving DecidableEq, Repr

/-- Modelled from the spec: the functor `vigra::Threshold` (`vigra/transformimage.hxx`,
absent): `yesresult` for a value within `[lower, higher]`, `noresult` otherwise. -/
def Threshold (lower higher noresult yesresult : Nat) (v : Nat) : Nat :=
  if v < lower ∨ higher < v then noresult else yesresult

/-- Modelled from the spec: `vigra::transformImage` (`vigra/transformimage.hxx`, absent)
with the same image as source and destination: the functor is applied to every
pixel. -/
def transformImage (f : Nat → Nat) (img : List Nat) : List Nat := img.map f

/-- The canvas position `(cx, cy)` lies in the rectangle of size `w x h` whose upper
left corner is at `(offX, offY)`. -/
def covered (offX offY : Int) (w h : Nat) (cx cy : Nat) : Bool :=
  decide (offX ≤ (cx : Int) ∧ (cx : Int) < offX + (w : Int) ∧
    offY ≤ (cy : Int) ∧ (cy : Int) < offY + (h : Int))

/-- The row-major index, in an image of width `w` placed at `(offX, offY)`, of the
pixel that lies at the canvas position `(cx, cy)`. -/
def srcIndex (offX offY : Int) (w : Nat) (cx cy : Nat) : Nat :=
  ((cy : Int) - offY).toNat * w + ((cx : Int) - offX).toNat

/-- A raster of width `cw` whose pixel at `(cx, cy)` is recomputed from its position
and its previous value. -/
def canvasMap (cw : Nat) (f : Nat → Nat → Nat → Nat) (img : List Nat) : List Nat :=
  (List.range img.length).map (fun idx => f (idx % cw) (idx / cw) (img.getD idx 0))

/-- Modelled from the spec: `vigra::importImageAlpha` (`vigra/impexalpha.hxx`, absent)
for one of its two destinations: every pixel of the file is written to the
destination, whose upper left iterator is at `(offX, offY)` of a raster of width `cw`. -/
def importImage (cw : Nat) (offX offY : Int) (w h : Nat) (src : List Nat) (dest : List Nat) :
    List Nat :=
  canvasMap cw
    (fun cx cy old => if covered offX offY w h cx cy then
      src.getD (srcIndex offX offY w cx cy) 0 else old) dest

/-- Modelled from the spec: `vigra::copyImageIf` (`vigra/copyimage.hxx`, absent): a
source pixel is copied to the destination, whose upper left iterator is at
`(offX, offY)` of a raster of width `cw`, wherever the mask pixel is not zero. -/
def copyImageIf (cw : Nat) (offX offY : Int) (w h : Nat) (src mask : List Nat)
    (dest : List Nat) : List Nat :=
  canvasMap cw
    (fun cx cy old => if covered offX offY w h cx cy
        && mask.getD (srcIndex offX offY w cx cy) 0 != 0 then
      src.getD (srcIndex offX offY w cx cy) 0 else old) dest

/-- The value `*dx` read in the overlap check of `assemble`: the pixel of `imageA`
(width `cw`) at the canvas position `(cx, cy)`. -/
def canvasGet (cw : Nat) (img : List Nat) (cx cy : Int) : Nat :=
  if 0 ≤ cx ∧ cx < (cw : Int) ∧ 0 ≤ cy then img.getD (cy.toNat * cw + cx.toNat) 0 else 0

/-- The overlap check of `assemble`: the two nested loops over `srcA`, left by `break`
at the first position where both `*sx` and `*dx` are the maximal alpha. -/
def overlapCheck (maxAlpha cw : Nat) (imageA : List Nat) (offX offY : Int) (w h : Nat)
    (srcA : List Nat) : Bool :=
  (List.range h).any (fun y => (List.range w).any (fun x =>
    srcA.getD (y * w + x) 0 == maxAlpha
      && canvasGet cw imageA (offX + (x : Int)) (offY + (y : Int)) == maxAlpha))

/-- The variables of `assemble` that change in the loop over the later images: the
rasters `image` and `imageA` and the list `toBeRemoved` (as positions in the list). -/
structure AssembleState where
  image : List Nat
  imageA : List Nat
  toBeRemoved : List Nat

/-- Body of the loop `for (i = imageInfoList.begin(); ...)` of `assemble`, for the
image `info` at position `i` of the list.  `maxAlpha` is `GetMaxAlpha<AlphaPixelType>()`,
declared in `common.h`, which is not part of the sources. -/
def assembleStep (maxAlpha : Nat) (inputUnion : EnblendROI) (st : AssembleState)
    (i : Nat × ImageImportInfo) : AssembleState :=
  let info := i.2
  let src := info.pixels
  let srcA := transformImage (Threshold maxAlpha maxAlpha 0 maxAlpha) info.alpha
  let overlapFound := overlapCheck maxAlpha inputUnion.sizeX st.imageA
    (info.posX - inputUnion.ulX) (info.posY - inputUnion.ulY) info.width info.height srcA
  if !overlapFound then
    { image := copyImageIf inputUnion.sizeX (info.posX - inputUnion.ulX)
        (info.posY - inputUnion.ulY) info.width info.height src srcA st.image
      imageA := copyImageIf inputUnion.sizeX (info.posX - inputUnion.ulX)
        (info.posY - inputUnion.ulY) info.width info.height srcA srcA st.imageA
      toBeRemoved := st.toBeRemoved ++ [i.1] }
  else st

/-- What a call of `assemble` leaves behind when the list is not empty: the list of
images, and the rasters `image` and `imageA` that are written to the temporary file
named by the returned `ImageImportInfo`. -/
structure AssembleResult where
  imageInfoList : List ImageImportInfo
  image : List Nat
  imageA : List Nat
deriving DecidableEq, Repr

/-- The function `assemble`.  `none` is the result `NULL`.  The rasters `image` and
`imageA` have the size of `inputUnion` and are zero when constructed.  The bounding
box `bb` and the file output are not represented. -/
def assemble (OneAtATime : Bool) (maxAlpha : Nat) (imageInfoList : List ImageImportInfo)
    (inputUnion : EnblendROI) : Option AssembleResult :=
  match imageInfoList with
  | [] => none
  | first :: rest =>
    let image := List.replicate (inputUnion.sizeX * inputUnion.sizeY) 0
    let imageA := List.replicate (inputUnion.sizeX * inputUnion.sizeY) 0
    let image := importImage inputUnion.sizeX (first.posX - inputUnion.ulX)
      (first.posY - inputUnion.ulY) first.width first.height first.pixels image
    let imageA := importImage inputUnion.sizeX (first.posX - inputUnion.ulX)
      (first.posY - inputUnion.ulY) first.width first.height first.alpha imageA
    let imageA := transformImage (Threshold maxAlpha maxAlpha 0 maxAlpha) imageA
    let st : AssembleState :=
      if !OneAtATime then rest.enum.foldl (assembleStep maxAlpha inputUnion) ⟨image, imageA, []⟩
      else ⟨image, imageA, []⟩
    some
      { imageInfoList := (rest.enum.filter (fun i => !st.toBeRemoved.contains i.1)).map Prod.snd
        image := st.image
        imageA := st.imageA }

/-- The image `info` has an opaque pixel (alpha equal to the maximum) at the canvas
position `(cx, cy)`. -/
def opaqueAt (maxAlpha : Nat) (inputUnion : EnblendROI) (info : ImageImportInfo)
    (cx cy : Nat) : Prop :=
  covered (info.posX - inputUnion.ulX) (info.posY - inputUnion.ulY) info.width info.height
      cx cy = true ∧
    info.alpha.getD (srcIndex (info.posX - inputUnion.ulX) (info.posY - inputUnion.ulY)
      info.width cx cy) 0 = maxAlpha

instance (maxAlpha : Nat) (inputUnion : EnblendROI) (info : ImageImportInfo) (cx cy : Nat) :
    Decidable (opaqueAt maxAlpha inputUnion info cx cy) := by
  unfold opaqueAt; infer_instance

/-- Two images have no opaque pixel at a common position of the canvas. -/
def OpaqueDisjoint (maxAlpha : Nat) (inputUnion : EnblendROI) (A B : ImageImportInfo) : Prop :=
  ∀ cy, cy < inputUnion.sizeY → ∀ cx, cx < inputUnion.sizeX →
    ¬ (opaqueAt maxAlpha inputUnion A cx cy ∧ opaqueAt maxAlpha inputUnion B cx cy)

instance (maxAlpha : Nat) (inputUnion : EnblendROI) (A B : ImageImportInfo) :
    Decidable (OpaqueDisjoint maxAlpha inputUnion A B) := by
  unfold OpaqueDisjoint; infer_instance

/-- The list of images after a call of `assemble`: the list is left as it is when the
result is `NULL`. -/
def assembleList (OneAtATime : Bool) (maxAlpha : Nat) (imageInfoList : List ImageImportInfo)
    (inputUnion : EnblendROI) : List ImageImportInfo :=
  match assemble OneAtATime maxAlpha imageInfoList inputUnion with
  | none => imageInfoList
  | some r => r.imageInfoList

/-- The set of canvas positions at which the image `info` is opaque, as a Boolean
function of the position. -/
def opaqueSet (maxAlpha : Nat) (inputUnion : EnblendROI) (info : ImageImportInfo)
    (cx cy : Nat) : Bool :=
  decide (opaqueAt maxAlpha inputUnion info cx cy)

/-- The image `info` has an opaque pixel at a canvas position of the set `acc`. -/
def hitsComposite (maxAlpha : Nat) (inputUnion : EnblendROI) (acc : Nat → Nat → Bool)
    (info : ImageImportInfo) : Bool :=
  (List.range inputUnion.sizeY).any (fun cy => (List.range inputUnion.sizeX).any (fun cx =>
    acc cx cy && opaqueSet maxAlpha inputUnion info cx cy))

/-- The greedy selection as the specification words it: the images are examined in list
order against the set `acc` of positions that are opaque in the composite so far.  An
image that has an opaque pixel on `acc` stays in the list; any other image is accepted,
its opaque positions join `acc`, and it leaves the list. -/
def greedyLeft (maxAlpha : Nat) (inputUnion : EnblendROI) :
    (Nat → Nat → Bool) → List ImageImportInfo → List ImageImportInfo
  | _, [] => []
  | acc, info :: rest =>
    if hitsComposite maxAlpha inputUnion acc info then
      info :: greedyLeft maxAlpha inputUnion acc rest
    else
      greedyLeft maxAlpha inputUnion
        (fun cx cy => acc cx cy || opaqueSet maxAlpha inputUnion info cx cy) rest

/-- The positions, counted from `k`, of the images that the greedy selection accepts. -/
def greedyTaken (maxAlpha : Nat) (inputUnion : EnblendROI) :
    (Nat → Nat → Bool) → Nat → List ImageImportInfo → List Nat
  | _, _, [] => []
  | acc, k, info :: rest =>
    if hitsComposite maxAlpha inputUnion acc info then
      greedyTaken maxAlpha inputUnion acc (k + 1) rest
    else
      k :: greedyTaken maxAlpha inputUnion
        (fun cx cy => acc cx cy || opaqueSet maxAlpha inputUnion info cx cy) (k + 1) rest

/-- The alpha raster `imageA` holds the maximal alpha exactly at the positions of the
set `acc`, and 0 elsewhere. -/
def AlphaIs (maxAlpha : Nat) (inputUnion : EnblendROI) (acc : Nat → Nat → Bool)
    (imageA : List Nat) : Prop :=
  imageA.length = inputUnion.sizeX * inputUnion.sizeY ∧
    ∀ idx, idx < inputUnion.sizeX * inputUnion.sizeY →
      imageA.getD idx 0
        = if acc (idx % inputUnion.sizeX) (idx / inputUnion.sizeX) then maxAlpha else 0

/-- A pyramid pixel whose colour channels lie in `[-255, 255]`. -/
def LPPixel.IsDiff8 (p : LPPixel) : Prop :=
  (-255 ≤ p.r ∧ p.r ≤ 255) ∧ (-255 ≤ p.g ∧ p.g ≤ 255) ∧ (-255 ≤ p.b ∧ p.b ≤ 255)

instance (p : LPPixel) : Decidable p.IsDiff8 := by
  unfold LPPixel.IsDiff8; infer_instance

/-- The writes of one row of the raster loop `sweepRow`, in the order in which they
happen: the loop variables `(y, x)` and the offset of the pointer that is written. -/
def sweepRowTrace (y : Nat) (xs : List Nat) (st : List (Nat × Nat × Nat) × Nat) :
    List (Nat × Nat × Nat) × Nat :=
  xs.foldl (fun st x => (st.1 ++ [(y, x, st.2)], st.2 + 1)) st

/-- The writes of the raster loop `sweep`, in the order in which they happen. -/
def sweepTrace (ys xs : List Nat) : List (Nat × Nat × Nat) :=
  (ys.foldl (fun st y => sweepRowTrace y xs st) ([], 0)).1

/-- The writes of `expand` to `out`, in the order in which they happen: `(outY, outX)`
and the offset of the pixel that `out` points to. -/
def expandWrites (outW outH : Nat) : List (Nat × Nat × Nat) :=
  sweepTrace (List.range outH) (List.range outW)

/-! ## `vigra_impex`: errors (`error.hxx`) -/

/-- Modelled from the spec: `vigra_precondition` and `vigra_fail` are declared in
`vigra/error.hxx`, which is not part of the sources.  `vigra_precondition(false, msg)`
raises a precondition violation that carries the message, `vigra_fail(msg)` raises a
run-time error that carries the message. -/
inductive ImpexError where
  | precondition (message : String)
  | fail (message : String)
deriving DecidableEq, Repr

/-- The error is a precondition violation. -/
def ImpexError.isPrecondition : ImpexError → Bool
  | .precondition _ => true
  | .fail _ => false

/-- The macro `VIGRA_IMPEX2_FINALIZED(p)`: the error that it raises, if any. -/
def VIGRA_IMPEX2_FINALIZED (p : Bool) : Option ImpexError :=
  if p then some (.precondition "encoder settings were already finalized") else none

/-! ## `JPEGEncoder` (`jpeg.cxx`) -/

/-- The attributes of `struct JPEGEncoderImpl` that the encoder reads and writes.  Of
`bands` only the size is kept.  The file and the `libjpeg` structure `info` are not
represented. -/
structure JPEGEncoderImpl where
  bands : Nat
  width : Nat
  height : Nat
  components : Nat
  scanline : Nat
  quality : Int
  finalized : Bool
deriving DecidableEq, Repr

/-- The calls of `libjpeg` that are guarded by `setjmp` in the encoder. -/
inductive JpegStage where
  | set_defaults
  | set_quality
  | start_compress
  | write_scanlines
  | finish_compress
deriving DecidableEq, Repr

/-- The constructor `JPEGEncoderImpl::JPEGEncoderImpl`, reached from `JPEGEncoder::init`.
It sets `scanline(0), quality(-1), finalized(false)`; `bands` is empty.  It does not set
`width`, `height` and `components`: their indeterminate values are the arguments.  A
failure to open the file or of `jpeg_stdio_dest`, after which there is no encoder, is
not represented. -/
def JPEGEncoderImpl.init (width height components : Nat) : JPEGEncoderImpl :=
  { bands := 0, width := width, height := height, components := components,
    scanline := 0, quality := -1, finalized := false }

/-- The method `JPEGEncoderImpl::finalize`: the state it leaves and the error it raises,
if any.  `libjpegFails` tells for each guarded call of `libjpeg` whether the library
reports an error there (`setjmp` returns non-zero).  The product `width * components` is
one of `unsigned int`.  A failure of the allocation in `bands.resize` is not
represented. -/
def JPEGEncoderImpl.finalize (libjpegFails : JpegStage → Bool) (s : JPEGEncoderImpl) :
    JPEGEncoderImpl × Option ImpexError :=
  match VIGRA_IMPEX2_FINALIZED s.finalized with
  | some e => (s, some e)
  | none =>
    let s1 := { s with bands := (s.width * s.components) % 4294967296, finalized := true }
    if libjpegFails .set_defaults then (s1, some (.fail "error in jpeg_set_defaults()"))
    else if s1.quality ≠ -1 ∧ libjpegFails .set_quality then
      (s1, some (.fail "error in jpeg_set_quality()"))
    else if libjpegFails .start_compress then
      (s1, some (.fail "error in jpeg_start_compress()"))
    else (s1, none)

/-- `JPEGEncoder::setWidth`. -/
def JPEGEncoder.setWidth (width : Nat) (s : JPEGEncoderImpl) :
    JPEGEncoderImpl × Option ImpexError :=
  match VIGRA_IMPEX2_FINALIZED s.finalized with
  | some e => (s, some e)
  | none => ({ s with width := width }, none)

/-- `JPEGEncoder::setHeight`. -/
def JPEGEncoder.setHeight (height : Nat) (s : JPEGEncoderImpl) :
    JPEGEncoderImpl × Option ImpexError :=
  match VIGRA_IMPEX2_FINALIZED s.finalized with
  | some e => (s, some e)
  | none => ({ s with height := height }, none)

/-- `JPEGEncoder::setNumBands`. -/
def JPEGEncoder.setNumBands (bands : Nat) (s : JPEGEncoderImpl) :
    JPEGEncoderImpl × Option ImpexError :=
  match VIGRA_IMPEX2_FINALIZED s.finalized with
  | some e => (s, some e)
  | none => ({ s with components := bands }, none)

/-- `JPEGEncoder::setCompressionType`. -/
def JPEGEncoder.setCompressionType (comp : String) (quality : Int) (s : JPEGEncoderImpl) :
    JPEGEncoderImpl × Option ImpexError :=
  match VIGRA_IMPEX2_FINALIZED s.finalized with
  | some e => (s, some e)
  | none =>
    if comp = "LOSSLESS" then
      (s, some (.fail
        "lossless encoding is not supported by the jpeg implementation impex uses."))
    else ({ s with quality := quality }, none)

/-- `JPEGEncoder::setPixelType`. -/
def JPEGEncoder.setPixelType (pixelType : String) (s : JPEGEncoderImpl) :
    JPEGEncoderImpl × Option ImpexError :=
  match VIGRA_IMPEX2_FINALIZED s.finalized with
  | some e => (s, some e)
  | none =>
    if pixelType ≠ "UINT8" then (s, some (.precondition "only UINT8 pixels are supported."))
    else (s, none)

/-- `JPEGEncoder::finalizeSettings`. -/
def JPEGEncoder.finalizeSettings (libjpegFails : JpegStage → Bool) (s : JPEGEncoderImpl) :
    JPEGEncoderImpl × Option ImpexError :=
  JPEGEncoderImpl.finalize libjpegFails s

/-- `JPEGEncoder::nextScanline`: it writes a scanline through `libjpeg` and changes no
attribute of the encoder. -/
def JPEGEncoder.nextScanline (libjpegFails : JpegStage → Bool) (s : JPEGEncoderImpl) :
    JPEGEncoderImpl × Option ImpexError :=
  if libjpegFails .write_scanlines then (s, some (.fail "error in jpeg_write_scanlines()"))
  else (s, none)

/-- `JPEGEncoder::close`. -/
def JPEGEncoder.close (libjpegFails : JpegStage → Bool) (s : JPEGEncoderImpl) :
    JPEGEncoderImpl × Option ImpexError :=
  if libjpegFails .finish_compress then (s, some (.fail "error in jpeg_finish_compress()"))
  else (s, none)

/-- `JPEGEncoder::abort`, whose body is empty. -/
def JPEGEncoder.abort (s : JPEGEncoderImpl) : JPEGEncoderImpl × Option ImpexError :=
  (s, none)

/-- A call of a method of `JPEGEncoder` that is not `const`, with its arguments. -/
inductive JPEGCall where
  | setWidth (width : Nat)
  | setHeight (height : Nat)
  | setNumBands (bands : Nat)
  | setCompressionType (comp : String) (quality : Int)
  | setPixelType (pixelType : String)
  | finalizeSettings
  | nextScanline
  | close
  | abort
deriving DecidableEq, Repr

/-- The calls named in the settings freeze: the five setters and `finalizeSettings`. -/
def JPEGCall.isSetting : JPEGCall → Bool
  | .nextScanline => false
  | .close => false
  | .abort => false
  | _ => true

/-- One call on an encoder: the state it leaves and the error it raises, if any. -/
def JPEGEncoder.call (libjpegFails : JpegStage → Bool) (c : JPEGCall) (s : JPEGEncoderImpl) :
    JPEGEncoderImpl × Option ImpexError :=
  match c with
  | .setWidth w => JPEGEncoder.setWidth w s
  | .setHeight h => JPEGEncoder.setHeight h s
  | .setNumBands b => JPEGEncoder.setNumBands b s
  | .setCompressionType comp q => JPEGEncoder.setCompressionType comp q s
  | .setPixelType p => JPEGEncoder.setPixelType p s
  | .finalizeSettings => JPEGEncoder.finalizeSettings libjpegFails s
  | .nextScanline => JPEGEncoder.nextScanline libjpegFails s
  | .close => JPEGEncoder.close libjpegFails s
  | .abort => JPEGEncoder.abort s

/-- The state of an encoder after a sequence of calls, each made whether or not the
calls before it raised an error. -/
def JPEGEncoder.run (libjpegFails : JpegStage → Bool) (calls : List JPEGCall)
    (s : JPEGEncoderImpl) : JPEGEncoderImpl :=
  calls.foldl (fun st c => (JPEGEncoder.call libjpegFails c st).1) s

/-! ## `CodecManager` (`codecmanager.cxx`) -/

/-- Modelled from the spec: `struct CodecDesc` is declared in `codec.hxx`, which is not
part of the sources; these are the fields that `getCodecDesc` of `jpeg.cxx` fills. -/
structure CodecDesc where
  fileType : String
  pixelTypes : List String
  compressionTypes : List String
  magicStrings : List (List Nat)
  fileExtensions : List String
deriving DecidableEq, Repr

/-- `JPEGCodecFactory::getCodecDesc` (`jpeg.cxx`). -/
def JPEGCodecFactory.getCodecDesc : CodecDesc :=
  { fileType := "JPEG"
    pixelTypes := ["UINT8"]
    compressionTypes := ["JPEG"]
    magicStrings := [[0o377, 0o330, 0o377]]
    fileExtensions := ["jpg", "jpeg"] }

/-- The assignment `m[k] = v` of a `std::map` with string keys, the map being the list
of its entries. -/
def mapAssign {β : Type} (m : List (String × β)) (k : String) (v : β) : List (String × β) :=
  (k, v) :: m.filter (fun p => p.1 != k)

/-- The lookup `m.find(k)` of a `std::map` with string keys; `none` is `m.end()`. -/
def mapFind {β : Type} (m : List (String × β)) (k : String) : Option β :=
  m.lookup k

/-- The stores of `CodecManager`.  A codec factory is represented by its `CodecDesc`. -/
structure CodecManager where
  extensionMap : List (String × String)
  magicStrings : List (List Nat × String)
  factoryMap : List (String × CodecDesc)
deriving DecidableEq, Repr

/-- The method `CodecManager::import`, for a factory whose `getCodecDesc()` is `desc`. -/
def CodecManager.importCodec (m : CodecManager) (desc : CodecDesc) : CodecManager :=
  { extensionMap :=
      desc.fileExtensions.foldl (fun em ext => mapAssign em ext desc.fileType) m.extensionMap
    magicStrings := m.magicStrings ++ desc.magicStrings.map (fun ms => (ms, desc.fileType))
    factoryMap := mapAssign m.factoryMap desc.fileType desc }

/-- The value `std::string::npos`, for a `size_t` of 64 bits. -/
def npos : Nat := 18446744073709551615

/-- The index of the last occurrence of `c` in a list of characters. -/
def findLast (c : Char) : List Char → Option Nat
  | [] => none
  | x :: xs =>
    match findLast c xs with
    | some i => some (i + 1)
    | none => if x = c then some 0 else none

/-- `s.find_last_of(c)` for a one-character set: the index of the last occurrence of
`c` in `s`, or `npos`. -/
def find_last_of (s : String) (c : Char) : Nat :=
  (findLast c s.toList).getD npos

/-- `s.substr(pos)` for `pos <= s.size()`. -/
def substr (s : String) (pos : Nat) : String :=
  String.mk (s.toList.drop pos)

/-- `std::transform(ext.begin(), ext.end(), ext.begin(), tolower)`, with `tolower` of
the C locale. -/
def transformToLower (ext : String) : String :=
  String.mk (ext.toList.map Char.toLower)

/-- The string `ext` of `getEncoder` before its conversion to lower case:
`filename.substr(filename.find_last_of(".") + 1)`; the addition is one of `size_t`. -/
def fileExtension (filename : String) : String :=
  substr filename ((find_last_of filename '.' + 1) % 18446744073709551616)

/-- The string `ext` that `getEncoder` looks up in `extensionMap`. -/
def lookupExtension (filename : String) : String :=
  transformToLower (fileExtension filename)

/-- The first part of `CodecManager::getEncoder`, up to the factory `search->second`. -/
def CodecManager.getEncoderFactory (m : CodecManager) (filename fType : String) :
    Except ImpexError CodecDesc :=
  let fileType : Except ImpexError String :=
    if fType = "undefined" then
      match mapFind m.extensionMap (lookupExtension filename) with
      | none => Except.error
          (.precondition "did not find a matching codec for the given file extension")
      | some ft => Except.ok ft
    else Except.ok fType
  match fileType with
  | Except.error e => Except.error e
  | Except.ok ft =>
    match mapFind m.factoryMap ft with
    | none => Except.error
        (.precondition "did not find a matching codec for the given filetype")
    | some cf => Except.ok cf

/-- A call of a setter of the abstract class `Encoder` that `encoder` makes, with its
arguments.  A `float` is represented by a rational number and a `Diff2D` by its two
coordinates. -/
inductive EncoderCall where
  | setCompressionType (comp : String) (quality : Int)
  | setPixelType (pixelType : String)
  | setXResolution (xres : ℚ)
  | setYResolution (yres : ℚ)
  | setPosition (x y : Int)
deriving DecidableEq, Repr

/-- An encoder as the code of `codecmanager.cxx` and `imageinfo.cxx` sees it: the file
type of the factory that made it, the file name given to `init`, and the setters called
on it so far, in order. -/
structure Encoder where
  fileType : String
  fileName : String
  calls : List EncoderCall
deriving DecidableEq, Repr

/-- Modelled from the spec: the behaviour of the codecs behind the abstract class
`Encoder` (`codec.hxx` and the codec sources other than `jpeg.cxx` are not part of the
sources): the error, if any, that `enc->init(filename)` raises for an encoder of a file
type, and the error, if any, that a setter raises on an encoder. -/
structure Codecs where
  initError : String → String → Option ImpexError
  callError : Encoder → EncoderCall → Option ImpexError

/-- The method `CodecManager::getEncoder`. -/
def CodecManager.getEncoder (codecs : Codecs) (m : CodecManager) (filename fType : String) :
    Except ImpexError Encoder :=
  match m.getEncoderFactory filename fType with
  | Except.error e => Except.error e
  | Except.ok cf =>
    match codecs.initError cf.fileType filename with
    | some e => Except.error e
    | none => Except.ok ⟨cf.fileType, filename, []⟩

/-! ## `encoder` (`imageinfo.cxx`) -/

/-- A call `enc->setter(...)`: the error that the codec raises, or the encoder with the
call recorded. -/
def Encoder.call (codecs : Codecs) (enc : Encoder) (c : EncoderCall) :
    Except ImpexError Encoder :=
  match codecs.callError enc c with
  | some e => Except.error e
  | none => Except.ok { enc with calls := enc.calls ++ [c] }

/-- The canvas has at most `2^32` pixels: the `uint32` index `y * OutputWidth + x` of a
canvas position does not wrap around. -/
def Globals.Addressable (G : Globals) : Prop :=
  G.OutputWidth * G.OutputHeight ≤ 4294967296

instance (G : Globals) : Decidable G.Addressable := by
  unfold Globals.Addressable; infer_instance

/-- The position of the leading bit of `n`: the `k` with `2 ^ k ≤ n < 2 ^ (k + 1)`, and 0
for `n = 0`.  The first argument bounds the number of halvings. -/
def bitLength : Nat → Nat → Nat
  | 0, _ => 0
  | fuel + 1, n => if 2 ≤ n then bitLength fuel (n / 2) + 1 else 0

/-- The binary exponent of a rational `x` other than 0: the `e` with
`2 ^ e ≤ |x| < 2 ^ (e + 1)`. -/
def floorLog2 (x : ℚ) : Int :=
  let e0 : Int := (bitLength x.num.natAbs x.num.natAbs : Int) - (bitLength x.den x.den : Int)
  if (2 : ℚ) ^ e0 ≤ |x| then e0 else e0 - 1

/-- Rounding of a real number to IEEE 754 binary64 in the default rounding mode (to
nearest, a tie going to the even significand): the nearest multiple of `2 ^ (e - 52)`,
where `e` is the exponent of `x`, and not less than -1022 (subnormal numbers).  Overflow
to infinity is left out; the values rounded here stay below `2 ^ 19`. -/
def fl64 (x : ℚ) : ℚ :=
  let e := max (floorLog2 x) (-1022)
  (rint (x / 2 ^ (e - 52)) : ℚ) * 2 ^ (e - 52)


/-! ## `reduce` and `expand` in binary64 arithmetic

The same loops as above with every operation on a `double` rounded to binary64 by
`fl64`, in the order in which the source evaluates it.  The conversion of an `int16` or
of `noContrib` to `double` is exact. -/

/-- `static const double A = 0.4;`: the literal rounded to binary64. -/
def A64 : ℚ := fl64 (4 / 10)

/-- `static const double W[] = {0.25 - A / 2.0, 0.25, A, 0.25, 0.25 - A / 2.0};` in
binary64. -/
def W64 (m : Nat) : ℚ :=
  [fl64 (fl64 (25 / 100) - fl64 (A64 / fl64 2)), fl64 (25 / 100), A64, fl64 (25 / 100),
    fl64 (fl64 (25 / 100) - fl64 (A64 / fl64 2))].getD m 0

/-- The statement `r += W[m] * W[n] * inPixel->r;` in binary64: the product is taken
from left to right. -/
def accumulate64 (acc : ℚ) (m n : Nat) (c : Int) : ℚ :=
  fl64 (acc + fl64 (fl64 (W64 m * W64 n) * (c : ℚ)))

/-- Body of the inner loop of `reduce` (loop variable `n`) in binary64. -/
def Binary64.reduceInner (inp : List LPPixel) (w h outX outY : Nat) (m : Nat)
    (acc : ReduceAcc) (n : Nat) : ReduceAcc :=
  let inPixel := reduceTap inp w h outX outY m n
  if inPixel.a ≠ 255 then
    { acc with noContrib := (acc.noContrib + 4294967296 - W100 m * W100 n) % 4294967296 }
  else
    { acc with
      r := accumulate64 acc.r m n inPixel.r
      g := accumulate64 acc.g m n inPixel.g
      b := accumulate64 acc.b m n inPixel.b }

/-- Body of the outer loop of `reduce` (loop variable `m`) in binary64. -/
def Binary64.reduceOuter (inp : List LPPixel) (w h outX outY : Nat)
    (acc : ReduceAcc) (m : Nat) : ReduceAcc :=
  (List.range 5).foldl (Binary64.reduceInner inp w h outX outY m) acc

/-- The accumulators of `reduce` for the output pixel `(outX, outY)` after both loops, in
binary64. -/
def Binary64.reduceAcc (inp : List LPPixel) (w h outX outY : Nat) : ReduceAcc :=
  (List.range 5).foldl (Binary64.reduceOuter inp w h outX outY) ⟨0, 0, 0, 10000⟩

/-- The adjustment `(noContrib == 0) ? 0.0 : r / (noContrib / 10000.0)` in binary64. -/
def Binary64.reduceAdjust (noContrib : Nat) (r : ℚ) : ℚ :=
  if noContrib = 0 then 0 else fl64 (r / fl64 ((noContrib : ℚ) / fl64 10000))

/-- The output pixel of `reduce` at `(outX, outY)` in binary64. -/
def Binary64.reducePixel (inp : List LPPixel) (w h : Nat) (outY outX : Nat) : LPPixel :=
  let acc := Binary64.reduceAcc inp w h outX outY
  { r := toInt16 (rint (Binary64.reduceAdjust acc.noContrib acc.r))
    g := toInt16 (rint (Binary64.reduceAdjust acc.noContrib acc.g))
    b := toInt16 (rint (Binary64.reduceAdjust acc.noContrib acc.b))
    a := if acc.noContrib = 0 then 0 else 255 }

/-- The Burt and Adelson Reduce operation in binary64. -/
def Binary64.reduce (inp : List LPPixel) (w h : Nat) : List LPPixel :=
  let outW := w >>> 1
  let outH := h >>> 1
  sweep (List.range outH) (List.range outW)
    (fun outY outX _ => Binary64.reducePixel inp w h outY outX)
    (List.replicate (outW * outH) ⟨0, 0, 0, 0⟩)

/-- Body of the inner loop of `expand` (loop variable `n`) in binary64. -/
def Binary64.expandInner (inp : List LPPixel) (inW inH outY : Nat) (m : Nat) (inX : Int)
    (acc : RGBAcc) (n : Nat) : RGBAcc :=
  if expandSkip outY n then acc
  else
    let inY := expandIndex outY n inH
    let inPixel := inp.getD (inY * inW + inX).toNat default
    { r := accumulate64 acc.r m n inPixel.r
      g := accumulate64 acc.g m n inPixel.g
      b := accumulate64 acc.b m n inPixel.b }

/-- Body of the outer loop of `expand` (loop variable `m`) in binary64. -/
def Binary64.expandOuter (inp : List LPPixel) (inW inH outX outY : Nat)
    (acc : RGBAcc) (m : Nat) : RGBAcc :=
  if expandSkip outX m then acc
  else (List.range 5).foldl
    (Binary64.expandInner inp inW inH outY m (expandIndex outX m inW)) acc

/-- The accumulators of `expand` for the output pixel `(outX, outY)` after both loops, in
binary64. -/
def Binary64.expandAcc (inp : List LPPixel) (inW inH outX outY : Nat) : RGBAcc :=
  (List.range 5).foldl (Binary64.expandOuter inp inW inH outX outY) ⟨0, 0, 0⟩

/-- The value `(int16)rint(r * 4.0)` for each channel in binary64. -/
def Binary64.expandDelta (inp : List LPPixel) (inW inH outX outY : Nat) : Int × Int × Int :=
  let acc := Binary64.expandAcc inp inW inH outX outY
  (toInt16 (rint (fl64 (acc.r * fl64 4))), toInt16 (rint (fl64 (acc.g * fl64 4))),
    toInt16 (rint (fl64 (acc.b * fl64 4))))

/-- The update of one destination pixel in binary64. -/
def Binary64.expandPixel (inp : List LPPixel) (inW inH : Nat) (add : Bool)
    (outY outX : Nat) (o : LPPixel) : LPPixel :=
  let d := Binary64.expandDelta inp inW inH outX outY
  if add then
    { o with r := toInt16 (o.r + d.1), g := toInt16 (o.g + d.2.1), b := toInt16 (o.b + d.2.2) }
  else
    { o with r := toInt16 (o.r - d.1), g := toInt16 (o.g - d.2.1), b := toInt16 (o.b - d.2.2) }

/-- The Burt and Adelson Expand operation in binary64. -/
def Binary64.expand (inp : List LPPixel) (inW inH : Nat) (out : List LPPixel) (outW outH : Nat)
    (add : Bool) : List LPPixel :=
  sweep (List.range outH) (List.range outW) (Binary64.expandPixel inp inW inH add) out

/-- The distance between a binary64 accumulator and the exact sum after `k` terms, and
the size of the exact sum. -/
def AccNear (k : Nat) (a s : ℚ) : Prop :=
  |a - s| ≤ (k : ℚ) / 2 ^ 35 ∧ |s| ≤ (k : ℚ) * 8192

/-- The binary64 accumulators of `reduce` against the exact ones after `k` taps; no
statement is made beyond 25 taps. -/
def ReduceNear (k : Nat) (a s : ReduceAcc) : Prop :=
  k ≤ 25 → a.noContrib = s.noContrib ∧ AccNear k a.r s.r ∧ AccNear k a.g s.g ∧ AccNear k a.b s.b

/-- The binary64 accumulators of `expand` against the exact ones after `k` taps; no
statement is made beyond 25 taps. -/
def ExpandNear (k : Nat) (a s : RGBAcc) : Prop :=
  k ≤ 25 → AccNear k a.r s.r ∧ AccNear k a.g s.g ∧ AccNear k a.b s.b

/-! ## Loop lemmas -/

theorem getD_set {α : Type} (l : List α) (i j : Nat) (a d : α) :
    (l.set i a).getD j d = if i = j ∧ i < l.length then a else l.getD j d := by
  simp only [List.getD_eq_getElem?_getD, List.getElem?_set]
  by_cases h : i = j
  · subst h
    by_cases h2 : i < l.length
    · simp [h2]
    · simp [h2, List.getElem?_eq_none (Nat.le_of_not_lt h2)]
  · simp [h]

/-- Invariant rule for a loop `for (k = s; k < s + n; k++)`. -/
theorem foldl_range'_inv {σ : Type} (P : Nat → σ → Prop) (step : σ → Nat → σ) (s n : Nat)
    (st0 : σ) (h0 : P 0 st0)
    (hs : ∀ k st, k < n → P k st → P (k + 1) (step st (s + k))) :
    P n ((List.range' s n).foldl step st0) := by
  induction n with
  | zero => simpa using h0
  | succ n ih =>
    rw [List.range'_concat, List.foldl_append]
    simp only [List.foldl_cons, List.foldl_nil, Nat.one_mul]
    exact hs n _ (Nat.lt_succ_self n) (ih (fun k st hk hP => hs k st (Nat.lt_succ_of_lt hk) hP))


theorem div_mod_of_row (w j i : Nat) (h1 : j * w ≤ i) (h2 : i < j * w + w) :
    i / w = j ∧ i % w = i - j * w := by
  have hw : 0 < w := by
    rcases Nat.eq_zero_or_pos w with h | h
    · subst h; omega
    · exact h
  obtain ⟨t, rfl⟩ : ∃ t, i = t + j * w := ⟨i - j * w, by omega⟩
  have ht : t < w := by omega
  constructor
  · rw [Nat.add_mul_div_right _ _ hw, Nat.div_eq_of_lt ht]; simp
  · rw [Nat.add_mul_mod_self_right, Nat.mod_eq_of_lt ht]; omega

/-- Effect of one row of a raster loop. -/
theorem sweepRow_spec {α : Type} [Inhabited α] (x0 w : Nat) (f : Nat → α → α)
    (o : List α) (p : Nat) :
    (sweepRow (List.range' x0 w) f (o, p)).2 = p + w ∧
    (sweepRow (List.range' x0 w) f (o, p)).1.length = o.length ∧
    ∀ i, (sweepRow (List.range' x0 w) f (o, p)).1.getD i default =
      if p ≤ i ∧ i < p + w ∧ i < o.length then f (x0 + (i - p)) (o.getD i default)
      else o.getD i default := by
  unfold sweepRow
  refine foldl_range'_inv
    (fun k st => st.2 = p + k ∧ st.1.length = o.length ∧
      ∀ i, st.1.getD i default =
        if p ≤ i ∧ i < p + k ∧ i < o.length then f (x0 + (i - p)) (o.getD i default)
        else o.getD i default) _ x0 w (o, p) ?_ ?_
  · refine ⟨rfl, rfl, fun i => ?_⟩
    have : ¬ (p ≤ i ∧ i < p + 0 ∧ i < o.length) := by omega
    rw [if_neg this]
  · rintro k ⟨l, q⟩ _ ⟨hq, hl, hget⟩
    simp only at hq hl hget
    subst hq
    refine ⟨by simp; omega, by simpa using hl, fun i => ?_⟩
    simp only [getD_set, hl]
    by_cases hi : p + k = i ∧ p + k < o.length
    · obtain ⟨rfl, hlt⟩ := hi
      have h1 : p ≤ p + k ∧ p + k < p + (k + 1) ∧ p + k < o.length := ⟨by omega, by omega, hlt⟩
      have h2 : ¬ (p ≤ p + k ∧ p + k < p + k ∧ p + k < o.length) := by omega
      rw [if_pos ⟨rfl, hlt⟩, if_pos h1, hget, if_neg h2]
      simp
    · rw [if_neg hi, hget]
      by_cases h3 : p ≤ i ∧ i < p + k ∧ i < o.length
      · have h4 : p ≤ i ∧ i < p + (k + 1) ∧ i < o.length := by omega
        rw [if_pos h3, if_pos h4]
      · have h4 : ¬ (p ≤ i ∧ i < p + (k + 1) ∧ i < o.length) := by omega
        rw [if_neg h3, if_neg h4]

/-- Effect of a raster loop: the first `w * h` elements of the buffer are updated
in row-major order, each once, from its own previous value. -/
theorem sweep_spec {α : Type} [Inhabited α] (y0 h x0 w : Nat) (f : Nat → Nat → α → α)
    (o : List α) :
    (sweep (List.range' y0 h) (List.range' x0 w) f o).length = o.length ∧
    ∀ i, (sweep (List.range' y0 h) (List.range' x0 w) f o).getD i default =
      if i < h * w ∧ i < o.length then f (y0 + i / w) (x0 + i % w) (o.getD i default)
      else o.getD i default := by
  unfold sweep
  have key := foldl_range'_inv
    (fun k (st : List α × Nat) => st.2 = k * w ∧ st.1.length = o.length ∧
      ∀ i, st.1.getD i default =
        if i < k * w ∧ i < o.length then f (y0 + i / w) (x0 + i % w) (o.getD i default)
        else o.getD i default)
    (fun st y => sweepRow (List.range' x0 w) (f y) st) y0 h (o, 0) ?_ ?_
  · exact ⟨key.2.1, key.2.2⟩
  · refine ⟨by simp, rfl, fun i => ?_⟩
    have : ¬ (i < 0 * w ∧ i < o.length) := by omega
    rw [if_neg this]
  · rintro k ⟨l, q⟩ _ ⟨hq, hl, hget⟩
    simp only at hq hl hget
    subst hq
    obtain ⟨s1, s2, s3⟩ := sweepRow_spec x0 w (f (y0 + k)) l (k * w)
    refine ⟨by rw [s1]; ring, by rw [s2, hl], fun i => ?_⟩
    rw [s3, hl, hget]
    by_cases h1 : k * w ≤ i ∧ i < k * w + w ∧ i < o.length
    · obtain ⟨hd, hm⟩ := div_mod_of_row w k i h1.1 h1.2.1
      have h2 : ¬ (i < k * w ∧ i < o.length) := by omega
      have h3 : i < (k + 1) * w ∧ i < o.length := by
        refine ⟨?_, h1.2.2⟩
        have : (k + 1) * w = k * w + w := by ring
        omega
      rw [if_pos h1, if_neg h2, if_pos h3, hd, hm]
    · rw [if_neg h1]
      have e : (k + 1) * w = k * w + w := by ring
      by_cases h2 : i < k * w ∧ i < o.length
      · have h3 : i < (k + 1) * w ∧ i < o.length := by omega
        rw [if_pos h2, if_pos h3]
      · have h3 : ¬ (i < (k + 1) * w ∧ i < o.length) := by omega
        rw [if_neg h2, if_neg h3]

theorem ext_getD {α : Type} (d : α) (l1 l2 : List α) (hl : l1.length = l2.length)
    (h : ∀ i, i < l1.length → l1.getD i d = l2.getD i d) : l1 = l2 := by
  apply List.ext_getElem hl
  intro i h1 h2
  have := h i h1
  simpa [List.getD_eq_getElem?_getD, List.getElem?_eq_getElem h1, List.getElem?_eq_getElem h2]
    using this

theorem getD_default_of_le {α : Type} (d : α) (l : List α) (i : Nat) (h : l.length ≤ i) :
    l.getD i d = d := by
  simp [List.getD_eq_getElem?_getD, List.getElem?_eq_none h]

theorem expand_length (inp : List LPPixel) (inW inH : Nat) (out : List LPPixel)
    (outW outH : Nat) (add : Bool) :
    (expand inp inW inH out outW outH add).length = out.length := by
  unfold expand
  rw [List.range_eq_range', List.range_eq_range']
  exact (sweep_spec 0 outH 0 outW _ out).1

theorem expand_getD (inp : List LPPixel) (inW inH : Nat) (out : List LPPixel)
    (outW outH : Nat) (add : Bool) (i : Nat) :
    (expand inp inW inH out outW outH add).getD i default =
      if i < outH * outW ∧ i < out.length then
        expandPixel inp inW inH add (i / outW) (i % outW) (out.getD i default)
      else out.getD i default := by
  unfold expand
  rw [List.range_eq_range', List.range_eq_range']
  have := (sweep_spec 0 outH 0 outW (expandPixel inp inW inH add) out).2 i
  simpa using this

theorem reduce_length (inp : List LPPixel) (w h : Nat) :
    (reduce inp w h).length = (w >>> 1) * (h >>> 1) := by
  unfold reduce
  simp only
  rw [List.range_eq_range', List.range_eq_range']
  rw [(sweep_spec 0 (h >>> 1) 0 (w >>> 1) _ _).1]
  simp

theorem reduce_getD (inp : List LPPixel) (w h : Nat) (i : Nat)
    (hi : i < (w >>> 1) * (h >>> 1)) :
    (reduce inp w h).getD i default = reducePixel inp w h (i / (w >>> 1)) (i % (w >>> 1)) := by
  unfold reduce
  simp only
  rw [List.range_eq_range', List.range_eq_range']
  have := (sweep_spec 0 (h >>> 1) 0 (w >>> 1)
    (fun outY outX (_ : LPPixel) => reducePixel inp w h outY outX)
    (List.replicate ((w >>> 1) * (h >>> 1)) ⟨0, 0, 0, 0⟩)).2 i
  rw [this]
  have h2 : i < (h >>> 1) * (w >>> 1) ∧
      i < (List.replicate ((w >>> 1) * (h >>> 1)) (⟨0, 0, 0, 0⟩ : LPPixel)).length := by
    rw [List.length_replicate, Nat.mul_comm (h >>> 1)]
    exact ⟨hi, hi⟩
  rw [if_pos h2]
  simp

/-- The pixel of `reduce` at column `x` and row `y`. -/
theorem reduce_at (inp : List LPPixel) (w h x y : Nat) (hx : x < w >>> 1) (hy : y < h >>> 1) :
    (reduce inp w h).getD (y * (w >>> 1) + x) default = reducePixel inp w h y x := by
  have hi : y * (w >>> 1) + x < (w >>> 1) * (h >>> 1) := by
    calc y * (w >>> 1) + x < y * (w >>> 1) + (w >>> 1) := by omega
      _ = (y + 1) * (w >>> 1) := by ring
      _ ≤ (h >>> 1) * (w >>> 1) := Nat.mul_le_mul_right _ hy
      _ = (w >>> 1) * (h >>> 1) := Nat.mul_comm _ _
  rw [reduce_getD inp w h _ hi]
  obtain ⟨hd, hm⟩ := div_mod_of_row (w >>> 1) y (y * (w >>> 1) + x) (by omega) (by omega)
  rw [hd, hm]
  congr 1
  omega

/-- The pixel of `expand` at column `x` and row `y` of the destination. -/
theorem expand_at (inp : List LPPixel) (inW inH : Nat) (out : List LPPixel)
    (outW outH : Nat) (add : Bool) (x y : Nat) (hx : x < outW) (hy : y < outH)
    (hlen : outW * outH ≤ out.length) :
    (expand inp inW inH out outW outH add).getD (y * outW + x) default =
      expandPixel inp inW inH add y x (out.getD (y * outW + x) default) := by
  have hi : y * outW + x < outH * outW := by
    calc y * outW + x < y * outW + outW := by omega
      _ = (y + 1) * outW := by ring
      _ ≤ outH * outW := Nat.mul_le_mul_right _ hy
  rw [expand_getD]
  have h2 : y * outW + x < outH * outW ∧ y * outW + x < out.length := by
    refine ⟨hi, ?_⟩
    rw [Nat.mul_comm outH] at hi
    omega
  rw [if_pos h2]
  obtain ⟨hd, hm⟩ := div_mod_of_row outW y (y * outW + x) (by omega) (by omega)
  rw [hd, hm]
  congr 1
  omega

/-! ## Rounding and narrowing -/

theorem rint_intCast (n : Int) : rint (n : ℚ) = n := by
  simp [rint]

theorem rint_near (x : ℚ) : |(rint x : ℚ) - x| ≤ 1 / 2 := by
  unfold rint
  simp only
  have h1 := Int.floor_le x
  have h2 := Int.lt_floor_add_one x
  split_ifs with ha hb hc
  · rw [abs_le]; constructor <;> linarith
  · rw [abs_le]; push_cast; constructor <;> linarith
  · rw [abs_le]; constructor <;> linarith
  · rw [abs_le]; push_cast; constructor <;> linarith

theorem rint_bounds (x : ℚ) (a b : Int) (ha : (a : ℚ) ≤ x) (hb : x ≤ (b : ℚ)) :
    a ≤ rint x ∧ rint x ≤ b := by
  have hfa : a ≤ ⌊x⌋ := Int.le_floor.mpr ha
  have hfb : ⌊x⌋ ≤ b := by
    have : ⌊x⌋ ≤ ⌊(b : ℚ)⌋ := Int.floor_mono hb
    simpa using this
  unfold rint
  simp only
  have key : ⌊x⌋ < b ∨ x = (b : ℚ) := by
    rcases lt_or_eq_of_le hfb with h | h
    · exact Or.inl h
    · right
      have := Int.floor_le x
      rw [h] at this
      exact le_antisymm hb this
  split_ifs with h1 h2 h3
  · exact ⟨hfa, hfb⟩
  · rcases key with h | h
    · omega
    · exfalso; rw [h] at h2; simp at h2; linarith
  · exact ⟨hfa, hfb⟩
  · rcases key with h | h
    · omega
    · exfalso; rw [h] at h1; simp at h1

theorem toInt16_of_range (x : Int) (h1 : -32768 ≤ x) (h2 : x ≤ 32767) : toInt16 x = x := by
  unfold toInt16; omega

theorem toInt16_range (x : Int) : -32768 ≤ toInt16 x ∧ toInt16 x ≤ 32767 := by
  unfold toInt16; omega

theorem W100_sum : ∑ m ∈ Finset.range 5, ∑ n ∈ Finset.range 5, W100 m * W100 n = 10000 := by
  decide

theorem tapLoss_le (inp : List LPPixel) (w h outX outY m n : Nat) :
    tapLoss inp w h outX outY m n ≤ W100 m * W100 n := by
  unfold tapLoss; split_ifs <;> omega

theorem reduceInner_fold (inp : List LPPixel) (w h outX outY m : Nat) (acc : ReduceAcc)
    (k : Nat) :
    ((List.range k).foldl (reduceInner inp w h outX outY m) acc).r =
        acc.r + ∑ n ∈ Finset.range k, tapTerm (fun p => p.r) inp w h outX outY m n ∧
    ((List.range k).foldl (reduceInner inp w h outX outY m) acc).g =
        acc.g + ∑ n ∈ Finset.range k, tapTerm (fun p => p.g) inp w h outX outY m n ∧
    ((List.range k).foldl (reduceInner inp w h outX outY m) acc).b =
        acc.b + ∑ n ∈ Finset.range k, tapTerm (fun p => p.b) inp w h outX outY m n ∧
    (∑ n ∈ Finset.range k, tapLoss inp w h outX outY m n ≤ acc.noContrib →
      acc.noContrib < 4294967296 →
      ((List.range k).foldl (reduceInner inp w h outX outY m) acc).noContrib =
        acc.noContrib - ∑ n ∈ Finset.range k, tapLoss inp w h outX outY m n) := by
  induction k with
  | zero => simp
  | succ k ih =>
    obtain ⟨ihr, ihg, ihb, ihn⟩ := ih
    rw [List.range_succ, List.foldl_append]
    simp only [List.foldl_cons, List.foldl_nil, Finset.sum_range_succ]
    generalize hst : (List.range k).foldl (reduceInner inp w h outX outY m) acc = st at *
    unfold reduceInner
    simp only
    by_cases hop : (reduceTap inp w h outX outY m k).a = 255
    · have e1 : ∀ ch, tapTerm ch inp w h outX outY m k =
          W m * W k * (ch (reduceTap inp w h outX outY m k) : ℚ) := by
        intro ch; simp [tapTerm, hop]
      have e2 : tapLoss inp w h outX outY m k = 0 := by simp [tapLoss, hop]
      simp only [hop, ne_eq, not_true_eq_false, if_false, e1, e2]
      refine ⟨by rw [ihr]; ring, by rw [ihg]; ring, by rw [ihb]; ring, ?_⟩
      intro h1 h2
      simp only [Nat.add_zero] at h1 ⊢
      exact ihn h1 h2
    · have e1 : ∀ ch, tapTerm ch inp w h outX outY m k = 0 := by
        intro ch; simp [tapTerm, hop]
      have e2 : tapLoss inp w h outX outY m k = W100 m * W100 k := by simp [tapLoss, hop]
      simp only [hop, ne_eq, not_false_eq_true, if_true, e1, e2]
      refine ⟨by rw [ihr]; ring, by rw [ihg]; ring, by rw [ihb]; ring, ?_⟩
      intro h1 h2
      have h3 := ihn (by omega) h2
      rw [h3]
      generalize W100 m * W100 k = c at *
      generalize ∑ n ∈ Finset.range k, tapLoss inp w h outX outY m n = s at *
      omega


/-- The amounts taken from `noContrib` before tap `(m, n)`, together with the
amount taken by that tap, never exceed the initial value 10000. -/
theorem loss_le (inp : List LPPixel) (w h outX outY m n : Nat) (hm : m < 5) (hn : n ≤ 5) :
    (∑ i ∈ Finset.range m, ∑ j ∈ Finset.range 5, tapLoss inp w h outX outY i j)
      + (∑ j ∈ Finset.range n, tapLoss inp w h outX outY m j)
      + (if n < 5 then W100 m * W100 n else 0) ≤ 10000 := by
  have hb := fun a b => tapLoss_le inp w h outX outY a b
  have h00 : tapLoss inp w h outX outY 0 0 ≤ 25 := hb 0 0
  have h01 : tapLoss inp w h outX outY 0 1 ≤ 125 := hb 0 1
  have h02 : tapLoss inp w h outX outY 0 2 ≤ 200 := hb 0 2
  have h03 : tapLoss inp w h outX outY 0 3 ≤ 125 := hb 0 3
  have h04 : tapLoss inp w h outX outY 0 4 ≤ 25 := hb 0 4
  have h10 : tapLoss inp w h outX outY 1 0 ≤ 125 := hb 1 0
  have h11 : tapLoss inp w h outX outY 1 1 ≤ 625 := hb 1 1
  have h12 : tapLoss inp w h outX outY 1 2 ≤ 1000 := hb 1 2
  have h13 : tapLoss inp w h outX outY 1 3 ≤ 625 := hb 1 3
  have h14 : tapLoss inp w h outX outY 1 4 ≤ 125 := hb 1 4
  have h20 : tapLoss inp w h outX outY 2 0 ≤ 200 := hb 2 0
  have h21 : tapLoss inp w h outX outY 2 1 ≤ 1000 := hb 2 1
  have h22 : tapLoss inp w h outX outY 2 2 ≤ 1600 := hb 2 2
  have h23 : tapLoss inp w h outX outY 2 3 ≤ 1000 := hb 2 3
  have h24 : tapLoss inp w h outX outY 2 4 ≤ 200 := hb 2 4
  have h30 : tapLoss inp w h outX outY 3 0 ≤ 125 := hb 3 0
  have h31 : tapLoss inp w h outX outY 3 1 ≤ 625 := hb 3 1
  have h32 : tapLoss inp w h outX outY 3 2 ≤ 1000 := hb 3 2
  have h33 : tapLoss inp w h outX outY 3 3 ≤ 625 := hb 3 3
  have h34 : tapLoss inp w h outX outY 3 4 ≤ 125 := hb 3 4
  have h40 : tapLoss inp w h outX outY 4 0 ≤ 25 := hb 4 0
  have h41 : tapLoss inp w h outX outY 4 1 ≤ 125 := hb 4 1
  have h42 : tapLoss inp w h outX outY 4 2 ≤ 200 := hb 4 2
  have h43 : tapLoss inp w h outX outY 4 3 ≤ 125 := hb 4 3
  have h44 : tapLoss inp w h outX outY 4 4 ≤ 25 := hb 4 4
  have w0 : W100 0 = 5 := rfl
  have w1 : W100 1 = 25 := rfl
  have w2 : W100 2 = 40 := rfl
  have w3 : W100 3 = 25 := rfl
  have w4 : W100 4 = 5 := rfl
  clear hb
  interval_cases m <;> interval_cases n <;>
    simp only [Finset.sum_range_succ, Finset.sum_range_zero, w0, w1, w2, w3, w4,
      Nat.reduceLT, Nat.reduceMul, if_true, if_false, Nat.lt_irrefl] <;> omega

theorem reduceOuter_fold (inp : List LPPixel) (w h outX outY : Nat) (k : Nat) (hk : k ≤ 5) :
    ((List.range k).foldl (reduceOuter inp w h outX outY) ⟨0, 0, 0, 10000⟩).r =
        ∑ m ∈ Finset.range k, ∑ n ∈ Finset.range 5,
          tapTerm (fun p => p.r) inp w h outX outY m n ∧
    ((List.range k).foldl (reduceOuter inp w h outX outY) ⟨0, 0, 0, 10000⟩).g =
        ∑ m ∈ Finset.range k, ∑ n ∈ Finset.range 5,
          tapTerm (fun p => p.g) inp w h outX outY m n ∧
    ((List.range k).foldl (reduceOuter inp w h outX outY) ⟨0, 0, 0, 10000⟩).b =
        ∑ m ∈ Finset.range k, ∑ n ∈ Finset.range 5,
          tapTerm (fun p => p.b) inp w h outX outY m n ∧
    ((List.range k).foldl (reduceOuter inp w h outX outY) ⟨0, 0, 0, 10000⟩).noContrib =
        10000 - ∑ m ∈ Finset.range k, ∑ n ∈ Finset.range 5, tapLoss inp w h outX outY m n := by
  induction k with
  | zero => simp
  | succ k ih =>
    obtain ⟨ihr, ihg, ihb, ihn⟩ := ih (by omega)
    rw [List.range_succ, List.foldl_append]
    simp only [List.foldl_cons, List.foldl_nil, Finset.sum_range_succ _ k]
    generalize (List.range k).foldl (reduceOuter inp w h outX outY) ⟨0, 0, 0, 10000⟩ = st at *
    obtain ⟨fr, fg, fb, fn⟩ := reduceInner_fold inp w h outX outY k st 5
    have hl := loss_le inp w h outX outY k 5 (by omega) (le_refl 5)
    simp only [Nat.lt_irrefl, if_false, Nat.add_zero] at hl
    unfold reduceOuter
    refine ⟨by rw [fr, ihr], by rw [fg, ihg], by rw [fb, ihb], ?_⟩
    rw [fn (by omega) (by omega), ihn]
    omega

/-- The value of `noContrib` just before tap `(m, n)` is processed. -/
theorem reduceBefore_noContrib (inp : List LPPixel) (w h outX outY m n : Nat)
    (hm : m < 5) (hn : n ≤ 5) :
    (reduceBefore inp w h outX outY m n).noContrib =
      10000 - ((∑ i ∈ Finset.range m, ∑ j ∈ Finset.range 5, tapLoss inp w h outX outY i j)
        + ∑ j ∈ Finset.range n, tapLoss inp w h outX outY m j) := by
  unfold reduceBefore
  obtain ⟨_, _, _, ihn⟩ := reduceOuter_fold inp w h outX outY m (by omega)
  generalize (List.range m).foldl (reduceOuter inp w h outX outY) ⟨0, 0, 0, 10000⟩ = st at *
  obtain ⟨_, _, _, fn⟩ := reduceInner_fold inp w h outX outY m st n
  have hl := loss_le inp w h outX outY m n hm hn
  rw [fn (by omega) (by omega), ihn]
  omega

/-- The accumulators of `reduce` after both loops. -/
theorem reduceAcc_eq (inp : List LPPixel) (w h outX outY : Nat) :
    (reduceAcc inp w h outX outY).r = opaqueSum (fun p => p.r) inp w h outX outY ∧
    (reduceAcc inp w h outX outY).g = opaqueSum (fun p => p.g) inp w h outX outY ∧
    (reduceAcc inp w h outX outY).b = opaqueSum (fun p => p.b) inp w h outX outY ∧
    (reduceAcc inp w h outX outY).noContrib =
      10000 - ∑ m ∈ Finset.range 5, ∑ n ∈ Finset.range 5, tapLoss inp w h outX outY m n :=
  reduceOuter_fold inp w h outX outY 5 (le_refl 5)

theorem W100_pos (m : Nat) (hm : m < 5) : 0 < W100 m := by
  interval_cases m <;> decide

theorem W_pos (m : Nat) (hm : m < 5) : 0 < W m := by
  interval_cases m <;> norm_num [W, A]

theorem W_nonneg (m : Nat) : 0 ≤ W m := by
  rcases Nat.lt_or_ge m 5 with h | h
  · exact le_of_lt (W_pos m h)
  · have : W m = 0 := by
      unfold W
      rw [List.getD_eq_getElem?_getD, List.getElem?_eq_none (by simpa using h)]
      rfl
    rw [this]

/-- `W100[m] * W100[n] = 10000 * W[m] * W[n]`. -/
theorem W100_eq_W (m n : Nat) (hm : m < 5) (hn : n < 5) :
    ((W100 m * W100 n : Nat) : ℚ) = 10000 * (W m * W n) := by
  interval_cases m <;> interval_cases n <;> norm_num [W, W100, A, A100]

/-- The final `noContrib` is the integer weight of the opaque window positions. -/
theorem noContrib_eq_tally (inp : List LPPixel) (w h outX outY : Nat) :
    (reduceAcc inp w h outX outY).noContrib =
      ∑ m ∈ Finset.range 5, ∑ n ∈ Finset.range 5,
        if (reduceTap inp w h outX outY m n).a = 255 then W100 m * W100 n else 0 := by
  rw [(reduceAcc_eq inp w h outX outY).2.2.2]
  have hs : (∑ m ∈ Finset.range 5, ∑ n ∈ Finset.range 5, tapLoss inp w h outX outY m n)
      + (∑ m ∈ Finset.range 5, ∑ n ∈ Finset.range 5,
          if (reduceTap inp w h outX outY m n).a = 255 then W100 m * W100 n else 0) = 10000 := by
    rw [← Finset.sum_add_distrib, ← W100_sum]
    refine Finset.sum_congr rfl (fun m _ => ?_)
    rw [← Finset.sum_add_distrib]
    refine Finset.sum_congr rfl (fun n _ => ?_)
    unfold tapLoss
    split_ifs <;> simp
  omega

/-- In rational arithmetic, `noContrib / 10000` is the weight of the opaque positions. -/
theorem noContrib_div (inp : List LPPixel) (w h outX outY : Nat) :
    ((reduceAcc inp w h outX outY).noContrib : ℚ) / 10000 = opaqueWeight inp w h outX outY := by
  rw [noContrib_eq_tally, opaqueWeight, Nat.cast_sum, Finset.sum_div]
  refine Finset.sum_congr rfl (fun m hm => ?_)
  rw [Nat.cast_sum, Finset.sum_div]
  refine Finset.sum_congr rfl (fun n hn => ?_)
  rw [Finset.mem_range] at hm hn
  split_ifs
  · rw [W100_eq_W m n hm hn]; ring
  · simp

theorem noContrib_eq_zero_iff (inp : List LPPixel) (w h outX outY : Nat) :
    (reduceAcc inp w h outX outY).noContrib = 0 ↔
      ∀ m n, m < 5 → n < 5 → (reduceTap inp w h outX outY m n).a ≠ 255 := by
  rw [noContrib_eq_tally]
  simp only [Finset.sum_eq_zero_iff, Finset.mem_range]
  constructor
  · intro hz m n hm hn hop
    have := hz m hm n hn
    rw [if_pos hop] at this
    have h1 := W100_pos m hm
    have h2 := W100_pos n hn
    have := Nat.mul_pos h1 h2
    omega
  · intro hz m hm n hn
    rw [if_neg (hz m n hm hn)]

theorem noContrib_le (inp : List LPPixel) (w h outX outY : Nat) :
    (reduceAcc inp w h outX outY).noContrib ≤ 10000 := by
  rw [(reduceAcc_eq inp w h outX outY).2.2.2]
  omega

theorem getD_mem_or_default {α : Type} (l : List α) (i : Nat) (d : α) :
    l.getD i d ∈ l ∨ l.getD i d = d := by
  rcases Nat.lt_or_ge i l.length with h | h
  · left
    rw [List.getD_eq_getElem?_getD, List.getElem?_eq_getElem h]
    exact List.getElem_mem h
  · right; exact getD_default_of_le d l i h

theorem opaqueWeight_pos (inp : List LPPixel) (w h outX outY : Nat)
    (hop : ∃ m n, m < 5 ∧ n < 5 ∧ (reduceTap inp w h outX outY m n).a = 255) :
    0 < opaqueWeight inp w h outX outY := by
  obtain ⟨m, n, hm, hn, ho⟩ := hop
  have hnn : ∀ i j, 0 ≤ (if (reduceTap inp w h outX outY i j).a = 255 then W i * W j else 0) := by
    intro i j
    split_ifs
    · exact mul_nonneg (W_nonneg i) (W_nonneg j)
    · exact le_refl 0
  unfold opaqueWeight
  have h1 : (∑ j ∈ Finset.range 5, if (reduceTap inp w h outX outY m j).a = 255
      then W m * W j else 0) ≤ ∑ i ∈ Finset.range 5, ∑ j ∈ Finset.range 5,
        if (reduceTap inp w h outX outY i j).a = 255 then W i * W j else 0 :=
    Finset.single_le_sum (f := fun i => ∑ j ∈ Finset.range 5,
        if (reduceTap inp w h outX outY i j).a = 255 then W i * W j else 0)
      (fun i _ => Finset.sum_nonneg (fun j _ => hnn i j)) (Finset.mem_range.mpr hm)
  have h2 : (if (reduceTap inp w h outX outY m n).a = 255 then W m * W n else 0) ≤
      ∑ j ∈ Finset.range 5, if (reduceTap inp w h outX outY m j).a = 255
        then W m * W j else 0 :=
    Finset.single_le_sum (f := fun j =>
        if (reduceTap inp w h outX outY m j).a = 255 then W m * W j else 0)
      (fun j _ => hnn m j) (Finset.mem_range.mpr hn)
  rw [if_pos ho] at h2
  have h3 := mul_pos (W_pos m hm) (W_pos n hn)
  linarith

/-- The channel sum of `reduce` lies between `lo` and `hi` times the opaque weight
when every opaque input pixel of the window has its channel between `lo` and `hi`. -/
theorem opaqueSum_bounds (ch : LPPixel → Int) (inp : List LPPixel) (w h outX outY : Nat)
    (lo hi : Int)
    (hb : ∀ m n, m < 5 → n < 5 → (reduceTap inp w h outX outY m n).a = 255 →
      lo ≤ ch (reduceTap inp w h outX outY m n) ∧ ch (reduceTap inp w h outX outY m n) ≤ hi) :
    (lo : ℚ) * opaqueWeight inp w h outX outY ≤ opaqueSum ch inp w h outX outY ∧
    opaqueSum ch inp w h outX outY ≤ (hi : ℚ) * opaqueWeight inp w h outX outY := by
  unfold opaqueWeight opaqueSum
  constructor
  · rw [Finset.mul_sum]
    refine Finset.sum_le_sum (fun m hm => ?_)
    rw [Finset.mul_sum]
    refine Finset.sum_le_sum (fun n hn => ?_)
    rw [Finset.mem_range] at hm hn
    unfold tapTerm
    split_ifs with ho
    · have h1 : (lo : ℚ) ≤ (ch (reduceTap inp w h outX outY m n) : ℚ) := by
        exact_mod_cast (hb m n hm hn ho).1
      have h2 := mul_nonneg (W_nonneg m) (W_nonneg n)
      nlinarith
    · simp
  · rw [Finset.mul_sum]
    refine Finset.sum_le_sum (fun m hm => ?_)
    rw [Finset.mul_sum]
    refine Finset.sum_le_sum (fun n hn => ?_)
    rw [Finset.mem_range] at hm hn
    unfold tapTerm
    split_ifs with ho
    · have h1 : (ch (reduceTap inp w h outX outY m n) : ℚ) ≤ (hi : ℚ) := by
        exact_mod_cast (hb m n hm hn ho).2
      have h2 := mul_nonneg (W_nonneg m) (W_nonneg n)
      nlinarith
    · simp

/-- The adjusted channel value of `reduce` is the weighted mean over the opaque
positions of the window. -/
theorem reduceAdjust_eq (inp : List LPPixel) (w h outX outY : Nat) (s : ℚ)
    (hop : ∃ m n, m < 5 ∧ n < 5 ∧ (reduceTap inp w h outX outY m n).a = 255) :
    reduceAdjust (reduceAcc inp w h outX outY).noContrib s =
      s / opaqueWeight inp w h outX outY := by
  have hpos := opaqueWeight_pos inp w h outX outY hop
  have hne : (reduceAcc inp w h outX outY).noContrib ≠ 0 := by
    intro h0
    obtain ⟨m, n, hm, hn, ho⟩ := hop
    exact (noContrib_eq_zero_iff inp w h outX outY).mp h0 m n hm hn ho
  unfold reduceAdjust
  rw [if_neg hne, noContrib_div]

/-- The weighted mean lies between `lo` and `hi`. -/
theorem mean_bounds (ch : LPPixel → Int) (inp : List LPPixel) (w h outX outY : Nat)
    (lo hi : Int)
    (hop : ∃ m n, m < 5 ∧ n < 5 ∧ (reduceTap inp w h outX outY m n).a = 255)
    (hb : ∀ m n, m < 5 → n < 5 → (reduceTap inp w h outX outY m n).a = 255 →
      lo ≤ ch (reduceTap inp w h outX outY m n) ∧ ch (reduceTap inp w h outX outY m n) ≤ hi) :
    (lo : ℚ) ≤ opaqueSum ch inp w h outX outY / opaqueWeight inp w h outX outY ∧
    opaqueSum ch inp w h outX outY / opaqueWeight inp w h outX outY ≤ (hi : ℚ) := by
  have hpos := opaqueWeight_pos inp w h outX outY hop
  obtain ⟨h1, h2⟩ := opaqueSum_bounds ch inp w h outX outY lo hi hb
  constructor
  · rw [le_div_iff₀ hpos]; exact h1
  · rw [div_le_iff₀ hpos]; exact h2

/-! ## Properties of `reduce` -/

/-- C4: in `reduce`, for every output pixel, `noContrib` stays within `[0, 10000]`
at every tap and the unsigned subtraction never wraps (the amount subtracted at a
tap is at most the value held before it); the final `noContrib` is 0 exactly when
all 25 positions of the edge-clamped window have alpha different from 255; the
output alpha is 255 exactly when `noContrib` is not 0 and is 0 otherwise; and when
`noContrib` is 0 the three output channels are 0. -/
theorem reduce_noContrib_alpha (inp : List LPPixel) (w h outX outY : Nat)
    (hx : outX < w >>> 1) (hy : outY < h >>> 1) :
    (∀ m n, m < 5 → n < 5 →
      W100 m * W100 n ≤ (reduceBefore inp w h outX outY m n).noContrib ∧
      (reduceBefore inp w h outX outY m n).noContrib ≤ 10000) ∧
    (reduceAcc inp w h outX outY).noContrib ≤ 10000 ∧
    ((reduceAcc inp w h outX outY).noContrib = 0 ↔
      ∀ m n, m < 5 → n < 5 → (reduceTap inp w h outX outY m n).a ≠ 255) ∧
    (((reduce inp w h).getD (outY * (w >>> 1) + outX) default).a = 255 ↔
      (reduceAcc inp w h outX outY).noContrib ≠ 0) ∧
    ((reduceAcc inp w h outX outY).noContrib = 0 →
      (reduce inp w h).getD (outY * (w >>> 1) + outX) default = ⟨0, 0, 0, 0⟩) := by
  refine ⟨fun m n hm hn => ?_, noContrib_le inp w h outX outY,
    noContrib_eq_zero_iff inp w h outX outY, ?_, ?_⟩
  · rw [reduceBefore_noContrib inp w h outX outY m n hm (by omega)]
    have hl := loss_le inp w h outX outY m n hm (by omega)
    rw [if_pos hn] at hl
    omega
  · rw [reduce_at inp w h outX outY hx hy]
    unfold reducePixel
    simp only
    split_ifs with h0
    · simp [h0]
    · simp [h0]
  · intro h0
    rw [reduce_at inp w h outX outY hx hy]
    unfold reducePixel reduceAdjust
    simp only [h0, if_true]
    simp [rint, toInt16]

/-- Applying `reduce_noContrib_alpha` to the 2x2 opaque raster of value 7. -/
theorem reduce_noContrib_alpha_witness :
    (0 < 2 >>> 1 ∧ 0 < 2 >>> 1) ∧
    (((reduce (List.replicate 4 ⟨7, 7, 7, 255⟩) 2 2).getD (0 * (2 >>> 1) + 0) default).a = 255 ↔
      (reduceAcc (List.replicate 4 ⟨7, 7, 7, 255⟩) 2 2 0 0).noContrib ≠ 0) :=
  ⟨⟨by decide, by decide⟩,
    (reduce_noContrib_alpha (List.replicate 4 ⟨7, 7, 7, 255⟩) 2 2 0 0
      (by decide) (by decide)).2.2.2.1⟩

theorem reduceTap_valid (inp : List LPPixel) (w h outX outY m n : Nat)
    (hvalid : ∀ p ∈ inp, p.Valid) : (reduceTap inp w h outX outY m n).Valid := by
  unfold reduceTap
  rcases getD_mem_or_default inp
    (reduceIndex outY n h * w + reduceIndex outX m w).toNat default with hm | hd
  · exact hvalid _ hm
  · rw [hd]; decide

/-- The value that `reduce` stores in a channel whose window holds an opaque pixel. -/
theorem reduce_channel (ch : LPPixel → Int) (inp : List LPPixel) (w h outX outY : Nat)
    (hop : ∃ m n, m < 5 ∧ n < 5 ∧ (reduceTap inp w h outX outY m n).a = 255)
    (hb : ∀ m n, m < 5 → n < 5 → -32768 ≤ ch (reduceTap inp w h outX outY m n) ∧
      ch (reduceTap inp w h outX outY m n) ≤ 32767) :
    toInt16 (rint (reduceAdjust (reduceAcc inp w h outX outY).noContrib
        (opaqueSum ch inp w h outX outY))) =
      rint (opaqueSum ch inp w h outX outY / opaqueWeight inp w h outX outY) := by
  rw [reduceAdjust_eq inp w h outX outY _ hop]
  obtain ⟨h1, h2⟩ := mean_bounds ch inp w h outX outY (-32768) 32767 hop
    (fun m n hm hn _ => hb m n hm hn)
  obtain ⟨h3, h4⟩ := rint_bounds _ (-32768) 32767 h1 h2
  exact toInt16_of_range _ h3 h4

/-- The channel sum when every opaque pixel of the window has the channel value `v`. -/
theorem opaqueSum_const (ch : LPPixel → Int) (inp : List LPPixel) (w h outX outY : Nat)
    (v : Int)
    (hc : ∀ m < 5, ∀ n < 5, (reduceTap inp w h outX outY m n).a = 255 →
      ch (reduceTap inp w h outX outY m n) = v) :
    opaqueSum ch inp w h outX outY = (v : ℚ) * opaqueWeight inp w h outX outY := by
  unfold opaqueSum opaqueWeight
  rw [Finset.mul_sum]
  refine Finset.sum_congr rfl (fun m hm => ?_)
  rw [Finset.mul_sum]
  refine Finset.sum_congr rfl (fun n hn => ?_)
  rw [Finset.mem_range] at hm hn
  unfold tapTerm
  split_ifs with ho
  · rw [hc m hm n hn ho]; ring
  · simp

/-- The output channel of `reduce` when every opaque pixel of the window has the
channel value `v`. -/
theorem reduce_channel_const (ch : LPPixel → Int) (inp : List LPPixel) (w h outX outY : Nat)
    (v : Int) (hv : -32768 ≤ v ∧ v ≤ 32767)
    (hop : ∃ m n, m < 5 ∧ n < 5 ∧ (reduceTap inp w h outX outY m n).a = 255)
    (hc : ∀ m < 5, ∀ n < 5, (reduceTap inp w h outX outY m n).a = 255 →
      ch (reduceTap inp w h outX outY m n) = v) :
    toInt16 (rint (reduceAdjust (reduceAcc inp w h outX outY).noContrib
        (opaqueSum ch inp w h outX outY))) = v := by
  rw [reduceAdjust_eq inp w h outX outY _ hop, opaqueSum_const ch inp w h outX outY v hc]
  have hpos := opaqueWeight_pos inp w h outX outY hop
  rw [mul_div_assoc, div_self (ne_of_gt hpos), mul_one, rint_intCast]
  exact toInt16_of_range v hv.1 hv.2

/-- C3: for an output pixel of `reduce` whose clamped window holds an opaque pixel,
the output alpha is 255, and each channel in which all opaque pixels of the window
have the same value `v` is exactly `v` in the output. -/
theorem reduce_transparency_aware (inp : List LPPixel) (w h outX outY : Nat) (v : Int)
    (hx : outX < w >>> 1) (hy : outY < h >>> 1) (hv : -32768 ≤ v ∧ v ≤ 32767)
    (hop : ∃ m n, m < 5 ∧ n < 5 ∧ (reduceTap inp w h outX outY m n).a = 255) :
    ((reduce inp w h).getD (outY * (w >>> 1) + outX) default).a = 255 ∧
    ((∀ m < 5, ∀ n < 5, (reduceTap inp w h outX outY m n).a = 255 →
        (reduceTap inp w h outX outY m n).r = v) →
      ((reduce inp w h).getD (outY * (w >>> 1) + outX) default).r = v) ∧
    ((∀ m < 5, ∀ n < 5, (reduceTap inp w h outX outY m n).a = 255 →
        (reduceTap inp w h outX outY m n).g = v) →
      ((reduce inp w h).getD (outY * (w >>> 1) + outX) default).g = v) ∧
    ((∀ m < 5, ∀ n < 5, (reduceTap inp w h outX outY m n).a = 255 →
        (reduceTap inp w h outX outY m n).b = v) →
      ((reduce inp w h).getD (outY * (w >>> 1) + outX) default).b = v) := by
  obtain ⟨er, eg, eb, _⟩ := reduceAcc_eq inp w h outX outY
  have hne : (reduceAcc inp w h outX outY).noContrib ≠ 0 := by
    intro h0
    obtain ⟨m, n, hm, hn, ho⟩ := hop
    exact (noContrib_eq_zero_iff inp w h outX outY).mp h0 m n hm hn ho
  rw [reduce_at inp w h outX outY hx hy]
  unfold reducePixel
  simp only [er, eg, eb, if_neg hne, true_and]
  exact ⟨reduce_channel_const (fun p => p.r) inp w h outX outY v hv hop,
    reduce_channel_const (fun p => p.g) inp w h outX outY v hv hop,
    reduce_channel_const (fun p => p.b) inp w h outX outY v hv hop⟩

/-- The transparency-aware reduce scenario: `reduce_transparency_aware` applied to
output pixel `(2, 1)` of the half-opaque 8x8 raster, whose window mixes opaque and
transparent pixels, and the complete 4x4 result: value 100 and alpha 255 in output
columns 0, 1 and 2, transparent in column 3. -/
theorem reduce_transparency_aware_witness :
    (2 < 8 >>> 1 ∧ 1 < 8 >>> 1 ∧ ((-32768 : Int) ≤ 100 ∧ (100 : Int) ≤ 32767) ∧
      (∃ m n, m < 5 ∧ n < 5 ∧ (reduceTap halfOpaqueRaster 8 8 2 1 m n).a = 255) ∧
      (reduceTap halfOpaqueRaster 8 8 2 1 4 2).a = 0) ∧
    ((reduce halfOpaqueRaster 8 8).getD (1 * (8 >>> 1) + 2) default).a = 255 ∧
    ((reduce halfOpaqueRaster 8 8).getD (1 * (8 >>> 1) + 2) default).r = 100 ∧
    reduce halfOpaqueRaster 8 8 =
      [⟨100, 100, 100, 255⟩, ⟨100, 100, 100, 255⟩, ⟨100, 100, 100, 255⟩, ⟨0, 0, 0, 0⟩,
       ⟨100, 100, 100, 255⟩, ⟨100, 100, 100, 255⟩, ⟨100, 100, 100, 255⟩, ⟨0, 0, 0, 0⟩,
       ⟨100, 100, 100, 255⟩, ⟨100, 100, 100, 255⟩, ⟨100, 100, 100, 255⟩, ⟨0, 0, 0, 0⟩,
       ⟨100, 100, 100, 255⟩, ⟨100, 100, 100, 255⟩, ⟨100, 100, 100, 255⟩, ⟨0, 0, 0, 0⟩] :=
  ⟨⟨by decide, by decide, by decide, ⟨0, 0, by decide, by decide, by decide⟩, by decide⟩,
    (reduce_transparency_aware halfOpaqueRaster 8 8 2 1 100 (by decide) (by decide)
      (by decide) ⟨0, 0, by decide, by decide, by decide⟩).1,
    (reduce_transparency_aware halfOpaqueRaster 8 8 2 1 100 (by decide) (by decide)
      (by decide) ⟨0, 0, by decide, by decide, by decide⟩).2.1 (by decide),
    by decide!⟩

/-! ## The parity test and the accumulators of `expand` -/

theorem bits32_mod_two (x : Int) : (bits32 x : Int) % 2 = x % 2 := by
  unfold bits32
  rw [Int.toNat_of_nonneg (Int.emod_nonneg _ (by norm_num))]
  omega

/-- The skip test of `expand` holds exactly for odd distances. -/
theorem expandSkip_iff (o m : Nat) :
    expandSkip o m = true ↔ ((o : Int) - ((m : Int) - 2)) % 2 = 1 := by
  unfold expandSkip bitand32 oneEqOne
  have h1 : bits32 (if (1 : Int) = 1 then 1 else 0) = 1 := by decide
  rw [h1, Nat.and_one_is_mod]
  have h2 := bits32_mod_two ((o : Int) - ((m : Int) - 2))
  simp only [bne_iff_ne, ne_eq]
  omega

theorem expandSkip_false_iff (o m : Nat) :
    expandSkip o m = false ↔ ((o : Int) - ((m : Int) - 2)) % 2 = 0 := by
  have h := expandSkip_iff o m
  rcases Bool.eq_false_or_eq_true (expandSkip o m) with ht | hf
  · rw [ht]; simp only [Bool.true_eq_false, false_iff]
    have := h.mp ht; omega
  · rw [hf]; simp only [true_iff]
    have : ¬ ((o : Int) - ((m : Int) - 2)) % 2 = 1 := fun h1 => by
      have := h.mpr h1; rw [hf] at this; exact Bool.false_ne_true this
    omega

theorem expandInner_fold (inp : List LPPixel) (inW inH outX outY m : Nat) (acc : RGBAcc)
    (hs : expandSkip outX m = false) (k : Nat) :
    ((List.range k).foldl
        (expandInner inp inW inH outY m (expandIndex outX m inW)) acc).r =
      acc.r + ∑ n ∈ Finset.range k, expandTerm (fun p => p.r) inp inW inH outX outY m n ∧
    ((List.range k).foldl
        (expandInner inp inW inH outY m (expandIndex outX m inW)) acc).g =
      acc.g + ∑ n ∈ Finset.range k, expandTerm (fun p => p.g) inp inW inH outX outY m n ∧
    ((List.range k).foldl
        (expandInner inp inW inH outY m (expandIndex outX m inW)) acc).b =
      acc.b + ∑ n ∈ Finset.range k, expandTerm (fun p => p.b) inp inW inH outX outY m n := by
  induction k with
  | zero => simp
  | succ k ih =>
    obtain ⟨ihr, ihg, ihb⟩ := ih
    rw [List.range_succ, List.foldl_append]
    simp only [List.foldl_cons, List.foldl_nil, Finset.sum_range_succ]
    generalize (List.range k).foldl
      (expandInner inp inW inH outY m (expandIndex outX m inW)) acc = st at *
    unfold expandInner
    by_cases hk : expandSkip outY k = true
    · have e1 : ∀ ch, expandTerm ch inp inW inH outX outY m k = 0 := by
        intro ch; simp [expandTerm, hk]
      simp only [hk, if_true, e1, add_zero]
      exact ⟨ihr, ihg, ihb⟩
    · have hk2 : expandSkip outY k = false := by simpa using hk
      have e1 : ∀ ch, expandTerm ch inp inW inH outX outY m k =
          W m * W k * (ch (expandTap inp inW inH outX outY m k) : ℚ) := by
        intro ch; simp [expandTerm, hk2, hs]
      simp only [hk2, Bool.false_eq_true, if_false, e1]
      refine ⟨?_, ?_, ?_⟩
      · rw [ihr]; unfold expandTap; ring
      · rw [ihg]; unfold expandTap; ring
      · rw [ihb]; unfold expandTap; ring

theorem expandOuter_fold (inp : List LPPixel) (inW inH outX outY : Nat) (k : Nat) :
    ((List.range k).foldl (expandOuter inp inW inH outX outY) ⟨0, 0, 0⟩).r =
      ∑ m ∈ Finset.range k, ∑ n ∈ Finset.range 5,
        expandTerm (fun p => p.r) inp inW inH outX outY m n ∧
    ((List.range k).foldl (expandOuter inp inW inH outX outY) ⟨0, 0, 0⟩).g =
      ∑ m ∈ Finset.range k, ∑ n ∈ Finset.range 5,
        expandTerm (fun p => p.g) inp inW inH outX outY m n ∧
    ((List.range k).foldl (expandOuter inp inW inH outX outY) ⟨0, 0, 0⟩).b =
      ∑ m ∈ Finset.range k, ∑ n ∈ Finset.range 5,
        expandTerm (fun p => p.b) inp inW inH outX outY m n := by
  induction k with
  | zero => simp
  | succ k ih =>
    obtain ⟨ihr, ihg, ihb⟩ := ih
    rw [List.range_succ, List.foldl_append]
    simp only [List.foldl_cons, List.foldl_nil, Finset.sum_range_succ _ k]
    generalize (List.range k).foldl (expandOuter inp inW inH outX outY) ⟨0, 0, 0⟩ = st at *
    unfold expandOuter
    by_cases hk : expandSkip outX k = true
    · have e1 : ∀ ch n, expandTerm ch inp inW inH outX outY k n = 0 := by
        intro ch n; simp [expandTerm, hk]
      simp only [hk, if_true, e1, Finset.sum_const_zero, add_zero]
      exact ⟨ihr, ihg, ihb⟩
    · have hk2 : expandSkip outX k = false := by simpa using hk
      obtain ⟨fr, fg, fb⟩ := expandInner_fold inp inW inH outX outY k st hk2 5
      simp only [hk2, Bool.false_eq_true, if_false]
      exact ⟨by rw [fr, ihr], by rw [fg, ihg], by rw [fb, ihb]⟩

/-- The accumulators of `expand` after both loops. -/
theorem expandAcc_eq (inp : List LPPixel) (inW inH outX outY : Nat) :
    (expandAcc inp inW inH outX outY).r = expandSum (fun p => p.r) inp inW inH outX outY ∧
    (expandAcc inp inW inH outX outY).g = expandSum (fun p => p.g) inp inW inH outX outY ∧
    (expandAcc inp inW inH outX outY).b = expandSum (fun p => p.b) inp inW inH outX outY :=
  expandOuter_fold inp inW inH outX outY 5

/-- The weight that `expand` gives to tap `m` along one axis. -/
theorem expandTerm_eq (ch : LPPixel → Int) (inp : List LPPixel)
    (inW inH outX outY m n : Nat) :
    expandTerm ch inp inW inH outX outY m n =
      ((if expandSkip outX m then 0 else W m) * (if expandSkip outY n then 0 else W n)) *
        (ch (expandTap inp inW inH outX outY m n) : ℚ) := by
  unfold expandTerm
  cases expandSkip outX m <;> cases expandSkip outY n <;> simp

/-- Along each axis the taps that `expand` keeps have total weight one half. -/
theorem expand_axis_weight (o : Nat) :
    ∑ m ∈ Finset.range 5, (if expandSkip o m then 0 else W m) = 1 / 2 := by
  have h0 := expandSkip_iff o 0
  have h1 := expandSkip_iff o 1
  have h2 := expandSkip_iff o 2
  have h3 := expandSkip_iff o 3
  have h4 := expandSkip_iff o 4
  have f0 := expandSkip_false_iff o 0
  have f1 := expandSkip_false_iff o 1
  have f2 := expandSkip_false_iff o 2
  have f3 := expandSkip_false_iff o 3
  have f4 := expandSkip_false_iff o 4
  simp only [Finset.sum_range_succ, Finset.sum_range_zero]
  rcases Nat.mod_two_eq_zero_or_one o with he | ho
  · have e0 : expandSkip o 0 = false := f0.mpr (by push_cast; omega)
    have e1 : expandSkip o 1 = true := h1.mpr (by push_cast; omega)
    have e2 : expandSkip o 2 = false := f2.mpr (by push_cast; omega)
    have e3 : expandSkip o 3 = true := h3.mpr (by push_cast; omega)
    have e4 : expandSkip o 4 = false := f4.mpr (by push_cast; omega)
    rw [e0, e1, e2, e3, e4]
    norm_num [W, A]
  · have e0 : expandSkip o 0 = true := h0.mpr (by push_cast; omega)
    have e1 : expandSkip o 1 = false := f1.mpr (by push_cast; omega)
    have e2 : expandSkip o 2 = true := h2.mpr (by push_cast; omega)
    have e3 : expandSkip o 3 = false := f3.mpr (by push_cast; omega)
    have e4 : expandSkip o 4 = true := h4.mpr (by push_cast; omega)
    rw [e0, e1, e2, e3, e4]
    norm_num [W, A]

theorem expand_axis_nonneg (o m : Nat) : 0 ≤ (if expandSkip o m then 0 else W m) := by
  split_ifs
  · exact le_refl 0
  · exact W_nonneg m

/-- The weights `W[m] * W[n]` of the taps that `expand` keeps sum to one quarter. -/
theorem expand_weight_sum (outX outY : Nat) :
    ∑ m ∈ Finset.range 5, ∑ n ∈ Finset.range 5,
      ((if expandSkip outX m then 0 else W m) * (if expandSkip outY n then 0 else W n)) =
      1 / 4 := by
  rw [← Finset.sum_mul_sum, expand_axis_weight, expand_axis_weight]
  norm_num

/-- Four times the channel sum of `expand` is a convex combination of the channel
values read. -/
theorem expandSum_bounds (ch : LPPixel → Int) (inp : List LPPixel) (inW inH outX outY : Nat)
    (lo hi : Int)
    (hb : ∀ m n, m < 5 → n < 5 → lo ≤ ch (expandTap inp inW inH outX outY m n) ∧
      ch (expandTap inp inW inH outX outY m n) ≤ hi) :
    (lo : ℚ) ≤ expandSum ch inp inW inH outX outY * 4 ∧
    expandSum ch inp inW inH outX outY * 4 ≤ (hi : ℚ) := by
  have hw := expand_weight_sum outX outY
  have h1 : (lo : ℚ) * (1 / 4) ≤ expandSum ch inp inW inH outX outY := by
    rw [← hw, Finset.mul_sum]
    unfold expandSum
    refine Finset.sum_le_sum (fun m hm => ?_)
    rw [Finset.mul_sum]
    refine Finset.sum_le_sum (fun n hn => ?_)
    rw [Finset.mem_range] at hm hn
    rw [expandTerm_eq]
    have h3 : (lo : ℚ) ≤ (ch (expandTap inp inW inH outX outY m n) : ℚ) := by
      exact_mod_cast (hb m n hm hn).1
    have h4 := mul_nonneg (expand_axis_nonneg outX m) (expand_axis_nonneg outY n)
    nlinarith
  have h2 : expandSum ch inp inW inH outX outY ≤ (hi : ℚ) * (1 / 4) := by
    rw [← hw, Finset.mul_sum]
    unfold expandSum
    refine Finset.sum_le_sum (fun m hm => ?_)
    rw [Finset.mul_sum]
    refine Finset.sum_le_sum (fun n hn => ?_)
    rw [Finset.mem_range] at hm hn
    rw [expandTerm_eq]
    have h3 : (ch (expandTap inp inW inH outX outY m n) : ℚ) ≤ (hi : ℚ) := by
      exact_mod_cast (hb m n hm hn).2
    have h4 := mul_nonneg (expand_axis_nonneg outX m) (expand_axis_nonneg outY n)
    nlinarith
  constructor <;> linarith

/-- The channel sum of `expand` when every pixel read has the channel value `v`. -/
theorem expandSum_const (ch : LPPixel → Int) (inp : List LPPixel) (inW inH outX outY : Nat)
    (v : Int) (hc : ∀ m n, m < 5 → n < 5 → ch (expandTap inp inW inH outX outY m n) = v) :
    expandSum ch inp inW inH outX outY * 4 = (v : ℚ) := by
  obtain ⟨h1, h2⟩ := expandSum_bounds ch inp inW inH outX outY v v
    (fun m n hm hn => by rw [hc m n hm hn]; exact ⟨le_refl v, le_refl v⟩)
  exact le_antisymm h2 h1

theorem expandTap_valid (inp : List LPPixel) (inW inH outX outY m n : Nat)
    (hvalid : ∀ p ∈ inp, p.Valid) : (expandTap inp inW inH outX outY m n).Valid := by
  unfold expandTap
  rcases getD_mem_or_default inp
    (expandIndex outY n inH * inW + expandIndex outX m inW).toNat default with hm | hd
  · exact hvalid _ hm
  · rw [hd]; decide

/-- The increment `(int16)rint(r * 4.0)` of `expand` is `rint` of four times the
channel sums when the source holds `int16` values. -/
theorem expandDelta_eq (inp : List LPPixel) (inW inH outX outY : Nat)
    (hvalid : ∀ p ∈ inp, p.Valid) :
    expandDelta inp inW inH outX outY =
      (rint (expandSum (fun p => p.r) inp inW inH outX outY * 4),
       rint (expandSum (fun p => p.g) inp inW inH outX outY * 4),
       rint (expandSum (fun p => p.b) inp inW inH outX outY * 4)) := by
  have hv := fun m n => expandTap_valid inp inW inH outX outY m n hvalid
  obtain ⟨er, eg, eb⟩ := expandAcc_eq inp inW inH outX outY
  unfold expandDelta
  simp only [er, eg, eb]
  obtain ⟨r1, r2⟩ := expandSum_bounds (fun p => p.r) inp inW inH outX outY (-32768) 32767
    (fun m n _ _ => (hv m n).1)
  obtain ⟨g1, g2⟩ := expandSum_bounds (fun p => p.g) inp inW inH outX outY (-32768) 32767
    (fun m n _ _ => (hv m n).2.1)
  obtain ⟨b1, b2⟩ := expandSum_bounds (fun p => p.b) inp inW inH outX outY (-32768) 32767
    (fun m n _ _ => (hv m n).2.2)
  obtain ⟨r3, r4⟩ := rint_bounds _ (-32768) 32767 r1 r2
  obtain ⟨g3, g4⟩ := rint_bounds _ (-32768) 32767 g1 g2
  obtain ⟨b3, b4⟩ := rint_bounds _ (-32768) 32767 b1 b2
  rw [toInt16_of_range _ r3 r4, toInt16_of_range _ g3 g4, toInt16_of_range _ b3 b4]

/-! ## Properties of `expand` -/

theorem shiftRight_one_eq_floor (x : Int) : x >>> (1 : Nat) = ⌊((x : Int) : ℚ) / 2⌋ := by
  rw [Int.shiftRight_eq_div_pow]
  have := Rat.floor_intCast_div_natCast x 2
  simp only [Nat.cast_ofNat] at this
  rw [this]
  norm_num

theorem shiftRight_one_eq_div (x : Int) : x >>> (1 : Nat) = x / 2 := by
  rw [Int.shiftRight_eq_div_pow]
  norm_num

/-- The term of tap `(m, n)` in `expand`, written with the parity of the distances
and the floor of half the distances. -/
theorem expandTerm_parity (ch : LPPixel → Int) (inp : List LPPixel)
    (inW inH outX outY m n : Nat) :
    expandTerm ch inp inW inH outX outY m n =
      if ((outX : Int) - ((m : Int) - 2)) % 2 = 0 ∧ ((outY : Int) - ((n : Int) - 2)) % 2 = 0 then
        W m * W n * (ch (inp.getD
          (clampIndex ⌊((((outY : Int) - ((n : Int) - 2) : Int) : ℚ) / 2)⌋ inH * inW +
            clampIndex ⌊((((outX : Int) - ((m : Int) - 2) : Int) : ℚ) / 2)⌋ inW).toNat
          default) : ℚ)
      else 0 := by
  unfold expandTerm expandTap expandIndex
  rw [← shiftRight_one_eq_floor, ← shiftRight_one_eq_floor]
  by_cases hx : expandSkip outX m = false
  · by_cases hy : expandSkip outY n = false
    · have hp : ((outX : Int) - ((m : Int) - 2)) % 2 = 0 ∧
          ((outY : Int) - ((n : Int) - 2)) % 2 = 0 :=
        ⟨(expandSkip_false_iff outX m).mp hx, (expandSkip_false_iff outY n).mp hy⟩
      simp only [hx, hy, Bool.or_false, Bool.false_eq_true, if_false]
      rw [if_pos hp]
    · have hy2 : ¬ (((outX : Int) - ((m : Int) - 2)) % 2 = 0 ∧
          ((outY : Int) - ((n : Int) - 2)) % 2 = 0) :=
        fun h => hy ((expandSkip_false_iff outY n).mpr h.2)
      have hy3 : expandSkip outY n = true := by simpa using hy
      simp only [hx, hy3, Bool.or_true, if_true]
      rw [if_neg hy2]
  · have hx2 : ¬ (((outX : Int) - ((m : Int) - 2)) % 2 = 0 ∧
        ((outY : Int) - ((n : Int) - 2)) % 2 = 0) :=
      fun h => hx ((expandSkip_false_iff outX m).mpr h.1)
    have hx3 : expandSkip outX m = true := by simpa using hx
    simp only [hx3, Bool.true_or, if_true]
    rw [if_neg hx2]

theorem clampIndex_of_range (i : Int) (w : Nat) (h0 : 0 ≤ i) (h1 : i < w) :
    clampIndex i w = i := by
  unfold clampIndex
  simp only
  rw [if_neg (by omega), if_neg (by omega)]

theorem clampIndex_range (i : Int) (w : Nat) (hw : 1 ≤ w) :
    0 ≤ clampIndex i w ∧ clampIndex i w < w := by
  unfold clampIndex
  simp only
  split_ifs <;> omega

/-- Without clamping, the term of a tap in `expand` is the term of the zero-stuffed
convolution. -/
theorem expandTerm_zeroStuffed (ch : LPPixel → Int) (inp : List LPPixel)
    (inW inH outX outY m n : Nat)
    (hinx : ((outX : Int) - ((m : Int) - 2)) % 2 = 0 →
      0 ≤ ((outX : Int) - ((m : Int) - 2)) / 2 ∧ ((outX : Int) - ((m : Int) - 2)) / 2 < inW)
    (hiny : ((outY : Int) - ((n : Int) - 2)) % 2 = 0 →
      0 ≤ ((outY : Int) - ((n : Int) - 2)) / 2 ∧ ((outY : Int) - ((n : Int) - 2)) / 2 < inH) :
    expandTerm ch inp inW inH outX outY m n =
      W m * W n * zeroStuffedGrid ch inp inW inH
        ((outX : Int) - ((m : Int) - 2)) ((outY : Int) - ((n : Int) - 2)) := by
  rw [expandTerm_parity, ← shiftRight_one_eq_floor, ← shiftRight_one_eq_floor,
    shiftRight_one_eq_div, shiftRight_one_eq_div]
  unfold zeroStuffedGrid
  by_cases hp : ((outX : Int) - ((m : Int) - 2)) % 2 = 0 ∧
      ((outY : Int) - ((n : Int) - 2)) % 2 = 0
  · obtain ⟨x0, x1⟩ := hinx hp.1
    obtain ⟨y0, y1⟩ := hiny hp.2
    rw [if_pos hp, if_pos ⟨hp.1, hp.2, x0, x1, y0, y1⟩,
      clampIndex_of_range _ inW x0 x1, clampIndex_of_range _ inH y0 y1]
  · rw [if_neg hp, if_neg (fun h => hp ⟨h.1, h.2.1⟩)]
    ring

theorem getD_replicate_lt {α : Type} (n i : Nat) (a d : α) (h : i < n) :
    (List.replicate n a).getD i d = a := by
  rw [List.getD_eq_getElem?_getD, List.getElem?_eq_getElem (by simpa using h)]
  simp

/-- A clamped pair of coordinates addresses a pixel inside the raster. -/
theorem clamped_index_lt (cx cy : Int) (w h : Nat) (hx0 : 0 ≤ cx) (hx1 : cx < w)
    (hy0 : 0 ≤ cy) (hy1 : cy < h) : (cy * w + cx).toNat < w * h := by
  obtain ⟨x, rfl⟩ := Int.eq_ofNat_of_zero_le hx0
  obtain ⟨y, rfl⟩ := Int.eq_ofNat_of_zero_le hy0
  have hx : x < w := by exact_mod_cast hx1
  have hy : y < h := by exact_mod_cast hy1
  have e : ((y : Int) * (w : Int) + (x : Int)).toNat = y * w + x := by
    have : ((y : Int) * (w : Int) + (x : Int)) = ((y * w + x : Nat) : Int) := by push_cast; ring
    rw [this, Int.toNat_natCast]
  rw [e]
  calc y * w + x < y * w + w := by omega
    _ = (y + 1) * w := by ring
    _ ≤ h * w := Nat.mul_le_mul_right _ hy
    _ = w * h := Nat.mul_comm _ _

/-- Every pixel that `reduce` reads from a constant raster is the constant. -/
theorem reduceTap_replicate (px : LPPixel) (w h outX outY m n : Nat)
    (hw : 1 ≤ w) (hh : 1 ≤ h) :
    reduceTap (List.replicate (w * h) px) w h outX outY m n = px := by
  unfold reduceTap reduceIndex
  obtain ⟨x0, x1⟩ := clampIndex_range (2 * (outX : Int) + (m : Int) - 2) w hw
  obtain ⟨y0, y1⟩ := clampIndex_range (2 * (outY : Int) + (n : Int) - 2) h hh
  exact getD_replicate_lt _ _ _ _ (clamped_index_lt _ _ w h x0 x1 y0 y1)

/-- Every pixel that `expand` reads from a constant raster is the constant. -/
theorem expandTap_replicate (px : LPPixel) (inW inH outX outY m n : Nat)
    (hw : 1 ≤ inW) (hh : 1 ≤ inH) :
    expandTap (List.replicate (inW * inH) px) inW inH outX outY m n = px := by
  unfold expandTap expandIndex
  obtain ⟨x0, x1⟩ := clampIndex_range (((outX : Int) - ((m : Int) - 2)) >>> (1 : Nat)) inW hw
  obtain ⟨y0, y1⟩ := clampIndex_range (((outY : Int) - ((n : Int) - 2)) >>> (1 : Nat)) inH hh
  exact getD_replicate_lt _ _ _ _ (clamped_index_lt _ _ inW inH x0 x1 y0 y1)

/-- The output pixel of `reduce` on a constant opaque raster. -/
theorem reducePixel_replicate (v : Int) (w h outX outY : Nat) (hw : 1 ≤ w) (hh : 1 ≤ h)
    (hv : -32768 ≤ v ∧ v ≤ 32767) :
    reducePixel (List.replicate (w * h) ⟨v, v, v, 255⟩) w h outY outX = ⟨v, v, v, 255⟩ := by
  have ht := fun m n => reduceTap_replicate ⟨v, v, v, 255⟩ w h outX outY m n hw hh
  have hop : ∃ m n, m < 5 ∧ n < 5 ∧
      (reduceTap (List.replicate (w * h) ⟨v, v, v, 255⟩) w h outX outY m n).a = 255 :=
    ⟨0, 0, by decide, by decide, by rw [ht]⟩
  obtain ⟨er, eg, eb, _⟩ := reduceAcc_eq (List.replicate (w * h) ⟨v, v, v, 255⟩) w h outX outY
  have hne : (reduceAcc (List.replicate (w * h) ⟨v, v, v, 255⟩) w h outX outY).noContrib ≠ 0 := by
    intro h0
    exact (noContrib_eq_zero_iff _ w h outX outY).mp h0 0 0 (by decide) (by decide)
      (by rw [ht])
  unfold reducePixel
  simp only [er, eg, eb, if_neg hne]
  rw [reduce_channel_const (fun p => p.r) _ w h outX outY v hv hop
      (fun m _ n _ _ => by rw [ht]),
    reduce_channel_const (fun p => p.g) _ w h outX outY v hv hop
      (fun m _ n _ _ => by rw [ht]),
    reduce_channel_const (fun p => p.b) _ w h outX outY v hv hop
      (fun m _ n _ _ => by rw [ht])]

/-- `reduce` maps a constant opaque raster to the constant opaque raster of half the size. -/
theorem reduce_replicate (v : Int) (w h : Nat) (hw : 1 ≤ w) (hh : 1 ≤ h)
    (hv : -32768 ≤ v ∧ v ≤ 32767) :
    reduce (List.replicate (w * h) ⟨v, v, v, 255⟩) w h =
      List.replicate ((w >>> 1) * (h >>> 1)) ⟨v, v, v, 255⟩ := by
  apply ext_getD default
  · rw [reduce_length, List.length_replicate]
  · intro i hi
    rw [reduce_length] at hi
    rw [reduce_getD _ w h i hi, getD_replicate_lt _ _ _ _ hi]
    exact reducePixel_replicate v w h _ _ hw hh hv

/-- The increment of `expand` on a constant raster is the constant. -/
theorem expandDelta_replicate (px : LPPixel) (v : Int) (inW inH outX outY : Nat)
    (hw : 1 ≤ inW) (hh : 1 ≤ inH) (hv : -32768 ≤ v ∧ v ≤ 32767)
    (hpx : px.r = v ∧ px.g = v ∧ px.b = v) :
    expandDelta (List.replicate (inW * inH) px) inW inH outX outY = (v, v, v) := by
  have ht := fun m n => expandTap_replicate px inW inH outX outY m n hw hh
  obtain ⟨er, eg, eb⟩ := expandAcc_eq (List.replicate (inW * inH) px) inW inH outX outY
  unfold expandDelta
  simp only [er, eg, eb]
  rw [expandSum_const (fun p => p.r) _ inW inH outX outY v (fun m n _ _ => by rw [ht]; exact hpx.1),
    expandSum_const (fun p => p.g) _ inW inH outX outY v
      (fun m n _ _ => by rw [ht]; exact hpx.2.1),
    expandSum_const (fun p => p.b) _ inW inH outX outY v
      (fun m n _ _ => by rw [ht]; exact hpx.2.2),
    rint_intCast, toInt16_of_range v hv.1 hv.2]

/-- C7: for `wd, hd >= 2` and `0 <= v <= 255`, `reduce` maps the constant opaque
`wd x hd` raster of value `v` to the constant raster `v` of size
`floor(wd/2) x floor(hd/2)`, and `expand` of that raster in add mode into an all-zero
`wd x hd` destination leaves every destination channel (interior or not) equal to `v`. -/
theorem reduce_expand_dc_gain (wd hd : Nat) (v : Int) (hw : 2 ≤ wd) (hh : 2 ≤ hd)
    (hv : 0 ≤ v ∧ v ≤ 255) :
    reduce (List.replicate (wd * hd) ⟨v, v, v, 255⟩) wd hd =
      List.replicate ((wd / 2) * (hd / 2)) ⟨v, v, v, 255⟩ ∧
    ∀ x y, x < wd → y < hd →
      ((expand (reduce (List.replicate (wd * hd) ⟨v, v, v, 255⟩) wd hd) (wd >>> 1) (hd >>> 1)
          (List.replicate (wd * hd) ⟨0, 0, 0, 0⟩) wd hd true).getD (y * wd + x) default).r = v ∧
      ((expand (reduce (List.replicate (wd * hd) ⟨v, v, v, 255⟩) wd hd) (wd >>> 1) (hd >>> 1)
          (List.replicate (wd * hd) ⟨0, 0, 0, 0⟩) wd hd true).getD (y * wd + x) default).g = v ∧
      ((expand (reduce (List.replicate (wd * hd) ⟨v, v, v, 255⟩) wd hd) (wd >>> 1) (hd >>> 1)
          (List.replicate (wd * hd) ⟨0, 0, 0, 0⟩) wd hd true).getD (y * wd + x) default).b = v := by
  have hv2 : -32768 ≤ v ∧ v ≤ 32767 := by omega
  have e1 : wd >>> 1 = wd / 2 := by rw [Nat.shiftRight_eq_div_pow]
  have e2 : hd >>> 1 = hd / 2 := by rw [Nat.shiftRight_eq_div_pow]
  have hr := reduce_replicate v wd hd (by omega) (by omega) hv2
  refine ⟨by rw [hr, e1, e2], fun x y hx hy => ?_⟩
  have hz : wd * hd ≤ (List.replicate (wd * hd) (⟨0, 0, 0, 0⟩ : LPPixel)).length := by
    rw [List.length_replicate]
  have hidx : y * wd + x < wd * hd := by
    calc y * wd + x < y * wd + wd := by omega
      _ = (y + 1) * wd := by ring
      _ ≤ hd * wd := Nat.mul_le_mul_right _ hy
      _ = wd * hd := Nat.mul_comm _ _
  rw [hr, expand_at _ _ _ _ wd hd true x y hx hy hz, getD_replicate_lt _ _ _ _ hidx]
  unfold expandPixel
  rw [expandDelta_replicate ⟨v, v, v, 255⟩ v (wd >>> 1) (hd >>> 1) x y (by omega) (by omega)
    hv2 ⟨rfl, rfl, rfl⟩]
  simp only [if_true, zero_add]
  rw [toInt16_of_range v hv2.1 hv2.2]
  exact ⟨rfl, rfl, rfl⟩

/-- Applying `reduce_expand_dc_gain` to the 4x4 raster of value 200. -/
theorem reduce_expand_dc_gain_witness :
    (2 ≤ 4 ∧ 2 ≤ 4 ∧ (0 : Int) ≤ 200 ∧ (200 : Int) ≤ 255) ∧
    reduce (List.replicate (4 * 4) ⟨200, 200, 200, 255⟩) 4 4 =
      List.replicate ((4 / 2) * (4 / 2)) ⟨200, 200, 200, 255⟩ :=
  ⟨by decide, (reduce_expand_dc_gain 4 4 200 (by decide) (by decide) (by decide)).1⟩

/-! ## The Gaussian pyramid -/

theorem roiWidth_eq (G : Globals) (h : G.WF) : roiWidth G = G.ROILastX + 1 - G.ROIFirstX := by
  unfold Globals.WF at h
  unfold roiWidth
  omega

theorem roiWidth_lt (G : Globals) : roiWidth G < 4294967296 := by
  unfold roiWidth; omega

theorem roiHeight_lt (G : Globals) : roiHeight G < 4294967296 := by
  unfold roiHeight; omega

/-- The state of the loop of `gaussianPyramid` after `k` iterations. -/
theorem gaussian_fold (g0 : List LPPixel) (rw rh k : Nat) :
    ((List.range' 1 k).foldl gaussianStep ⟨[g0], g0, rw, rh⟩).v.length = k + 1 ∧
    ((List.range' 1 k).foldl gaussianStep ⟨[g0], g0, rw, rh⟩).g =
      ((List.range' 1 k).foldl gaussianStep ⟨[g0], g0, rw, rh⟩).v.getD k [] ∧
    ((List.range' 1 k).foldl gaussianStep ⟨[g0], g0, rw, rh⟩).roiWidth = rw >>> k ∧
    ((List.range' 1 k).foldl gaussianStep ⟨[g0], g0, rw, rh⟩).roiHeight = rh >>> k ∧
    ((List.range' 1 k).foldl gaussianStep ⟨[g0], g0, rw, rh⟩).v.getD 0 [] = g0 ∧
    ∀ l, l < k → ((List.range' 1 k).foldl gaussianStep ⟨[g0], g0, rw, rh⟩).v.getD (l + 1) [] =
      reduce (((List.range' 1 k).foldl gaussianStep ⟨[g0], g0, rw, rh⟩).v.getD l [])
        (rw >>> l) (rh >>> l) := by
  refine foldl_range'_inv
    (fun k (st : GPState) => st.v.length = k + 1 ∧ st.g = st.v.getD k [] ∧
      st.roiWidth = rw >>> k ∧ st.roiHeight = rh >>> k ∧ st.v.getD 0 [] = g0 ∧
      ∀ l, l < k → st.v.getD (l + 1) [] = reduce (st.v.getD l []) (rw >>> l) (rh >>> l))
    gaussianStep 1 k ⟨[g0], g0, rw, rh⟩ ?_ ?_
  · refine ⟨rfl, rfl, rfl, rfl, rfl, fun l hl => ?_⟩
    omega
  · rintro j st _ ⟨h1, h2, h3, h4, h5, h6⟩
    unfold gaussianStep
    simp only
    have ha : ∀ l, l ≤ j → (st.v ++ [reduce st.g st.roiWidth st.roiHeight]).getD l [] =
        st.v.getD l [] := by
      intro l hl
      rw [List.getD_append _ _ _ _ (by omega)]
    have hb : (st.v ++ [reduce st.g st.roiWidth st.roiHeight]).getD (j + 1) [] =
        reduce st.g st.roiWidth st.roiHeight := by
      rw [List.getD_append_right _ _ _ _ (by omega), h1]
      simp
    refine ⟨by simp [h1], hb.symm, ?_, ?_, ?_, fun l hl => ?_⟩
    · rw [h3, ← Nat.shiftRight_add]
    · rw [h4, ← Nat.shiftRight_add]
    · rw [ha 0 (by omega)]; exact h5
    · rcases Nat.lt_or_ge l j with hlt | hge
      · rw [ha (l + 1) (by omega), ha l (by omega)]
        exact h6 l hlt
      · have : l = j := by omega
        subst this
        rw [hb, ha l (le_refl l), h2, h3, h4]

theorem and_255 (x : Nat) : x &&& 0xff = x % 256 := by
  have := Nat.and_pow_two_sub_one_eq_mod x 8
  simpa using this

theorem fromTIFF_eq (pixel : Nat) :
    fromTIFF pixel =
      ⟨((pixel % 256 : Nat) : Int), ((pixel / 256 % 256 : Nat) : Int),
        ((pixel / 65536 % 256 : Nat) : Int), ((pixel / 16777216 % 256 : Nat) : Int)⟩ := by
  unfold fromTIFF TIFFGetR TIFFGetG TIFFGetB TIFFGetA
  simp only [and_255, Nat.shiftRight_eq_div_pow]

theorem gaussianPyramid_length (G : Globals) (image : List Nat) (N : Nat) :
    (gaussianPyramid G image N).length = N - 1 + 1 :=
  (gaussian_fold (gaussianLevel0 G image) (roiWidth G) (roiHeight G) (N - 1)).1

theorem gaussianPyramid_zero (G : Globals) (image : List Nat) (N : Nat) :
    (gaussianPyramid G image N).getD 0 [] = gaussianLevel0 G image :=
  (gaussian_fold (gaussianLevel0 G image) (roiWidth G) (roiHeight G) (N - 1)).2.2.2.2.1

theorem gaussianPyramid_succ (G : Globals) (image : List Nat) (N l : Nat) (hl : l + 1 < N) :
    (gaussianPyramid G image N).getD (l + 1) [] =
      reduce ((gaussianPyramid G image N).getD l []) (roiWidth G >>> l) (roiHeight G >>> l) :=
  (gaussian_fold (gaussianLevel0 G image) (roiWidth G) (roiHeight G) (N - 1)).2.2.2.2.2 l
    (by omega)

/-- The index `y * OutputWidth + x` of a position of the region of interest is below
`2^32` when the canvas has at most `2^32` pixels: the `uint32` product and sum of the
code do not wrap around. -/
theorem canvas_index_fits (G : Globals) (hwf : G.WF) (hfit : G.Addressable) (x y : Nat)
    (hx : x ≤ G.ROILastX) (hy : y ≤ G.ROILastY) : y * G.OutputWidth + x < 4294967296 := by
  unfold Globals.WF at hwf
  unfold Globals.Addressable at hfit
  have h1 : (y + 1) * G.OutputWidth ≤ G.OutputHeight * G.OutputWidth :=
    Nat.mul_le_mul_right _ (by omega)
  have h2 : (y + 1) * G.OutputWidth = y * G.OutputWidth + G.OutputWidth := by ring
  have h3 : G.OutputHeight * G.OutputWidth = G.OutputWidth * G.OutputHeight :=
    Nat.mul_comm _ _
  omega

theorem forall_mem_of_getD {α : Type} (P : α → Prop) (d : α) (l : List α)
    (h : ∀ i, i < l.length → P (l.getD i d)) : ∀ p ∈ l, P p := by
  intro p hp
  obtain ⟨i, hi, rfl⟩ := List.getElem_of_mem hp
  have := h i hi
  rwa [List.getD_eq_getElem?_getD, List.getElem?_eq_getElem hi] at this

theorem Is8.valid (p : LPPixel) (h : p.Is8) : p.Valid := by
  unfold LPPixel.Is8 at h
  unfold LPPixel.Valid
  omega

theorem fromTIFF_is8 (pixel : Nat) : (fromTIFF pixel).Is8 := by
  rw [fromTIFF_eq]
  unfold LPPixel.Is8
  simp only
  omega

/-- A channel of `reduce` lies in `[0, 255]` when the opaque inputs do. -/
theorem reduce_channel_is8 (ch : LPPixel → Int) (inp : List LPPixel) (w h outX outY : Nat)
    (hb : ∀ m n, m < 5 → n < 5 → 0 ≤ ch (reduceTap inp w h outX outY m n) ∧
      ch (reduceTap inp w h outX outY m n) ≤ 255) :
    0 ≤ toInt16 (rint (reduceAdjust (reduceAcc inp w h outX outY).noContrib
        (opaqueSum ch inp w h outX outY))) ∧
    toInt16 (rint (reduceAdjust (reduceAcc inp w h outX outY).noContrib
        (opaqueSum ch inp w h outX outY))) ≤ 255 := by
  by_cases h0 : (reduceAcc inp w h outX outY).noContrib = 0
  · unfold reduceAdjust
    rw [if_pos h0]
    simp [rint, toInt16]
  · have hop : ∃ m n, m < 5 ∧ n < 5 ∧ (reduceTap inp w h outX outY m n).a = 255 := by
      by_contra hcon
      apply h0
      rw [noContrib_eq_zero_iff]
      intro m n hm hn ho
      exact hcon ⟨m, n, hm, hn, ho⟩
    rw [reduceAdjust_eq inp w h outX outY _ hop]
    obtain ⟨h1, h2⟩ := mean_bounds ch inp w h outX outY 0 255 hop
      (fun m n hm hn _ => hb m n hm hn)
    obtain ⟨h3, h4⟩ := rint_bounds _ 0 255 h1 h2
    rw [toInt16_of_range _ (by omega) (by omega)]
    exact ⟨h3, h4⟩

theorem reduceTap_is8 (inp : List LPPixel) (w h outX outY m n : Nat)
    (h8 : ∀ p ∈ inp, p.Is8) : (reduceTap inp w h outX outY m n).Is8 := by
  unfold reduceTap
  rcases getD_mem_or_default inp
    (reduceIndex outY n h * w + reduceIndex outX m w).toNat default with hm | hd
  · exact h8 _ hm
  · rw [hd]; decide

theorem reducePixel_is8 (inp : List LPPixel) (w h outX outY : Nat)
    (h8 : ∀ p ∈ inp, p.Is8) : (reducePixel inp w h outY outX).Is8 := by
  have ht := fun m n => reduceTap_is8 inp w h outX outY m n h8
  obtain ⟨er, eg, eb, _⟩ := reduceAcc_eq inp w h outX outY
  unfold reducePixel LPPixel.Is8
  simp only [er, eg, eb]
  exact ⟨reduce_channel_is8 (fun p => p.r) inp w h outX outY (fun m n _ _ => (ht m n).1),
    reduce_channel_is8 (fun p => p.g) inp w h outX outY (fun m n _ _ => (ht m n).2.1),
    reduce_channel_is8 (fun p => p.b) inp w h outX outY (fun m n _ _ => (ht m n).2.2)⟩

theorem reduce_is8 (inp : List LPPixel) (w h : Nat) (h8 : ∀ p ∈ inp, p.Is8) :
    ∀ p ∈ reduce inp w h, p.Is8 := by
  refine forall_mem_of_getD LPPixel.Is8 default _ ?_
  intro i hi
  rw [reduce_length] at hi
  rw [reduce_getD inp w h i hi]
  exact reducePixel_is8 inp w h _ _ h8

theorem gaussianLevel0_is8 (G : Globals) (image : List Nat) :
    ∀ p ∈ gaussianLevel0 G image, p.Is8 := by
  refine forall_mem_of_getD LPPixel.Is8 default _ ?_
  intro i hi
  unfold gaussianLevel0 roiYs roiXs at hi ⊢
  rw [(sweep_spec _ _ _ _ _ _).2]
  split_ifs with hc
  · exact fromTIFF_is8 _
  · rcases getD_mem_or_default (List.replicate (roiWidth G * roiHeight G) (default : LPPixel))
      i default with hm | hd
    · rw [List.eq_of_mem_replicate hm]; decide
    · rw [hd]; decide

/-- Every channel of every level of the Gaussian pyramid lies in `[0, 255]`. -/
theorem gaussianPyramid_is8 (G : Globals) (image : List Nat) (N l : Nat) (hl : l < N) :
    ∀ p ∈ (gaussianPyramid G image N).getD l [], p.Is8 := by
  induction l with
  | zero => rw [gaussianPyramid_zero]; exact gaussianLevel0_is8 G image
  | succ l ih =>
    rw [gaussianPyramid_succ G image N l hl]
    exact reduce_is8 _ _ _ (ih (by omega))

/-- The increment of `expand` lies in `[0, 255]` when the source is 8-bit. -/
theorem expandDelta_is8 (inp : List LPPixel) (inW inH outX outY : Nat)
    (h8 : ∀ p ∈ inp, p.Is8) :
    (0 ≤ (expandDelta inp inW inH outX outY).1 ∧ (expandDelta inp inW inH outX outY).1 ≤ 255) ∧
    (0 ≤ (expandDelta inp inW inH outX outY).2.1 ∧
      (expandDelta inp inW inH outX outY).2.1 ≤ 255) ∧
    (0 ≤ (expandDelta inp inW inH outX outY).2.2 ∧
      (expandDelta inp inW inH outX outY).2.2 ≤ 255) := by
  have ht : ∀ m n, (expandTap inp inW inH outX outY m n).Is8 := by
    intro m n
    unfold expandTap
    rcases getD_mem_or_default inp
      (expandIndex outY n inH * inW + expandIndex outX m inW).toNat default with hm | hd
    · exact h8 _ hm
    · rw [hd]; decide
  rw [expandDelta_eq inp inW inH outX outY (fun p hp => Is8.valid p (h8 p hp))]
  obtain ⟨r1, r2⟩ := expandSum_bounds (fun p => p.r) inp inW inH outX outY 0 255
    (fun m n _ _ => (ht m n).1)
  obtain ⟨g1, g2⟩ := expandSum_bounds (fun p => p.g) inp inW inH outX outY 0 255
    (fun m n _ _ => (ht m n).2.1)
  obtain ⟨b1, b2⟩ := expandSum_bounds (fun p => p.b) inp inW inH outX outY 0 255
    (fun m n _ _ => (ht m n).2.2)
  exact ⟨rint_bounds _ 0 255 r1 r2, rint_bounds _ 0 255 g1 g2, rint_bounds _ 0 255 b1 b2⟩

/-! ## The Laplacian pyramid -/

theorem shift_pos_bound (n k : Nat) (hn : n < 4294967296) (hk : 1 ≤ n >>> k) : k < 32 := by
  rw [Nat.shiftRight_eq_div_pow] at hk
  by_contra hcon
  have h32 : 32 ≤ k := by omega
  have h1 : 2 ^ 32 ≤ 2 ^ k := Nat.pow_le_pow_right (by norm_num) h32
  have h2 : n < 2 ^ k := by
    have : (2 : Nat) ^ 32 = 4294967296 := by norm_num
    omega
  have h3 : n / 2 ^ k = 0 := Nat.div_eq_of_lt h2
  omega

/-- The state of the loop of `laplacianPyramid` after `k` iterations: the levels
below `k` hold the difference with the expansion of the unmodified next level, the
other levels are untouched. -/
theorem laplacian_fold (rw rh : Nat) (gp : List (List LPPixel)) (k : Nat)
    (hk : k + 1 ≤ gp.length) :
    ((List.range k).foldl (expandLevel rw rh false) gp).length = gp.length ∧
    (∀ l, l < k → ((List.range k).foldl (expandLevel rw rh false) gp).getD l [] =
      expand (gp.getD (l + 1) []) (rw >>> (l + 1)) (rh >>> (l + 1))
        (gp.getD l []) (rw >>> l) (rh >>> l) false) ∧
    (∀ l, k ≤ l → ((List.range k).foldl (expandLevel rw rh false) gp).getD l [] =
      gp.getD l []) := by
  rw [List.range_eq_range']
  have key := foldl_range'_inv
    (fun j (p : List (List LPPixel)) => j + 1 ≤ gp.length → (p.length = gp.length ∧
      (∀ l, l < j → p.getD l [] =
        expand (gp.getD (l + 1) []) (rw >>> (l + 1)) (rh >>> (l + 1))
          (gp.getD l []) (rw >>> l) (rh >>> l) false) ∧
      (∀ l, j ≤ l → p.getD l [] = gp.getD l [])))
    (expandLevel rw rh false) 0 k gp ?_ ?_
  · exact key hk
  · intro _
    exact ⟨rfl, fun l hl => by omega, fun l _ => rfl⟩
  · intro j p _ ih hj
    obtain ⟨h1, h2, h3⟩ := ih (by omega)
    rw [Nat.zero_add]
    unfold expandLevel
    refine ⟨by rw [List.length_set, h1], fun l hl => ?_, fun l hl => ?_⟩
    · rw [getD_set]
      by_cases hlj : j = l
      · subst hlj
        rw [if_pos ⟨rfl, by omega⟩, h3 (j + 1) (by omega), h3 j (le_refl j)]
      · rw [if_neg (fun h => hlj h.1)]
        exact h2 l (by omega)
    · rw [getD_set, if_neg (fun h => by omega)]
      exact h3 l (by omega)

/-- The loop bound `levels - 1` of `laplacianPyramid` when the last level is not empty. -/
theorem laplacian_bound (G : Globals) (N : Nat) (hN : 1 ≤ N)
    (hw : 1 ≤ roiWidth G >>> (N - 1)) :
    (N + 4294967296 - 1) % 4294967296 = N - 1 := by
  have := shift_pos_bound (roiWidth G) (N - 1) (roiWidth_lt G) hw
  omega

theorem laplacianPyramid_lower (G : Globals) (image : List Nat) (N l : Nat) (hN : 1 ≤ N)
    (hw : 1 ≤ roiWidth G >>> (N - 1)) (hl : l + 1 < N) :
    (laplacianPyramid G image N).getD l [] =
      expand ((gaussianPyramid G image N).getD (l + 1) [])
        (roiWidth G >>> (l + 1)) (roiHeight G >>> (l + 1))
        ((gaussianPyramid G image N).getD l []) (roiWidth G >>> l) (roiHeight G >>> l) false := by
  unfold laplacianPyramid
  rw [laplacian_bound G N hN hw]
  have hlen := gaussianPyramid_length G image N
  exact (laplacian_fold _ _ _ (N - 1) (by omega)).2.1 l (by omega)

theorem laplacianPyramid_top (G : Globals) (image : List Nat) (N l : Nat) (hN : 1 ≤ N)
    (hw : 1 ≤ roiWidth G >>> (N - 1)) (hl : N - 1 ≤ l) :
    (laplacianPyramid G image N).getD l [] = (gaussianPyramid G image N).getD l [] := by
  unfold laplacianPyramid
  rw [laplacian_bound G N hN hw]
  have hlen := gaussianPyramid_length G image N
  exact (laplacian_fold _ _ _ (N - 1) (by omega)).2.2 l hl

theorem getD_is8 (l : List LPPixel) (i : Nat) (h8 : ∀ p ∈ l, p.Is8) :
    (l.getD i default).Is8 := by
  rcases getD_mem_or_default l i default with hm | hd
  · exact h8 _ hm
  · rw [hd]; decide

theorem index_div_mod (ow y x : Nat) (hx : x < ow) :
    (y * ow + x) / ow = y ∧ (y * ow + x) % ow = x := by
  obtain ⟨hd, hm⟩ := div_mod_of_row ow y (y * ow + x) (by omega) (by omega)
  exact ⟨hd, by omega⟩

theorem index_eq_iff (ow y x idx : Nat) (hx : x < ow) :
    (idx / ow = y ∧ idx % ow = x) ↔ y * ow + x = idx := by
  constructor
  · rintro ⟨h1, h2⟩
    have := Nat.div_add_mod idx ow
    rw [h1, h2, Nat.mul_comm] at this
    exact this
  · intro h
    rw [← h]
    exact index_div_mod ow y x hx

theorem copy_step (G : Globals) (mask : List MaskPixel) (p0 : List LPPixel) (dest : List Nat)
    (hwf : G.WF) (j i : Nat) (st : CopyState)
    (hi : i < G.ROILastX + 1 - G.ROIFirstX)
    (h : CopyInv G mask p0 dest j i st) :
    CopyInv G mask p0 dest j (i + 1)
      (collapseCopyStep G mask (G.ROIFirstY + j) st (G.ROIFirstX + i)) := by
  obtain ⟨h1, h2, h3, h4, h5⟩ := h
  unfold Globals.WF at hwf
  have hxw : G.ROIFirstX + i < G.OutputWidth := by omega
  obtain ⟨kd, km⟩ := index_div_mod G.OutputWidth (G.ROIFirstY + j) (G.ROIFirstX + i) hxw
  have hpx : st.p0.getD st.pixel default =
      p0.getD (j * (G.ROILastX + 1 - G.ROIFirstX) + i) default := by
    have c1 : ¬ (j * (G.ROILastX + 1 - G.ROIFirstX) + i <
        j * (G.ROILastX + 1 - G.ROIFirstX) + i ∧
        j * (G.ROILastX + 1 - G.ROIFirstX) + i < p0.length) := by omega
    rw [h4, h1, if_neg c1]
  unfold collapseCopyStep
  simp only
  refine ⟨by rw [h1]; ring, by rw [List.length_set, h2], by rw [List.length_set, h3],
    fun t => ?_, fun idx => ?_⟩
  · rw [getD_set, h2, hpx, h1]
    by_cases ht : j * (G.ROILastX + 1 - G.ROIFirstX) + i = t ∧
        j * (G.ROILastX + 1 - G.ROIFirstX) + i < p0.length
    · rw [if_pos ht]
      obtain ⟨rfl, hlt⟩ := ht
      have hc : j * (G.ROILastX + 1 - G.ROIFirstX) + i <
          j * (G.ROILastX + 1 - G.ROIFirstX) + (i + 1) ∧
          j * (G.ROILastX + 1 - G.ROIFirstX) + i < p0.length := ⟨by omega, hlt⟩
      rw [if_pos hc]
    · rw [if_neg ht, h4]
      by_cases hc : t < j * (G.ROILastX + 1 - G.ROIFirstX) + i ∧ t < p0.length
      · have hc2 : t < j * (G.ROILastX + 1 - G.ROIFirstX) + (i + 1) ∧ t < p0.length :=
          ⟨by omega, hc.2⟩
        rw [if_pos hc, if_pos hc2]
      · have hc2 : ¬ (t < j * (G.ROILastX + 1 - G.ROIFirstX) + (i + 1) ∧ t < p0.length) := by
          omega
        rw [if_neg hc, if_neg hc2]
  · rw [getD_set, h3, hpx]
    have hiff := index_eq_iff G.OutputWidth (G.ROIFirstY + j) (G.ROIFirstX + i) idx hxw
    by_cases hk : (G.ROIFirstY + j) * G.OutputWidth + (G.ROIFirstX + i) = idx ∧
        (G.ROIFirstY + j) * G.OutputWidth + (G.ROIFirstX + i) < dest.length
    · rw [if_pos hk]
      obtain ⟨hk1, hk2⟩ := hk
      have hdone : copyDone G j (i + 1) idx ∧ idx < dest.length := by
        refine ⟨?_, by omega⟩
        unfold copyDone
        right
        rw [← hk1, kd, km]
        omega
      rw [if_pos hdone]
      unfold copyValue
      rw [← hk1, kd, km]
      have e : (G.ROIFirstY + j - G.ROIFirstY) * (G.ROILastX + 1 - G.ROIFirstX) +
          (G.ROIFirstX + i - G.ROIFirstX) = j * (G.ROILastX + 1 - G.ROIFirstX) + i := by
        rw [Nat.add_sub_cancel_left, Nat.add_sub_cancel_left]
      rw [e]
    · rw [if_neg hk, h5]
      by_cases hin : idx < dest.length
      · have hne : ¬ ((G.ROIFirstY + j) * G.OutputWidth + (G.ROIFirstX + i) = idx) :=
          fun hc => hk ⟨hc, by omega⟩
        have hne2 : ¬ (idx / G.OutputWidth = G.ROIFirstY + j ∧
            idx % G.OutputWidth = G.ROIFirstX + i) := fun hc => hne (hiff.mp hc)
        by_cases hd : copyDone G j i idx
        · have hd2 : copyDone G j (i + 1) idx := by
            unfold copyDone at hd ⊢
            omega
          have c1 : copyDone G j i idx ∧ idx < dest.length := ⟨hd, hin⟩
          have c2 : copyDone G j (i + 1) idx ∧ idx < dest.length := ⟨hd2, hin⟩
          rw [if_pos c1, if_pos c2]
        · have hd2 : ¬ copyDone G j (i + 1) idx := by
            unfold copyDone at hd ⊢
            omega
          have c1 : ¬ (copyDone G j i idx ∧ idx < dest.length) := fun hc => hd hc.1
          have c2 : ¬ (copyDone G j (i + 1) idx ∧ idx < dest.length) := fun hc => hd2 hc.1
          rw [if_neg c1, if_neg c2]
      · have c1 : ¬ (copyDone G j i idx ∧ idx < dest.length) := fun hc => hin hc.2
        have c2 : ¬ (copyDone G j (i + 1) idx ∧ idx < dest.length) := fun hc => hin hc.2
        rw [if_neg c1, if_neg c2]

theorem copy_row (G : Globals) (mask : List MaskPixel) (p0 : List LPPixel) (dest : List Nat)
    (hwf : G.WF) (j : Nat) (st : CopyState) (h : CopyInv G mask p0 dest j 0 st) :
    CopyInv G mask p0 dest (j + 1) 0
      ((roiXs G).foldl (collapseCopyStep G mask (G.ROIFirstY + j)) st) := by
  unfold roiXs
  have key := foldl_range'_inv (fun i st => CopyInv G mask p0 dest j i st)
    (collapseCopyStep G mask (G.ROIFirstY + j)) G.ROIFirstX (G.ROILastX + 1 - G.ROIFirstX) st h
    (fun i st hi hinv => copy_step G mask p0 dest hwf j i st hi hinv)
  obtain ⟨h1, h2, h3, h4, h5⟩ := key
  have e : (j + 1) * (G.ROILastX + 1 - G.ROIFirstX) + 0 =
      j * (G.ROILastX + 1 - G.ROIFirstX) + (G.ROILastX + 1 - G.ROIFirstX) := by ring
  refine ⟨by rw [h1, e], h2, h3, fun t => ?_, fun idx => ?_⟩
  · rw [h4, e]
  · rw [h5]
    by_cases hd : copyDone G j (G.ROILastX + 1 - G.ROIFirstX) idx
    · have hd2 : copyDone G (j + 1) 0 idx := by
        unfold copyDone at hd ⊢
        omega
      by_cases hin : idx < dest.length
      · have c1 : copyDone G j (G.ROILastX + 1 - G.ROIFirstX) idx ∧ idx < dest.length :=
          ⟨hd, hin⟩
        have c2 : copyDone G (j + 1) 0 idx ∧ idx < dest.length := ⟨hd2, hin⟩
        rw [if_pos c1, if_pos c2]
      · have c1 : ¬ (copyDone G j (G.ROILastX + 1 - G.ROIFirstX) idx ∧ idx < dest.length) :=
          fun hc => hin hc.2
        have c2 : ¬ (copyDone G (j + 1) 0 idx ∧ idx < dest.length) := fun hc => hin hc.2
        rw [if_neg c1, if_neg c2]
    · have hd2 : ¬ copyDone G (j + 1) 0 idx := by
        unfold copyDone at hd ⊢
        omega
      have c1 : ¬ (copyDone G j (G.ROILastX + 1 - G.ROIFirstX) idx ∧ idx < dest.length) :=
        fun hc => hd hc.1
      have c2 : ¬ (copyDone G (j + 1) 0 idx ∧ idx < dest.length) := fun hc => hd2 hc.1
      rw [if_neg c1, if_neg c2]

/-- Effect of the copy loop of `collapsePyramid`. -/
theorem collapseCopy_spec (G : Globals) (mask : List MaskPixel) (p0 : List LPPixel)
    (dest : List Nat) (hwf : G.WF) :
    CopyInv G mask p0 dest (G.ROILastY + 1 - G.ROIFirstY) 0 (collapseCopy G mask p0 dest) := by
  unfold collapseCopy roiYs
  refine foldl_range'_inv (fun j st => CopyInv G mask p0 dest j 0 st)
    (fun st y => (roiXs G).foldl (collapseCopyStep G mask y) st) G.ROIFirstY
    (G.ROILastY + 1 - G.ROIFirstY) ⟨p0, dest, 0⟩ ?_
    (fun j st _ hinv => copy_row G mask p0 dest hwf j st hinv)
  refine ⟨by simp, rfl, rfl, fun t => ?_, fun idx => ?_⟩
  · have c1 : ¬ (t < 0 * (G.ROILastX + 1 - G.ROIFirstX) + 0 ∧ t < p0.length) := by omega
    rw [if_neg c1]
  · have hd : ¬ copyDone G 0 0 idx := by
      unfold copyDone
      omega
    have c1 : ¬ (copyDone G 0 0 idx ∧ idx < dest.length) := fun hc => hd hc.1
    rw [if_neg c1]

theorem clamp255_range (c : Int) : 0 ≤ clamp255 c ∧ clamp255 c ≤ 255 := by
  unfold clamp255; omega

theorem bitand32_255 (c : Int) (h0 : 0 ≤ c) (h1 : c ≤ 255) : bitand32 c 0xFF = c.toNat := by
  unfold bitand32 bits32
  have e1 : c % 4294967296 = c := by omega
  have e2 : ((0xFF : Int) % 4294967296).toNat = 0xff := by decide
  rw [e1, e2, and_255]
  omega

/-- The bitwise packing of three 8-bit channels and the alpha byte 255, as a sum. -/
theorem pack_or_eq_add (r g b : Nat) (hr : r < 256) (hg : g < 256) (hb : b < 256) :
    r ||| (g <<< 8) ||| (b <<< 16) ||| (0xFF <<< 24) =
      r + g * 256 + b * 65536 + 255 * 16777216 := by
  have s1 : r ||| (g <<< 8) = g * 256 + r := by
    have h := Nat.mul_add_lt_is_or (i := 8) (b := r) (by norm_num; exact hr) g
    rw [Nat.lor_comm, Nat.shiftLeft_eq, Nat.mul_comm g, ← h]
  have s2 : (g * 256 + r) ||| (b <<< 16) = b * 65536 + (g * 256 + r) := by
    have h := Nat.mul_add_lt_is_or (i := 16) (b := g * 256 + r) (by norm_num; omega) b
    rw [Nat.lor_comm, Nat.shiftLeft_eq, Nat.mul_comm b, ← h]
  have s3 : (b * 65536 + (g * 256 + r)) ||| (0xFF <<< 24) =
      255 * 16777216 + (b * 65536 + (g * 256 + r)) := by
    have h := Nat.mul_add_lt_is_or (i := 24) (b := b * 65536 + (g * 256 + r))
      (by norm_num; omega) 255
    rw [Nat.lor_comm, Nat.shiftLeft_eq, Nat.mul_comm 0xFF, ← h]
  rw [s1, s2, s3]
  omega

/-- The `uint32` written by `collapsePyramid` for a clamped pixel. -/
theorem packPixel_clamp (px : LPPixel) :
    packPixel (clampPixel px) =
      (clamp255 px.r).toNat ||| ((clamp255 px.g).toNat <<< 8) |||
        ((clamp255 px.b).toNat <<< 16) ||| (0xFF <<< 24) ∧
    packPixel (clampPixel px) =
      (clamp255 px.r).toNat + (clamp255 px.g).toNat * 256 + (clamp255 px.b).toNat * 65536 +
        255 * 16777216 := by
  obtain ⟨r0, r1⟩ := clamp255_range px.r
  obtain ⟨g0, g1⟩ := clamp255_range px.g
  obtain ⟨b0, b1⟩ := clamp255_range px.b
  have hp := pack_or_eq_add (clamp255 px.r).toNat (clamp255 px.g).toNat (clamp255 px.b).toNat
    (by omega) (by omega) (by omega)
  have e : packPixel (clampPixel px) =
      ((clamp255 px.r).toNat ||| ((clamp255 px.g).toNat <<< 8) |||
        ((clamp255 px.b).toNat <<< 16) ||| (0xFF <<< 24)) % 4294967296 := by
    unfold packPixel clampPixel
    simp only
    rw [bitand32_255 _ r0 r1, bitand32_255 _ g0 g1, bitand32_255 _ b0 b1]
  rw [e, hp]
  constructor <;> omega

theorem roi_index_lt (G : Globals) (hwf : G.WF) (x y : Nat) (hx : x ≤ G.ROILastX)
    (hy : y ≤ G.ROILastY) : y * G.OutputWidth + x < G.OutputWidth * G.OutputHeight := by
  unfold Globals.WF at hwf
  calc y * G.OutputWidth + x < y * G.OutputWidth + G.OutputWidth := by omega
    _ = (y + 1) * G.OutputWidth := by ring
    _ ≤ G.OutputHeight * G.OutputWidth := Nat.mul_le_mul_right _ (by omega)
    _ = G.OutputWidth * G.OutputHeight := Nat.mul_comm _ _

/-- The destination pixel written by `collapsePyramid` at a position of the region
of interest. -/
theorem collapsePyramid_dest (G : Globals) (p : List (List LPPixel)) (dest : List Nat)
    (mask : List MaskPixel) (hwf : G.WF)
    (hdest : dest.length = G.OutputWidth * G.OutputHeight) (x y : Nat)
    (hx0 : G.ROIFirstX ≤ x) (hx1 : x ≤ G.ROILastX) (hy0 : G.ROIFirstY ≤ y)
    (hy1 : y ≤ G.ROILastY) :
    (collapsePyramid G p dest mask).2.getD (y * G.OutputWidth + x) 0 =
      if (mask.getD (y * G.OutputWidth + x) default).a ≠ 255 then 0
      else packPixel (clampPixel (((collapseLevels G p).getD 0 []).getD
        ((y - G.ROIFirstY) * roiWidth G + (x - G.ROIFirstX)) default)) := by
  have hwf2 := hwf
  unfold Globals.WF at hwf2
  obtain ⟨_, _, _, _, h5⟩ := collapseCopy_spec G mask ((collapseLevels G p).getD 0 []) dest hwf
  obtain ⟨kd, km⟩ := index_div_mod G.OutputWidth y x (by omega)
  have hdone : copyDone G (G.ROILastY + 1 - G.ROIFirstY) 0 (y * G.OutputWidth + x) ∧
      y * G.OutputWidth + x < dest.length := by
    refine ⟨?_, by rw [hdest]; exact roi_index_lt G hwf x y hx1 hy1⟩
    unfold copyDone
    rw [kd, km]
    omega
  unfold collapsePyramid
  simp only
  rw [h5, if_pos hdone]
  unfold copyValue
  rw [kd, km, roiWidth_eq G hwf]

/-- C10: after `collapsePyramid`, for a region of interest inside a canvas of at most
`2^32` pixels, the index `y * OutputWidth + x` of every pixel of the region of interest
is below `2^32`, so that the `uint32` index of the code is this one; every such pixel of
`dest` whose mask alpha is not 255 is 0 (zero channels and zero alpha), and every one
whose mask alpha is 255 holds the collapsed level-0 channels, each clamped to
`[0, 255]`, packed as `r | g<<8 | b<<16` with the alpha byte 255. -/
theorem collapsePyramid_output (G : Globals) (p : List (List LPPixel)) (dest : List Nat)
    (mask : List MaskPixel) (hwf : G.WF) (hfit : G.Addressable)
    (hdest : dest.length = G.OutputWidth * G.OutputHeight) :
    ∀ x y, G.ROIFirstX ≤ x → x ≤ G.ROILastX → G.ROIFirstY ≤ y → y ≤ G.ROILastY →
      (y * G.OutputWidth + x) % 4294967296 = y * G.OutputWidth + x ∧
      ((mask.getD (y * G.OutputWidth + x) default).a ≠ 255 →
        (collapsePyramid G p dest mask).2.getD (y * G.OutputWidth + x) 0 = 0) ∧
      ((mask.getD (y * G.OutputWidth + x) default).a = 255 →
        (collapsePyramid G p dest mask).2.getD (y * G.OutputWidth + x) 0 =
          (clamp255 (((collapseLevels G p).getD 0 []).getD
              ((y - G.ROIFirstY) * roiWidth G + (x - G.ROIFirstX)) default).r).toNat |||
            ((clamp255 (((collapseLevels G p).getD 0 []).getD
              ((y - G.ROIFirstY) * roiWidth G + (x - G.ROIFirstX)) default).g).toNat <<< 8) |||
            ((clamp255 (((collapseLevels G p).getD 0 []).getD
              ((y - G.ROIFirstY) * roiWidth G + (x - G.ROIFirstX)) default).b).toNat <<< 16) |||
            (0xFF <<< 24) ∧
        TIFFGetR ((collapsePyramid G p dest mask).2.getD (y * G.OutputWidth + x) 0) =
          min 255 (max 0 (((collapseLevels G p).getD 0 []).getD
            ((y - G.ROIFirstY) * roiWidth G + (x - G.ROIFirstX)) default).r) ∧
        TIFFGetG ((collapsePyramid G p dest mask).2.getD (y * G.OutputWidth + x) 0) =
          min 255 (max 0 (((collapseLevels G p).getD 0 []).getD
            ((y - G.ROIFirstY) * roiWidth G + (x - G.ROIFirstX)) default).g) ∧
        TIFFGetB ((collapsePyramid G p dest mask).2.getD (y * G.OutputWidth + x) 0) =
          min 255 (max 0 (((collapseLevels G p).getD 0 []).getD
            ((y - G.ROIFirstY) * roiWidth G + (x - G.ROIFirstX)) default).b) ∧
        TIFFGetA ((collapsePyramid G p dest mask).2.getD (y * G.OutputWidth + x) 0) = 255) := by
  intro x y hx0 hx1 hy0 hy1
  have hd := collapsePyramid_dest G p dest mask hwf hdest x y hx0 hx1 hy0 hy1
  refine ⟨Nat.mod_eq_of_lt (canvas_index_fits G hwf hfit x y hx1 hy1), ?_, ?_⟩
  · intro hm
    rw [hd, if_pos hm]
  · intro hm
    have hm2 : ¬ (mask.getD (y * G.OutputWidth + x) default).a ≠ 255 := fun hc => hc hm
    rw [hd, if_neg hm2]
    generalize ((collapseLevels G p).getD 0 []).getD
      ((y - G.ROIFirstY) * roiWidth G + (x - G.ROIFirstX)) default = px
    obtain ⟨e1, e2⟩ := packPixel_clamp px
    refine ⟨e1, ?_, ?_, ?_, ?_⟩
    all_goals
      rw [e2]
      simp only [TIFFGetR, TIFFGetG, TIFFGetB, TIFFGetA, and_255, Nat.shiftRight_eq_div_pow]
      have hr := clamp255_range px.r
      have hg := clamp255_range px.g
      have hb := clamp255_range px.b
      unfold clamp255 at hr hg hb ⊢
      omega

/-- Applying `collapsePyramid_output` to a 2x2 canvas whose mask is opaque except at
position `(1, 0)`. -/
theorem collapsePyramid_output_witness :
    ((⟨2, 2, 0, 1, 0, 1⟩ : Globals).WF ∧ (⟨2, 2, 0, 1, 0, 1⟩ : Globals).Addressable ∧
      (List.replicate 4 7).length = (⟨2, 2, 0, 1, 0, 1⟩ : Globals).OutputWidth *
        (⟨2, 2, 0, 1, 0, 1⟩ : Globals).OutputHeight ∧
      (([⟨0, 0, 0, 255⟩, ⟨0, 0, 0, 0⟩, ⟨0, 0, 0, 255⟩, ⟨0, 0, 0, 255⟩] :
        List MaskPixel).getD (0 * 2 + 1) default).a ≠ 255 ∧
      (([⟨0, 0, 0, 255⟩, ⟨0, 0, 0, 0⟩, ⟨0, 0, 0, 255⟩, ⟨0, 0, 0, 255⟩] :
        List MaskPixel).getD (1 * 2 + 0) default).a = 255) ∧
    (collapsePyramid ⟨2, 2, 0, 1, 0, 1⟩ [List.replicate 4 ⟨300, -5, 17, 255⟩]
      (List.replicate 4 7)
      [⟨0, 0, 0, 255⟩, ⟨0, 0, 0, 0⟩, ⟨0, 0, 0, 255⟩, ⟨0, 0, 0, 255⟩]).2.getD (0 * 2 + 1) 0
        = 0 ∧
    ((TIFFGetR ((collapsePyramid ⟨2, 2, 0, 1, 0, 1⟩ [List.replicate 4 ⟨300, -5, 17, 255⟩]
        (List.replicate 4 7)
        [⟨0, 0, 0, 255⟩, ⟨0, 0, 0, 0⟩, ⟨0, 0, 0, 255⟩, ⟨0, 0, 0, 255⟩]).2.getD
          (1 * 2 + 0) 0) : Int) = 255 ∧
      (TIFFGetG ((collapsePyramid ⟨2, 2, 0, 1, 0, 1⟩ [List.replicate 4 ⟨300, -5, 17, 255⟩]
        (List.replicate 4 7)
        [⟨0, 0, 0, 255⟩, ⟨0, 0, 0, 0⟩, ⟨0, 0, 0, 255⟩, ⟨0, 0, 0, 255⟩]).2.getD
          (1 * 2 + 0) 0) : Int) = 0 ∧
      (TIFFGetB ((collapsePyramid ⟨2, 2, 0, 1, 0, 1⟩ [List.replicate 4 ⟨300, -5, 17, 255⟩]
        (List.replicate 4 7)
        [⟨0, 0, 0, 255⟩, ⟨0, 0, 0, 0⟩, ⟨0, 0, 0, 255⟩, ⟨0, 0, 0, 255⟩]).2.getD
          (1 * 2 + 0) 0) : Int) = 17) :=
  ⟨⟨by decide, by decide, by decide, by decide, by decide⟩,
    ((collapsePyramid_output ⟨2, 2, 0, 1, 0, 1⟩ [List.replicate 4 ⟨300, -5, 17, 255⟩]
      (List.replicate 4 7) [⟨0, 0, 0, 255⟩, ⟨0, 0, 0, 0⟩, ⟨0, 0, 0, 255⟩, ⟨0, 0, 0, 255⟩]
      (by decide) (by decide) (by decide) 1 0 (by decide) (by decide) (by decide)
      (by decide)).2.1 (by decide)),
    (fun h => ⟨h.2.1.trans (by decide), h.2.2.1.trans (by decide),
        h.2.2.2.1.trans (by decide)⟩)
      ((collapsePyramid_output ⟨2, 2, 0, 1, 0, 1⟩ [List.replicate 4 ⟨300, -5, 17, 255⟩]
        (List.replicate 4 7) [⟨0, 0, 0, 255⟩, ⟨0, 0, 0, 0⟩, ⟨0, 0, 0, 255⟩, ⟨0, 0, 0, 255⟩]
        (by decide) (by decide) (by decide) 0 1 (by decide) (by decide) (by decide)
        (by decide)).2.2 (by decide))⟩

/-! ## Pyramid reconstruction -/

/-- C11: for a region of interest inside a canvas of at most `2^32` pixels, the index
`y * OutputWidth + x` of every pixel that `collapsePyramid` writes is below `2^32`, so
that the `uint32` index of the code is this one; `collapsePyramid` keeps the size of the
destination, leaves every destination pixel outside the region of interest
`[ROIFirstX..ROILastX] x [ROIFirstY..ROILastY]` unchanged, and leaves the mask
unchanged. -/
theorem collapsePyramid_frame (G : Globals) (p : List (List LPPixel)) (dest : List Nat)
    (mask : List MaskPixel) (hwf : G.WF) (hfit : G.Addressable) :
    (∀ x y, x ≤ G.ROILastX → y ≤ G.ROILastY →
      (y * G.OutputWidth + x) % 4294967296 = y * G.OutputWidth + x) ∧
    (collapsePyramidMemory G p dest mask).2.1.length = dest.length ∧
    (∀ x y, x < G.OutputWidth →
      ¬ (G.ROIFirstX ≤ x ∧ x ≤ G.ROILastX ∧ G.ROIFirstY ≤ y ∧ y ≤ G.ROILastY) →
      (collapsePyramidMemory G p dest mask).2.1.getD (y * G.OutputWidth + x) 0 =
        dest.getD (y * G.OutputWidth + x) 0) ∧
    (collapsePyramidMemory G p dest mask).2.2 = mask := by
  obtain ⟨_, _, h3, _, h5⟩ :=
    collapseCopy_spec G mask ((collapseLevels G p).getD 0 []) dest hwf
  refine ⟨fun x y hx hy => Nat.mod_eq_of_lt (canvas_index_fits G hwf hfit x y hx hy),
    h3, fun x y hx hout => ?_, rfl⟩
  obtain ⟨kd, km⟩ := index_div_mod G.OutputWidth y x hx
  have hnd : ¬ (copyDone G (G.ROILastY + 1 - G.ROIFirstY) 0 (y * G.OutputWidth + x) ∧
      y * G.OutputWidth + x < dest.length) := by
    intro hc
    have hd := hc.1
    unfold copyDone at hd
    rw [kd, km] at hd
    omega
  show (collapseCopy G mask ((collapseLevels G p).getD 0 []) dest).dest.getD
    (y * G.OutputWidth + x) 0 = _
  rw [h5, if_neg hnd]

/-- Applying `collapsePyramid_frame` to a 3x3 canvas whose region of interest is the
single pixel `(1, 1)`: the pixel `(0, 0)` of the destination keeps its value. -/
theorem collapsePyramid_frame_witness :
    ((⟨3, 3, 1, 1, 1, 1⟩ : Globals).WF ∧ (⟨3, 3, 1, 1, 1, 1⟩ : Globals).Addressable ∧
      0 < (⟨3, 3, 1, 1, 1, 1⟩ : Globals).OutputWidth) ∧
    (collapsePyramidMemory ⟨3, 3, 1, 1, 1, 1⟩ [[⟨9, 9, 9, 255⟩]] (List.replicate 9 7)
      (List.replicate 9 ⟨0, 0, 0, 255⟩)).2.1
        = [7, 7, 7, 7, 4278782217, 7, 7, 7, 7] ∧
    (collapsePyramidMemory ⟨3, 3, 1, 1, 1, 1⟩ [[⟨9, 9, 9, 255⟩]] (List.replicate 9 7)
      (List.replicate 9 ⟨0, 0, 0, 255⟩)).2.1.getD (0 * 3 + 0) 0 =
        (List.replicate 9 7).getD (0 * 3 + 0) 0 :=
  ⟨⟨by decide, by decide, by decide⟩, by decide,
    (collapsePyramid_frame ⟨3, 3, 1, 1, 1, 1⟩ [[⟨9, 9, 9, 255⟩]] (List.replicate 9 7)
      (List.replicate 9 ⟨0, 0, 0, 255⟩) (by decide) (by decide)).2.2.1 0 0 (by decide)
      (by decide)⟩

/-! ## `filterHalfWidth` -/

/-- The samples of the half-width computation stay between 0 and `M`. -/
theorem halfWidthSamples_bounds (M : Nat) (l : Nat) :
    (0 ≤ (halfWidthSamples M l).1 ∧ (halfWidthSamples M l).1 ≤ M) ∧
    (0 ≤ (halfWidthSamples M l).2 ∧ (halfWidthSamples M l).2 ≤ M) := by
  induction l with
  | zero => simp [halfWidthSamples]
  | succ l ih =>
    obtain ⟨⟨a0, a1⟩, ⟨b0, b1⟩⟩ := ih
    have ha0 : (0 : ℚ) ≤ ((halfWidthSamples M l).1 : ℚ) := by exact_mod_cast a0
    have ha1 : ((halfWidthSamples M l).1 : ℚ) ≤ (M : ℚ) := by exact_mod_cast a1
    have hb0 : (0 : ℚ) ≤ ((halfWidthSamples M l).2 : ℚ) := by exact_mod_cast b0
    have hb1 : ((halfWidthSamples M l).2 : ℚ) ≤ (M : ℚ) := by exact_mod_cast b1
    have hM : (0 : ℚ) ≤ (M : ℚ) := Nat.cast_nonneg M
    unfold halfWidthSamples
    constructor
    · have h := rint_bounds ((4 / 10 : ℚ) * ((halfWidthSamples M l).1 : ℚ)
        + (25 / 100 : ℚ) * ((halfWidthSamples M l).2 : ℚ) + (3 / 10 : ℚ) * (M : ℚ)) 0 (M : Int)
        (by push_cast; linarith) (by push_cast; linarith)
      exact h
    · have h := rint_bounds ((5 / 100 : ℚ) * ((halfWidthSamples M l).1 : ℚ)
        + (25 / 100 : ℚ) * ((halfWidthSamples M l).2 : ℚ)) 0 (M : Int)
        (by push_cast; linarith) (by push_cast; linarith)
      exact h

theorem one_shiftLeft_ne_zero (l : Nat) : 1 <<< l ≠ 0 := by
  rw [Nat.shiftLeft_eq, Nat.one_mul]
  exact Nat.pos_iff_ne_zero.mp (Nat.pos_pow_of_pos l (by norm_num))

/-- One iteration of the loop of `filterHalfWidth` from a state that has not
returned and holds the samples of level `k`. -/
theorem filterHalfWidthStep_samples (M : Nat) (hM : M ≤ 32767) (k : Nat)
    (st : HalfWidthState) (hr : st.returned = none)
    (h0 : st.f 0 = (halfWidthSamples M k).1)
    (h1 : st.f (1 <<< k) = (halfWidthSamples M k).2) :
    (filterHalfWidthStep M st (k + 1)).f 0 = (halfWidthSamples M (k + 1)).1 ∧
    (filterHalfWidthStep M st (k + 1)).f (1 <<< (k + 1)) = (halfWidthSamples M (k + 1)).2 ∧
    (filterHalfWidthStep M st (k + 1)).returned =
      if (halfWidthSamples M (k + 1)).2 = 0 then some (1 <<< k) else none := by
  obtain ⟨⟨a0, a1⟩, ⟨b0, b1⟩⟩ := halfWidthSamples_bounds M (k + 1)
  have e0 : (st.f 0 : ℚ) * W 2 + (st.f (1 <<< (k + 1 - 1)) : ℚ) * W 3
      + (M : ℚ) * W 0 + (M : ℚ) * W 1 =
      (4 / 10 : ℚ) * ((halfWidthSamples M k).1 : ℚ)
        + (25 / 100 : ℚ) * ((halfWidthSamples M k).2 : ℚ) + (3 / 10 : ℚ) * (M : ℚ) := by
    rw [Nat.add_sub_cancel, h0, h1]
    norm_num [W, A]
    ring
  have e1 : (st.f 0 : ℚ) * W 0 + (st.f (1 <<< (k + 1 - 1)) : ℚ) * W 1 =
      (5 / 100 : ℚ) * ((halfWidthSamples M k).1 : ℚ)
        + (25 / 100 : ℚ) * ((halfWidthSamples M k).2 : ℚ) := by
    rw [Nat.add_sub_cancel, h0, h1]
    norm_num [W, A]
    ring
  have v0 : toInt16 (rint ((st.f 0 : ℚ) * W 2 + (st.f (1 <<< (k + 1 - 1)) : ℚ) * W 3
      + (M : ℚ) * W 0 + (M : ℚ) * W 1)) = (halfWidthSamples M (k + 1)).1 := by
    rw [e0]
    exact toInt16_of_range _ (by unfold halfWidthSamples at a0; omega)
      (by unfold halfWidthSamples at a1; omega)
  have v1 : toInt16 (rint ((st.f 0 : ℚ) * W 0 + (st.f (1 <<< (k + 1 - 1)) : ℚ) * W 1)) =
      (halfWidthSamples M (k + 1)).2 := by
    rw [e1]
    exact toInt16_of_range _ (by unfold halfWidthSamples at b0; omega)
      (by unfold halfWidthSamples at b1; omega)
  have hne : (1 <<< (k + 1)) ≠ 0 := one_shiftLeft_ne_zero (k + 1)
  unfold filterHalfWidthStep
  rw [hr]
  simp only [v0, v1, Function.update_same]
  by_cases hz : (halfWidthSamples M (k + 1)).2 = 0
  · rw [if_pos hz, if_pos hz]
    simp only [Function.update_same, Nat.add_sub_cancel]
    refine ⟨?_, trivial, trivial⟩
    rw [Function.update_noteq (Ne.symm hne), Function.update_same]
  · rw [if_neg hz, if_neg hz]
    simp only [Function.update_same]
    refine ⟨?_, trivial, trivial⟩
    rw [Function.update_noteq (Ne.symm hne), Function.update_same]

theorem filterHalfWidthStep_returned (M : Nat) (st : HalfWidthState) (l r : Nat)
    (hr : st.returned = some r) : filterHalfWidthStep M st l = st := by
  unfold filterHalfWidthStep
  rw [hr]

/-- Invariant of the loop of `filterHalfWidth` after `k` iterations: while no sample
`f1_j` has been zero the state holds the samples of level `k`; once the first zero
sample `f1_j` has been met the loop has returned `1 << (j-1)`. -/
theorem filterHalfWidth_loop (M : Nat) (hM : M ≤ 32767) (k : Nat) :
    ((∀ j, 1 ≤ j → j ≤ k → (halfWidthSamples M j).2 ≠ 0) →
      ((List.range' 1 k).foldl (filterHalfWidthStep M) (filterHalfWidthInit M)).returned = none ∧
      ((List.range' 1 k).foldl (filterHalfWidthStep M) (filterHalfWidthInit M)).f 0 =
        (halfWidthSamples M k).1 ∧
      ((List.range' 1 k).foldl (filterHalfWidthStep M) (filterHalfWidthInit M)).f (1 <<< k) =
        (halfWidthSamples M k).2) ∧
    (∀ j, 1 ≤ j → j ≤ k → (halfWidthSamples M j).2 = 0 →
      (∀ i, 1 ≤ i → i < j → (halfWidthSamples M i).2 ≠ 0) →
      ((List.range' 1 k).foldl (filterHalfWidthStep M) (filterHalfWidthInit M)).returned =
        some (1 <<< (j - 1))) := by
  refine foldl_range'_inv
    (fun k (st : HalfWidthState) =>
      ((∀ j, 1 ≤ j → j ≤ k → (halfWidthSamples M j).2 ≠ 0) →
        st.returned = none ∧ st.f 0 = (halfWidthSamples M k).1 ∧
        st.f (1 <<< k) = (halfWidthSamples M k).2) ∧
      (∀ j, 1 ≤ j → j ≤ k → (halfWidthSamples M j).2 = 0 →
        (∀ i, 1 ≤ i → i < j → (halfWidthSamples M i).2 ≠ 0) →
        st.returned = some (1 <<< (j - 1))))
    (filterHalfWidthStep M) 1 k (filterHalfWidthInit M) ?_ ?_
  · constructor
    · intro _
      unfold filterHalfWidthInit halfWidthSamples
      refine ⟨rfl, ?_, ?_⟩
      · simp only [Function.update_same]
        exact toInt16_of_range _ (by omega) (by omega)
      · simp
    · intro j h1 h2
      omega
  · rintro k st _ ⟨hA, hB⟩
    rw [Nat.add_comm 1 k]
    constructor
    · intro hnz
      obtain ⟨r0, f0, f1⟩ := hA (fun j h1 h2 => hnz j h1 (by omega))
      obtain ⟨s0, s1, s2⟩ := filterHalfWidthStep_samples M hM k st r0 f0 f1
      refine ⟨?_, s0, s1⟩
      rw [s2, if_neg (hnz (k + 1) (by omega) (le_refl _))]
    · intro j h1 h2 hz hleast
      rcases Nat.lt_or_ge j (k + 1) with hlt | hge
      · have hs := hB j h1 (by omega) hz hleast
        rw [filterHalfWidthStep_returned M st (k + 1) _ hs]
        exact hs
      · have hj : j = k + 1 := by omega
        subst hj
        obtain ⟨r0, f0, f1⟩ := hA (fun i h1 h2 => hleast i h1 (by omega))
        obtain ⟨_, _, s2⟩ := filterHalfWidthStep_samples M hM k st r0 f0 f1
        rw [s2, if_pos hz, Nat.add_sub_cancel]

/-- The value of `filterHalfWidth` when `f1_j` is the first sample that rounds to zero. -/
theorem filterHalfWidth_of_zero (L M j : Nat) (hM : M ≤ 32767) (h1 : 1 ≤ j) (h2 : j ≤ L)
    (hz : (halfWidthSamples M j).2 = 0)
    (hleast : ∀ i, 1 ≤ i → i < j → (halfWidthSamples M i).2 ≠ 0) :
    filterHalfWidth L M = 2 ^ (j - 1) := by
  unfold filterHalfWidth
  simp only
  rw [(filterHalfWidth_loop M hM L).2 j h1 h2 hz hleast]
  simp only
  rw [Nat.shiftLeft_eq, Nat.one_mul]

/-- The value of `filterHalfWidth` when no sample `f1_l` up to the level rounds to zero. -/
theorem filterHalfWidth_of_nonzero (L M : Nat) (hL : L ≤ 30) (hM : M ≤ 32767)
    (hnz : ∀ j, 1 ≤ j → j ≤ L → (halfWidthSamples M j).2 ≠ 0) :
    filterHalfWidth L M = 2 ^ L := by
  unfold filterHalfWidth
  simp only
  rw [((filterHalfWidth_loop M hM L).1 hnz).1]
  simp only
  rw [Nat.shiftLeft_eq, Nat.one_mul]
  have h1 : 2 ^ L ≤ 2 ^ 30 := Nat.pow_le_pow_right (by norm_num) hL
  have h2 : 0 < 2 ^ L := Nat.pos_pow_of_pos L (by norm_num)
  have h3 : (2 : Nat) ^ 30 = 1073741824 := by norm_num
  omega

/-- C16: for `0 <= L <= 30` and `0 <= M <= 32767`, with the samples `f0_l`, `f1_l` of
`halfWidthSamples`, `filterHalfWidth(L, M)` returns `2^(l-1)` for the least `l` in
`1..L` with `f1_l = 0`, returns `2^L` when there is no such `l`, and
`filterHalfWidth(0, M) = 1`. -/
theorem filterHalfWidth_algorithm (L M : Nat) (hL : L ≤ 30) (hM : M ≤ 32767) :
    (∀ l, 1 ≤ l → l ≤ L → (halfWidthSamples M l).2 = 0 →
      (∀ i, 1 ≤ i → i < l → (halfWidthSamples M i).2 ≠ 0) →
      filterHalfWidth L M = 2 ^ (l - 1)) ∧
    ((∀ l, 1 ≤ l → l ≤ L → (halfWidthSamples M l).2 ≠ 0) → filterHalfWidth L M = 2 ^ L) ∧
    filterHalfWidth 0 M = 1 := by
  refine ⟨fun l h1 h2 hz hleast => filterHalfWidth_of_zero L M l hM h1 h2 hz hleast,
    fun hnz => filterHalfWidth_of_nonzero L M hL hM hnz, ?_⟩
  have := filterHalfWidth_of_nonzero 0 M (by omega) hM (fun j h1 h2 => by omega)
  simpa using this

/-- Applying `filterHalfWidth_algorithm` to level 3 and the 8-bit maximum 255. -/
theorem filterHalfWidth_algorithm_witness :
    (3 ≤ 30 ∧ 255 ≤ 32767) ∧ filterHalfWidth 0 255 = 1 :=
  ⟨by decide, (filterHalfWidth_algorithm 3 255 (by decide) (by decide)).2.2⟩

/-- C17: for `0 <= L <= 30` and `0 <= M <= 32767`, `r = filterHalfWidth(L, M)`
satisfies `r <= 2^L`, and if `r < 2^L` then `filterHalfWidth(L', M) = r` for every
`L'` with `L < L' <= 30`. -/
theorem filterHalfWidth_idempotent (L M : Nat) (hL : L ≤ 30) (hM : M ≤ 32767) :
    filterHalfWidth L M ≤ 2 ^ L ∧
    (filterHalfWidth L M < 2 ^ L →
      ∀ L', L < L' → L' ≤ 30 → filterHalfWidth L' M = filterHalfWidth L M) := by
  by_cases hex : ∃ j, 1 ≤ j ∧ j ≤ L ∧ (halfWidthSamples M j).2 = 0
  · have hmin : ∀ i, i < Nat.find hex →
        ¬ (1 ≤ i ∧ i ≤ L ∧ (halfWidthSamples M i).2 = 0) := fun i hi => Nat.find_min hex hi
    obtain ⟨h1, h2, hz⟩ := Nat.find_spec hex
    generalize Nat.find hex = j at hmin h1 h2 hz
    have hleast : ∀ i, 1 ≤ i → i < j → (halfWidthSamples M i).2 ≠ 0 :=
      fun i hi1 hi2 hc => hmin i hi2 ⟨hi1, by omega, hc⟩
    have e := filterHalfWidth_of_zero L M j hM h1 h2 hz hleast
    constructor
    · rw [e]
      exact Nat.pow_le_pow_right (by norm_num) (by omega)
    · intro _ L' hL1 _
      rw [e]
      exact filterHalfWidth_of_zero L' M j hM h1 (by omega) hz hleast
  · have hnz : ∀ j, 1 ≤ j → j ≤ L → (halfWidthSamples M j).2 ≠ 0 :=
      fun j h1 h2 hc => hex ⟨j, h1, h2, hc⟩
    have e := filterHalfWidth_of_nonzero L M hL hM hnz
    constructor
    · rw [e]
    · intro hlt
      rw [e] at hlt
      exact absurd hlt (lt_irrefl _)

/-- Applying `filterHalfWidth_idempotent` to level 1 and `M = 10`, where the half
width has stabilised at 1. -/
theorem filterHalfWidth_idempotent_witness :
    (1 ≤ 30 ∧ 10 ≤ 32767 ∧ filterHalfWidth 1 10 < 2 ^ 1 ∧ 1 < 5 ∧ 5 ≤ 30) ∧
    filterHalfWidth 5 10 = filterHalfWidth 1 10 :=
  ⟨⟨by decide, by decide, by decide!, by decide, by decide⟩,
    (filterHalfWidth_idempotent 1 10 (by decide) (by decide)).2 (by decide!) 5
      (by decide) (by decide)⟩

/-- The samples of the half-width computation for `M = 255` from level 6 on. -/
theorem halfWidthSamples_255 (l : Nat) : halfWidthSamples 255 (l + 6) = (132, 9) := by
  induction l with
  | zero => decide!
  | succ l ih =>
    have e : l + 1 + 6 = (l + 6) + 1 := by omega
    rw [e]
    unfold halfWidthSamples
    rw [ih]
    decide!

/-- For `M = 255` no sample `f1_l` with `l >= 1` rounds to zero. -/
theorem halfWidthSamples_255_ne_zero (l : Nat) (hl : 1 ≤ l) : (halfWidthSamples 255 l).2 ≠ 0 := by
  rcases Nat.lt_or_ge l 6 with h | h
  · interval_cases l <;> decide!
  · obtain ⟨k, rfl⟩ : ∃ k, l = k + 6 := ⟨l - 6, by omega⟩
    rw [halfWidthSamples_255]
    decide

/-- C18: for 8-bit input (`M = 255`), `filterHalfWidth(0, 255) = 1` and
`filterHalfWidth(N, 255) = 2^N` for every `1 <= N <= 30`; hence there is a level
count `N` with `2*filterHalfWidth(N, 255) + 1 <= 4`, and `N = 0` is the only one. -/
theorem filterHalfWidth_255 :
    filterHalfWidth 0 255 = 1 ∧
    (∀ N, 1 ≤ N → N ≤ 30 → filterHalfWidth N 255 = 2 ^ N) ∧
    (∃ N, 2 * filterHalfWidth N 255 + 1 ≤ 4) ∧
    (∀ N, N ≤ 30 → (2 * filterHalfWidth N 255 + 1 ≤ 4 ↔ N = 0)) := by
  have hall : ∀ N, N ≤ 30 → filterHalfWidth N 255 = 2 ^ N := fun N hN =>
    filterHalfWidth_of_nonzero N 255 hN (by decide)
      (fun j h1 _ => halfWidthSamples_255_ne_zero j h1)
  have h0 : filterHalfWidth 0 255 = 1 := by simpa using hall 0 (by omega)
  refine ⟨h0, fun N _ hN => hall N hN, ⟨0, by rw [h0]; decide⟩, fun N hN => ?_⟩
  rw [hall N hN]
  constructor
  · intro h
    by_contra hne
    have h1 : 1 ≤ N := by omega
    have h2 : 2 ^ 1 ≤ 2 ^ N := Nat.pow_le_pow_right (by norm_num) h1
    omega
  · rintro rfl
    norm_num

/-- Whatever `maxPixelValue` is, the loop of `filterHalfWidth` either has not
returned or has returned `1 << (l-1)` for some `l` between 1 and the level. -/
theorem filterHalfWidth_loop_returned (M k : Nat) :
    ((List.range' 1 k).foldl (filterHalfWidthStep M) (filterHalfWidthInit M)).returned = none ∨
    ∃ l, 1 ≤ l ∧ l ≤ k ∧
      ((List.range' 1 k).foldl (filterHalfWidthStep M) (filterHalfWidthInit M)).returned =
        some (1 <<< (l - 1)) := by
  refine foldl_range'_inv
    (fun k (st : HalfWidthState) => st.returned = none ∨
      ∃ l, 1 ≤ l ∧ l ≤ k ∧ st.returned = some (1 <<< (l - 1)))
    (filterHalfWidthStep M) 1 k (filterHalfWidthInit M) (Or.inl rfl) ?_
  rintro k st _ (hn | ⟨l, h1, h2, hs⟩)
  · unfold filterHalfWidthStep
    rw [hn]
    simp only
    split_ifs
    · exact Or.inr ⟨1 + k, by omega, by omega, rfl⟩
    · exact Or.inl rfl
  · rw [filterHalfWidthStep_returned M st (1 + k) _ hs]
    exact Or.inr ⟨l, h1, by omega, hs⟩

/-- A call `filterHalfWidth(1, 40000)`, whose `maxPixelValue` does not fit `int16`,
reports no error and returns the half-width 2. -/
theorem filterHalfWidth_no_fatal_error :
    32767 < 40000 ∧ filterHalfWidthOutcome 1 40000 = Except.ok 2 ∧
    ¬ (∀ level maxPixelValue, 32767 < maxPixelValue →
      ∃ e, filterHalfWidthOutcome level maxPixelValue = Except.error e) := by
  have h0 : filterHalfWidth 1 40000 = 2 := by decide!
  have h : filterHalfWidthOutcome 1 40000 = Except.ok 2 := by
    unfold filterHalfWidthOutcome
    rw [h0]
  refine ⟨by decide, h, fun hc => ?_⟩
  obtain ⟨e, he⟩ := hc 1 40000 (by decide)
  rw [h] at he
  exact Except.noConfusion he

/-- C19 (as amended): `filterHalfWidth` has no precision check.  For every level up to
30 and every `maxPixelValue`, also one above 32767, it reports no error: `f[0]` receives
`maxPixelValue` converted to `int16` with wrap-around, and the call returns a
half-width between 1 and `2^level`. -/
theorem filterHalfWidth_always_returns (level maxPixelValue : Nat) :
    filterHalfWidthOutcome level maxPixelValue =
      Except.ok (filterHalfWidth level maxPixelValue) ∧
    (filterHalfWidthInit maxPixelValue).f 0 =
      ((maxPixelValue : Int) + 32768) % 65536 - 32768 ∧
    (level ≤ 30 → 1 ≤ filterHalfWidth level maxPixelValue ∧
      filterHalfWidth level maxPixelValue ≤ 2 ^ level) := by
  refine ⟨rfl, ?_, fun hL => ?_⟩
  · unfold filterHalfWidthInit toInt16
    simp only [Function.update_same]
  · have h1 : 2 ^ level ≤ 2 ^ 30 := Nat.pow_le_pow_right (by norm_num) hL
    have h2 : 0 < 2 ^ level := Nat.pos_pow_of_pos level (by norm_num)
    have h3 : (2 : Nat) ^ 30 = 1073741824 := by norm_num
    unfold filterHalfWidth
    simp only
    rcases filterHalfWidth_loop_returned maxPixelValue level with hn | ⟨l, hl1, hl2, hs⟩
    · rw [hn]
      simp only
      rw [Nat.shiftLeft_eq, Nat.one_mul]
      omega
    · rw [hs]
      simp only
      rw [Nat.shiftLeft_eq, Nat.one_mul]
      have h4 : 0 < 2 ^ (l - 1) := Nat.pos_pow_of_pos (l - 1) (by norm_num)
      have h5 : 2 ^ (l - 1) ≤ 2 ^ level := Nat.pow_le_pow_right (by norm_num) (by omega)
      omega

/-! ## `blend` -/

theorem rint_isRounding : IsRounding rint := fun x => rint_near x

theorem IsRounding.intCast {f : ℚ → Int} (hf : IsRounding f) (n : Int) : f (n : ℚ) = n := by
  have h := hf (n : ℚ)
  rw [abs_le] at h
  have h1 : ((f (n : ℚ) - n : Int) : ℚ) ≤ 1 / 2 := by push_cast; linarith
  have h2 : -(1 / 2 : ℚ) ≤ ((f (n : ℚ) - n : Int) : ℚ) := by push_cast; linarith
  have h3 : f (n : ℚ) - n < 1 := by
    have : ((f (n : ℚ) - n : Int) : ℚ) < ((1 : Int) : ℚ) := by push_cast at h1 ⊢; linarith
    exact_mod_cast this
  have h4 : -1 < f (n : ℚ) - n := by
    have : ((-1 : Int) : ℚ) < ((f (n : ℚ) - n : Int) : ℚ) := by push_cast at h2 ⊢; linarith
    exact_mod_cast this
  omega

/-- A rounding maps an interval with integer ends into itself. -/
theorem IsRounding.bounds {f : ℚ → Int} (hf : IsRounding f) (x : ℚ) (a b : Int)
    (ha : (a : ℚ) ≤ x) (hb : x ≤ (b : ℚ)) : a ≤ f x ∧ f x ≤ b := by
  have h := hf x
  rw [abs_le] at h
  constructor
  · have : ((a - 1 : Int) : ℚ) < ((f x : Int) : ℚ) := by push_cast; linarith
    have : a - 1 < f x := by exact_mod_cast this
    omega
  · have : ((f x : Int) : ℚ) < ((b + 1 : Int) : ℚ) := by push_cast; linarith
    have : f x < b + 1 := by exact_mod_cast this
    omega

/-- Effect of `combineThreeImages` on the destination. -/
theorem combineThreeImages_spec {M P : Type} [Inhabited M] [Inhabited P] (f : M → P → P → P)
    (src1 : List M) (src2 : List P) (dest : List P) :
    (combineThreeImages f src1 src2 dest).length = dest.length ∧
    ∀ i, (combineThreeImages f src1 src2 dest).getD i default =
      if i < src1.length ∧ i < dest.length then
        f (src1.getD i default) (src2.getD i default) (dest.getD i default)
      else dest.getD i default := by
  unfold combineThreeImages
  rw [List.range_eq_range']
  refine foldl_range'_inv
    (fun k (d : List P) => d.length = dest.length ∧
      ∀ i, d.getD i default =
        if i < k ∧ i < dest.length then
          f (src1.getD i default) (src2.getD i default) (dest.getD i default)
        else dest.getD i default) _ 0 src1.length dest ?_ ?_
  · refine ⟨rfl, fun i => ?_⟩
    have c : ¬ (i < 0 ∧ i < dest.length) := by omega
    rw [if_neg c]
  · rintro k d _ ⟨h1, h2⟩
    rw [Nat.zero_add]
    refine ⟨by rw [List.length_set, h1], fun i => ?_⟩
    rw [getD_set, h1, h2 k]
    have ck : ¬ (k < k ∧ k < dest.length) := by omega
    rw [if_neg ck]
    by_cases hi : k = i ∧ k < dest.length
    · rw [if_pos hi]
      obtain ⟨rfl, hlt⟩ := hi
      have c : k < k + 1 ∧ k < dest.length := ⟨by omega, hlt⟩
      rw [if_pos c]
    · rw [if_neg hi, h2 i]
      by_cases c1 : i < k ∧ i < dest.length
      · have c2 : i < k + 1 ∧ i < dest.length := ⟨by omega, c1.2⟩
        rw [if_pos c1, if_pos c2]
      · have c2 : ¬ (i < k + 1 ∧ i < dest.length) := by omega
        rw [if_neg c1, if_neg c2]

/-- The state of the loop of `blend` after `k` layers. -/
theorem blend_fold (f : ℚ → Int) (s : ℚ) (maskGP : List (List Int))
    (whiteLP blackLP : List (List LPPixel)) (k : Nat) :
    ((List.range k).foldl (blendLayer f s) ⟨maskGP, whiteLP, blackLP⟩).maskGP = maskGP ∧
    ((List.range k).foldl (blendLayer f s) ⟨maskGP, whiteLP, blackLP⟩).whiteLP = whiteLP ∧
    ((List.range k).foldl (blendLayer f s) ⟨maskGP, whiteLP, blackLP⟩).blackLP.length =
      blackLP.length ∧
    ∀ l, ((List.range k).foldl (blendLayer f s) ⟨maskGP, whiteLP, blackLP⟩).blackLP.getD l [] =
      if l < k ∧ l < blackLP.length then
        combineThreeImages (BlendFunctorLP f s) (maskGP.getD l []) (whiteLP.getD l [])
          (blackLP.getD l [])
      else blackLP.getD l [] := by
  rw [List.range_eq_range']
  refine foldl_range'_inv
    (fun k (mem : BlendMemory) => mem.maskGP = maskGP ∧ mem.whiteLP = whiteLP ∧
      mem.blackLP.length = blackLP.length ∧
      ∀ l, mem.blackLP.getD l [] =
        if l < k ∧ l < blackLP.length then
          combineThreeImages (BlendFunctorLP f s) (maskGP.getD l []) (whiteLP.getD l [])
            (blackLP.getD l [])
        else blackLP.getD l []) _ 0 k ⟨maskGP, whiteLP, blackLP⟩ ?_ ?_
  · refine ⟨rfl, rfl, rfl, fun l => ?_⟩
    have c : ¬ (l < 0 ∧ l < blackLP.length) := by omega
    rw [if_neg c]
  · rintro j mem _ ⟨h1, h2, h3, h4⟩
    rw [Nat.zero_add]
    unfold blendLayer
    refine ⟨h1, h2, by simp only [List.length_set, h3], fun l => ?_⟩
    simp only
    rw [getD_set, h3, h1, h2, h4 j]
    have cj : ¬ (j < j ∧ j < blackLP.length) := by omega
    rw [if_neg cj]
    by_cases hl : j = l ∧ j < blackLP.length
    · rw [if_pos hl]
      obtain ⟨rfl, hlt⟩ := hl
      have c : j < j + 1 ∧ j < blackLP.length := ⟨by omega, hlt⟩
      rw [if_pos c]
    · rw [if_neg hl, h4 l]
      by_cases c1 : l < j ∧ l < blackLP.length
      · have c2 : l < j + 1 ∧ l < blackLP.length := ⟨by omega, c1.2⟩
        rw [if_pos c1, if_pos c2]
      · have c2 : ¬ (l < j + 1 ∧ l < blackLP.length) := by omega
        rw [if_neg c1, if_neg c2]

/-- The pixel that `blend` leaves at position `i` of level `l` of `blackLP`. -/
theorem blend_pixel (f : ℚ → Int) (maxMaskPixel : Int) (maskGP : List (List Int))
    (whiteLP blackLP : List (List LPPixel)) (l i : Nat)
    (hl1 : l < maskGP.length) (hl2 : l < blackLP.length)
    (hi1 : i < (maskGP.getD l []).length) (hi2 : i < (blackLP.getD l []).length) :
    ((blend f maxMaskPixel maskGP whiteLP blackLP).blackLP.getD l []).getD i default =
      BlendFunctorLP f (maxMaskPixel : ℚ) ((maskGP.getD l []).getD i default)
        ((whiteLP.getD l []).getD i default) ((blackLP.getD l []).getD i default) := by
  unfold blend
  simp only
  have c1 : l < maskGP.length ∧ l < blackLP.length := ⟨hl1, hl2⟩
  have c2 : i < (maskGP.getD l []).length ∧ i < (blackLP.getD l []).length := ⟨hi1, hi2⟩
  rw [(blend_fold f _ maskGP whiteLP blackLP maskGP.length).2.2.2 l, if_pos c1,
    (combineThreeImages_spec _ _ _ _).2 i, if_pos c2]

theorem whiteCoeff_self (M : Int) (hM : M ≠ 0) : whiteCoeff (M : ℚ) M = 1 := by
  unfold whiteCoeff
  exact div_self (by exact_mod_cast hM)

theorem whiteCoeff_zero (s : ℚ) : whiteCoeff s 0 = 0 := by
  unfold whiteCoeff
  simp

/-- The functor returns the white pixel for the maximal mask value and the black
pixel for the mask value 0. -/
theorem BlendFunctor_ends (f : ℚ → Int) (hf : IsRounding f) (M : Int) (hM : M ≠ 0)
    (w b : Int) :
    BlendFunctor f (M : ℚ) M w b = w ∧ BlendFunctor f (M : ℚ) 0 w b = b := by
  unfold BlendFunctor blackCoeff
  simp only
  rw [whiteCoeff_self M hM, whiteCoeff_zero]
  constructor
  · have e : (1 : ℚ) * (w : ℚ) + (1 - 1) * (b : ℚ) = (w : ℚ) := by ring
    rw [e]
    exact hf.intCast w
  · have e : (0 : ℚ) * (w : ℚ) + (1 - 0) * (b : ℚ) = (b : ℚ) := by ring
    rw [e]
    exact hf.intCast b

/-- C12: for every level `l` and pixel, `blend` replaces the `blackLP` pixel `b` by
the functor value, whose every channel is
`fromRealPromote((m/Mmax)*w + (1 - m/Mmax)*b)` for the mask pixel `m` and the
`whiteLP` pixel `w` at the same level and position; the result is exactly `w` when
`m = Mmax` and exactly `b` when `m = 0`. -/
theorem blend_formula (fromRealPromote : ℚ → Int) (Mmax : Int) (maskGP : List (List Int))
    (whiteLP blackLP : List (List LPPixel)) (hf : IsRounding fromRealPromote)
    (hM : Mmax ≠ 0) :
    (∀ l i, l < maskGP.length → l < blackLP.length → i < (maskGP.getD l []).length →
      i < (blackLP.getD l []).length →
      ((blend fromRealPromote Mmax maskGP whiteLP blackLP).blackLP.getD l []).getD i default =
        BlendFunctorLP fromRealPromote (Mmax : ℚ) ((maskGP.getD l []).getD i default)
          ((whiteLP.getD l []).getD i default) ((blackLP.getD l []).getD i default)) ∧
    (∀ (m : Int) (w b : LPPixel),
      BlendFunctorLP fromRealPromote (Mmax : ℚ) m w b =
        ⟨fromRealPromote (((m : ℚ) / (Mmax : ℚ)) * (w.r : ℚ)
            + (1 - (m : ℚ) / (Mmax : ℚ)) * (b.r : ℚ)),
          fromRealPromote (((m : ℚ) / (Mmax : ℚ)) * (w.g : ℚ)
            + (1 - (m : ℚ) / (Mmax : ℚ)) * (b.g : ℚ)),
          fromRealPromote (((m : ℚ) / (Mmax : ℚ)) * (w.b : ℚ)
            + (1 - (m : ℚ) / (Mmax : ℚ)) * (b.b : ℚ)),
          fromRealPromote (((m : ℚ) / (Mmax : ℚ)) * (w.a : ℚ)
            + (1 - (m : ℚ) / (Mmax : ℚ)) * (b.a : ℚ))⟩) ∧
    (∀ m w b : Int, BlendFunctor fromRealPromote (Mmax : ℚ) m w b =
      fromRealPromote (((m : ℚ) / (Mmax : ℚ)) * (w : ℚ)
        + (1 - (m : ℚ) / (Mmax : ℚ)) * (b : ℚ))) ∧
    (∀ w b : LPPixel, BlendFunctorLP fromRealPromote (Mmax : ℚ) Mmax w b = w ∧
      BlendFunctorLP fromRealPromote (Mmax : ℚ) 0 w b = b) := by
  refine ⟨fun l i h1 h2 h3 h4 =>
    blend_pixel fromRealPromote Mmax maskGP whiteLP blackLP l i h1 h2 h3 h4,
    fun m w b => rfl, fun m w b => rfl, fun w b => ?_⟩
  unfold BlendFunctorLP
  rw [(BlendFunctor_ends fromRealPromote hf Mmax hM w.r b.r).1,
    (BlendFunctor_ends fromRealPromote hf Mmax hM w.g b.g).1,
    (BlendFunctor_ends fromRealPromote hf Mmax hM w.b b.b).1,
    (BlendFunctor_ends fromRealPromote hf Mmax hM w.a b.a).1,
    (BlendFunctor_ends fromRealPromote hf Mmax hM w.r b.r).2,
    (BlendFunctor_ends fromRealPromote hf Mmax hM w.g b.g).2,
    (BlendFunctor_ends fromRealPromote hf Mmax hM w.b b.b).2,
    (BlendFunctor_ends fromRealPromote hf Mmax hM w.a b.a).2]
  exact ⟨rfl, rfl⟩

/-- Applying `blend_formula` with `rint` as the rounding and the mask maximum 255. -/
theorem blend_formula_witness :
    (IsRounding rint ∧ (255 : Int) ≠ 0) ∧
    BlendFunctorLP rint ((255 : Int) : ℚ) 255 ⟨10, 20, 30, 255⟩ ⟨-7, 0, 99, 255⟩ =
      ⟨10, 20, 30, 255⟩ ∧
    BlendFunctorLP rint ((255 : Int) : ℚ) 0 ⟨10, 20, 30, 255⟩ ⟨-7, 0, 99, 255⟩ =
      ⟨-7, 0, 99, 255⟩ :=
  ⟨⟨rint_isRounding, by decide⟩,
    (blend_formula rint 255 [] [] [] rint_isRounding (by decide)).2.2.2
      ⟨10, 20, 30, 255⟩ ⟨-7, 0, 99, 255⟩⟩

/-- The blend of two channel values lies between them. -/
theorem BlendFunctor_between (f : ℚ → Int) (hf : IsRounding f) (M m : Int) (hM : 0 < M)
    (hm0 : 0 ≤ m) (hm1 : m ≤ M) (w b : Int) :
    min w b ≤ BlendFunctor f (M : ℚ) m w b ∧ BlendFunctor f (M : ℚ) m w b ≤ max w b := by
  have hMq : (0 : ℚ) < (M : ℚ) := by exact_mod_cast hM
  have c0 : 0 ≤ whiteCoeff (M : ℚ) m := by
    unfold whiteCoeff
    exact div_nonneg (by exact_mod_cast hm0) (le_of_lt hMq)
  have c1 : whiteCoeff (M : ℚ) m ≤ 1 := by
    unfold whiteCoeff
    rw [div_le_one hMq]
    exact_mod_cast hm1
  unfold BlendFunctor blackCoeff
  simp only
  apply hf.bounds
  · rcases le_total w b with h | h
    · rw [min_eq_left h]
      have hq : (w : ℚ) ≤ (b : ℚ) := by exact_mod_cast h
      nlinarith
    · rw [min_eq_right h]
      have hq : (b : ℚ) ≤ (w : ℚ) := by exact_mod_cast h
      nlinarith
  · rcases le_total w b with h | h
    · rw [max_eq_right h]
      have hq : (w : ℚ) ≤ (b : ℚ) := by exact_mod_cast h
      nlinarith
    · rw [max_eq_left h]
      have hq : (b : ℚ) ≤ (w : ℚ) := by exact_mod_cast h
      nlinarith

/-- C13: for a mask pixel `m` with `0 <= m <= Mmax` and `Mmax > 0`, the coefficients
`whiteCoeff` and `blackCoeff` of `BlendFunctor` both lie in `[0, 1]` and sum to 1, and
every channel of the result lies between the minimum and the maximum of that channel
of the two image pixels. -/
theorem blend_convex (fromRealPromote : ℚ → Int) (Mmax m : Int)
    (hf : IsRounding fromRealPromote) (hM : 0 < Mmax) (hm0 : 0 ≤ m) (hm1 : m ≤ Mmax) :
    (0 ≤ whiteCoeff (Mmax : ℚ) m ∧ whiteCoeff (Mmax : ℚ) m ≤ 1) ∧
    (0 ≤ blackCoeff (Mmax : ℚ) m ∧ blackCoeff (Mmax : ℚ) m ≤ 1) ∧
    whiteCoeff (Mmax : ℚ) m + blackCoeff (Mmax : ℚ) m = 1 ∧
    (∀ w b : Int, min w b ≤ BlendFunctor fromRealPromote (Mmax : ℚ) m w b ∧
      BlendFunctor fromRealPromote (Mmax : ℚ) m w b ≤ max w b) ∧
    (∀ w b : LPPixel,
      (min w.r b.r ≤ (BlendFunctorLP fromRealPromote (Mmax : ℚ) m w b).r ∧
        (BlendFunctorLP fromRealPromote (Mmax : ℚ) m w b).r ≤ max w.r b.r) ∧
      (min w.g b.g ≤ (BlendFunctorLP fromRealPromote (Mmax : ℚ) m w b).g ∧
        (BlendFunctorLP fromRealPromote (Mmax : ℚ) m w b).g ≤ max w.g b.g) ∧
      (min w.b b.b ≤ (BlendFunctorLP fromRealPromote (Mmax : ℚ) m w b).b ∧
        (BlendFunctorLP fromRealPromote (Mmax : ℚ) m w b).b ≤ max w.b b.b) ∧
      (min w.a b.a ≤ (BlendFunctorLP fromRealPromote (Mmax : ℚ) m w b).a ∧
        (BlendFunctorLP fromRealPromote (Mmax : ℚ) m w b).a ≤ max w.a b.a)) := by
  have hMq : (0 : ℚ) < (Mmax : ℚ) := by exact_mod_cast hM
  have c0 : 0 ≤ whiteCoeff (Mmax : ℚ) m := by
    unfold whiteCoeff
    exact div_nonneg (by exact_mod_cast hm0) (le_of_lt hMq)
  have c1 : whiteCoeff (Mmax : ℚ) m ≤ 1 := by
    unfold whiteCoeff
    rw [div_le_one hMq]
    exact_mod_cast hm1
  have hb := BlendFunctor_between fromRealPromote hf Mmax m hM hm0 hm1
  refine ⟨⟨c0, c1⟩, ⟨?_, ?_⟩, ?_, hb, fun w b => ⟨hb w.r b.r, hb w.g b.g, hb w.b b.b, hb w.a b.a⟩⟩
  · unfold blackCoeff; linarith
  · unfold blackCoeff; linarith
  · unfold blackCoeff; ring

/-- Applying `blend_convex` with `rint`, `Mmax = 255` and the mask value 100. -/
theorem blend_convex_witness :
    (IsRounding rint ∧ (0 : Int) < 255 ∧ (0 : Int) ≤ 100 ∧ (100 : Int) ≤ 255) ∧
    min (10 : Int) 200 ≤ BlendFunctor rint ((255 : Int) : ℚ) 100 10 200 ∧
    BlendFunctor rint ((255 : Int) : ℚ) 100 10 200 ≤ max (10 : Int) 200 :=
  ⟨⟨rint_isRounding, by decide, by decide, by decide⟩,
    (blend_convex rint 255 100 rint_isRounding (by decide) (by decide) (by decide)).2.2.2.1
      10 200⟩

/-- The levels of `blackLP` after `blend`. -/
theorem blend_level (f : ℚ → Int) (maxMaskPixel : Int) (maskGP : List (List Int))
    (whiteLP blackLP : List (List LPPixel)) (l : Nat) :
    (blend f maxMaskPixel maskGP whiteLP blackLP).blackLP.length = blackLP.length ∧
    (blend f maxMaskPixel maskGP whiteLP blackLP).blackLP.getD l [] =
      if l < maskGP.length ∧ l < blackLP.length then
        combineThreeImages (BlendFunctorLP f (maxMaskPixel : ℚ)) (maskGP.getD l [])
          (whiteLP.getD l []) (blackLP.getD l [])
      else blackLP.getD l [] :=
  ⟨(blend_fold f (maxMaskPixel : ℚ) maskGP whiteLP blackLP maskGP.length).2.2.1,
    (blend_fold f (maxMaskPixel : ℚ) maskGP whiteLP blackLP maskGP.length).2.2.2 l⟩

/-- C14: for three pyramids with the same level count and per-level sizes, `blend`
overwrites every pixel of every level `0..maskGP.size()-1` of `blackLP` (each
receives the functor value of the three pixels at its position, and the sizes are
kept), and leaves `whiteLP` and `maskGP` unchanged. -/
theorem blend_frame (fromRealPromote : ℚ → Int) (maxMaskPixel : Int)
    (maskGP : List (List Int)) (whiteLP blackLP : List (List LPPixel))
    (hblack : SameShape maskGP blackLP) (hwhite : SameShape maskGP whiteLP) :
    (blend fromRealPromote maxMaskPixel maskGP whiteLP blackLP).whiteLP = whiteLP ∧
    (blend fromRealPromote maxMaskPixel maskGP whiteLP blackLP).maskGP = maskGP ∧
    SameShape (blend fromRealPromote maxMaskPixel maskGP whiteLP blackLP).blackLP blackLP ∧
    (∀ l i, l < maskGP.length → i < (blackLP.getD l []).length →
      ((blend fromRealPromote maxMaskPixel maskGP whiteLP blackLP).blackLP.getD l []).getD i
          default =
        BlendFunctorLP fromRealPromote (maxMaskPixel : ℚ) ((maskGP.getD l []).getD i default)
          ((whiteLP.getD l []).getD i default) ((blackLP.getD l []).getD i default)) := by
  have _hw := hwhite
  obtain ⟨h1, h2, h3, h4⟩ :=
    blend_fold fromRealPromote (maxMaskPixel : ℚ) maskGP whiteLP blackLP maskGP.length
  refine ⟨h2, h1, ⟨h3, fun l => ?_⟩, fun l i hl hi => ?_⟩
  · rw [(blend_level fromRealPromote maxMaskPixel maskGP whiteLP blackLP l).2]
    split_ifs
    · exact (combineThreeImages_spec _ _ _ _).1
    · rfl
  · exact blend_pixel fromRealPromote maxMaskPixel maskGP whiteLP blackLP l i hl
      (by rw [← hblack.1]; exact hl) (by rw [hblack.2 l]; exact hi) hi

/-- Applying `blend_frame` to pyramids of one level with two pixels. -/
theorem blend_frame_witness :
    (SameShape ([[0, 255]] : List (List Int))
        ([[⟨1, 2, 3, 255⟩, ⟨4, 5, 6, 255⟩]] : List (List LPPixel)) ∧
      SameShape ([[0, 255]] : List (List Int))
        ([[⟨7, 8, 9, 255⟩, ⟨10, 11, 12, 255⟩]] : List (List LPPixel))) ∧
    (blend rint 255 [[0, 255]] [[⟨7, 8, 9, 255⟩, ⟨10, 11, 12, 255⟩]]
      [[⟨1, 2, 3, 255⟩, ⟨4, 5, 6, 255⟩]]).whiteLP =
        [[⟨7, 8, 9, 255⟩, ⟨10, 11, 12, 255⟩]] :=
  have s1 : SameShape ([[0, 255]] : List (List Int))
      ([[⟨1, 2, 3, 255⟩, ⟨4, 5, 6, 255⟩]] : List (List LPPixel)) :=
    ⟨rfl, fun l => by cases l <;> rfl⟩
  have s2 : SameShape ([[0, 255]] : List (List Int))
      ([[⟨7, 8, 9, 255⟩, ⟨10, 11, 12, 255⟩]] : List (List LPPixel)) :=
    ⟨rfl, fun l => by cases l <;> rfl⟩
  ⟨⟨s1, s2⟩, (blend_frame rint 255 [[0, 255]] [[⟨7, 8, 9, 255⟩, ⟨10, 11, 12, 255⟩]]
    [[⟨1, 2, 3, 255⟩, ⟨4, 5, 6, 255⟩]] s1 s2).1⟩

theorem canvasMap_length (cw : Nat) (f : Nat → Nat → Nat → Nat) (img : List Nat) :
    (canvasMap cw f img).length = img.length := by
  simp [canvasMap]

theorem canvasMap_getD (cw : Nat) (f : Nat → Nat → Nat → Nat) (img : List Nat) (idx : Nat)
    (h : idx < img.length) :
    (canvasMap cw f img).getD idx 0 = f (idx % cw) (idx / cw) (img.getD idx 0) := by
  unfold canvasMap
  rw [List.getD_eq_getElem?_getD, List.getElem?_map, List.getElem?_range h]
  rfl

theorem Threshold_max (maxAlpha v : Nat) :
    Threshold maxAlpha maxAlpha 0 maxAlpha v = if v = maxAlpha then maxAlpha else 0 := by
  unfold Threshold
  by_cases h : v = maxAlpha
  · subst h; simp
  · rw [if_neg h, if_pos (by omega)]

theorem transformImage_length (f : Nat → Nat) (img : List Nat) :
    (transformImage f img).length = img.length := by
  simp [transformImage]

/-- The thresholded raster, read with default 0: the threshold sends 0 to 0 when the
maximal alpha is positive, so no bound on the index is needed. -/
theorem transformImage_getD (maxAlpha : Nat) (hmax : 0 < maxAlpha) (img : List Nat) (i : Nat) :
    (transformImage (Threshold maxAlpha maxAlpha 0 maxAlpha) img).getD i 0
      = if img.getD i 0 = maxAlpha then maxAlpha else 0 := by
  unfold transformImage
  rw [← Threshold_max]
  rcases Nat.lt_or_ge i img.length with h | h
  · simp [List.getD_eq_getElem?_getD, List.getElem?_map, List.getElem?_eq_getElem h]
  · rw [getD_default_of_le 0 _ i (by simpa using h), getD_default_of_le 0 _ i h, Threshold_max,
      if_neg (by omega)]

theorem overlapCheck_eq_false (maxAlpha cw : Nat) (imageA : List Nat) (offX offY : Int)
    (w h : Nat) (srcA : List Nat)
    (hno : ∀ y, y < h → ∀ x, x < w → ¬ (srcA.getD (y * w + x) 0 = maxAlpha ∧
      canvasGet cw imageA (offX + (x : Int)) (offY + (y : Int)) = maxAlpha)) :
    overlapCheck maxAlpha cw imageA offX offY w h srcA = false := by
  unfold overlapCheck
  rw [List.any_eq_false]
  intro y hy
  rw [List.mem_range] at hy
  rw [Bool.not_eq_true, List.any_eq_false]
  intro x hx
  rw [List.mem_range] at hx
  have := hno y hy x hx
  simpa using this

theorem OpaqueDisjoint.symm {maxAlpha : Nat} {inputUnion : EnblendROI} {A B : ImageImportInfo}
    (h : OpaqueDisjoint maxAlpha inputUnion A B) : OpaqueDisjoint maxAlpha inputUnion B A :=
  fun cy hy cx hx hab => h cy hy cx hx ⟨hab.2, hab.1⟩

/-- The alpha raster after the first image has been loaded and thresholded. -/
theorem first_alpha_getD (maxAlpha : Nat) (hmax : 0 < maxAlpha) (U : EnblendROI)
    (A : ImageImportInfo) (idx : Nat) (h : idx < U.sizeX * U.sizeY) :
    (transformImage (Threshold maxAlpha maxAlpha 0 maxAlpha)
      (importImage U.sizeX (A.posX - U.ulX) (A.posY - U.ulY) A.width A.height A.alpha
        (List.replicate (U.sizeX * U.sizeY) 0))).getD idx 0
      = if opaqueAt maxAlpha U A (idx % U.sizeX) (idx / U.sizeX) then maxAlpha else 0 := by
  rw [transformImage_getD maxAlpha hmax]
  unfold importImage
  rw [canvasMap_getD _ _ _ _ (by simpa using h), getD_replicate_lt _ _ _ _ h]
  unfold opaqueAt
  by_cases hc : covered (A.posX - U.ulX) (A.posY - U.ulY) A.width A.height
      (idx % U.sizeX) (idx / U.sizeX) = true
  · simp [hc]
  · have hc' : covered (A.posX - U.ulX) (A.posY - U.ulY) A.width A.height
        (idx % U.sizeX) (idx / U.sizeX) = false := by simpa using hc
    simp only [hc', Bool.false_eq_true, false_and, if_false]
    rw [if_neg (by omega)]

theorem canvasGet_eq_max (maxAlpha cw : Nat) (hmax : 0 < maxAlpha) (img : List Nat)
    (cx cy : Int) (h : canvasGet cw img cx cy = maxAlpha) :
    0 ≤ cx ∧ cx < (cw : Int) ∧ 0 ≤ cy ∧ img.getD (cy.toNat * cw + cx.toNat) 0 = maxAlpha := by
  unfold canvasGet at h
  by_cases hc : 0 ≤ cx ∧ cx < (cw : Int) ∧ 0 ≤ cy
  · rw [if_pos hc] at h
    exact ⟨hc.1, hc.2.1, hc.2.2, h⟩
  · rw [if_neg hc] at h
    omega

theorem row_lt_of_index_lt (cw ch cx cy : Nat) (h : cy * cw + cx < cw * ch) : cy < ch := by
  by_contra hge
  have : cw * ch ≤ cw * cy := Nat.mul_le_mul_left cw (Nat.le_of_not_lt hge)
  rw [Nat.mul_comm cw cy] at this
  omega

/-- The overlap check of `assemble` finds nothing when the later image has no opaque
pixel on an opaque pixel of the first one. -/
theorem overlapCheck_disjoint (maxAlpha : Nat) (hmax : 0 < maxAlpha) (U : EnblendROI)
    (A B : ImageImportInfo) (hdis : OpaqueDisjoint maxAlpha U A B) :
    overlapCheck maxAlpha U.sizeX
      (transformImage (Threshold maxAlpha maxAlpha 0 maxAlpha)
        (importImage U.sizeX (A.posX - U.ulX) (A.posY - U.ulY) A.width A.height A.alpha
          (List.replicate (U.sizeX * U.sizeY) 0)))
      (B.posX - U.ulX) (B.posY - U.ulY) B.width B.height
      (transformImage (Threshold maxAlpha maxAlpha 0 maxAlpha) B.alpha) = false := by
  apply overlapCheck_eq_false
  rintro y hy x hx ⟨h1, h2⟩
  rw [transformImage_getD maxAlpha hmax] at h1
  have hB : B.alpha.getD (y * B.width + x) 0 = maxAlpha := by
    by_contra hne
    rw [if_neg hne] at h1
    omega
  obtain ⟨hx0, hx1, hy0, hget⟩ := canvasGet_eq_max maxAlpha U.sizeX hmax _ _ _ h2
  obtain ⟨cx, hcx⟩ := Int.eq_ofNat_of_zero_le hx0
  obtain ⟨cy, hcy⟩ := Int.eq_ofNat_of_zero_le hy0
  rw [hcx, hcy, Int.toNat_ofNat, Int.toNat_ofNat] at hget
  have hcxw : cx < U.sizeX := by omega
  have hidx : cy * U.sizeX + cx < U.sizeX * U.sizeY := by
    by_contra hge
    rw [getD_default_of_le 0 _ _ (by
      rw [transformImage_length]; unfold importImage
      rw [canvasMap_length, List.length_replicate]; omega)] at hget
    omega
  rw [first_alpha_getD maxAlpha hmax U A _ hidx, (index_div_mod U.sizeX cy cx hcxw).1,
    (index_div_mod U.sizeX cy cx hcxw).2] at hget
  have hA : opaqueAt maxAlpha U A cx cy := by
    by_contra hne
    rw [if_neg hne] at hget
    omega
  have hBo : opaqueAt maxAlpha U B cx cy := by
    unfold opaqueAt covered srcIndex
    have e1 : ((cy : Int) - (B.posY - U.ulY)).toNat = y := by omega
    have e2 : ((cx : Int) - (B.posX - U.ulX)).toNat = x := by omega
    rw [e1, e2]
    refine ⟨?_, hB⟩
    rw [decide_eq_true_eq]
    omega
  exact hdis cy (row_lt_of_index_lt _ _ _ _ hidx) cx hcxw ⟨hA, hBo⟩

/-- The composite of two images without a common opaque position, pixel by pixel:
the second image is copied where it is opaque, the first one is loaded whole. -/
theorem assemble_pair (maxAlpha : Nat) (hmax : 0 < maxAlpha) (U : EnblendROI)
    (A B : ImageImportInfo) (hdis : OpaqueDisjoint maxAlpha U A B) :
    ∃ r, assemble false maxAlpha [A, B] U = some r ∧ r.imageInfoList = [] ∧
      r.image.length = U.sizeX * U.sizeY ∧ r.imageA.length = U.sizeX * U.sizeY ∧
      ∀ idx, idx < U.sizeX * U.sizeY →
        r.imageA.getD idx 0
            = (if opaqueAt maxAlpha U B (idx % U.sizeX) (idx / U.sizeX)
                ∨ opaqueAt maxAlpha U A (idx % U.sizeX) (idx / U.sizeX) then maxAlpha else 0) ∧
        r.image.getD idx 0
            = (if opaqueAt maxAlpha U B (idx % U.sizeX) (idx / U.sizeX) then
                B.pixels.getD (srcIndex (B.posX - U.ulX) (B.posY - U.ulY) B.width
                  (idx % U.sizeX) (idx / U.sizeX)) 0
              else if covered (A.posX - U.ulX) (A.posY - U.ulY) A.width A.height
                  (idx % U.sizeX) (idx / U.sizeX) then
                A.pixels.getD (srcIndex (A.posX - U.ulX) (A.posY - U.ulY) A.width
                  (idx % U.sizeX) (idx / U.sizeX)) 0
              else 0) := by
  have hov := overlapCheck_disjoint maxAlpha hmax U A B hdis
  have hstep : assembleStep maxAlpha U
      ⟨importImage U.sizeX (A.posX - U.ulX) (A.posY - U.ulY) A.width A.height A.pixels
          (List.replicate (U.sizeX * U.sizeY) 0),
        transformImage (Threshold maxAlpha maxAlpha 0 maxAlpha)
          (importImage U.sizeX (A.posX - U.ulX) (A.posY - U.ulY) A.width A.height A.alpha
            (List.replicate (U.sizeX * U.sizeY) 0)), []⟩ (0, B)
      = ⟨copyImageIf U.sizeX (B.posX - U.ulX) (B.posY - U.ulY) B.width B.height B.pixels
          (transformImage (Threshold maxAlpha maxAlpha 0 maxAlpha) B.alpha)
          (importImage U.sizeX (A.posX - U.ulX) (A.posY - U.ulY) A.width A.height A.pixels
            (List.replicate (U.sizeX * U.sizeY) 0)),
        copyImageIf U.sizeX (B.posX - U.ulX) (B.posY - U.ulY) B.width B.height
          (transformImage (Threshold maxAlpha maxAlpha 0 maxAlpha) B.alpha)
          (transformImage (Threshold maxAlpha maxAlpha 0 maxAlpha) B.alpha)
          (transformImage (Threshold maxAlpha maxAlpha 0 maxAlpha)
            (importImage U.sizeX (A.posX - U.ulX) (A.posY - U.ulY) A.width A.height A.alpha
              (List.replicate (U.sizeX * U.sizeY) 0))), [0]⟩ := by
    unfold assembleStep
    simp only [hov]
    rfl
  have hres : assemble false maxAlpha [A, B] U = some
      ⟨[], copyImageIf U.sizeX (B.posX - U.ulX) (B.posY - U.ulY) B.width B.height B.pixels
          (transformImage (Threshold maxAlpha maxAlpha 0 maxAlpha) B.alpha)
          (importImage U.sizeX (A.posX - U.ulX) (A.posY - U.ulY) A.width A.height A.pixels
            (List.replicate (U.sizeX * U.sizeY) 0)),
        copyImageIf U.sizeX (B.posX - U.ulX) (B.posY - U.ulY) B.width B.height
          (transformImage (Threshold maxAlpha maxAlpha 0 maxAlpha) B.alpha)
          (transformImage (Threshold maxAlpha maxAlpha 0 maxAlpha) B.alpha)
          (transformImage (Threshold maxAlpha maxAlpha 0 maxAlpha)
            (importImage U.sizeX (A.posX - U.ulX) (A.posY - U.ulY) A.width A.height A.alpha
              (List.replicate (U.sizeX * U.sizeY) 0)))⟩ := by
    unfold assemble
    simp only [Bool.not_false, if_true, List.enum, List.enumFrom, List.foldl]
    rw [hstep]
    rfl
  refine ⟨_, hres, rfl, ?_, ?_, ?_⟩
  · unfold copyImageIf importImage
    rw [canvasMap_length, canvasMap_length, List.length_replicate]
  · unfold copyImageIf importImage
    rw [canvasMap_length, transformImage_length, canvasMap_length, List.length_replicate]
  · intro idx hidx
    simp only []
    constructor
    · unfold copyImageIf
      rw [canvasMap_getD _ _ _ _ (by
        rw [transformImage_length]; unfold importImage
        rw [canvasMap_length, List.length_replicate]; exact hidx),
        first_alpha_getD maxAlpha hmax U A idx hidx, transformImage_getD maxAlpha hmax]
      unfold opaqueAt
      by_cases hc : covered (B.posX - U.ulX) (B.posY - U.ulY) B.width B.height
          (idx % U.sizeX) (idx / U.sizeX) = true
      · by_cases ha : B.alpha.getD (srcIndex (B.posX - U.ulX) (B.posY - U.ulY) B.width
            (idx % U.sizeX) (idx / U.sizeX)) 0 = maxAlpha
        · have hne : maxAlpha ≠ 0 := by omega
          simp [hc, ha, hne, -List.getD_eq_getElem?_getD]
        · simp [hc, ha, -List.getD_eq_getElem?_getD]
      · simp [hc, -List.getD_eq_getElem?_getD]
    · unfold copyImageIf
      rw [canvasMap_getD _ _ _ _ (by
        unfold importImage
        rw [canvasMap_length, List.length_replicate]; exact hidx),
        transformImage_getD maxAlpha hmax]
      unfold importImage
      rw [canvasMap_getD _ _ _ _ (by simpa using hidx), getD_replicate_lt _ _ _ _ hidx]
      unfold opaqueAt
      by_cases hc : covered (B.posX - U.ulX) (B.posY - U.ulY) B.width B.height
          (idx % U.sizeX) (idx / U.sizeX) = true
      · by_cases ha : B.alpha.getD (srcIndex (B.posX - U.ulX) (B.posY - U.ulY) B.width
            (idx % U.sizeX) (idx / U.sizeX)) 0 = maxAlpha
        · have hne : maxAlpha ≠ 0 := by omega
          simp [hc, ha, hne, -List.getD_eq_getElem?_getD]
        · simp [hc, ha, -List.getD_eq_getElem?_getD]
      · simp [hc, -List.getD_eq_getElem?_getD]

theorem canvas_index_lt (cw ch cx cy : Nat) (hx : cx < cw) (hy : cy < ch) :
    cy * cw + cx < cw * ch := by
  have : (cy + 1) * cw ≤ ch * cw := Nat.mul_le_mul_right cw hy
  rw [Nat.mul_comm cw ch]
  linarith [Nat.succ_mul cy cw]

/-- C20, as the code has it: two images without a common opaque position, both at the
origin of a canvas of 3 x 1 pixels.  The third position is transparent in both, and the
composite keeps there the colour of whichever image is first in the list: the first
image is loaded whole, a later one only where it is opaque.  So the composite image
depends on the order, and the claim for all disjoint pairs is false. -/
theorem assemble_order_matters :
    OpaqueDisjoint 255 ⟨0, 0, 3, 1⟩ ⟨"a", 0, 0, 3, 1, [5, 9, 1], [255, 0, 0]⟩
        ⟨"b", 0, 0, 3, 1, [3, 7, 2], [0, 255, 0]⟩ ∧
      assemble false 255 [⟨"a", 0, 0, 3, 1, [5, 9, 1], [255, 0, 0]⟩,
          ⟨"b", 0, 0, 3, 1, [3, 7, 2], [0, 255, 0]⟩] ⟨0, 0, 3, 1⟩
        = some ⟨[], [5, 7, 1], [255, 255, 0]⟩ ∧
      assemble false 255 [⟨"b", 0, 0, 3, 1, [3, 7, 2], [0, 255, 0]⟩,
          ⟨"a", 0, 0, 3, 1, [5, 9, 1], [255, 0, 0]⟩] ⟨0, 0, 3, 1⟩
        = some ⟨[], [5, 7, 2], [255, 255, 0]⟩ ∧
      ¬ (∀ (maxAlpha : Nat) (inputUnion : EnblendROI) (A B : ImageImportInfo),
          OpaqueDisjoint maxAlpha inputUnion A B →
          ∀ r s, assemble false maxAlpha [A, B] inputUnion = some r →
            assemble false maxAlpha [B, A] inputUnion = some s →
            r.image = s.image ∧ r.imageA = s.imageA) := by
  refine ⟨by decide, by decide, by decide, fun hall => ?_⟩
  have h := hall 255 ⟨0, 0, 3, 1⟩ ⟨"a", 0, 0, 3, 1, [5, 9, 1], [255, 0, 0]⟩
    ⟨"b", 0, 0, 3, 1, [3, 7, 2], [0, 255, 0]⟩ (by decide)
    ⟨[], [5, 7, 1], [255, 255, 0]⟩ ⟨[], [5, 7, 2], [255, 255, 0]⟩ (by decide) (by decide)
  exact absurd h.1 (by decide)

/-- C20, amended: for two positioned images without an opaque pixel at a common canvas
position, and a positive maximal alpha, `assemble` (pre-assembly enabled) builds from
`[A, B]` and from `[B, A]` the same composite alpha, and composite images that agree at
every canvas position where the composite is opaque or that lies outside both input
rectangles. -/
theorem assemble_commutes (maxAlpha : Nat) (inputUnion : EnblendROI) (A B : ImageImportInfo)
    (hmax : 0 < maxAlpha) (hdis : OpaqueDisjoint maxAlpha inputUnion A B) :
    ∃ r s, assemble false maxAlpha [A, B] inputUnion = some r ∧
      assemble false maxAlpha [B, A] inputUnion = some s ∧
      r.imageA = s.imageA ∧
      r.image.length = inputUnion.sizeX * inputUnion.sizeY ∧
      s.image.length = inputUnion.sizeX * inputUnion.sizeY ∧
      ∀ cy, cy < inputUnion.sizeY → ∀ cx, cx < inputUnion.sizeX →
        (r.imageA.getD (cy * inputUnion.sizeX + cx) 0 = maxAlpha ∨
          (covered (A.posX - inputUnion.ulX) (A.posY - inputUnion.ulY) A.width A.height
              cx cy = false ∧
            covered (B.posX - inputUnion.ulX) (B.posY - inputUnion.ulY) B.width B.height
              cx cy = false)) →
        r.image.getD (cy * inputUnion.sizeX + cx) 0
          = s.image.getD (cy * inputUnion.sizeX + cx) 0 := by
  obtain ⟨r, hr, -, hrl, hral, hrp⟩ := assemble_pair maxAlpha hmax inputUnion A B hdis
  obtain ⟨s, hs, -, hsl, hsal, hsp⟩ := assemble_pair maxAlpha hmax inputUnion B A hdis.symm
  refine ⟨r, s, hr, hs, ?_, hrl, hsl, ?_⟩
  · apply ext_getD 0 _ _ (by rw [hral, hsal])
    intro idx hidx
    rw [hral] at hidx
    rw [(hrp idx hidx).1, (hsp idx hidx).1]
    simp only [or_comm]
  · intro cy hy cx hx hpos
    have hidx := canvas_index_lt inputUnion.sizeX inputUnion.sizeY cx cy hx hy
    have hr1 := hrp _ hidx
    have hs1 := hsp _ hidx
    rw [(index_div_mod inputUnion.sizeX cy cx hx).1, (index_div_mod inputUnion.sizeX cy cx hx).2]
      at hr1 hs1
    rw [hr1.2, hs1.2]
    by_cases hB : opaqueAt maxAlpha inputUnion B cx cy
    · have hA : ¬ opaqueAt maxAlpha inputUnion A cx cy := fun hA => hdis cy hy cx hx ⟨hA, hB⟩
      rw [if_pos hB, if_neg hA, if_pos hB.1]
    · rw [if_neg hB]
      by_cases hA : opaqueAt maxAlpha inputUnion A cx cy
      · rw [if_pos hA, if_pos hA.1]
      · rw [if_neg hA]
        rcases hpos with hop | ⟨hcA, hcB⟩
        · rw [hr1.1, if_neg (by tauto)] at hop
          omega
        · rw [hcA, hcB]
          rfl

theorem assemble_commutes_witness :
    0 < 255 ∧
      OpaqueDisjoint 255 ⟨12, 20, 2, 2⟩ ⟨"a", 12, 21, 1, 1, [7], [255]⟩
        ⟨"b", 12, 20, 2, 2, [1, 2, 3, 4], [255, 0, 0, 255]⟩ ∧
      assemble false 255 [⟨"a", 12, 21, 1, 1, [7], [255]⟩,
          ⟨"b", 12, 20, 2, 2, [1, 2, 3, 4], [255, 0, 0, 255]⟩] ⟨12, 20, 2, 2⟩
        = some ⟨[], [1, 0, 7, 4], [255, 0, 255, 255]⟩ ∧
      assemble false 255 [⟨"b", 12, 20, 2, 2, [1, 2, 3, 4], [255, 0, 0, 255]⟩,
          ⟨"a", 12, 21, 1, 1, [7], [255]⟩] ⟨12, 20, 2, 2⟩
        = some ⟨[], [1, 2, 7, 4], [255, 0, 255, 255]⟩ ∧
      ∃ r s, assemble false 255 [⟨"a", 12, 21, 1, 1, [7], [255]⟩,
            ⟨"b", 12, 20, 2, 2, [1, 2, 3, 4], [255, 0, 0, 255]⟩] ⟨12, 20, 2, 2⟩ = some r ∧
        assemble false 255 [⟨"b", 12, 20, 2, 2, [1, 2, 3, 4], [255, 0, 0, 255]⟩,
            ⟨"a", 12, 21, 1, 1, [7], [255]⟩] ⟨12, 20, 2, 2⟩ = some s ∧
        r.imageA = s.imageA ∧
        r.image.length = 2 * 2 ∧
        s.image.length = 2 * 2 ∧
        ∀ cy, cy < 2 → ∀ cx, cx < 2 →
          (r.imageA.getD (cy * 2 + cx) 0 = 255 ∨
            (covered (12 - 12) (21 - 20) 1 1 cx cy = false ∧
              covered (12 - 12) (20 - 20) 2 2 cx cy = false)) →
          r.image.getD (cy * 2 + cx) 0 = s.image.getD (cy * 2 + cx) 0 :=
  ⟨by decide, by decide, by decide, by decide,
    assemble_commutes 255 ⟨12, 20, 2, 2⟩ ⟨"a", 12, 21, 1, 1, [7], [255]⟩
      ⟨"b", 12, 20, 2, 2, [1, 2, 3, 4], [255, 0, 0, 255]⟩ (by decide) (by decide)⟩

theorem first_alpha_is (maxAlpha : Nat) (hmax : 0 < maxAlpha) (U : EnblendROI)
    (A : ImageImportInfo) :
    AlphaIs maxAlpha U (opaqueSet maxAlpha U A)
      (transformImage (Threshold maxAlpha maxAlpha 0 maxAlpha)
        (importImage U.sizeX (A.posX - U.ulX) (A.posY - U.ulY) A.width A.height A.alpha
          (List.replicate (U.sizeX * U.sizeY) 0))) := by
  constructor
  · rw [transformImage_length]
    unfold importImage
    rw [canvasMap_length, List.length_replicate]
  · intro idx hidx
    rw [first_alpha_getD maxAlpha hmax U A idx hidx]
    unfold opaqueSet
    simp only [decide_eq_true_eq]

/-- Copying the thresholded alpha of an accepted image adds its opaque positions to
the composite. -/
theorem copy_alpha_is (maxAlpha : Nat) (hmax : 0 < maxAlpha) (U : EnblendROI)
    (acc : Nat → Nat → Bool) (imageA : List Nat) (info : ImageImportInfo)
    (h : AlphaIs maxAlpha U acc imageA) :
    AlphaIs maxAlpha U (fun cx cy => acc cx cy || opaqueSet maxAlpha U info cx cy)
      (copyImageIf U.sizeX (info.posX - U.ulX) (info.posY - U.ulY) info.width info.height
        (transformImage (Threshold maxAlpha maxAlpha 0 maxAlpha) info.alpha)
        (transformImage (Threshold maxAlpha maxAlpha 0 maxAlpha) info.alpha) imageA) := by
  obtain ⟨hl, hg⟩ := h
  constructor
  · unfold copyImageIf
    rw [canvasMap_length, hl]
  · intro idx hidx
    unfold copyImageIf
    rw [canvasMap_getD _ _ _ _ (by rw [hl]; exact hidx), hg idx hidx,
      transformImage_getD maxAlpha hmax]
    unfold opaqueSet opaqueAt
    have hne : maxAlpha ≠ 0 := by omega
    by_cases hc : covered (info.posX - U.ulX) (info.posY - U.ulY) info.width info.height
        (idx % U.sizeX) (idx / U.sizeX) = true
    · by_cases ha : info.alpha.getD (srcIndex (info.posX - U.ulX) (info.posY - U.ulY)
          info.width (idx % U.sizeX) (idx / U.sizeX)) 0 = maxAlpha
      · simp [hc, ha, hne, -List.getD_eq_getElem?_getD]
      · simp [hc, ha, -List.getD_eq_getElem?_getD]
    · simp [hc, -List.getD_eq_getElem?_getD]

theorem overlapCheck_eq_true (maxAlpha cw : Nat) (imageA : List Nat) (offX offY : Int)
    (w h : Nat) (srcA : List Nat) (y x : Nat) (hy : y < h) (hx : x < w)
    (h1 : srcA.getD (y * w + x) 0 = maxAlpha)
    (h2 : canvasGet cw imageA (offX + (x : Int)) (offY + (y : Int)) = maxAlpha) :
    overlapCheck maxAlpha cw imageA offX offY w h srcA = true := by
  unfold overlapCheck
  rw [List.any_eq_true]
  refine ⟨y, List.mem_range.mpr hy, ?_⟩
  rw [List.any_eq_true]
  refine ⟨x, List.mem_range.mpr hx, ?_⟩
  simp [h1, h2, -List.getD_eq_getElem?_getD]

theorem hitsComposite_eq_true (maxAlpha : Nat) (U : EnblendROI) (acc : Nat → Nat → Bool)
    (info : ImageImportInfo) :
    hitsComposite maxAlpha U acc info = true ↔
      ∃ cy, cy < U.sizeY ∧ ∃ cx, cx < U.sizeX ∧ acc cx cy = true ∧
        opaqueAt maxAlpha U info cx cy := by
  unfold hitsComposite opaqueSet
  simp only [List.any_eq_true, List.mem_range, Bool.and_eq_true, decide_eq_true_eq]

/-- The overlap check of `assemble` against a composite alpha that is opaque exactly on
`acc` decides whether the image has an opaque pixel on `acc`. -/
theorem overlapCheck_hits (maxAlpha : Nat) (hmax : 0 < maxAlpha) (U : EnblendROI)
    (acc : Nat → Nat → Bool) (imageA : List Nat) (info : ImageImportInfo)
    (h : AlphaIs maxAlpha U acc imageA) :
    overlapCheck maxAlpha U.sizeX imageA (info.posX - U.ulX) (info.posY - U.ulY)
        info.width info.height
        (transformImage (Threshold maxAlpha maxAlpha 0 maxAlpha) info.alpha)
      = hitsComposite maxAlpha U acc info := by
  obtain ⟨hl, hg⟩ := h
  by_cases hh : hitsComposite maxAlpha U acc info = true
  · rw [hh]
    obtain ⟨cy, hcy, cx, hcx, hacc, hcov, hal⟩ := (hitsComposite_eq_true _ _ _ _).mp hh
    unfold covered at hcov
    rw [decide_eq_true_eq] at hcov
    unfold srcIndex at hal
    obtain ⟨x, hx⟩ := Int.eq_ofNat_of_zero_le (a := (cx : Int) - (info.posX - U.ulX))
      (by omega)
    obtain ⟨y, hy⟩ := Int.eq_ofNat_of_zero_le (a := (cy : Int) - (info.posY - U.ulY))
      (by omega)
    rw [hx, hy, Int.toNat_ofNat, Int.toNat_ofNat] at hal
    apply overlapCheck_eq_true maxAlpha U.sizeX imageA _ _ _ _ _ y x (by omega) (by omega)
    · rw [transformImage_getD maxAlpha hmax, if_pos hal]
    · have e1 : info.posX - U.ulX + (x : Int) = (cx : Int) := by omega
      have e2 : info.posY - U.ulY + (y : Int) = (cy : Int) := by omega
      rw [e1, e2]
      unfold canvasGet
      rw [if_pos ⟨by omega, by omega, by omega⟩, Int.toNat_ofNat, Int.toNat_ofNat,
        hg _ (canvas_index_lt _ _ _ _ hcx hcy), (index_div_mod U.sizeX cy cx hcx).1,
        (index_div_mod U.sizeX cy cx hcx).2, if_pos hacc]
  · rw [Bool.not_eq_true] at hh
    rw [hh]
    apply overlapCheck_eq_false
    rintro y hy x hx ⟨h1, h2⟩
    rw [transformImage_getD maxAlpha hmax] at h1
    have hB : info.alpha.getD (y * info.width + x) 0 = maxAlpha := by
      by_contra hne
      rw [if_neg hne] at h1
      omega
    obtain ⟨hx0, hx1, hy0, hget⟩ := canvasGet_eq_max maxAlpha U.sizeX hmax _ _ _ h2
    obtain ⟨cx, hcx⟩ := Int.eq_ofNat_of_zero_le hx0
    obtain ⟨cy, hcy⟩ := Int.eq_ofNat_of_zero_le hy0
    rw [hcx, hcy, Int.toNat_ofNat, Int.toNat_ofNat] at hget
    have hcxw : cx < U.sizeX := by omega
    have hidx : cy * U.sizeX + cx < U.sizeX * U.sizeY := by
      by_contra hge
      rw [getD_default_of_le 0 _ _ (by rw [hl]; omega)] at hget
      omega
    rw [hg _ hidx, (index_div_mod U.sizeX cy cx hcxw).1,
      (index_div_mod U.sizeX cy cx hcxw).2] at hget
    have hA : acc cx cy = true := by
      by_contra hne
      rw [if_neg hne] at hget
      omega
    have hBo : opaqueAt maxAlpha U info cx cy := by
      unfold opaqueAt covered srcIndex
      have e1 : ((cy : Int) - (info.posY - U.ulY)).toNat = y := by omega
      have e2 : ((cx : Int) - (info.posX - U.ulX)).toNat = x := by omega
      rw [e1, e2]
      refine ⟨?_, hB⟩
      rw [decide_eq_true_eq]
      omega
    have : hitsComposite maxAlpha U acc info = true :=
      (hitsComposite_eq_true _ _ _ _).mpr
        ⟨cy, row_lt_of_index_lt _ _ _ _ hidx, cx, hcxw, hA, hBo⟩
    rw [hh] at this
    exact absurd this (by decide)

theorem assembleStep_hit (maxAlpha : Nat) (hmax : 0 < maxAlpha) (U : EnblendROI)
    (acc : Nat → Nat → Bool) (st : AssembleState) (k : Nat) (info : ImageImportInfo)
    (h : AlphaIs maxAlpha U acc st.imageA)
    (hh : hitsComposite maxAlpha U acc info = true) :
    assembleStep maxAlpha U st (k, info) = st := by
  have hov := overlapCheck_hits maxAlpha hmax U acc st.imageA info h
  rw [hh] at hov
  unfold assembleStep
  simp only [hov]
  rfl

theorem assembleStep_miss (maxAlpha : Nat) (hmax : 0 < maxAlpha) (U : EnblendROI)
    (acc : Nat → Nat → Bool) (st : AssembleState) (k : Nat) (info : ImageImportInfo)
    (h : AlphaIs maxAlpha U acc st.imageA)
    (hh : hitsComposite maxAlpha U acc info = false) :
    assembleStep maxAlpha U st (k, info)
      = ⟨copyImageIf U.sizeX (info.posX - U.ulX) (info.posY - U.ulY) info.width info.height
          info.pixels (transformImage (Threshold maxAlpha maxAlpha 0 maxAlpha) info.alpha)
          st.image,
        copyImageIf U.sizeX (info.posX - U.ulX) (info.posY - U.ulY) info.width info.height
          (transformImage (Threshold maxAlpha maxAlpha 0 maxAlpha) info.alpha)
          (transformImage (Threshold maxAlpha maxAlpha 0 maxAlpha) info.alpha) st.imageA,
        st.toBeRemoved ++ [k]⟩ := by
  have hov := overlapCheck_hits maxAlpha hmax U acc st.imageA info h
  rw [hh] at hov
  unfold assembleStep
  simp only [hov]
  rfl

/-- The loop of `assemble` over the later images removes the positions that the greedy
selection accepts. -/
theorem assemble_fold (maxAlpha : Nat) (hmax : 0 < maxAlpha) (U : EnblendROI) :
    ∀ (rest : List ImageImportInfo) (k : Nat) (acc : Nat → Nat → Bool) (st : AssembleState),
      AlphaIs maxAlpha U acc st.imageA →
      ((rest.enumFrom k).foldl (assembleStep maxAlpha U) st).toBeRemoved
        = st.toBeRemoved ++ greedyTaken maxAlpha U acc k rest := by
  intro rest
  induction rest with
  | nil =>
    intro k acc st _
    simp [greedyTaken]
  | cons info rest ih =>
    intro k acc st h
    rw [List.enumFrom_cons, List.foldl_cons]
    by_cases hh : hitsComposite maxAlpha U acc info = true
    · rw [assembleStep_hit maxAlpha hmax U acc st k info h hh, ih (k + 1) acc st h]
      simp only [greedyTaken, hh, if_true]
    · rw [Bool.not_eq_true] at hh
      rw [assembleStep_miss maxAlpha hmax U acc st k info h hh,
        ih (k + 1) _ _ (copy_alpha_is maxAlpha hmax U acc st.imageA info h)]
      simp only [greedyTaken, hh, Bool.false_eq_true, if_false, List.append_assoc,
        List.singleton_append]

theorem greedyTaken_ge (maxAlpha : Nat) (U : EnblendROI) :
    ∀ (rest : List ImageImportInfo) (k : Nat) (acc : Nat → Nat → Bool) (i : Nat),
      i ∈ greedyTaken maxAlpha U acc k rest → k ≤ i := by
  intro rest
  induction rest with
  | nil =>
    intro k acc i hi
    simp [greedyTaken] at hi
  | cons info rest ih =>
    intro k acc i hi
    unfold greedyTaken at hi
    by_cases hh : hitsComposite maxAlpha U acc info = true
    · rw [if_pos hh] at hi
      have := ih (k + 1) acc i hi
      omega
    · rw [if_neg hh, List.mem_cons] at hi
      rcases hi with rfl | hi
      · exact Nat.le_refl _
      · have := ih (k + 1) _ i hi
        omega

/-- Erasing the accepted positions from the list leaves the images that the greedy
selection refuses, in their order. -/
theorem greedy_filter (maxAlpha : Nat) (U : EnblendROI) :
    ∀ (rest : List ImageImportInfo) (k : Nat) (acc : Nat → Nat → Bool) (pre : List Nat),
      (∀ i ∈ pre, i < k) →
      ((rest.enumFrom k).filter
          (fun p => !(pre ++ greedyTaken maxAlpha U acc k rest).contains p.1)).map Prod.snd
        = greedyLeft maxAlpha U acc rest := by
  intro rest
  induction rest with
  | nil =>
    intro k acc pre _
    simp [greedyLeft]
  | cons info rest ih =>
    intro k acc pre hpre
    rw [List.enumFrom_cons]
    by_cases hh : hitsComposite maxAlpha U acc info = true
    · have hk : (pre ++ greedyTaken maxAlpha U acc (k + 1) rest).contains k = false := by
        rw [List.contains_eq_any_beq, List.any_eq_false]
        intro i hi
        rw [List.mem_append] at hi
        rcases hi with hi | hi
        · have := hpre i hi
          simp only [beq_iff_eq]; omega
        · have := greedyTaken_ge maxAlpha U rest (k + 1) acc i hi
          simp only [beq_iff_eq]; omega
      have e : greedyTaken maxAlpha U acc k (info :: rest)
          = greedyTaken maxAlpha U acc (k + 1) rest := by
        simp only [greedyTaken, hh, if_true]
      rw [e, List.filter_cons_of_pos (by simp only [hk, Bool.not_false]), List.map_cons,
        ih (k + 1) acc pre (fun i hi => by have := hpre i hi; omega)]
      simp only [greedyLeft, hh, if_true]
    · rw [Bool.not_eq_true] at hh
      have e : pre ++ greedyTaken maxAlpha U acc k (info :: rest)
          = (pre ++ [k]) ++ greedyTaken maxAlpha U
              (fun cx cy => acc cx cy || opaqueSet maxAlpha U info cx cy) (k + 1) rest := by
        simp only [greedyTaken, hh, Bool.false_eq_true, if_false, List.append_assoc,
          List.singleton_append]
      have hk : ((pre ++ [k]) ++ greedyTaken maxAlpha U
          (fun cx cy => acc cx cy || opaqueSet maxAlpha U info cx cy) (k + 1) rest).contains k
          = true := by
        rw [List.contains_eq_any_beq, List.any_eq_true]
        exact ⟨k, by simp, by simp⟩
      rw [e, List.filter_cons_of_neg (by simp only [hk, Bool.not_true]; decide),
        ih (k + 1) _ (pre ++ [k]) (fun i hi => by
          rw [List.mem_append, List.mem_singleton] at hi
          rcases hi with hi | hi
          · have := hpre i hi; omega
          · omega)]
      simp only [greedyLeft, hh, Bool.false_eq_true, if_false]

theorem greedyLeft_sublist (maxAlpha : Nat) (U : EnblendROI) :
    ∀ (rest : List ImageImportInfo) (acc : Nat → Nat → Bool),
      (greedyLeft maxAlpha U acc rest).Sublist rest := by
  intro rest
  induction rest with
  | nil =>
    intro acc
    simp [greedyLeft]
  | cons info rest ih =>
    intro acc
    unfold greedyLeft
    by_cases hh : hitsComposite maxAlpha U acc info = true
    · rw [if_pos hh]
      exact (ih acc).cons₂ info
    · rw [if_neg hh]
      exact (ih _).cons info

theorem assemble_cons_list (OneAtATime : Bool) (maxAlpha : Nat) (hmax : 0 < maxAlpha)
    (U : EnblendROI) (first : ImageImportInfo) (rest : List ImageImportInfo) :
    ∃ r, assemble OneAtATime maxAlpha (first :: rest) U = some r ∧
      r.imageInfoList = (if OneAtATime then rest
        else greedyLeft maxAlpha U (opaqueSet maxAlpha U first) rest) := by
  refine ⟨_, rfl, ?_⟩
  cases OneAtATime with
  | true =>
    simp only [Bool.not_true, Bool.false_eq_true, if_false, if_true, List.contains_nil,
      Bool.not_false, List.filter_true, List.enum, List.enumFrom_map_snd]
  | false =>
    simp only [Bool.not_false, if_true, Bool.false_eq_true, if_false, List.enum]
    rw [assemble_fold maxAlpha hmax U rest 0 (opaqueSet maxAlpha U first) _
      (first_alpha_is maxAlpha hmax U first)]
    exact greedy_filter maxAlpha U rest 0 (opaqueSet maxAlpha U first) []
      (fun i hi => absurd hi (List.not_mem_nil i))

/-- C21: on an empty list `assemble` returns `NULL` and the list stays empty.  On a list
`first :: rest` it returns a composite and removes the first image; with `OneAtATime`
the list left is `rest`, otherwise it is what the greedy selection leaves of `rest`:
the images that, taken in list order, have an opaque pixel on a position already opaque
in the composite of the first image and the images accepted before.  The list left is a
sublist of `rest`, so the order is kept. -/
theorem assemble_greedy (OneAtATime : Bool) (maxAlpha : Nat) (inputUnion : EnblendROI)
    (first : ImageImportInfo) (rest : List ImageImportInfo) (hmax : 0 < maxAlpha) :
    assemble OneAtATime maxAlpha [] inputUnion = none ∧
      assembleList OneAtATime maxAlpha [] inputUnion = [] ∧
      (assemble OneAtATime maxAlpha (first :: rest) inputUnion).isSome = true ∧
      assembleList OneAtATime maxAlpha (first :: rest) inputUnion
        = (if OneAtATime then rest
          else greedyLeft maxAlpha inputUnion (opaqueSet maxAlpha inputUnion first) rest) ∧
      (assembleList OneAtATime maxAlpha (first :: rest) inputUnion).Sublist rest := by
  obtain ⟨r, hr, hl⟩ := assemble_cons_list OneAtATime maxAlpha hmax inputUnion first rest
  have hlist : assembleList OneAtATime maxAlpha (first :: rest) inputUnion
      = (if OneAtATime then rest
        else greedyLeft maxAlpha inputUnion (opaqueSet maxAlpha inputUnion first) rest) := by
    unfold assembleList
    rw [hr]
    exact hl
  refine ⟨rfl, rfl, ?_, hlist, ?_⟩
  · rw [hr]
    rfl
  · rw [hlist]
    cases OneAtATime with
    | true => exact List.Sublist.refl rest
    | false => exact greedyLeft_sublist maxAlpha inputUnion rest _

theorem assemble_greedy_witness :
    0 < 255 ∧
      assembleList false 255
          [⟨"a", 0, 0, 2, 1, [1, 2], [255, 255]⟩, ⟨"b", 1, 0, 2, 1, [3, 4], [255, 0]⟩,
            ⟨"c", 2, 0, 2, 1, [5, 6], [255, 255]⟩, ⟨"d", 3, 0, 1, 1, [7], [255]⟩]
          ⟨0, 0, 4, 1⟩
        = [⟨"b", 1, 0, 2, 1, [3, 4], [255, 0]⟩, ⟨"d", 3, 0, 1, 1, [7], [255]⟩] ∧
      assemble false 255
          [⟨"a", 0, 0, 2, 1, [1, 2], [255, 255]⟩, ⟨"b", 1, 0, 2, 1, [3, 4], [255, 0]⟩,
            ⟨"c", 2, 0, 2, 1, [5, 6], [255, 255]⟩, ⟨"d", 3, 0, 1, 1, [7], [255]⟩]
          ⟨0, 0, 4, 1⟩
        = some ⟨[⟨"b", 1, 0, 2, 1, [3, 4], [255, 0]⟩, ⟨"d", 3, 0, 1, 1, [7], [255]⟩],
            [1, 2, 5, 6], [255, 255, 255, 255]⟩ ∧
      (assemble false 255 [] ⟨0, 0, 4, 1⟩ = none ∧
        assembleList false 255 [] ⟨0, 0, 4, 1⟩ = [] ∧
        (assemble false 255
          (⟨"a", 0, 0, 2, 1, [1, 2], [255, 255]⟩ :: [⟨"b", 1, 0, 2, 1, [3, 4], [255, 0]⟩,
            ⟨"c", 2, 0, 2, 1, [5, 6], [255, 255]⟩, ⟨"d", 3, 0, 1, 1, [7], [255]⟩])
          ⟨0, 0, 4, 1⟩).isSome = true ∧
        assembleList false 255
            (⟨"a", 0, 0, 2, 1, [1, 2], [255, 255]⟩ :: [⟨"b", 1, 0, 2, 1, [3, 4], [255, 0]⟩,
              ⟨"c", 2, 0, 2, 1, [5, 6], [255, 255]⟩, ⟨"d", 3, 0, 1, 1, [7], [255]⟩])
            ⟨0, 0, 4, 1⟩
          = (if false = true then [⟨"b", 1, 0, 2, 1, [3, 4], [255, 0]⟩,
              ⟨"c", 2, 0, 2, 1, [5, 6], [255, 255]⟩, ⟨"d", 3, 0, 1, 1, [7], [255]⟩]
            else greedyLeft 255 ⟨0, 0, 4, 1⟩
              (opaqueSet 255 ⟨0, 0, 4, 1⟩ ⟨"a", 0, 0, 2, 1, [1, 2], [255, 255]⟩)
              [⟨"b", 1, 0, 2, 1, [3, 4], [255, 0]⟩,
                ⟨"c", 2, 0, 2, 1, [5, 6], [255, 255]⟩, ⟨"d", 3, 0, 1, 1, [7], [255]⟩]) ∧
        (assembleList false 255
            (⟨"a", 0, 0, 2, 1, [1, 2], [255, 255]⟩ :: [⟨"b", 1, 0, 2, 1, [3, 4], [255, 0]⟩,
              ⟨"c", 2, 0, 2, 1, [5, 6], [255, 255]⟩, ⟨"d", 3, 0, 1, 1, [7], [255]⟩])
            ⟨0, 0, 4, 1⟩).Sublist
          [⟨"b", 1, 0, 2, 1, [3, 4], [255, 0]⟩,
            ⟨"c", 2, 0, 2, 1, [5, 6], [255, 255]⟩, ⟨"d", 3, 0, 1, 1, [7], [255]⟩]) :=
  ⟨by decide, by decide, by decide,
    assemble_greedy false 255 ⟨0, 0, 4, 1⟩ ⟨"a", 0, 0, 2, 1, [1, 2], [255, 255]⟩
      [⟨"b", 1, 0, 2, 1, [3, 4], [255, 0]⟩, ⟨"c", 2, 0, 2, 1, [5, 6], [255, 255]⟩,
        ⟨"d", 3, 0, 1, 1, [7], [255]⟩] (by decide)⟩

/-- A channel that `reduce` stores lies between any two bounds of that channel over the
opaque pixels of the window, or it is 0 (no opaque pixel in the window). -/
theorem reduce_channel_between (ch : LPPixel → Int) (inp : List LPPixel)
    (w h outX outY : Nat) (lo hi : Int)
    (hv : ∀ m n, m < 5 → n < 5 → -32768 ≤ ch (reduceTap inp w h outX outY m n) ∧
      ch (reduceTap inp w h outX outY m n) ≤ 32767)
    (hb : ∀ m, m < 5 → ∀ n, n < 5 → (reduceTap inp w h outX outY m n).a = 255 →
      lo ≤ ch (reduceTap inp w h outX outY m n) ∧ ch (reduceTap inp w h outX outY m n) ≤ hi) :
    (lo ≤ toInt16 (rint (reduceAdjust (reduceAcc inp w h outX outY).noContrib
          (opaqueSum ch inp w h outX outY))) ∧
      toInt16 (rint (reduceAdjust (reduceAcc inp w h outX outY).noContrib
          (opaqueSum ch inp w h outX outY))) ≤ hi) ∨
      toInt16 (rint (reduceAdjust (reduceAcc inp w h outX outY).noContrib
          (opaqueSum ch inp w h outX outY))) = 0 := by
  by_cases h0 : (reduceAcc inp w h outX outY).noContrib = 0
  · right
    unfold reduceAdjust
    rw [if_pos h0]
    simp [rint, toInt16]
  · left
    have hop : ∃ m n, m < 5 ∧ n < 5 ∧ (reduceTap inp w h outX outY m n).a = 255 := by
      by_contra hcon
      apply h0
      rw [noContrib_eq_zero_iff]
      intro m n hm hn ha
      exact hcon ⟨m, n, hm, hn, ha⟩
    rw [reduce_channel ch inp w h outX outY hop hv]
    obtain ⟨h1, h2⟩ := mean_bounds ch inp w h outX outY lo hi hop
      (fun m n hm hn ha => hb m hm n hn ha)
    exact rint_bounds _ lo hi h1 h2

theorem reducePixel_alpha (inp : List LPPixel) (w h outY outX : Nat) :
    (reducePixel inp w h outY outX).a = 0 ∨ (reducePixel inp w h outY outX).a = 255 := by
  unfold reducePixel
  simp only
  split_ifs
  · exact Or.inl rfl
  · exact Or.inr rfl

theorem reduce_alpha (inp : List LPPixel) (w h : Nat) :
    ∀ p ∈ reduce inp w h, p.a = 0 ∨ p.a = 255 := by
  refine forall_mem_of_getD (fun p : LPPixel => p.a = 0 ∨ p.a = 255) default _ ?_
  intro i hi
  rw [reduce_length] at hi
  rw [reduce_getD inp w h i hi]
  exact reducePixel_alpha inp w h _ _

/-- C27: every r, g and b channel of every level of `gaussianPyramid` lies in
`[0, 255]`, and every alpha value of every level `l >= 1` is 0 or 255.  The reason is
the window property of `reduce`, stated for one channel `ch` of a raster of `int16`
pixels: the channel of an output pixel lies between any bounds `lo` and `hi` of that
channel over the opaque pixels of its window, or it is 0. -/
theorem gaussianPyramid_range (G : Globals) (image : List Nat) (N : Nat)
    (ch : LPPixel → Int) (inp : List LPPixel) (w h outX outY : Nat) (lo hi : Int)
    (hch : ch = LPPixel.r ∨ ch = LPPixel.g ∨ ch = LPPixel.b)
    (hv : ∀ p ∈ inp, p.Valid)
    (hb : ∀ m, m < 5 → ∀ n, n < 5 → (reduceTap inp w h outX outY m n).a = 255 →
      lo ≤ ch (reduceTap inp w h outX outY m n) ∧ ch (reduceTap inp w h outX outY m n) ≤ hi) :
    (∀ l, l < (gaussianPyramid G image N).length → ∀ p ∈ (gaussianPyramid G image N).getD l [],
      ((0 ≤ p.r ∧ p.r ≤ 255) ∧ (0 ≤ p.g ∧ p.g ≤ 255) ∧ (0 ≤ p.b ∧ p.b ≤ 255)) ∧
        (1 ≤ l → p.a = 0 ∨ p.a = 255)) ∧
      ((lo ≤ ch (reducePixel inp w h outY outX) ∧ ch (reducePixel inp w h outY outX) ≤ hi) ∨
        ch (reducePixel inp w h outY outX) = 0) := by
  constructor
  · intro l hl p hp
    rw [gaussianPyramid_length] at hl
    constructor
    · cases l with
      | zero =>
        rw [gaussianPyramid_zero] at hp
        exact gaussianLevel0_is8 G image p hp
      | succ l => exact gaussianPyramid_is8 G image N (l + 1) (by omega) p hp
    · intro h1
      obtain ⟨k, rfl⟩ : ∃ k, l = k + 1 := ⟨l - 1, by omega⟩
      rw [gaussianPyramid_succ G image N k (by omega)] at hp
      exact reduce_alpha _ _ _ p hp
  · have ht := fun m n => reduceTap_valid inp w h outX outY m n hv
    obtain ⟨er, eg, eb, _⟩ := reduceAcc_eq inp w h outX outY
    rcases hch with rfl | rfl | rfl
    · have := reduce_channel_between LPPixel.r inp w h outX outY lo hi
        (fun m n _ _ => (ht m n).1) hb
      unfold reducePixel
      simp only [er]
      exact this
    · have := reduce_channel_between LPPixel.g inp w h outX outY lo hi
        (fun m n _ _ => (ht m n).2.1) hb
      unfold reducePixel
      simp only [eg]
      exact this
    · have := reduce_channel_between LPPixel.b inp w h outX outY lo hi
        (fun m n _ _ => (ht m n).2.2) hb
      unfold reducePixel
      simp only [eb]
      exact this

theorem gaussianPyramid_range_witness :
    ((∀ p ∈ halfOpaqueRaster, p.Valid) ∧
      ∀ m, m < 5 → ∀ n, n < 5 → (reduceTap halfOpaqueRaster 8 8 1 1 m n).a = 255 →
        100 ≤ LPPixel.r (reduceTap halfOpaqueRaster 8 8 1 1 m n) ∧
          LPPixel.r (reduceTap halfOpaqueRaster 8 8 1 1 m n) ≤ 100) ∧
    (∀ p ∈ (gaussianPyramid ⟨4, 4, 0, 3, 0, 3⟩
        ((List.range 16).map (fun i => 4278190080 + 17 * i)) 2).getD 1 [],
      ((0 ≤ p.r ∧ p.r ≤ 255) ∧ (0 ≤ p.g ∧ p.g ≤ 255) ∧ (0 ≤ p.b ∧ p.b ≤ 255)) ∧
        (1 ≤ 1 → p.a = 0 ∨ p.a = 255)) ∧
    ((100 ≤ LPPixel.r (reducePixel halfOpaqueRaster 8 8 1 1) ∧
        LPPixel.r (reducePixel halfOpaqueRaster 8 8 1 1) ≤ 100) ∨
      LPPixel.r (reducePixel halfOpaqueRaster 8 8 1 1) = 0) :=
  ⟨⟨by decide, by decide⟩,
    (gaussianPyramid_range ⟨4, 4, 0, 3, 0, 3⟩
      ((List.range 16).map (fun i => 4278190080 + 17 * i)) 2
      LPPixel.r halfOpaqueRaster 8 8 1 1 100 100 (Or.inl rfl) (by decide) (by decide)).1 1
      (by rw [gaussianPyramid_length]; decide),
    (gaussianPyramid_range ⟨4, 4, 0, 3, 0, 3⟩
      ((List.range 16).map (fun i => 4278190080 + 17 * i)) 2
      LPPixel.r halfOpaqueRaster 8 8 1 1 100 100 (Or.inl rfl) (by decide) (by decide)).2⟩

theorem Is8.isDiff8 (p : LPPixel) (h : p.Is8) : p.IsDiff8 := by
  unfold LPPixel.Is8 at h
  unfold LPPixel.IsDiff8
  omega

/-- Subtracting an 8-bit increment from an 8-bit pixel does not wrap. -/
theorem expandPixel_sub_isDiff8 (inp : List LPPixel) (inW inH outY outX : Nat) (o : LPPixel)
    (h8 : ∀ p ∈ inp, p.Is8) (ho : o.Is8) :
    (expandPixel inp inW inH false outY outX o).IsDiff8 := by
  obtain ⟨hr, hg, hb⟩ := expandDelta_is8 inp inW inH outX outY h8
  unfold LPPixel.Is8 at ho
  unfold expandPixel LPPixel.IsDiff8
  simp only [Bool.false_eq_true, if_false]
  rw [toInt16_of_range _ (by omega) (by omega), toInt16_of_range _ (by omega) (by omega),
    toInt16_of_range _ (by omega) (by omega)]
  omega

theorem expand_sub_isDiff8 (inp : List LPPixel) (inW inH : Nat) (out : List LPPixel)
    (outW outH : Nat) (h8 : ∀ p ∈ inp, p.Is8) (ho : ∀ p ∈ out, p.Is8) :
    ∀ p ∈ expand inp inW inH out outW outH false, p.IsDiff8 := by
  refine forall_mem_of_getD LPPixel.IsDiff8 default _ ?_
  intro i _
  rw [expand_getD]
  split_ifs
  · exact expandPixel_sub_isDiff8 inp inW inH _ _ _ h8 (getD_is8 out i ho)
  · exact Is8.isDiff8 _ (getD_is8 out i ho)

/-- Every channel of every level of the Laplacian pyramid lies in `[-255, 255]`. -/
theorem laplacianPyramid_isDiff8 (G : Globals) (image : List Nat) (N l : Nat) (hN : 1 ≤ N)
    (hw : 1 ≤ roiWidth G >>> (N - 1)) (hl : l < N) :
    ∀ p ∈ (laplacianPyramid G image N).getD l [], p.IsDiff8 := by
  by_cases hlt : l + 1 < N
  · rw [laplacianPyramid_lower G image N l hN hw hlt]
    exact expand_sub_isDiff8 _ _ _ _ _ _ (gaussianPyramid_is8 G image N (l + 1) hlt)
      (gaussianPyramid_is8 G image N l hl)
  · rw [laplacianPyramid_top G image N l hN hw (by omega)]
    exact fun p hp => Is8.isDiff8 p (gaussianPyramid_is8 G image N l hl p hp)

/-- C28: the weights `4 * W[m] * W[n]` of the taps that `expand` keeps for an output
pixel sum to exactly 1.  Hence, for `N >= 1` levels with a non-empty last level, every
increment that `laplacianPyramid` subtracts (computed from a Gaussian level) lies in
`[0, 255]`, and every channel of every level of `laplacianPyramid` lies in `[-255, 255]`,
inside the `int16` range. -/
theorem laplacianPyramid_no_overflow (G : Globals) (image : List Nat) (N : Nat)
    (outX outY : Nat) (hN : 1 ≤ N) (hw : 1 ≤ roiWidth G >>> (N - 1)) :
    (∑ m ∈ Finset.range 5, ∑ n ∈ Finset.range 5,
        4 * ((if expandSkip outX m then 0 else W m) * (if expandSkip outY n then 0 else W n))
      = 1) ∧
    (∀ l, l < N →
      (0 ≤ (expandDelta ((gaussianPyramid G image N).getD l []) (roiWidth G >>> l)
            (roiHeight G >>> l) outX outY).1 ∧
        (expandDelta ((gaussianPyramid G image N).getD l []) (roiWidth G >>> l)
            (roiHeight G >>> l) outX outY).1 ≤ 255) ∧
      (0 ≤ (expandDelta ((gaussianPyramid G image N).getD l []) (roiWidth G >>> l)
            (roiHeight G >>> l) outX outY).2.1 ∧
        (expandDelta ((gaussianPyramid G image N).getD l []) (roiWidth G >>> l)
            (roiHeight G >>> l) outX outY).2.1 ≤ 255) ∧
      (0 ≤ (expandDelta ((gaussianPyramid G image N).getD l []) (roiWidth G >>> l)
            (roiHeight G >>> l) outX outY).2.2 ∧
        (expandDelta ((gaussianPyramid G image N).getD l []) (roiWidth G >>> l)
            (roiHeight G >>> l) outX outY).2.2 ≤ 255)) ∧
    (∀ l, l < N → ∀ p ∈ (laplacianPyramid G image N).getD l [],
      ((-255 ≤ p.r ∧ p.r ≤ 255) ∧ (-255 ≤ p.g ∧ p.g ≤ 255) ∧ (-255 ≤ p.b ∧ p.b ≤ 255)) ∧
        p.Valid) := by
  refine ⟨?_, fun l hl => ?_, fun l hl p hp => ?_⟩
  · have h := expand_weight_sum outX outY
    have e : ∑ m ∈ Finset.range 5, ∑ n ∈ Finset.range 5,
        4 * ((if expandSkip outX m then 0 else W m) * (if expandSkip outY n then 0 else W n))
        = 4 * ∑ m ∈ Finset.range 5, ∑ n ∈ Finset.range 5,
          ((if expandSkip outX m then 0 else W m) * (if expandSkip outY n then 0 else W n)) := by
      rw [Finset.mul_sum]
      refine Finset.sum_congr rfl (fun m _ => ?_)
      rw [Finset.mul_sum]
    rw [e, h]
    norm_num
  · exact expandDelta_is8 _ _ _ outX outY (gaussianPyramid_is8 G image N l hl)
  · have h := laplacianPyramid_isDiff8 G image N l hN hw hl p hp
    refine ⟨h, ?_⟩
    unfold LPPixel.IsDiff8 at h
    unfold LPPixel.Valid
    omega

theorem laplacianPyramid_no_overflow_witness :
    (1 ≤ 2 ∧ 1 ≤ roiWidth ⟨4, 4, 0, 3, 0, 3⟩ >>> (2 - 1)) ∧
    (∀ p ∈ (laplacianPyramid ⟨4, 4, 0, 3, 0, 3⟩
        ((List.range 16).map (fun i => 4278190080 + 17 * i)) 2).getD 0 [],
      ((-255 ≤ p.r ∧ p.r ≤ 255) ∧ (-255 ≤ p.g ∧ p.g ≤ 255) ∧ (-255 ≤ p.b ∧ p.b ≤ 255)) ∧
        p.Valid) :=
  ⟨⟨by decide, by decide⟩,
    (laplacianPyramid_no_overflow ⟨4, 4, 0, 3, 0, 3⟩
      ((List.range 16).map (fun i => 4278190080 + 17 * i)) 2 1 1 (by decide) (by decide)).2.2 0
      (by decide)⟩

theorem sweepRowTrace_spec (y w : Nat) (tr : List (Nat × Nat × Nat)) (p : Nat) :
    sweepRowTrace y (List.range' 0 w) (tr, p)
      = (tr ++ (List.range w).map (fun x => (y, x, p + x)), p + w) := by
  unfold sweepRowTrace
  refine foldl_range'_inv
    (fun k (st : List (Nat × Nat × Nat) × Nat) =>
      st = (tr ++ (List.range k).map (fun x => (y, x, p + x)), p + k))
    _ 0 w (tr, p) ?_ ?_
  · simp
  · rintro k st _ rfl
    simp only [List.range_succ, List.map_append, List.map_cons, List.map_nil,
      List.append_assoc, Nat.zero_add, Nat.add_assoc]

theorem range_row (j w : Nat) :
    (List.range ((j + 1) * w)).map (fun i => (i / w, i % w, i))
      = (List.range (j * w)).map (fun i => (i / w, i % w, i))
        ++ (List.range w).map (fun x => (j, x, j * w + x)) := by
  have e : (j + 1) * w = j * w + w := by ring
  rw [e, List.range_add, List.map_append, List.map_map]
  congr 1
  apply List.map_congr_left
  intro x hx
  rw [List.mem_range] at hx
  obtain ⟨hd, hm⟩ := index_div_mod w j x hx
  simp only [Function.comp_apply, hd, hm]

/-- The raster loop of `expand` writes the offsets `0, 1, ..., outH * outW - 1` in this
order, offset `i` in the iteration `(outY, outX) = (i / outW, i % outW)`. -/
theorem expandWrites_eq (outW outH : Nat) :
    expandWrites outW outH
      = (List.range (outH * outW)).map (fun i => (i / outW, i % outW, i)) := by
  unfold expandWrites sweepTrace
  rw [List.range_eq_range' (n := outH), List.range_eq_range' (n := outW)]
  have key := foldl_range'_inv
    (fun k (st : List (Nat × Nat × Nat) × Nat) =>
      st = ((List.range (k * outW)).map (fun i => (i / outW, i % outW, i)), k * outW))
    (fun st y => sweepRowTrace y (List.range' 0 outW) st) 0 outH ([], 0) ?_ ?_
  · rw [key]
  · simp
  · rintro k st _ rfl
    show sweepRowTrace (0 + k) (List.range' 0 outW) _ = _
    rw [sweepRowTrace_spec, range_row, Nat.zero_add]
    congr 1
    ring

theorem reduceIndex_range (o m w : Nat) (hw : 1 ≤ w) :
    0 ≤ reduceIndex o m w ∧ reduceIndex o m w < w :=
  clampIndex_range _ w hw

theorem expandIndex_range (o m w : Nat) (hw : 1 ≤ w) :
    0 ≤ expandIndex o m w ∧ expandIndex o m w < w :=
  clampIndex_range _ w hw

/-- C29: for an output pixel `(outX, outY)` of `reduce` and any tap `(m, n)`, the clamped
coordinates lie inside the `w x h` input and the index `inY * w + inX` that is read is
smaller than `w * h`.  For `inW, inH >= 1`, the clamped coordinates that `expand` uses
lie inside the `inW x inH` input, so its index is smaller than `inW * inH`.  `expand`
writes the offsets `0 .. outH * outW - 1` of `out` in this order, offset `i` for
`(outY, outX) = (i / outW, i % outW)`: the buffer keeps its length, each of these pixels
is updated once from its own previous value, and no other pixel changes. -/
theorem pixel_access_in_bounds (w h outX outY m n : Nat) (inW inH oX oY : Nat)
    (inp out : List LPPixel) (outW outH : Nat) (add : Bool)
    (hx : outX < w >>> 1) (hy : outY < h >>> 1) (hinW : 1 ≤ inW) (hinH : 1 ≤ inH) :
    ((0 ≤ reduceIndex outX m w ∧ reduceIndex outX m w < w) ∧
      (0 ≤ reduceIndex outY n h ∧ reduceIndex outY n h < h) ∧
      (reduceIndex outY n h * w + reduceIndex outX m w).toNat < w * h) ∧
    ((0 ≤ expandIndex oX m inW ∧ expandIndex oX m inW < inW) ∧
      (0 ≤ expandIndex oY n inH ∧ expandIndex oY n inH < inH) ∧
      (expandIndex oY n inH * inW + expandIndex oX m inW).toNat < inW * inH) ∧
    expandWrites outW outH
      = (List.range (outH * outW)).map (fun i => (i / outW, i % outW, i)) ∧
    (expand inp inW inH out outW outH add).length = out.length ∧
    ∀ i, (expand inp inW inH out outW outH add).getD i default =
      if i < outH * outW ∧ i < out.length then
        expandPixel inp inW inH add (i / outW) (i % outW) (out.getD i default)
      else out.getD i default := by
  have hw : 1 ≤ w := by omega
  have hh : 1 ≤ h := by omega
  obtain ⟨a1, a2⟩ := reduceIndex_range outX m w hw
  obtain ⟨a3, a4⟩ := reduceIndex_range outY n h hh
  obtain ⟨b1, b2⟩ := expandIndex_range oX m inW hinW
  obtain ⟨b3, b4⟩ := expandIndex_range oY n inH hinH
  exact ⟨⟨⟨a1, a2⟩, ⟨a3, a4⟩, clamped_index_lt _ _ w h a1 a2 a3 a4⟩,
    ⟨⟨b1, b2⟩, ⟨b3, b4⟩, clamped_index_lt _ _ inW inH b1 b2 b3 b4⟩,
    expandWrites_eq outW outH, expand_length inp inW inH out outW outH add,
    expand_getD inp inW inH out outW outH add⟩

theorem pixel_access_in_bounds_witness :
    (1 < 5 >>> 1 ∧ 1 < 4 >>> 1 ∧ 1 ≤ 2 ∧ 1 ≤ 1) ∧
    reduceIndex 1 4 5 = 4 ∧ reduceIndex 1 0 4 = 0 ∧
    expandIndex 3 4 2 = 0 ∧ expandIndex 0 0 1 = 0 ∧
    expandWrites 3 2 = [(0, 0, 0), (0, 1, 1), (0, 2, 2), (1, 0, 3), (1, 1, 4), (1, 2, 5)] ∧
    (reduceIndex 1 0 4 * 5 + reduceIndex 1 4 5).toNat < 5 * 4 ∧
    (expandIndex 0 0 1 * 2 + expandIndex 3 4 2).toNat < 2 * 1 :=
  ⟨⟨by decide, by decide, by decide, by decide⟩, by decide, by decide, by decide, by decide,
    by decide,
    (pixel_access_in_bounds 5 4 1 1 4 0 2 1 3 0 [] [] 3 2 false (by decide) (by decide)
      (by decide) (by decide)).1.2.2,
    (pixel_access_in_bounds 5 4 1 1 4 0 2 1 3 0 [] [] 3 2 false (by decide) (by decide)
      (by decide) (by decide)).2.1.2.2⟩

/-- A value above `a - 1/2` rounds to at least `a`. -/
theorem rint_ge_of_gt (x : ℚ) (a : Int) (h : (a : ℚ) - 1 / 2 < x) : a ≤ rint x := by
  have hn := rint_near x
  rw [abs_le] at hn
  have h1 : (a : ℚ) - 1 < (rint x : ℚ) := by linarith [hn.1]
  have h2 : a - 1 < rint x := by exact_mod_cast h1
  omega

/-- For `M <= 10` the first sample `f1_1 = rint(M / 20)` is zero. -/
theorem halfWidthSamples_small (M : Nat) (hM : M ≤ 10) : (halfWidthSamples M 1).2 = 0 := by
  interval_cases M <;> decide!

/-- For `M >= 11` the samples keep `f0_l >= 6` and, from level 1 on, `f1_l >= 1`. -/
theorem halfWidthSamples_large (M : Nat) (hM : 11 ≤ M) (l : Nat) :
    (l = 0 → 11 ≤ (halfWidthSamples M l).1) ∧ 6 ≤ (halfWidthSamples M l).1 ∧
      0 ≤ (halfWidthSamples M l).2 ∧ (1 ≤ l → 1 ≤ (halfWidthSamples M l).2) := by
  induction l with
  | zero =>
    refine ⟨fun _ => ?_, ?_, ?_, fun h => absurd h (by decide)⟩
    · show (11 : Int) ≤ (M : Int)
      omega
    · show (6 : Int) ≤ (M : Int)
      omega
    · exact le_refl 0
  | succ l ih =>
    obtain ⟨i1, i2, i3, i4⟩ := ih
    have hMq : (11 : ℚ) ≤ (M : ℚ) := by exact_mod_cast hM
    have h0 : (6 : ℚ) ≤ ((halfWidthSamples M l).1 : ℚ) := by exact_mod_cast i2
    have h1 : (0 : ℚ) ≤ ((halfWidthSamples M l).2 : ℚ) := by exact_mod_cast i3
    have hx : (55 / 100 : ℚ) ≤ (5 / 100 : ℚ) * ((halfWidthSamples M l).1 : ℚ)
        + (25 / 100 : ℚ) * ((halfWidthSamples M l).2 : ℚ) := by
      rcases Nat.eq_zero_or_pos l with hl | hl
      · have h11 : (11 : ℚ) ≤ ((halfWidthSamples M l).1 : ℚ) := by exact_mod_cast i1 hl
        linarith
      · have h2 : (1 : ℚ) ≤ ((halfWidthSamples M l).2 : ℚ) := by exact_mod_cast i4 hl
        linarith
    have a := rint_ge_of_gt ((4 / 10 : ℚ) * ((halfWidthSamples M l).1 : ℚ)
      + (25 / 100 : ℚ) * ((halfWidthSamples M l).2 : ℚ) + (3 / 10 : ℚ) * (M : ℚ)) 6
      (by push_cast; linarith)
    have b := rint_ge_of_gt ((5 / 100 : ℚ) * ((halfWidthSamples M l).1 : ℚ)
      + (25 / 100 : ℚ) * ((halfWidthSamples M l).2 : ℚ)) 1 (by push_cast; linarith)
    refine ⟨fun h => absurd h (Nat.succ_ne_zero l), ?_, ?_, fun _ => ?_⟩
    · exact a
    · have : (1 : Int) ≤ (halfWidthSamples M (l + 1)).2 := b
      omega
    · exact b

/-- C26: with `rint` rounding half to even, for `1 <= L <= 30` the value of
`filterHalfWidth(L, M)` is 1 for `M <= 10` and `2^L` for `11 <= M <= 32767`; so it is
always 1 or `2^L`.  For `11 <= M <= 32767` the loop has not returned after any number `k`
of iterations and, for `k >= 1`, the sample `f[1 << k]` it has just stored is not zero;
for `M <= 10` the sample stored in the first iteration is zero. -/
theorem filterHalfWidth_dichotomy (L M : Nat) (hL1 : 1 ≤ L) (hL : L ≤ 30) (hM : M ≤ 32767) :
    (M ≤ 10 → filterHalfWidth L M = 1) ∧
    (11 ≤ M → filterHalfWidth L M = 2 ^ L) ∧
    (filterHalfWidth L M = 1 ∨ filterHalfWidth L M = 2 ^ L) ∧
    (11 ≤ M → ∀ k,
      ((List.range' 1 k).foldl (filterHalfWidthStep M) (filterHalfWidthInit M)).returned = none ∧
      (1 ≤ k →
        ((List.range' 1 k).foldl (filterHalfWidthStep M) (filterHalfWidthInit M)).f (1 <<< k)
          ≠ 0)) ∧
    (M ≤ 10 → (filterHalfWidthStep M (filterHalfWidthInit M) 1).f (1 <<< 1) = 0) := by
  have hsmall : M ≤ 10 → filterHalfWidth L M = 1 := by
    intro h
    have := filterHalfWidth_of_zero L M 1 hM (le_refl 1) hL1 (halfWidthSamples_small M h)
      (fun i h1 h2 => by omega)
    simpa using this
  have hnz : 11 ≤ M → ∀ j, 1 ≤ j → (halfWidthSamples M j).2 ≠ 0 := by
    intro h j hj
    have := (halfWidthSamples_large M h j).2.2.2 hj
    omega
  have hlarge : 11 ≤ M → filterHalfWidth L M = 2 ^ L := fun h =>
    filterHalfWidth_of_nonzero L M hL hM (fun j h1 _ => hnz h j h1)
  refine ⟨hsmall, hlarge, ?_, ?_, ?_⟩
  · rcases Nat.lt_or_ge M 11 with h | h
    · exact Or.inl (hsmall (by omega))
    · exact Or.inr (hlarge h)
  · intro h k
    obtain ⟨r, _, f1⟩ := (filterHalfWidth_loop M hM k).1 (fun j h1 _ => hnz h j h1)
    refine ⟨r, fun hk => ?_⟩
    rw [f1]
    exact hnz h k hk
  · intro h
    have e : (filterHalfWidthInit M).f (1 <<< 0) = (halfWidthSamples M 0).2 := by
      unfold filterHalfWidthInit halfWidthSamples
      simp only
      rw [Function.update_noteq (by decide)]
    have e0 : (filterHalfWidthInit M).f 0 = (halfWidthSamples M 0).1 := by
      unfold filterHalfWidthInit halfWidthSamples
      simp only [Function.update_same]
      exact toInt16_of_range _ (by omega) (by omega)
    obtain ⟨_, s1, _⟩ := filterHalfWidthStep_samples M hM 0 (filterHalfWidthInit M) rfl e0 e
    rw [s1]
    exact halfWidthSamples_small M h

theorem filterHalfWidth_dichotomy_witness :
    (1 ≤ 7 ∧ 7 ≤ 30 ∧ 11 ≤ 32767) ∧ filterHalfWidth 7 11 = 2 ^ 7 ∧
    (1 ≤ 30 ∧ 30 ≤ 30 ∧ 10 ≤ 32767) ∧ filterHalfWidth 30 10 = 1 :=
  ⟨⟨by decide, by decide, by decide⟩,
    (filterHalfWidth_dichotomy 7 11 (by decide) (by decide) (by decide)).2.1 (by decide),
    ⟨by decide, by decide, by decide⟩,
    (filterHalfWidth_dichotomy 30 10 (by decide) (by decide) (by decide)).1 (by decide)⟩

theorem FINALIZED_true :
    VIGRA_IMPEX2_FINALIZED true
      = some (.precondition "encoder settings were already finalized") := rfl

theorem call_finalized (libjpegFails : JpegStage → Bool) (c : JPEGCall) (s : JPEGEncoderImpl)
    (hs : s.finalized = true) :
    (JPEGEncoder.call libjpegFails c s).1 = s ∧
      (c.isSetting = true → (JPEGEncoder.call libjpegFails c s).2
        = some (.precondition "encoder settings were already finalized")) := by
  cases c <;>
    simp [JPEGEncoder.call, JPEGEncoder.setWidth, JPEGEncoder.setHeight,
      JPEGEncoder.setNumBands, JPEGEncoder.setCompressionType, JPEGEncoder.setPixelType,
      JPEGEncoder.finalizeSettings, JPEGEncoderImpl.finalize, JPEGEncoder.nextScanline,
      JPEGEncoder.close, JPEGEncoder.abort, JPEGCall.isSetting, hs, FINALIZED_true] <;>
    split_ifs <;> simp

theorem run_finalized (libjpegFails : JpegStage → Bool) (calls : List JPEGCall) :
    ∀ s : JPEGEncoderImpl, s.finalized = true → JPEGEncoder.run libjpegFails calls s = s := by
  induction calls with
  | nil => intro s _; rfl
  | cons c cs ih =>
    intro s hs
    unfold JPEGEncoder.run
    rw [List.foldl_cons, (call_finalized libjpegFails c s hs).1]
    exact ih s hs

theorem finalize_sets (libjpegFails : JpegStage → Bool) (s : JPEGEncoderImpl)
    (hs : s.finalized = false) :
    (JPEGEncoder.call libjpegFails .finalizeSettings s).1.finalized = true := by
  simp only [JPEGEncoder.call, JPEGEncoder.finalizeSettings, JPEGEncoderImpl.finalize, hs,
    VIGRA_IMPEX2_FINALIZED, Bool.false_eq_true, if_false]
  split_ifs <;> rfl

theorem call_not_finalized (libjpegFails : JpegStage → Bool) (c : JPEGCall)
    (s : JPEGEncoderImpl) (hs : s.finalized = false) (hc : c ≠ .finalizeSettings) :
    (JPEGEncoder.call libjpegFails c s).1.finalized = false := by
  cases c <;>
    simp only [JPEGEncoder.call, JPEGEncoder.setWidth, JPEGEncoder.setHeight,
      JPEGEncoder.setNumBands, JPEGEncoder.setCompressionType, JPEGEncoder.setPixelType,
      JPEGEncoder.nextScanline, JPEGEncoder.close, JPEGEncoder.abort, hs,
      VIGRA_IMPEX2_FINALIZED, Bool.false_eq_true, if_false] <;>
    first
      | exact absurd rfl hc
      | exact hs
      | rfl
      | (split_ifs <;> first | exact hs | rfl)

/-- C23: the flag `finalized` of a `JPEGEncoder` is false after `init`; while it is
false every call other than `finalizeSettings` leaves it false, and `finalizeSettings`
makes it true (also when `libjpeg` then reports an error); once it is true it stays true
through every sequence of calls; and in a finalized encoder each of `setWidth`,
`setHeight`, `setNumBands`, `setCompressionType`, `setPixelType` and `finalizeSettings`
raises the precondition violation "encoder settings were already finalized" and leaves
the encoder, with its width, height, components and quality, as it was. -/
theorem jpeg_settings_freeze (libjpegFails : JpegStage → Bool) (width height components : Nat)
    (s : JPEGEncoderImpl) (c : JPEGCall) (calls : List JPEGCall) :
    (JPEGEncoderImpl.init width height components).finalized = false ∧
    (s.finalized = false → c ≠ .finalizeSettings →
      (JPEGEncoder.call libjpegFails c s).1.finalized = false) ∧
    (s.finalized = false →
      (JPEGEncoder.call libjpegFails .finalizeSettings s).1.finalized = true) ∧
    (s.finalized = true → (JPEGEncoder.run libjpegFails calls s).finalized = true) ∧
    (s.finalized = true → c.isSetting = true →
      JPEGEncoder.call libjpegFails c s
        = (s, some (.precondition "encoder settings were already finalized"))) := by
  refine ⟨rfl, call_not_finalized libjpegFails c s, finalize_sets libjpegFails s, ?_, ?_⟩
  · intro hs
    rw [run_finalized libjpegFails calls s hs]
    exact hs
  · intro hs hc
    obtain ⟨h1, h2⟩ := call_finalized libjpegFails c s hs
    exact Prod.ext h1 (h2 hc)

/-- An encoder that is set up, finalized, and then asked to change its width. -/
theorem jpeg_settings_freeze_witness :
    JPEGEncoder.run (fun _ => false)
        [.setWidth 4, .setHeight 3, .setNumBands 3, .setCompressionType "JPEG" 80,
          .finalizeSettings] (JPEGEncoderImpl.init 0 0 0)
      = ⟨12, 4, 3, 3, 0, 80, true⟩ ∧
    JPEGEncoder.call (fun _ => false) (.setWidth 9) ⟨12, 4, 3, 3, 0, 80, true⟩
      = (⟨12, 4, 3, 3, 0, 80, true⟩,
        some (.precondition "encoder settings were already finalized")) ∧
    (JPEGEncoder.run (fun _ => false) [.setWidth 9, .finalizeSettings, .close]
      ⟨12, 4, 3, 3, 0, 80, true⟩).finalized = true :=
  ⟨by decide,
    (jpeg_settings_freeze (fun _ => false) 0 0 0 ⟨12, 4, 3, 3, 0, 80, true⟩ (.setWidth 9)
      [.setWidth 9, .finalizeSettings, .close]).2.2.2.2 rfl rfl,
    (jpeg_settings_freeze (fun _ => false) 0 0 0 ⟨12, 4, 3, 3, 0, 80, true⟩ (.setWidth 9)
      [.setWidth 9, .finalizeSettings, .close]).2.2.2.1 rfl⟩

/-! ## `CodecManager::getEncoder` -/

theorem findLast_none (c : Char) (s : List Char) : findLast c s = none ↔ c ∉ s := by
  induction s with
  | nil => simp [findLast]
  | cons x xs ih =>
    unfold findLast
    cases h : findLast c xs with
    | some i =>
      have : c ∈ xs := by
        by_contra hc
        rw [ih.mpr hc] at h
        exact absurd h (by simp)
      simp [this]
    | none =>
      have hc : c ∉ xs := ih.mp h
      by_cases hx : x = c
      · simp [hx]
      · have hx2 : ¬ c = x := fun e => hx e.symm
        simp [hx, hx2, hc]

theorem findLast_some (c : Char) (s : List Char) :
    ∀ i, findLast c s = some i →
      i < s.length ∧ s = s.take i ++ c :: s.drop (i + 1) ∧ c ∉ s.drop (i + 1) := by
  induction s with
  | nil => intro i h; simp [findLast] at h
  | cons x xs ih =>
    intro i h
    unfold findLast at h
    cases hf : findLast c xs with
    | some j =>
      rw [hf] at h
      simp only [Option.some.injEq] at h
      subst h
      obtain ⟨h1, h2, h3⟩ := ih j hf
      refine ⟨by simp only [List.length_cons]; omega, ?_, ?_⟩
      · simp only [List.take_succ_cons, List.drop_succ_cons, List.cons_append]
        rw [← h2]
      · simpa using h3
    | none =>
      rw [hf] at h
      simp only at h
      by_cases hx : x = c
      · rw [if_pos hx] at h
        simp only [Option.some.injEq] at h
        subst h
        subst hx
        refine ⟨by simp, by simp, ?_⟩
        simpa using (findLast_none x xs).mp hf
      · rw [if_neg hx] at h
        exact absurd h (by simp)

/-- The string `ext` before lower-casing is the text after the last `'.'` of the file
name, or the whole file name when it has no `'.'`. -/
theorem fileExtension_spec (filename : String) (hlen : filename.length < npos) :
    ('.' ∉ filename.toList ∧ fileExtension filename = filename) ∨
      (∃ pre, filename.toList = pre ++ '.' :: (fileExtension filename).toList ∧
        '.' ∉ (fileExtension filename).toList) := by
  obtain ⟨l⟩ := filename
  have hl : l.length < npos := hlen
  unfold fileExtension substr find_last_of
  simp only [String.toList]
  cases hf : findLast '.' l with
  | none =>
    left
    refine ⟨(findLast_none '.' l).mp hf, ?_⟩
    simp [npos]
  | some i =>
    right
    obtain ⟨h1, h2, h3⟩ := findLast_some '.' l i hf
    have e : (i + 1) % 18446744073709551616 = i + 1 := by
      unfold npos at hl
      omega
    simp only [Option.getD_some, e]
    exact ⟨l.take i, h2, h3⟩

/-- The lookup of `getEncoder` for the file type "undefined", by cases on the two maps. -/
theorem getEncoderFactory_undefined (m : CodecManager) (filename : String) :
    m.getEncoderFactory filename "undefined" =
      match mapFind m.extensionMap (lookupExtension filename) with
      | none => Except.error
          (.precondition "did not find a matching codec for the given file extension")
      | some ft =>
        match mapFind m.factoryMap ft with
        | none => Except.error
            (.precondition "did not find a matching codec for the given filetype")
        | some cf => Except.ok cf := by
  unfold CodecManager.getEncoderFactory
  simp only [if_true]
  cases mapFind m.extensionMap (lookupExtension filename) <;> rfl

/-- The lookup fails exactly when the extension is not registered or its file type has
no factory, and then with a precondition violation. -/
theorem getEncoderFactory_fails_iff (m : CodecManager) (filename : String) :
    (∃ e, m.getEncoderFactory filename "undefined" = Except.error e) ↔
      (mapFind m.extensionMap (lookupExtension filename) = none ∨
        ∃ ft, mapFind m.extensionMap (lookupExtension filename) = some ft ∧
          mapFind m.factoryMap ft = none) := by
  rw [getEncoderFactory_undefined]
  cases h1 : mapFind m.extensionMap (lookupExtension filename) with
  | none => simp
  | some ft =>
    cases h2 : mapFind m.factoryMap ft with
    | none => simp [h2]
    | some cf => simp [h2]

theorem getEncoderFactory_error (m : CodecManager) (filename : String) (e : ImpexError)
    (h : m.getEncoderFactory filename "undefined" = Except.error e) :
    e.isPrecondition = true := by
  rw [getEncoderFactory_undefined] at h
  cases h1 : mapFind m.extensionMap (lookupExtension filename) with
  | none =>
    rw [h1] at h
    simp only [Except.error.injEq] at h
    subst h
    rfl
  | some ft =>
    rw [h1] at h
    simp only at h
    cases h2 : mapFind m.factoryMap ft with
    | none =>
      rw [h2] at h
      simp only [Except.error.injEq] at h
      subst h
      rfl
    | some cf =>
      rw [h2] at h
      simp at h

theorem Threshold_zero_or_max (maxAlpha v : Nat) :
    Threshold maxAlpha maxAlpha 0 maxAlpha v = 0 ∨
      Threshold maxAlpha maxAlpha 0 maxAlpha v = maxAlpha := by
  rw [Threshold_max]
  by_cases h : v = maxAlpha
  · rw [if_pos h]; exact Or.inr rfl
  · rw [if_neg h]; exact Or.inl rfl

/-- The thresholded raster read with default 0, for any maximal alpha. -/
theorem transformImage_threshold_getD (maxAlpha : Nat) (img : List Nat) (i : Nat) :
    (transformImage (Threshold maxAlpha maxAlpha 0 maxAlpha) img).getD i 0
      = if img.getD i 0 = maxAlpha then maxAlpha else 0 := by
  unfold transformImage
  rw [← Threshold_max]
  rcases Nat.lt_or_ge i img.length with h | h
  · simp [List.getD_eq_getElem?_getD, List.getElem?_map, List.getElem?_eq_getElem h]
  · rw [getD_default_of_le 0 _ i (by simpa using h), getD_default_of_le 0 _ i h, Threshold_max]
    by_cases h0 : 0 = maxAlpha
    · rw [if_pos h0]; exact h0
    · rw [if_neg h0]

theorem transformImage_binary (maxAlpha : Nat) (img : List Nat) :
    ∀ v ∈ transformImage (Threshold maxAlpha maxAlpha 0 maxAlpha) img,
      v = 0 ∨ v = maxAlpha := by
  intro v hv
  unfold transformImage at hv
  rw [List.mem_map] at hv
  obtain ⟨u, -, rfl⟩ := hv
  exact Threshold_zero_or_max maxAlpha u

/-- Copying a thresholded alpha into a raster of values 0 and `maxAlpha` leaves such a
raster. -/
theorem copyImageIf_binary (maxAlpha cw : Nat) (offX offY : Int) (w h : Nat)
    (alpha mask dest : List Nat) (hd : ∀ v ∈ dest, v = 0 ∨ v = maxAlpha) :
    ∀ v ∈ copyImageIf cw offX offY w h
        (transformImage (Threshold maxAlpha maxAlpha 0 maxAlpha) alpha) mask dest,
      v = 0 ∨ v = maxAlpha := by
  refine forall_mem_of_getD (fun v : Nat => v = 0 ∨ v = maxAlpha) 0 _ ?_
  intro i hi
  unfold copyImageIf at hi ⊢
  rw [canvasMap_length] at hi
  rw [canvasMap_getD _ _ _ _ hi]
  split_ifs
  · rw [transformImage_threshold_getD]
    split_ifs
    · exact Or.inr rfl
    · exact Or.inl rfl
  · rcases getD_mem_or_default dest i 0 with hm | h0
    · exact hd _ hm
    · exact Or.inl h0

theorem assembleStep_binary (maxAlpha : Nat) (U : EnblendROI) (st : AssembleState)
    (i : Nat × ImageImportInfo) (hd : ∀ v ∈ st.imageA, v = 0 ∨ v = maxAlpha) :
    ∀ v ∈ (assembleStep maxAlpha U st i).imageA, v = 0 ∨ v = maxAlpha := by
  unfold assembleStep
  simp only
  split_ifs
  · exact copyImageIf_binary maxAlpha _ _ _ _ _ _ _ _ hd
  · exact hd

theorem assembleFold_binary (maxAlpha : Nat) (U : EnblendROI) :
    ∀ (l : List (Nat × ImageImportInfo)) (st : AssembleState),
      (∀ v ∈ st.imageA, v = 0 ∨ v = maxAlpha) →
      ∀ v ∈ (l.foldl (assembleStep maxAlpha U) st).imageA, v = 0 ∨ v = maxAlpha := by
  intro l
  induction l with
  | nil => intro st hd; exact hd
  | cons i l ih =>
    intro st hd
    rw [List.foldl_cons]
    exact ih _ (assembleStep_binary maxAlpha U st i hd)

/-- The composite alpha that `assemble` returns holds only the values 0 and
`maxAlpha`. -/
theorem assemble_alpha_binary (OneAtATime : Bool) (maxAlpha : Nat) (U : EnblendROI)
    (first : ImageImportInfo) (rest : List ImageImportInfo) :
    ∃ r, assemble OneAtATime maxAlpha (first :: rest) U = some r ∧
      ∀ v ∈ r.imageA, v = 0 ∨ v = maxAlpha := by
  refine ⟨_, rfl, ?_⟩
  simp only
  cases OneAtATime with
  | true =>
    simp only [Bool.not_true, Bool.false_eq_true, if_false]
    exact transformImage_binary maxAlpha _
  | false =>
    simp only [Bool.not_false, if_true]
    exact assembleFold_binary maxAlpha U _ _ (transformImage_binary maxAlpha _)

/-- The composite alpha of `assemble` with `OneAtATime`: the thresholded alpha of the
first image at its place on the canvas, 0 elsewhere. -/
theorem assemble_first_alpha (maxAlpha : Nat) (U : EnblendROI) (first : ImageImportInfo)
    (rest : List ImageImportInfo) :
    ∃ r, assemble true maxAlpha (first :: rest) U = some r ∧
      r.imageA.length = U.sizeX * U.sizeY ∧
      ∀ idx, idx < U.sizeX * U.sizeY →
        r.imageA.getD idx 0
          = if covered (first.posX - U.ulX) (first.posY - U.ulY) first.width first.height
                (idx % U.sizeX) (idx / U.sizeX) = true ∧
              first.alpha.getD (srcIndex (first.posX - U.ulX) (first.posY - U.ulY)
                first.width (idx % U.sizeX) (idx / U.sizeX)) 0 = maxAlpha
            then maxAlpha else 0 := by
  refine ⟨_, rfl, ?_, ?_⟩
  · simp only [Bool.not_true, Bool.false_eq_true, if_false]
    rw [transformImage_length]
    unfold importImage
    rw [canvasMap_length, List.length_replicate]
  · intro idx hidx
    simp only [Bool.not_true, Bool.false_eq_true, if_false]
    rw [transformImage_threshold_getD]
    unfold importImage
    rw [canvasMap_getD _ _ _ _ (by simpa using hidx), getD_replicate_lt _ _ _ _ hidx]
    by_cases hc : covered (first.posX - U.ulX) (first.posY - U.ulY) first.width first.height
        (idx % U.sizeX) (idx / U.sizeX) = true
    · simp only [hc, if_true, true_and]
    · simp only [hc, Bool.false_eq_true, if_false, false_and]
      by_cases h0 : 0 = maxAlpha
      · rw [if_pos h0]; exact h0.symm
      · rw [if_neg h0]

/-- The alpha that the loop body of `assemble` leaves for a later image without
overlap: the maximum where the image is opaque, the previous composite elsewhere. -/
theorem assembleStep_alpha (maxAlpha : Nat) (U : EnblendROI) (st : AssembleState) (k : Nat)
    (info : ImageImportInfo)
    (hno : overlapCheck maxAlpha U.sizeX st.imageA (info.posX - U.ulX) (info.posY - U.ulY)
      info.width info.height
      (transformImage (Threshold maxAlpha maxAlpha 0 maxAlpha) info.alpha) = false) :
    (assembleStep maxAlpha U st (k, info)).imageA.length = st.imageA.length ∧
    ∀ idx, idx < st.imageA.length →
      (assembleStep maxAlpha U st (k, info)).imageA.getD idx 0
        = if covered (info.posX - U.ulX) (info.posY - U.ulY) info.width info.height
              (idx % U.sizeX) (idx / U.sizeX) = true ∧
            info.alpha.getD (srcIndex (info.posX - U.ulX) (info.posY - U.ulY)
              info.width (idx % U.sizeX) (idx / U.sizeX)) 0 = maxAlpha ∧ maxAlpha ≠ 0
          then maxAlpha else st.imageA.getD idx 0 := by
  have hstep : (assembleStep maxAlpha U st (k, info)).imageA
      = copyImageIf U.sizeX (info.posX - U.ulX) (info.posY - U.ulY) info.width info.height
          (transformImage (Threshold maxAlpha maxAlpha 0 maxAlpha) info.alpha)
          (transformImage (Threshold maxAlpha maxAlpha 0 maxAlpha) info.alpha) st.imageA := by
    unfold assembleStep
    simp only [hno]
    rfl
  rw [hstep]
  unfold copyImageIf
  refine ⟨canvasMap_length _ _ _, fun idx hidx => ?_⟩
  rw [canvasMap_getD _ _ _ _ hidx, transformImage_threshold_getD]
  by_cases hc : covered (info.posX - U.ulX) (info.posY - U.ulY) info.width info.height
      (idx % U.sizeX) (idx / U.sizeX) = true
  · by_cases ha : info.alpha.getD (srcIndex (info.posX - U.ulX) (info.posY - U.ulY)
        info.width (idx % U.sizeX) (idx / U.sizeX)) 0 = maxAlpha
    · by_cases h0 : maxAlpha = 0
      · simp [hc, ha, h0, -List.getD_eq_getElem?_getD]
      · simp [hc, ha, h0, -List.getD_eq_getElem?_getD]
    · simp [hc, ha, -List.getD_eq_getElem?_getD]
  · simp [hc, -List.getD_eq_getElem?_getD]

/-- C22: the thresholding `Threshold(max, max, 0, max)` that `assemble` applies maps an
alpha value to the maximum when it equals the maximum and to 0 otherwise.  `assemble` on
a non-empty list returns a composite alpha whose every pixel is 0 or the maximum.  With
`OneAtATime` this composite is the thresholded alpha of the first image: the maximum
where the image has the maximal alpha, 0 elsewhere.  For a later image that the overlap
check lets through, the loop body writes the maximum where the image has the maximal
alpha and keeps the composite elsewhere. -/
theorem threshold_binary (OneAtATime : Bool) (maxAlpha : Nat) (inputUnion : EnblendROI)
    (first : ImageImportInfo) (rest : List ImageImportInfo) (a : Nat) (st : AssembleState)
    (k : Nat) (info : ImageImportInfo) :
    Threshold maxAlpha maxAlpha 0 maxAlpha a = (if a = maxAlpha then maxAlpha else 0) ∧
    (∃ r, assemble OneAtATime maxAlpha (first :: rest) inputUnion = some r ∧
      ∀ v ∈ r.imageA, v = 0 ∨ v = maxAlpha) ∧
    (∃ r, assemble true maxAlpha (first :: rest) inputUnion = some r ∧
      r.imageA.length = inputUnion.sizeX * inputUnion.sizeY ∧
      ∀ idx, idx < inputUnion.sizeX * inputUnion.sizeY →
        r.imageA.getD idx 0
          = if covered (first.posX - inputUnion.ulX) (first.posY - inputUnion.ulY)
                first.width first.height (idx % inputUnion.sizeX) (idx / inputUnion.sizeX)
                = true ∧
              first.alpha.getD (srcIndex (first.posX - inputUnion.ulX)
                (first.posY - inputUnion.ulY) first.width (idx % inputUnion.sizeX)
                (idx / inputUnion.sizeX)) 0 = maxAlpha
            then maxAlpha else 0) ∧
    (overlapCheck maxAlpha inputUnion.sizeX st.imageA (info.posX - inputUnion.ulX)
        (info.posY - inputUnion.ulY) info.width info.height
        (transformImage (Threshold maxAlpha maxAlpha 0 maxAlpha) info.alpha) = false →
      (assembleStep maxAlpha inputUnion st (k, info)).imageA.length = st.imageA.length ∧
      ∀ idx, idx < st.imageA.length →
        (assembleStep maxAlpha inputUnion st (k, info)).imageA.getD idx 0
          = if covered (info.posX - inputUnion.ulX) (info.posY - inputUnion.ulY)
                info.width info.height (idx % inputUnion.sizeX) (idx / inputUnion.sizeX)
                = true ∧
              info.alpha.getD (srcIndex (info.posX - inputUnion.ulX)
                (info.posY - inputUnion.ulY) info.width (idx % inputUnion.sizeX)
                (idx / inputUnion.sizeX)) 0 = maxAlpha ∧ maxAlpha ≠ 0
            then maxAlpha else st.imageA.getD idx 0) :=
  ⟨Threshold_max maxAlpha a,
    assemble_alpha_binary OneAtATime maxAlpha inputUnion first rest,
    assemble_first_alpha maxAlpha inputUnion first rest,
    assembleStep_alpha maxAlpha inputUnion st k info⟩

/-- Two images on a canvas of 3 x 1 pixels with alpha values between 0 and 255: only the
pixels of alpha 255 are opaque in the composite. -/
theorem threshold_binary_witness :
    assemble true 255 [⟨"a", 0, 0, 3, 1, [5, 9, 1], [255, 128, 0]⟩,
        ⟨"b", 0, 0, 3, 1, [3, 7, 2], [3, 254, 255]⟩] ⟨0, 0, 3, 1⟩
      = some ⟨[⟨"b", 0, 0, 3, 1, [3, 7, 2], [3, 254, 255]⟩], [5, 9, 1], [255, 0, 0]⟩ ∧
    assemble false 255 [⟨"a", 0, 0, 3, 1, [5, 9, 1], [255, 128, 0]⟩,
        ⟨"b", 0, 0, 3, 1, [3, 7, 2], [3, 254, 255]⟩] ⟨0, 0, 3, 1⟩
      = some ⟨[], [5, 9, 2], [255, 0, 255]⟩ ∧
    ∃ r, assemble false 255 (⟨"a", 0, 0, 3, 1, [5, 9, 1], [255, 128, 0]⟩ ::
        [⟨"b", 0, 0, 3, 1, [3, 7, 2], [3, 254, 255]⟩]) ⟨0, 0, 3, 1⟩ = some r ∧
      ∀ v ∈ r.imageA, v = 0 ∨ v = 255 :=
  ⟨by decide, by decide,
    (threshold_binary false 255 ⟨0, 0, 3, 1⟩ ⟨"a", 0, 0, 3, 1, [5, 9, 1], [255, 128, 0]⟩
      [⟨"b", 0, 0, 3, 1, [3, 7, 2], [3, 254, 255]⟩] 0 ⟨[], [], []⟩ 0
      ⟨"b", 0, 0, 3, 1, [3, 7, 2], [3, 254, 255]⟩).2.1⟩

/-- The outcome of `getEncoder` for the file type "undefined" when the lookup finds the
factory `cf`: the error of `init`, or the encoder. -/
theorem getEncoder_found (codecs : Codecs) (m : CodecManager) (filename ft : String)
    (cf : CodecDesc) (h1 : mapFind m.extensionMap (lookupExtension filename) = some ft)
    (h2 : mapFind m.factoryMap ft = some cf) :
    m.getEncoderFactory filename "undefined" = Except.ok cf ∧
    m.getEncoder codecs filename "undefined" =
      match codecs.initError cf.fileType filename with
      | some e => Except.error e
      | none => Except.ok ⟨cf.fileType, filename, []⟩ := by
  have hf : m.getEncoderFactory filename "undefined" = Except.ok cf := by
    rw [getEncoderFactory_undefined, h1]
    simp only [h2]
  refine ⟨hf, ?_⟩
  unfold CodecManager.getEncoder
  simp only [hf]

/-- `getEncoder` passes on the error of a failed lookup. -/
theorem getEncoder_lookup_error (codecs : Codecs) (m : CodecManager) (filename : String)
    (e : ImpexError) (hf : m.getEncoderFactory filename "undefined" = Except.error e) :
    m.getEncoder codecs filename "undefined" = Except.error e := by
  unfold CodecManager.getEncoder
  simp only [hf]

/-- `getEncoder` fails with a precondition violation exactly when the lookup fails or
`init` raises one. -/
theorem getEncoder_precondition_iff (codecs : Codecs) (m : CodecManager) (filename : String) :
    (∃ msg, m.getEncoder codecs filename "undefined" = Except.error (.precondition msg)) ↔
      (mapFind m.extensionMap (lookupExtension filename) = none ∨
        (∃ ft, mapFind m.extensionMap (lookupExtension filename) = some ft ∧
          mapFind m.factoryMap ft = none) ∨
        (∃ ft cf msg, mapFind m.extensionMap (lookupExtension filename) = some ft ∧
          mapFind m.factoryMap ft = some cf ∧
          codecs.initError cf.fileType filename = some (.precondition msg))) := by
  cases h1 : mapFind m.extensionMap (lookupExtension filename) with
  | none =>
    have hf : m.getEncoderFactory filename "undefined" = Except.error
        (.precondition "did not find a matching codec for the given file extension") := by
      rw [getEncoderFactory_undefined, h1]
    constructor
    · intro _
      exact Or.inl rfl
    · intro _
      exact ⟨_, getEncoder_lookup_error codecs m filename _ hf⟩
  | some ft =>
    cases h2 : mapFind m.factoryMap ft with
    | none =>
      have hf : m.getEncoderFactory filename "undefined" = Except.error
          (.precondition "did not find a matching codec for the given filetype") := by
        rw [getEncoderFactory_undefined, h1]
        simp only [h2]
      constructor
      · intro _
        exact Or.inr (Or.inl ⟨ft, rfl, h2⟩)
      · intro _
        exact ⟨_, getEncoder_lookup_error codecs m filename _ hf⟩
    | some cf =>
      rw [(getEncoder_found codecs m filename ft cf h1 h2).2]
      constructor
      · rintro ⟨msg, hmsg⟩
        cases hi : codecs.initError cf.fileType filename with
        | none =>
          rw [hi] at hmsg
          simp at hmsg
        | some e =>
          rw [hi] at hmsg
          simp only [Except.error.injEq] at hmsg
          subst hmsg
          exact Or.inr (Or.inr ⟨ft, cf, msg, rfl, h2, hi⟩)
      · rintro (h | ⟨ft2, h, h3⟩ | ⟨ft2, cf2, msg, h, h3, h4⟩)
        · simp at h
        · simp only [Option.some.injEq] at h
          subst h
          rw [h2] at h3
          simp at h3
        · simp only [Option.some.injEq] at h
          subst h
          rw [h2] at h3
          simp only [Option.some.injEq] at h3
          subst h3
          rw [h4]
          exact ⟨msg, rfl⟩

/-- C24, as the code has it: the extension "jpg" is registered for the file type "JPEG",
which has a factory, and yet `getEncoder` fails with a precondition violation, the one
that `init` of the encoder raises for a file that cannot be opened.  So a precondition
violation of `getEncoder` does not imply that the lookup failed. -/
theorem getEncoder_init_failure :
    mapFind (CodecManager.importCodec ⟨[], [], []⟩ JPEGCodecFactory.getCodecDesc).extensionMap
        (lookupExtension "no/such/dir/out.JPG") = some "JPEG" ∧
    mapFind (CodecManager.importCodec ⟨[], [], []⟩ JPEGCodecFactory.getCodecDesc).factoryMap
        "JPEG" = some JPEGCodecFactory.getCodecDesc ∧
    CodecManager.getEncoder
        ⟨fun _ filename => some (.precondition ("Unable to open file '" ++ filename ++ "'.")),
          fun _ _ => none⟩
        (CodecManager.importCodec ⟨[], [], []⟩ JPEGCodecFactory.getCodecDesc)
        "no/such/dir/out.JPG" "undefined"
      = Except.error (.precondition "Unable to open file 'no/such/dir/out.JPG'.") ∧
    ¬ (∀ (codecs : Codecs) (m : CodecManager) (filename : String),
        (∃ msg, m.getEncoder codecs filename "undefined"
          = Except.error (.precondition msg)) ↔
        (mapFind m.extensionMap (lookupExtension filename) = none ∨
          ∃ ft, mapFind m.extensionMap (lookupExtension filename) = some ft ∧
            mapFind m.factoryMap ft = none)) := by
  have h1 : mapFind
      (CodecManager.importCodec ⟨[], [], []⟩ JPEGCodecFactory.getCodecDesc).extensionMap
      (lookupExtension "no/such/dir/out.JPG") = some "JPEG" := by decide
  have h2 : mapFind
      (CodecManager.importCodec ⟨[], [], []⟩ JPEGCodecFactory.getCodecDesc).factoryMap
      "JPEG" = some JPEGCodecFactory.getCodecDesc := by decide
  have h3 : CodecManager.getEncoder
      ⟨fun _ filename => some (.precondition ("Unable to open file '" ++ filename ++ "'.")),
        fun _ _ => none⟩
      (CodecManager.importCodec ⟨[], [], []⟩ JPEGCodecFactory.getCodecDesc)
      "no/such/dir/out.JPG" "undefined"
      = Except.error (.precondition "Unable to open file 'no/such/dir/out.JPG'.") := by
    rw [(getEncoder_found _ _ _ _ _ h1 h2).2]
    rfl
  refine ⟨h1, h2, h3, fun hall => ?_⟩
  have h := (hall _ _ _).mp ⟨_, h3⟩
  rcases h with h | ⟨ft, h, h4⟩
  · rw [h1] at h
    exact absurd h (by simp)
  · rw [h1] at h
    simp only [Option.some.injEq] at h
    subst h
    rw [h2] at h4
    exact absurd h4 (by simp)

/-- C24, amended: `getEncoder` with file type "undefined" looks up the text after the
last `'.'` of the file name (the whole name when it has no `'.'`), in lower case, and
takes the factory of the file type registered for it; file names with the same
lower-cased extension select the same factory.  When the factory is found the outcome is
the error that `init` of its encoder raises for the file name, if any, and the encoder
otherwise.  `getEncoder` fails with a precondition violation if and only if the
lower-cased extension is not registered, or the resulting file type has no factory, or
`init` raises a precondition violation. -/
theorem getEncoder_by_extension (codecs : Codecs) (m : CodecManager) (filename other : String)
    (hlen : filename.length < npos) :
    (('.' ∉ filename.toList ∧ fileExtension filename = filename) ∨
      (∃ pre, filename.toList = pre ++ '.' :: (fileExtension filename).toList ∧
        '.' ∉ (fileExtension filename).toList)) ∧
    lookupExtension filename = String.mk ((fileExtension filename).toList.map Char.toLower) ∧
    (∀ ft cf, mapFind m.extensionMap (lookupExtension filename) = some ft →
      mapFind m.factoryMap ft = some cf →
      m.getEncoderFactory filename "undefined" = Except.ok cf ∧
      m.getEncoder codecs filename "undefined" =
        match codecs.initError cf.fileType filename with
        | some e => Except.error e
        | none => Except.ok ⟨cf.fileType, filename, []⟩) ∧
    (lookupExtension other = lookupExtension filename →
      m.getEncoderFactory other "undefined" = m.getEncoderFactory filename "undefined") ∧
    ((∃ e, m.getEncoderFactory filename "undefined" = Except.error e) ↔
      (mapFind m.extensionMap (lookupExtension filename) = none ∨
        ∃ ft, mapFind m.extensionMap (lookupExtension filename) = some ft ∧
          mapFind m.factoryMap ft = none)) ∧
    (∀ e, m.getEncoderFactory filename "undefined" = Except.error e →
      e.isPrecondition = true ∧ m.getEncoder codecs filename "undefined" = Except.error e) ∧
    ((∃ msg, m.getEncoder codecs filename "undefined" = Except.error (.precondition msg)) ↔
      (mapFind m.extensionMap (lookupExtension filename) = none ∨
        (∃ ft, mapFind m.extensionMap (lookupExtension filename) = some ft ∧
          mapFind m.factoryMap ft = none) ∨
        (∃ ft cf msg, mapFind m.extensionMap (lookupExtension filename) = some ft ∧
          mapFind m.factoryMap ft = some cf ∧
          codecs.initError cf.fileType filename = some (.precondition msg)))) := by
  refine ⟨fileExtension_spec filename hlen, rfl,
    fun ft cf h1 h2 => getEncoder_found codecs m filename ft cf h1 h2, ?_,
    getEncoderFactory_fails_iff m filename,
    fun e he => ⟨getEncoderFactory_error m filename e he,
      getEncoder_lookup_error codecs m filename e he⟩,
    getEncoder_precondition_iff codecs m filename⟩
  intro h
  rw [getEncoderFactory_undefined, getEncoderFactory_undefined, h]

theorem getEncoder_by_extension_witness :
    "Pano.1.JPG".length < npos ∧
    fileExtension "Pano.1.JPG" = "JPG" ∧ lookupExtension "Pano.1.JPG" = "jpg" ∧
    lookupExtension "README" = "readme" ∧
    CodecManager.getEncoderFactory
        (CodecManager.importCodec ⟨[], [], []⟩ JPEGCodecFactory.getCodecDesc)
        "Pano.1.JPG" "undefined" = Except.ok JPEGCodecFactory.getCodecDesc ∧
    CodecManager.getEncoderFactory
        (CodecManager.importCodec ⟨[], [], []⟩ JPEGCodecFactory.getCodecDesc)
        "out.jpg" "undefined"
      = CodecManager.getEncoderFactory
        (CodecManager.importCodec ⟨[], [], []⟩ JPEGCodecFactory.getCodecDesc)
        "Pano.1.JPG" "undefined" ∧
    ∃ msg, CodecManager.getEncoder ⟨fun _ _ => none, fun _ _ => none⟩
        (CodecManager.importCodec ⟨[], [], []⟩ JPEGCodecFactory.getCodecDesc)
        "README" "undefined" = Except.error (.precondition msg) :=
  ⟨by decide, by decide, by decide, by decide, rfl,
    (getEncoder_by_extension ⟨fun _ _ => none, fun _ _ => none⟩
      (CodecManager.importCodec ⟨[], [], []⟩ JPEGCodecFactory.getCodecDesc)
      "Pano.1.JPG" "out.jpg" (by decide)).2.2.2.1 (by decide),
    (getEncoder_by_extension ⟨fun _ _ => none, fun _ _ => none⟩
      (CodecManager.importCodec ⟨[], [], []⟩ JPEGCodecFactory.getCodecDesc)
      "README" "out.jpg" (by decide)).2.2.2.2.2.2.mpr (Or.inl (by decide))⟩

/-! ## The extraction of the quality in `encoder` -/

theorem bitLength_le (fuel n : Nat) (hn : 1 ≤ n) : 2 ^ bitLength fuel n ≤ n := by
  induction fuel generalizing n with
  | zero => simpa [bitLength] using hn
  | succ f ih =>
    unfold bitLength
    split_ifs with h2
    · have := ih (n / 2) (by omega)
      rw [pow_succ]
      omega
    · simpa using hn

theorem lt_bitLength (fuel n : Nat) (hf : n ≤ fuel) : n < 2 ^ (bitLength fuel n + 1) := by
  induction fuel generalizing n with
  | zero =>
    have : n = 0 := by omega
    subst this
    simp [bitLength]
  | succ f ih =>
    unfold bitLength
    split_ifs with h2
    · have := ih (n / 2) (by omega)
      rw [pow_succ]
      omega
    · simp only [zero_add, pow_one]
      omega

theorem abs_eq_natAbs_div (x : ℚ) : |x| = (x.num.natAbs : ℚ) / (x.den : ℚ) := by
  conv_lhs => rw [← Rat.num_div_den x]
  rw [abs_div, Nat.abs_cast, Nat.cast_natAbs, Int.cast_abs]

/-- The exponent that `floorLog2` gives to `x ≠ 0` is the one of the binade of `x`. -/
theorem floorLog2_spec (x : ℚ) (hx : x ≠ 0) :
    (2 : ℚ) ^ floorLog2 x ≤ |x| ∧ |x| < (2 : ℚ) ^ (floorLog2 x + 1) := by
  have hn : 1 ≤ x.num.natAbs := by
    have : x.num ≠ 0 := Rat.num_ne_zero.mpr hx
    omega
  have hd : 1 ≤ x.den := x.den_pos
  have a1 := bitLength_le x.num.natAbs x.num.natAbs hn
  have a2 := lt_bitLength x.num.natAbs x.num.natAbs (le_refl _)
  have b1 := bitLength_le x.den x.den hd
  have b2 := lt_bitLength x.den x.den (le_refl _)
  have hdq : (0 : ℚ) < x.den := by exact_mod_cast hd
  have a1q : (2 : ℚ) ^ (bitLength x.num.natAbs x.num.natAbs) ≤ (x.num.natAbs : ℚ) := by
    exact_mod_cast a1
  have a2q : (x.num.natAbs : ℚ) < (2 : ℚ) ^ (bitLength x.num.natAbs x.num.natAbs + 1) := by
    exact_mod_cast a2
  have b1q : (2 : ℚ) ^ (bitLength x.den x.den) ≤ (x.den : ℚ) := by exact_mod_cast b1
  have b2q : (x.den : ℚ) < (2 : ℚ) ^ (bitLength x.den x.den + 1) := by exact_mod_cast b2
  have two : (2 : ℚ) ≠ 0 := by norm_num
  have pa : (0 : ℚ) < 2 ^ (bitLength x.num.natAbs x.num.natAbs) := by positivity
  have pb : (0 : ℚ) < 2 ^ (bitLength x.den x.den) := by positivity
  unfold floorLog2
  simp only
  split_ifs with hc
  · refine ⟨hc, ?_⟩
    rw [abs_eq_natAbs_div, div_lt_iff₀ hdq]
    have e : (2 : ℚ) ^ ((bitLength x.num.natAbs x.num.natAbs : Int) -
        (bitLength x.den x.den : Int) + 1) =
        2 ^ (bitLength x.num.natAbs x.num.natAbs + 1) / 2 ^ (bitLength x.den x.den) := by
      rw [sub_add_eq_add_sub, zpow_sub₀ two]
      norm_cast
    rw [e, div_mul_eq_mul_div, lt_div_iff₀ pb]
    calc (x.num.natAbs : ℚ) * 2 ^ (bitLength x.den x.den)
        ≤ (x.num.natAbs : ℚ) * x.den := by
          apply mul_le_mul_of_nonneg_left b1q (by positivity)
      _ < 2 ^ (bitLength x.num.natAbs x.num.natAbs + 1) * x.den := by
          apply mul_lt_mul_of_pos_right a2q hdq
  · push_neg at hc
    refine ⟨?_, by rw [sub_add_cancel]; exact hc⟩
    rw [abs_eq_natAbs_div, le_div_iff₀ hdq]
    have e : (2 : ℚ) ^ ((bitLength x.num.natAbs x.num.natAbs : Int) -
        (bitLength x.den x.den : Int) - 1) =
        2 ^ (bitLength x.num.natAbs x.num.natAbs) / 2 ^ (bitLength x.den x.den + 1) := by
      rw [sub_sub, zpow_sub₀ two]
      norm_cast
    rw [e, div_mul_eq_mul_div, div_le_iff₀ (by positivity)]
    calc (2 : ℚ) ^ (bitLength x.num.natAbs x.num.natAbs) * x.den
        ≤ (x.num.natAbs : ℚ) * x.den := by
          apply mul_le_mul_of_nonneg_right a1q (le_of_lt hdq)
      _ ≤ (x.num.natAbs : ℚ) * 2 ^ (bitLength x.den x.den + 1) := by
          apply mul_le_mul_of_nonneg_left (le_of_lt b2q) (by positivity)

theorem fl64_zero : fl64 0 = 0 := by
  unfold fl64
  simp [rint]

/-- The rounding error of `fl64` is at most half a unit in the last place. -/
theorem fl64_err (x : ℚ) (k : Int) (hk : -1022 ≤ k) (hx : |x| < (2 : ℚ) ^ (k + 1)) :
    |fl64 x - x| ≤ (2 : ℚ) ^ (k - 53) := by
  by_cases h0 : x = 0
  · subst h0
    rw [fl64_zero, sub_zero, abs_zero]
    positivity
  have hfl := (floorLog2_spec x h0).1
  have he : max (floorLog2 x) (-1022) ≤ k := by
    apply max_le _ hk
    have hlt : (2 : ℚ) ^ floorLog2 x < (2 : ℚ) ^ (k + 1) := lt_of_le_of_lt hfl hx
    have := (zpow_lt_zpow_iff_right₀ (by norm_num : (1 : ℚ) < 2)).mp hlt
    omega
  unfold fl64
  simp only
  set e := max (floorLog2 x) (-1022) with he_def
  have hu : (0 : ℚ) < 2 ^ (e - 52) := by positivity
  have hnear := rint_near (x / 2 ^ (e - 52))
  have e1 : (rint (x / 2 ^ (e - 52)) : ℚ) * 2 ^ (e - 52) - x =
      ((rint (x / 2 ^ (e - 52)) : ℚ) - x / 2 ^ (e - 52)) * 2 ^ (e - 52) := by
    field_simp
  rw [e1, abs_mul, abs_of_pos hu]
  have e2 : (2 : ℚ) ^ (e - 53) = 1 / 2 * 2 ^ (e - 52) := by
    rw [show e - 52 = (e - 53) + 1 by ring, zpow_add_one₀ (by norm_num : (2 : ℚ) ≠ 0)]
    ring
  calc |(rint (x / 2 ^ (e - 52)) : ℚ) - x / 2 ^ (e - 52)| * 2 ^ (e - 52)
      ≤ 1 / 2 * 2 ^ (e - 52) := mul_le_mul_of_nonneg_right hnear (le_of_lt hu)
    _ = 2 ^ (e - 53) := e2.symm
    _ ≤ 2 ^ (k - 53) := zpow_le_zpow_right₀ (by norm_num) (by omega)

theorem fl64_err_2 (x : ℚ) (h : |x| < 2) : |fl64 x - x| ≤ 1 / 2 ^ 53 := by
  have := fl64_err x 0 (by norm_num) (by norm_num; exact h)
  norm_num at this ⊢
  exact this

theorem fl64_err_14 (x : ℚ) (h : |x| < 16384) : |fl64 x - x| ≤ 1 / 2 ^ 40 := by
  have := fl64_err x 13 (by norm_num) (by norm_num; exact h)
  norm_num at this ⊢
  exact this

theorem fl64_err_16 (x : ℚ) (h : |x| < 65536) : |fl64 x - x| ≤ 1 / 2 ^ 38 := by
  have := fl64_err x 15 (by norm_num) (by norm_num; exact h)
  norm_num at this ⊢
  exact this

theorem fl64_err_18 (x : ℚ) (h : |x| < 262144) : |fl64 x - x| ≤ 1 / 2 ^ 36 := by
  have := fl64_err x 17 (by norm_num) (by norm_num; exact h)
  norm_num at this ⊢
  exact this

/-- The binary64 product `W[m] * W[n]` against the product of the exact weights. -/
theorem W64_product (m n : Nat) (hm : m < 5) (hn : n < 5) :
    |fl64 (W64 m * W64 n) - W m * W n| ≤ 1 / 2 ^ 54 ∧ |fl64 (W64 m * W64 n)| ≤ 1 / 4 ∧
      |W m * W n| ≤ 1 / 4 := by
  have h : ∀ m : Fin 5, ∀ n : Fin 5,
      |fl64 (W64 m * W64 n) - W m * W n| ≤ 1 / 2 ^ 54 ∧ |fl64 (W64 m * W64 n)| ≤ 1 / 4 ∧
        |W m * W n| ≤ 1 / 4 := by
    decide!
  exact h ⟨m, hm⟩ ⟨n, hn⟩

theorem accNear_mono (k k1 : Nat) (a s : ℚ) (hk : k ≤ k1) (h : AccNear k a s) :
    AccNear k1 a s := by
  have hq : (k : ℚ) ≤ (k1 : ℚ) := by exact_mod_cast hk
  refine ⟨le_trans h.1 ?_, le_trans h.2 ?_⟩
  · exact div_le_div_of_nonneg_right hq (by positivity)
  · exact mul_le_mul_of_nonneg_right hq (by norm_num)

/-- One statement `r += W[m] * W[n] * c` in binary64 against the exact sum. -/
theorem accumulate64_near (k : Nat) (a s : ℚ) (m n : Nat) (c : Int) (hk : k < 25)
    (hm : m < 5) (hn : n < 5) (hc1 : -32768 ≤ c) (hc2 : c ≤ 32767) (h : AccNear k a s) :
    AccNear (k + 1) (accumulate64 a m n c) (s + W m * W n * (c : ℚ)) := by
  obtain ⟨hw1, hw2, hw3⟩ := W64_product m n hm hn
  obtain ⟨h1, h2⟩ := h
  have hcq : |(c : ℚ)| ≤ 32768 := by
    rw [abs_le]
    constructor
    · exact_mod_cast hc1
    · have : (c : ℚ) ≤ 32767 := by exact_mod_cast hc2
      linarith
  have hkq : (k : ℚ) ≤ 24 := by
    have : k ≤ 24 := by omega
    exact_mod_cast this
  have hk0 : (0 : ℚ) ≤ k := by positivity
  -- the product
  have ht : |fl64 (W64 m * W64 n) * (c : ℚ)| ≤ 8192 := by
    rw [abs_mul]
    calc |fl64 (W64 m * W64 n)| * |(c : ℚ)| ≤ 1 / 4 * 32768 :=
          mul_le_mul hw2 hcq (abs_nonneg _) (by norm_num)
      _ = 8192 := by norm_num
  have hx : |W m * W n * (c : ℚ)| ≤ 8192 := by
    rw [abs_mul]
    calc |W m * W n| * |(c : ℚ)| ≤ 1 / 4 * 32768 :=
          mul_le_mul hw3 hcq (abs_nonneg _) (by norm_num)
      _ = 8192 := by norm_num
  have hp1 := fl64_err_14 (fl64 (W64 m * W64 n) * (c : ℚ)) (by linarith)
  have hp2 : |fl64 (W64 m * W64 n) * (c : ℚ) - W m * W n * (c : ℚ)| ≤ 1 / 2 ^ 39 := by
    rw [← sub_mul, abs_mul]
    calc |fl64 (W64 m * W64 n) - W m * W n| * |(c : ℚ)| ≤ 1 / 2 ^ 54 * 32768 :=
          mul_le_mul hw1 hcq (abs_nonneg _) (by norm_num)
      _ = 1 / 2 ^ 39 := by norm_num
  have hs : |s + W m * W n * (c : ℚ)| ≤ ((k + 1 : Nat) : ℚ) * 8192 := by
    push_cast
    calc |s + W m * W n * (c : ℚ)| ≤ |s| + |W m * W n * (c : ℚ)| := abs_add _ _
      _ ≤ (k : ℚ) * 8192 + 8192 := add_le_add h2 hx
      _ = ((k : ℚ) + 1) * 8192 := by ring
  -- the sum before rounding
  have hd : |a + fl64 (fl64 (W64 m * W64 n) * (c : ℚ)) - (s + W m * W n * (c : ℚ))| ≤
      (k : ℚ) / 2 ^ 35 + 1 / 2 ^ 40 + 1 / 2 ^ 39 := by
    have e : a + fl64 (fl64 (W64 m * W64 n) * (c : ℚ)) - (s + W m * W n * (c : ℚ)) =
        (a - s) + (fl64 (fl64 (W64 m * W64 n) * (c : ℚ)) - fl64 (W64 m * W64 n) * (c : ℚ)) +
          (fl64 (W64 m * W64 n) * (c : ℚ) - W m * W n * (c : ℚ)) := by ring
    rw [e]
    exact le_trans (abs_add_three _ _ _) (add_le_add (add_le_add h1 hp1) hp2)
  have hbig : |a + fl64 (fl64 (W64 m * W64 n) * (c : ℚ))| < 262144 := by
    have e : a + fl64 (fl64 (W64 m * W64 n) * (c : ℚ)) =
        (a + fl64 (fl64 (W64 m * W64 n) * (c : ℚ)) - (s + W m * W n * (c : ℚ))) +
          (s + W m * W n * (c : ℚ)) := by ring
    rw [e]
    refine lt_of_le_of_lt (abs_add _ _) ?_
    have hs2 : |s + W m * W n * (c : ℚ)| ≤ 25 * 8192 := by
      refine le_trans hs ?_
      push_cast
      nlinarith
    have hd2 : (k : ℚ) / 2 ^ 35 + 1 / 2 ^ 40 + 1 / 2 ^ 39 ≤ 1 := by
      have : (k : ℚ) / 2 ^ 35 ≤ 24 / 2 ^ 35 := div_le_div_of_nonneg_right hkq (by positivity)
      norm_num at this ⊢
      linarith
    linarith
  have hr := fl64_err_18 _ hbig
  refine ⟨?_, hs⟩
  unfold accumulate64
  have e : fl64 (a + fl64 (fl64 (W64 m * W64 n) * (c : ℚ))) - (s + W m * W n * (c : ℚ)) =
      (fl64 (a + fl64 (fl64 (W64 m * W64 n) * (c : ℚ))) -
        (a + fl64 (fl64 (W64 m * W64 n) * (c : ℚ)))) +
      (a + fl64 (fl64 (W64 m * W64 n) * (c : ℚ)) - (s + W m * W n * (c : ℚ))) := by ring
  rw [e]
  refine le_trans (abs_add _ _) ?_
  have : (1 : ℚ) / 2 ^ 36 + ((k : ℚ) / 2 ^ 35 + 1 / 2 ^ 40 + 1 / 2 ^ 39) ≤
      ((k + 1 : Nat) : ℚ) / 2 ^ 35 := by
    push_cast
    rw [add_div]
    norm_num
    linarith
  linarith

/-- Two loops over the same list whose bodies keep a relation indexed by the number of
iterations keep it to the end. -/
theorem foldl_sim {α β γ : Type} (f : α → γ → α) (g : β → γ → β) (R : Nat → α → β → Prop)
    (l : List γ) (k : Nat) (a : α) (b : β)
    (step : ∀ x ∈ l, ∀ k a b, R k a b → R (k + 1) (f a x) (g b x)) (h : R k a b) :
    R (k + l.length) (l.foldl f a) (l.foldl g b) := by
  induction l generalizing k a b with
  | nil => simpa using h
  | cons x xs ih =>
    rw [List.foldl_cons, List.foldl_cons, List.length_cons, ← Nat.add_assoc, Nat.add_right_comm]
    exact ih (k + 1) _ _ (fun y hy => step y (List.mem_cons_of_mem x hy))
      (step x (List.mem_cons_self x xs) k a b h)

theorem getD_valid (inp : List LPPixel) (i : Nat) (hvalid : ∀ p ∈ inp, p.Valid) :
    (inp.getD i default).Valid := by
  rcases getD_mem_or_default inp i default with hm | hd
  · exact hvalid _ hm
  · rw [hd]; decide

theorem reduceNear_mono (k k1 : Nat) (a s : ReduceAcc) (hk : k ≤ k1) (h : ReduceNear k a s) :
    ReduceNear k1 a s := by
  intro h25
  obtain ⟨h0, h1, h2, h3⟩ := h (le_trans hk h25)
  exact ⟨h0, accNear_mono k k1 _ _ hk h1, accNear_mono k k1 _ _ hk h2,
    accNear_mono k k1 _ _ hk h3⟩

theorem expandNear_mono (k k1 : Nat) (a s : RGBAcc) (hk : k ≤ k1) (h : ExpandNear k a s) :
    ExpandNear k1 a s := by
  intro h25
  obtain ⟨h1, h2, h3⟩ := h (le_trans hk h25)
  exact ⟨accNear_mono k k1 _ _ hk h1, accNear_mono k k1 _ _ hk h2,
    accNear_mono k k1 _ _ hk h3⟩

theorem reduceInner_near (inp : List LPPixel) (w h outX outY m n : Nat)
    (hvalid : ∀ p ∈ inp, p.Valid) (hm : m < 5) (hn : n < 5) (k : Nat) (a s : ReduceAcc)
    (hr : ReduceNear k a s) :
    ReduceNear (k + 1) (Binary64.reduceInner inp w h outX outY m a n)
      (reduceInner inp w h outX outY m s n) := by
  intro h25
  obtain ⟨h0, h1, h2, h3⟩ := hr (by omega)
  have hv := reduceTap_valid inp w h outX outY m n hvalid
  unfold Binary64.reduceInner reduceInner
  simp only
  split_ifs with ha
  · exact ⟨by simp only [h0], accNear_mono k (k + 1) _ _ (by omega) h1,
      accNear_mono k (k + 1) _ _ (by omega) h2, accNear_mono k (k + 1) _ _ (by omega) h3⟩
  · exact ⟨h0, accumulate64_near k _ _ m n _ (by omega) hm hn hv.1.1 hv.1.2 h1,
      accumulate64_near k _ _ m n _ (by omega) hm hn hv.2.1.1 hv.2.1.2 h2,
      accumulate64_near k _ _ m n _ (by omega) hm hn hv.2.2.1 hv.2.2.2 h3⟩

theorem reduceOuter_near (inp : List LPPixel) (w h outX outY m : Nat)
    (hvalid : ∀ p ∈ inp, p.Valid) (hm : m < 5) (j : Nat) (a s : ReduceAcc)
    (hr : ReduceNear (5 * j) a s) :
    ReduceNear (5 * (j + 1)) (Binary64.reduceOuter inp w h outX outY a m)
      (reduceOuter inp w h outX outY s m) := by
  have := foldl_sim (Binary64.reduceInner inp w h outX outY m) (reduceInner inp w h outX outY m)
    ReduceNear (List.range 5) (5 * j) a s
    (fun n hn k a b hk =>
      reduceInner_near inp w h outX outY m n hvalid hm (List.mem_range.mp hn) k a b hk) hr
  rw [List.length_range] at this
  exact this

/-- The binary64 accumulators of `reduce` after both loops, against the exact ones. -/
theorem reduceAcc_near (inp : List LPPixel) (w h outX outY : Nat)
    (hvalid : ∀ p ∈ inp, p.Valid) :
    (Binary64.reduceAcc inp w h outX outY).noContrib = (reduceAcc inp w h outX outY).noContrib ∧
    |(Binary64.reduceAcc inp w h outX outY).r - (reduceAcc inp w h outX outY).r| ≤ 25 / 2 ^ 35 ∧
    |(Binary64.reduceAcc inp w h outX outY).g - (reduceAcc inp w h outX outY).g| ≤ 25 / 2 ^ 35 ∧
    |(Binary64.reduceAcc inp w h outX outY).b - (reduceAcc inp w h outX outY).b| ≤ 25 / 2 ^ 35 := by
  have := foldl_sim (Binary64.reduceOuter inp w h outX outY) (reduceOuter inp w h outX outY)
    (fun j => ReduceNear (5 * j)) (List.range 5) 0 ⟨0, 0, 0, 10000⟩ ⟨0, 0, 0, 10000⟩
    (fun m hm j a b hj =>
      reduceOuter_near inp w h outX outY m hvalid (List.mem_range.mp hm) j a b hj)
    (fun _ => ⟨rfl, ⟨by simp, by simp⟩, ⟨by simp, by simp⟩, ⟨by simp, by simp⟩⟩)
  obtain ⟨h0, h1, h2, h3⟩ := this (by simp)
  refine ⟨h0, ?_, ?_, ?_⟩
  · simpa using h1.1
  · simpa using h2.1
  · simpa using h3.1

theorem expandInner_near (inp : List LPPixel) (inW inH outY m n : Nat) (inX : Int)
    (hvalid : ∀ p ∈ inp, p.Valid) (hm : m < 5) (hn : n < 5) (k : Nat) (a s : RGBAcc)
    (hr : ExpandNear k a s) :
    ExpandNear (k + 1) (Binary64.expandInner inp inW inH outY m inX a n)
      (expandInner inp inW inH outY m inX s n) := by
  intro h25
  obtain ⟨h1, h2, h3⟩ := hr (by omega)
  have hv := getD_valid inp (expandIndex outY n inH * inW + inX).toNat hvalid
  unfold Binary64.expandInner expandInner
  simp only
  split_ifs with ha
  · exact ⟨accNear_mono k (k + 1) _ _ (by omega) h1, accNear_mono k (k + 1) _ _ (by omega) h2,
      accNear_mono k (k + 1) _ _ (by omega) h3⟩
  · exact ⟨accumulate64_near k _ _ m n _ (by omega) hm hn hv.1.1 hv.1.2 h1,
      accumulate64_near k _ _ m n _ (by omega) hm hn hv.2.1.1 hv.2.1.2 h2,
      accumulate64_near k _ _ m n _ (by omega) hm hn hv.2.2.1 hv.2.2.2 h3⟩

theorem expandOuter_near (inp : List LPPixel) (inW inH outX outY m : Nat)
    (hvalid : ∀ p ∈ inp, p.Valid) (hm : m < 5) (j : Nat) (a s : RGBAcc)
    (hr : ExpandNear (5 * j) a s) :
    ExpandNear (5 * (j + 1)) (Binary64.expandOuter inp inW inH outX outY a m)
      (expandOuter inp inW inH outX outY s m) := by
  unfold Binary64.expandOuter expandOuter
  split_ifs with hs
  · exact expandNear_mono (5 * j) (5 * (j + 1)) _ _ (by omega) hr
  · have := foldl_sim (Binary64.expandInner inp inW inH outY m (expandIndex outX m inW))
      (expandInner inp inW inH outY m (expandIndex outX m inW))
      ExpandNear (List.range 5) (5 * j) a s
      (fun n hn k a b hk =>
        expandInner_near inp inW inH outY m n _ hvalid hm (List.mem_range.mp hn) k a b hk) hr
    rw [List.length_range] at this
    exact this

/-- The binary64 accumulators of `expand` after both loops, against the exact ones. -/
theorem expandAcc_near (inp : List LPPixel) (inW inH outX outY : Nat)
    (hvalid : ∀ p ∈ inp, p.Valid) :
    |(Binary64.expandAcc inp inW inH outX outY).r - (expandAcc inp inW inH outX outY).r| ≤
      25 / 2 ^ 35 ∧
    |(Binary64.expandAcc inp inW inH outX outY).g - (expandAcc inp inW inH outX outY).g| ≤
      25 / 2 ^ 35 ∧
    |(Binary64.expandAcc inp inW inH outX outY).b - (expandAcc inp inW inH outX outY).b| ≤
      25 / 2 ^ 35 := by
  have := foldl_sim (Binary64.expandOuter inp inW inH outX outY)
    (expandOuter inp inW inH outX outY)
    (fun j => ExpandNear (5 * j)) (List.range 5) 0 ⟨0, 0, 0⟩ ⟨0, 0, 0⟩
    (fun m hm j a b hj =>
      expandOuter_near inp inW inH outX outY m hvalid (List.mem_range.mp hm) j a b hj)
    (fun _ => ⟨⟨by simp, by simp⟩, ⟨by simp, by simp⟩, ⟨by simp, by simp⟩⟩)
  obtain ⟨h1, h2, h3⟩ := this (by simp)
  refine ⟨?_, ?_, ?_⟩
  · simpa using h1.1
  · simpa using h2.1
  · simpa using h3.1

/-- An integer less than 1/2 away from `x` is `rint x`. -/
theorem rint_unique (x : ℚ) (n : Int) (h : |(n : ℚ) - x| < 1 / 2) : rint x = n := by
  have h1 := rint_near x
  have h2 : |((rint x - n : Int) : ℚ)| < 1 := by
    push_cast
    have e : (rint x : ℚ) - n = ((rint x : ℚ) - x) - ((n : ℚ) - x) := by ring
    rw [e]
    refine lt_of_le_of_lt (abs_sub _ _) ?_
    linarith
  have h3 : |rint x - n| < 1 := by exact_mod_cast h2
  have h4 := abs_lt.mp h3
  omega

/-- Rounding a value that is within `2 ^ -20` of a multiple `μ` of `1 / K`, `K ≤ 10000`,
gives an integer that is at most 1/2 away from `μ`, and `rint μ` itself unless `μ` lies
half-way between two integers. -/
theorem rint_near_grid (d μ : ℚ) (K : Nat) (I : Int) (hK : 0 < K) (hK2 : K ≤ 10000)
    (hμ : μ * K = I) (hd : |d - μ| ≤ 1 / 2 ^ 20) :
    |(rint d : ℚ) - μ| ≤ 1 / 2 ∧ ((∀ n : Int, μ ≠ n + 1 / 2) → rint d = rint μ) := by
  have hKq : (0 : ℚ) < K := by exact_mod_cast hK
  have hK2q : (K : ℚ) ≤ 10000 := by exact_mod_cast hK2
  have h1 : |(rint d : ℚ) - μ| ≤ 1 / 2 + 1 / 2 ^ 20 := by
    have e : (rint d : ℚ) - μ = ((rint d : ℚ) - d) + (d - μ) := by ring
    rw [e]
    exact le_trans (abs_add _ _) (add_le_add (rint_near d) hd)
  have h2 : ((2 * K * rint d - 2 * I : Int) : ℚ) = 2 * K * ((rint d : ℚ) - μ) := by
    push_cast
    rw [← hμ]
    ring
  have h3 : |((2 * K * rint d - 2 * I : Int) : ℚ)| < ((K + 1 : Int) : ℚ) := by
    rw [h2, abs_mul, abs_of_pos (by positivity : (0 : ℚ) < 2 * K)]
    push_cast
    have : 2 * (K : ℚ) * |(rint d : ℚ) - μ| ≤ 2 * K * (1 / 2 + 1 / 2 ^ 20) :=
      mul_le_mul_of_nonneg_left h1 (by positivity)
    have e : 2 * (K : ℚ) * (1 / 2 + 1 / 2 ^ 20) = K + K / 2 ^ 19 := by ring
    have : (K : ℚ) / 2 ^ 19 < 1 := by
      rw [div_lt_one (by positivity)]
      norm_num
      linarith
    linarith
  have h4 : |2 * (K : Int) * rint d - 2 * I| < K + 1 := by exact_mod_cast h3
  have h5 : |2 * (K : Int) * rint d - 2 * I| ≤ K := by omega
  have h6 : |((2 * K * rint d - 2 * I : Int) : ℚ)| ≤ ((K : Int) : ℚ) := by exact_mod_cast h5
  rw [h2, abs_mul, abs_of_pos (by positivity : (0 : ℚ) < 2 * K)] at h6
  have h7 : |(rint d : ℚ) - μ| ≤ 1 / 2 := by
    push_cast at h6
    by_contra hc
    push_neg at hc
    have : 2 * (K : ℚ) * (1 / 2) < 2 * K * |(rint d : ℚ) - μ| :=
      mul_lt_mul_of_pos_left hc (by positivity)
    linarith
  refine ⟨h7, fun hn => ?_⟩
  symm
  apply rint_unique
  rcases lt_or_eq_of_le h7 with hlt | heq
  · exact hlt
  · exfalso
    rcases abs_eq (by norm_num : (0 : ℚ) ≤ 1 / 2) |>.mp heq with h8 | h8
    · apply hn (rint d - 1)
      push_cast
      linarith
    · apply hn (rint d)
      linarith

theorem fl64_10000 : fl64 10000 = 10000 := by decide!

theorem fl64_4 : fl64 4 = 4 := by decide!

/-- The adjustment of `reduce` in binary64 against the exact quotient. -/
theorem reduceAdjust_near (a S : ℚ) (K : Nat) (hK1 : 25 ≤ K) (hK2 : K ≤ 10000)
    (ha : |a - S| ≤ 25 / 2 ^ 35) (hμ : |S / ((K : ℚ) / 10000)| ≤ 32768) :
    |Binary64.reduceAdjust K a - S / ((K : ℚ) / 10000)| ≤ 1 / 2 ^ 20 := by
  have hK1q : (25 : ℚ) ≤ K := by exact_mod_cast hK1
  have hK2q : (K : ℚ) ≤ 10000 := by exact_mod_cast hK2
  unfold Binary64.reduceAdjust
  rw [if_neg (by omega), fl64_10000]
  set κ : ℚ := (K : ℚ) / 10000 with hκ
  set μ : ℚ := S / κ with hμdef
  have hκ1 : 1 / 400 ≤ κ := by
    rw [hκ, le_div_iff₀ (by norm_num)]
    linarith
  have hκ2 : κ ≤ 1 := by
    rw [hκ, div_le_one (by norm_num)]
    exact hK2q
  have hκpos : 0 < κ := by linarith
  have hq := fl64_err_2 κ (by rw [abs_of_pos hκpos]; linarith)
  have hq1 : 1 / 512 ≤ fl64 κ := by
    have := (abs_le.mp hq).1
    norm_num at this ⊢
    linarith
  have hqpos : 0 < fl64 κ := by linarith
  have hS : S = μ * κ := by
    rw [hμdef]
    field_simp
  have h1 : |a - μ * fl64 κ| ≤ 25 / 2 ^ 35 + 1 / 2 ^ 38 := by
    have e : a - μ * fl64 κ = (a - S) + μ * (κ - fl64 κ) := by rw [hS]; ring
    rw [e]
    refine le_trans (abs_add _ _) (add_le_add ha ?_)
    rw [abs_mul, abs_sub_comm]
    calc |μ| * |fl64 κ - κ| ≤ 32768 * (1 / 2 ^ 53) :=
          mul_le_mul hμ hq (abs_nonneg _) (by norm_num)
      _ = 1 / 2 ^ 38 := by norm_num
  have h2 : |a / fl64 κ - μ| ≤ 1 / 2 ^ 21 := by
    have e : a / fl64 κ - μ = (a - μ * fl64 κ) / fl64 κ := by
      field_simp
      ring
    rw [e, abs_div, abs_of_pos hqpos, div_le_iff₀ hqpos]
    refine le_trans h1 ?_
    calc (25 : ℚ) / 2 ^ 35 + 1 / 2 ^ 38 ≤ 1 / 2 ^ 21 * (1 / 512) := by norm_num
      _ ≤ 1 / 2 ^ 21 * fl64 κ := mul_le_mul_of_nonneg_left hq1 (by norm_num)
  have h3 : |a / fl64 κ| < 65536 := by
    have e : a / fl64 κ = (a / fl64 κ - μ) + μ := by ring
    rw [e]
    refine lt_of_le_of_lt (abs_add _ _) ?_
    have : (1 : ℚ) / 2 ^ 21 < 1 := by norm_num
    linarith
  have h4 := fl64_err_16 _ h3
  have e : fl64 (a / fl64 κ) - μ = (fl64 (a / fl64 κ) - a / fl64 κ) + (a / fl64 κ - μ) := by
    ring
  rw [e]
  refine le_trans (abs_add _ _) ?_
  have : (1 : ℚ) / 2 ^ 38 + 1 / 2 ^ 21 ≤ 1 / 2 ^ 20 := by norm_num
  linarith

/-- The scaling `r * 4.0` of `expand` in binary64 against the exact product. -/
theorem expandScale_near (a S : ℚ) (ha : |a - S| ≤ 25 / 2 ^ 35) (hμ : |S * 4| ≤ 32768) :
    |fl64 (a * fl64 4) - S * 4| ≤ 1 / 2 ^ 20 := by
  rw [fl64_4]
  have h1 : |a * 4 - S * 4| ≤ 100 / 2 ^ 35 := by
    rw [← sub_mul, abs_mul]
    have : |(4 : ℚ)| = 4 := abs_of_pos (by norm_num)
    rw [this]
    linarith
  have h3 : |a * 4| < 65536 := by
    have e : a * 4 = (a * 4 - S * 4) + S * 4 := by ring
    rw [e]
    refine lt_of_le_of_lt (abs_add _ _) ?_
    have : (100 : ℚ) / 2 ^ 35 < 1 := by norm_num
    linarith
  have h4 := fl64_err_16 _ h3
  have e : fl64 (a * 4) - S * 4 = (fl64 (a * 4) - a * 4) + (a * 4 - S * 4) := by ring
  rw [e]
  refine le_trans (abs_add _ _) ?_
  have : (1 : ℚ) / 2 ^ 38 + 100 / 2 ^ 35 ≤ 1 / 2 ^ 20 := by norm_num
  linarith

/-! ## `reduce` and `expand` in binary64 arithmetic -/

theorem reduce64_getD (inp : List LPPixel) (w h : Nat) (i : Nat)
    (hi : i < (w >>> 1) * (h >>> 1)) :
    (Binary64.reduce inp w h).getD i default =
      Binary64.reducePixel inp w h (i / (w >>> 1)) (i % (w >>> 1)) := by
  unfold Binary64.reduce
  simp only
  rw [List.range_eq_range', List.range_eq_range']
  have := (sweep_spec 0 (h >>> 1) 0 (w >>> 1)
    (fun outY outX (_ : LPPixel) => Binary64.reducePixel inp w h outY outX)
    (List.replicate ((w >>> 1) * (h >>> 1)) ⟨0, 0, 0, 0⟩)).2 i
  rw [this]
  have h2 : i < (h >>> 1) * (w >>> 1) ∧
      i < (List.replicate ((w >>> 1) * (h >>> 1)) (⟨0, 0, 0, 0⟩ : LPPixel)).length := by
    rw [List.length_replicate, Nat.mul_comm (h >>> 1)]
    exact ⟨hi, hi⟩
  rw [if_pos h2]
  simp

/-- The pixel of `reduce` in binary64 at column `x` and row `y`. -/
theorem reduce64_at (inp : List LPPixel) (w h x y : Nat) (hx : x < w >>> 1)
    (hy : y < h >>> 1) :
    (Binary64.reduce inp w h).getD (y * (w >>> 1) + x) default =
      Binary64.reducePixel inp w h y x := by
  have hi : y * (w >>> 1) + x < (w >>> 1) * (h >>> 1) := by
    calc y * (w >>> 1) + x < y * (w >>> 1) + (w >>> 1) := by omega
      _ = (y + 1) * (w >>> 1) := by ring
      _ ≤ (h >>> 1) * (w >>> 1) := Nat.mul_le_mul_right _ hy
      _ = (w >>> 1) * (h >>> 1) := Nat.mul_comm _ _
  rw [reduce64_getD inp w h _ hi]
  obtain ⟨hd, hm⟩ := div_mod_of_row (w >>> 1) y (y * (w >>> 1) + x) (by omega) (by omega)
  rw [hd, hm]
  congr 1
  omega

theorem expand64_getD (inp : List LPPixel) (inW inH : Nat) (out : List LPPixel)
    (outW outH : Nat) (add : Bool) (i : Nat) :
    (Binary64.expand inp inW inH out outW outH add).getD i default =
      if i < outH * outW ∧ i < out.length then
        Binary64.expandPixel inp inW inH add (i / outW) (i % outW) (out.getD i default)
      else out.getD i default := by
  unfold Binary64.expand
  rw [List.range_eq_range', List.range_eq_range']
  have := (sweep_spec 0 outH 0 outW (Binary64.expandPixel inp inW inH add) out).2 i
  simpa using this

/-- The pixel of `expand` in binary64 at column `x` and row `y` of the destination. -/
theorem expand64_at (inp : List LPPixel) (inW inH : Nat) (out : List LPPixel)
    (outW outH : Nat) (add : Bool) (x y : Nat) (hx : x < outW) (hy : y < outH)
    (hlen : outW * outH ≤ out.length) :
    (Binary64.expand inp inW inH out outW outH add).getD (y * outW + x) default =
      Binary64.expandPixel inp inW inH add y x (out.getD (y * outW + x) default) := by
  have hi : y * outW + x < outH * outW := by
    calc y * outW + x < y * outW + outW := by omega
      _ = (y + 1) * outW := by ring
      _ ≤ outH * outW := Nat.mul_le_mul_right _ hy
  rw [expand64_getD]
  have h2 : y * outW + x < outH * outW ∧ y * outW + x < out.length := by
    refine ⟨hi, ?_⟩
    rw [Nat.mul_comm outH] at hi
    omega
  rw [if_pos h2]
  obtain ⟨hd, hm⟩ := div_mod_of_row outW y (y * outW + x) (by omega) (by omega)
  rw [hd, hm]
  congr 1
  omega

/-- The exact channel sum of `reduce` is a multiple of 1/10000. -/
theorem opaqueSum_grid (ch : LPPixel → Int) (inp : List LPPixel) (w h outX outY : Nat) :
    ∃ I : Int, opaqueSum ch inp w h outX outY * 10000 = I := by
  refine ⟨∑ m ∈ Finset.range 5, ∑ n ∈ Finset.range 5,
    if (reduceTap inp w h outX outY m n).a = 255 then
      ((W100 m * W100 n : Nat) : Int) * ch (reduceTap inp w h outX outY m n) else 0, ?_⟩
  unfold opaqueSum
  rw [Finset.sum_mul, Int.cast_sum]
  refine Finset.sum_congr rfl (fun m hm => ?_)
  rw [Finset.sum_mul, Int.cast_sum]
  refine Finset.sum_congr rfl (fun n hn => ?_)
  rw [Finset.mem_range] at hm hn
  unfold tapTerm
  split_ifs
  · have := W100_eq_W m n hm hn
    push_cast at this ⊢
    rw [this]
    ring
  · simp

/-- The exact channel sum of `expand` is a multiple of 1/10000. -/
theorem expandSum_grid (ch : LPPixel → Int) (inp : List LPPixel) (inW inH outX outY : Nat) :
    ∃ I : Int, expandSum ch inp inW inH outX outY * 10000 = I := by
  refine ⟨∑ m ∈ Finset.range 5, ∑ n ∈ Finset.range 5,
    if expandSkip outX m || expandSkip outY n then 0 else
      ((W100 m * W100 n : Nat) : Int) * ch (expandTap inp inW inH outX outY m n), ?_⟩
  unfold expandSum
  rw [Finset.sum_mul, Int.cast_sum]
  refine Finset.sum_congr rfl (fun m hm => ?_)
  rw [Finset.sum_mul, Int.cast_sum]
  refine Finset.sum_congr rfl (fun n hn => ?_)
  rw [Finset.mem_range] at hm hn
  unfold expandTerm
  split_ifs
  · simp
  · have := W100_eq_W m n hm hn
    push_cast at this ⊢
    rw [this]
    ring

theorem W100_ge (m : Nat) (hm : m < 5) : 5 ≤ W100 m := by
  interval_cases m <;> decide

/-- With an opaque pixel in the window, `noContrib` ends at 25 or more. -/
theorem noContrib_ge (inp : List LPPixel) (w h outX outY : Nat)
    (hop : ∃ m n, m < 5 ∧ n < 5 ∧ (reduceTap inp w h outX outY m n).a = 255) :
    25 ≤ (reduceAcc inp w h outX outY).noContrib := by
  obtain ⟨m, n, hm, hn, ho⟩ := hop
  rw [noContrib_eq_tally]
  have h1 : (if (reduceTap inp w h outX outY m n).a = 255 then W100 m * W100 n else 0) ≤
      ∑ n ∈ Finset.range 5,
        if (reduceTap inp w h outX outY m n).a = 255 then W100 m * W100 n else 0 :=
    Finset.single_le_sum
      (f := fun n => if (reduceTap inp w h outX outY m n).a = 255 then W100 m * W100 n else 0)
      (fun _ _ => Nat.zero_le _) (Finset.mem_range.mpr hn)
  have h2 : (∑ n ∈ Finset.range 5,
        if (reduceTap inp w h outX outY m n).a = 255 then W100 m * W100 n else 0) ≤
      ∑ m ∈ Finset.range 5, ∑ n ∈ Finset.range 5,
        if (reduceTap inp w h outX outY m n).a = 255 then W100 m * W100 n else 0 :=
    Finset.single_le_sum
      (f := fun m => ∑ n ∈ Finset.range 5,
        if (reduceTap inp w h outX outY m n).a = 255 then W100 m * W100 n else 0)
      (fun _ _ => Nat.zero_le _) (Finset.mem_range.mpr hm)
  rw [if_pos ho] at h1
  have h3 := Nat.mul_le_mul (W100_ge m hm) (W100_ge n hn)
  omega

theorem int16_of_near (o : Int) (μ : ℚ) (h : |(o : ℚ) - μ| ≤ 1 / 2) (h1 : (-32768 : ℚ) ≤ μ)
    (h2 : μ ≤ 32767) : -32768 ≤ o ∧ o ≤ 32767 := by
  obtain ⟨h3, h4⟩ := abs_le.mp h
  have a : ((-32769 : Int) : ℚ) < (o : ℚ) := by push_cast; linarith
  have b : (o : ℚ) < ((32768 : Int) : ℚ) := by push_cast; linarith
  have a1 : (-32769 : Int) < o := by exact_mod_cast a
  have b1 : o < (32768 : Int) := by exact_mod_cast b
  omega

/-- The value that `reduce` stores in a channel in binary64, given the distance of the
binary64 sum `a` from the exact channel sum. -/
theorem reduce64_channel (ch : LPPixel → Int) (inp : List LPPixel) (w h outX outY : Nat)
    (hop : ∃ m n, m < 5 ∧ n < 5 ∧ (reduceTap inp w h outX outY m n).a = 255)
    (hb : ∀ m n, m < 5 → n < 5 → -32768 ≤ ch (reduceTap inp w h outX outY m n) ∧
      ch (reduceTap inp w h outX outY m n) ≤ 32767)
    (a : ℚ) (ha : |a - opaqueSum ch inp w h outX outY| ≤ 25 / 2 ^ 35) :
    |((toInt16 (rint (Binary64.reduceAdjust (reduceAcc inp w h outX outY).noContrib a)) : Int)
        : ℚ) - opaqueSum ch inp w h outX outY / opaqueWeight inp w h outX outY| ≤ 1 / 2 ∧
    ((∀ k : Int,
        opaqueSum ch inp w h outX outY / opaqueWeight inp w h outX outY ≠ (k : ℚ) + 1 / 2) →
      toInt16 (rint (Binary64.reduceAdjust (reduceAcc inp w h outX outY).noContrib a)) =
        rint (opaqueSum ch inp w h outX outY / opaqueWeight inp w h outX outY)) := by
  have hK1 := noContrib_ge inp w h outX outY hop
  have hK2 := noContrib_le inp w h outX outY
  have hdiv := noContrib_div inp w h outX outY
  obtain ⟨m1, m2⟩ := mean_bounds ch inp w h outX outY (-32768) 32767 hop
    (fun m n hm hn _ => hb m n hm hn)
  push_cast at m1 m2
  rw [← hdiv] at m1 m2 ⊢
  have hμ : |opaqueSum ch inp w h outX outY /
      (((reduceAcc inp w h outX outY).noContrib : ℚ) / 10000)| ≤ 32768 := by
    rw [abs_le]
    constructor <;> linarith
  have hd := reduceAdjust_near a _ _ hK1 hK2 ha hμ
  obtain ⟨I, hI⟩ := opaqueSum_grid ch inp w h outX outY
  have hKq : (0 : ℚ) < ((reduceAcc inp w h outX outY).noContrib : ℚ) := by
    have : 0 < (reduceAcc inp w h outX outY).noContrib := by omega
    exact_mod_cast this
  have hgrid : opaqueSum ch inp w h outX outY /
      (((reduceAcc inp w h outX outY).noContrib : ℚ) / 10000) *
        ((reduceAcc inp w h outX outY).noContrib : ℚ) = I := by
    rw [← hI]
    field_simp
  obtain ⟨n1, n2⟩ := rint_near_grid _ _ _ I (by omega) hK2 hgrid hd
  obtain ⟨r1, r2⟩ := int16_of_near _ _ n1 m1 m2
  rw [toInt16_of_range _ r1 r2]
  exact ⟨n1, n2⟩

/-- The increment of a channel in `expand` in binary64, given the distance of the
binary64 sum `a` from the exact channel sum. -/
theorem expand64_channel (ch : LPPixel → Int) (inp : List LPPixel)
    (inW inH outX outY : Nat)
    (hb : ∀ m n, m < 5 → n < 5 → -32768 ≤ ch (expandTap inp inW inH outX outY m n) ∧
      ch (expandTap inp inW inH outX outY m n) ≤ 32767)
    (a : ℚ) (ha : |a - expandSum ch inp inW inH outX outY| ≤ 25 / 2 ^ 35) :
    |((toInt16 (rint (fl64 (a * fl64 4))) : Int) : ℚ) -
        expandSum ch inp inW inH outX outY * 4| ≤ 1 / 2 ∧
    ((∀ k : Int, expandSum ch inp inW inH outX outY * 4 ≠ (k : ℚ) + 1 / 2) →
      toInt16 (rint (fl64 (a * fl64 4))) = rint (expandSum ch inp inW inH outX outY * 4)) := by
  obtain ⟨m1, m2⟩ := expandSum_bounds ch inp inW inH outX outY (-32768) 32767 hb
  push_cast at m1 m2
  have hμ : |expandSum ch inp inW inH outX outY * 4| ≤ 32768 := by
    rw [abs_le]
    constructor <;> linarith
  have hd := expandScale_near a _ ha hμ
  obtain ⟨I, hI⟩ := expandSum_grid ch inp inW inH outX outY
  have hgrid : expandSum ch inp inW inH outX outY * 4 * ((2500 : Nat) : ℚ) = I := by
    rw [← hI]
    push_cast
    ring
  obtain ⟨n1, n2⟩ := rint_near_grid _ _ 2500 I (by norm_num) (by norm_num) hgrid hd
  obtain ⟨r1, r2⟩ := int16_of_near _ _ n1 m1 m2
  rw [toInt16_of_range _ r1 r2]
  exact ⟨n1, n2⟩

/-- The claim C2 fails in binary64 arithmetic: in the opaque 2x2 raster with the channel
values 0, 0, 5, 5 the weighted mean of the window of output pixel (0, 0) is 3/2, whose
round-to-nearest is 2, while `reduce` computes 3/2 - 2^-52 and stores 1. -/
theorem reduce_not_rint :
    (∀ p ∈ [(⟨0, 0, 0, 255⟩ : LPPixel), ⟨0, 0, 0, 255⟩, ⟨5, 5, 5, 255⟩, ⟨5, 5, 5, 255⟩],
      p.Valid) ∧
    (reduceTap [⟨0, 0, 0, 255⟩, ⟨0, 0, 0, 255⟩, ⟨5, 5, 5, 255⟩, ⟨5, 5, 5, 255⟩] 2 2 0 0 0 0).a
      = 255 ∧
    opaqueSum (fun p => p.r)
        [⟨0, 0, 0, 255⟩, ⟨0, 0, 0, 255⟩, ⟨5, 5, 5, 255⟩, ⟨5, 5, 5, 255⟩] 2 2 0 0 /
      opaqueWeight [⟨0, 0, 0, 255⟩, ⟨0, 0, 0, 255⟩, ⟨5, 5, 5, 255⟩, ⟨5, 5, 5, 255⟩] 2 2 0 0
      = 3 / 2 ∧
    rint (3 / 2) = 2 ∧
    Binary64.reduceAdjust
        (Binary64.reduceAcc
          [⟨0, 0, 0, 255⟩, ⟨0, 0, 0, 255⟩, ⟨5, 5, 5, 255⟩, ⟨5, 5, 5, 255⟩] 2 2 0 0).noContrib
        (Binary64.reduceAcc
          [⟨0, 0, 0, 255⟩, ⟨0, 0, 0, 255⟩, ⟨5, 5, 5, 255⟩, ⟨5, 5, 5, 255⟩] 2 2 0 0).r
      = 3 / 2 - 1 / 2 ^ 52 ∧
    ((Binary64.reduce [⟨0, 0, 0, 255⟩, ⟨0, 0, 0, 255⟩, ⟨5, 5, 5, 255⟩, ⟨5, 5, 5, 255⟩] 2 2).getD
      (0 * (2 >>> 1) + 0) default).r = 1 ∧
    ((Binary64.reduce [⟨0, 0, 0, 255⟩, ⟨0, 0, 0, 255⟩, ⟨5, 5, 5, 255⟩, ⟨5, 5, 5, 255⟩] 2 2).getD
      (0 * (2 >>> 1) + 0) default).r ≠
      rint (opaqueSum (fun p => p.r)
          [⟨0, 0, 0, 255⟩, ⟨0, 0, 0, 255⟩, ⟨5, 5, 5, 255⟩, ⟨5, 5, 5, 255⟩] 2 2 0 0 /
        opaqueWeight [⟨0, 0, 0, 255⟩, ⟨0, 0, 0, 255⟩, ⟨5, 5, 5, 255⟩, ⟨5, 5, 5, 255⟩] 2 2 0 0) := by
  decide!

/-- C2 (amended): for an output pixel of `reduce` whose clamped window holds an opaque
pixel, with every `double` operation rounded to binary64, `noContrib / 10000` is the sum
of `W[m] * W[n]` over the opaque window positions (for the exact weights 0.05, 0.25, 0.4,
0.25, 0.05), `W100[m] * W100[n] = 10000 * W[m] * W[n]`, and each output channel is an
integer nearest to the weighted mean of that channel over the opaque positions, that is
at most 1/2 away from it; it is the round-to-nearest `rint` of the weighted mean
whenever the mean does not lie exactly half-way between two integers. -/
theorem reduce_weighted_mean (inp : List LPPixel) (w h outX outY : Nat)
    (hx : outX < w >>> 1) (hy : outY < h >>> 1) (hvalid : ∀ p ∈ inp, p.Valid)
    (hop : ∃ m n, m < 5 ∧ n < 5 ∧ (reduceTap inp w h outX outY m n).a = 255) :
    ((Binary64.reduceAcc inp w h outX outY).noContrib : ℚ) / 10000 =
      opaqueWeight inp w h outX outY ∧
    (∀ m n, m < 5 → n < 5 → ((W100 m * W100 n : Nat) : ℚ) = 10000 * (W m * W n)) ∧
    (|((((Binary64.reduce inp w h).getD (outY * (w >>> 1) + outX) default).r : Int) : ℚ) -
        opaqueSum (fun p => p.r) inp w h outX outY / opaqueWeight inp w h outX outY| ≤ 1 / 2 ∧
      ((∀ k : Int, opaqueSum (fun p => p.r) inp w h outX outY /
          opaqueWeight inp w h outX outY ≠ (k : ℚ) + 1 / 2) →
        ((Binary64.reduce inp w h).getD (outY * (w >>> 1) + outX) default).r =
          rint (opaqueSum (fun p => p.r) inp w h outX outY /
            opaqueWeight inp w h outX outY))) ∧
    (|((((Binary64.reduce inp w h).getD (outY * (w >>> 1) + outX) default).g : Int) : ℚ) -
        opaqueSum (fun p => p.g) inp w h outX outY / opaqueWeight inp w h outX outY| ≤ 1 / 2 ∧
      ((∀ k : Int, opaqueSum (fun p => p.g) inp w h outX outY /
          opaqueWeight inp w h outX outY ≠ (k : ℚ) + 1 / 2) →
        ((Binary64.reduce inp w h).getD (outY * (w >>> 1) + outX) default).g =
          rint (opaqueSum (fun p => p.g) inp w h outX outY /
            opaqueWeight inp w h outX outY))) ∧
    (|((((Binary64.reduce inp w h).getD (outY * (w >>> 1) + outX) default).b : Int) : ℚ) -
        opaqueSum (fun p => p.b) inp w h outX outY / opaqueWeight inp w h outX outY| ≤ 1 / 2 ∧
      ((∀ k : Int, opaqueSum (fun p => p.b) inp w h outX outY /
          opaqueWeight inp w h outX outY ≠ (k : ℚ) + 1 / 2) →
        ((Binary64.reduce inp w h).getD (outY * (w >>> 1) + outX) default).b =
          rint (opaqueSum (fun p => p.b) inp w h outX outY /
            opaqueWeight inp w h outX outY))) := by
  have hv := fun m n => reduceTap_valid inp w h outX outY m n hvalid
  obtain ⟨er, eg, eb, _⟩ := reduceAcc_eq inp w h outX outY
  obtain ⟨h0, ar, ag, ab⟩ := reduceAcc_near inp w h outX outY hvalid
  rw [er] at ar
  rw [eg] at ag
  rw [eb] at ab
  rw [reduce64_at inp w h outX outY hx hy]
  unfold Binary64.reducePixel
  simp only [h0]
  exact ⟨noContrib_div inp w h outX outY, W100_eq_W,
    reduce64_channel (fun p => p.r) inp w h outX outY hop (fun m n _ _ => (hv m n).1) _ ar,
    reduce64_channel (fun p => p.g) inp w h outX outY hop (fun m n _ _ => (hv m n).2.1) _ ag,
    reduce64_channel (fun p => p.b) inp w h outX outY hop (fun m n _ _ => (hv m n).2.2) _ ab⟩

/-- Applying `reduce_weighted_mean` to the opaque 2x2 raster with the channel values
0, 0, 5, 6, whose weighted mean 33/20 is not half-way between two integers. -/
theorem reduce_weighted_mean_witness :
    (0 < 2 >>> 1 ∧ 0 < 2 >>> 1 ∧
      (∀ p ∈ [(⟨0, 0, 0, 255⟩ : LPPixel), ⟨0, 0, 0, 255⟩, ⟨5, 5, 5, 255⟩, ⟨6, 6, 6, 255⟩],
        p.Valid) ∧
      ∃ m n, m < 5 ∧ n < 5 ∧
        (reduceTap [⟨0, 0, 0, 255⟩, ⟨0, 0, 0, 255⟩, ⟨5, 5, 5, 255⟩, ⟨6, 6, 6, 255⟩]
          2 2 0 0 m n).a = 255) ∧
    ((Binary64.reduceAcc [⟨0, 0, 0, 255⟩, ⟨0, 0, 0, 255⟩, ⟨5, 5, 5, 255⟩, ⟨6, 6, 6, 255⟩]
        2 2 0 0).noContrib : ℚ) / 10000 =
      opaqueWeight [⟨0, 0, 0, 255⟩, ⟨0, 0, 0, 255⟩, ⟨5, 5, 5, 255⟩, ⟨6, 6, 6, 255⟩] 2 2 0 0 ∧
    |((((Binary64.reduce [⟨0, 0, 0, 255⟩, ⟨0, 0, 0, 255⟩, ⟨5, 5, 5, 255⟩, ⟨6, 6, 6, 255⟩]
        2 2).getD (0 * (2 >>> 1) + 0) default).r : Int) : ℚ) -
      opaqueSum (fun p => p.r)
          [⟨0, 0, 0, 255⟩, ⟨0, 0, 0, 255⟩, ⟨5, 5, 5, 255⟩, ⟨6, 6, 6, 255⟩] 2 2 0 0 /
        opaqueWeight [⟨0, 0, 0, 255⟩, ⟨0, 0, 0, 255⟩, ⟨5, 5, 5, 255⟩, ⟨6, 6, 6, 255⟩]
          2 2 0 0| ≤ 1 / 2 :=
  ⟨⟨by decide, by decide, by decide, 0, 0, by decide, by decide, by decide⟩,
    (reduce_weighted_mean [⟨0, 0, 0, 255⟩, ⟨0, 0, 0, 255⟩, ⟨5, 5, 5, 255⟩, ⟨6, 6, 6, 255⟩]
      2 2 0 0 (by decide) (by decide) (by decide) ⟨0, 0, by decide, by decide, by decide⟩).1,
    (reduce_weighted_mean [⟨0, 0, 0, 255⟩, ⟨0, 0, 0, 255⟩, ⟨5, 5, 5, 255⟩, ⟨6, 6, 6, 255⟩]
      2 2 0 0 (by decide) (by decide) (by decide)
      ⟨0, 0, by decide, by decide, by decide⟩).2.2.1.1⟩

/-- The claim C5 fails in binary64 arithmetic: for the 3x2 source with the channel values
0, 0, 15, 0, 0, 15 and output pixel (2, 1), no tap of which is clamped, 4 times the
convolution of the zero-stuffed grid is 3/2, whose round-to-nearest is 2, while `expand`
computes 3/2 - 2^-51 and adds 1. -/
theorem expand_not_rint :
    (∀ p ∈ [(⟨0, 0, 0, 255⟩ : LPPixel), ⟨0, 0, 0, 255⟩, ⟨15, 15, 15, 255⟩, ⟨0, 0, 0, 255⟩,
      ⟨0, 0, 0, 255⟩, ⟨15, 15, 15, 255⟩], p.Valid) ∧
    (∀ m : Nat, m < 5 → (((2 : Nat) : Int) - ((m : Int) - 2)) % 2 = 0 →
      0 ≤ (((2 : Nat) : Int) - ((m : Int) - 2)) / 2 ∧
        (((2 : Nat) : Int) - ((m : Int) - 2)) / 2 < (3 : Nat)) ∧
    (∀ n : Nat, n < 5 → (((1 : Nat) : Int) - ((n : Int) - 2)) % 2 = 0 →
      0 ≤ (((1 : Nat) : Int) - ((n : Int) - 2)) / 2 ∧
        (((1 : Nat) : Int) - ((n : Int) - 2)) / 2 < (2 : Nat)) ∧
    4 * zeroStuffedConv (fun p => p.r)
        [⟨0, 0, 0, 255⟩, ⟨0, 0, 0, 255⟩, ⟨15, 15, 15, 255⟩, ⟨0, 0, 0, 255⟩, ⟨0, 0, 0, 255⟩,
          ⟨15, 15, 15, 255⟩] 3 2 2 1 = 3 / 2 ∧
    rint (3 / 2) = 2 ∧
    fl64 ((Binary64.expandAcc
        [⟨0, 0, 0, 255⟩, ⟨0, 0, 0, 255⟩, ⟨15, 15, 15, 255⟩, ⟨0, 0, 0, 255⟩, ⟨0, 0, 0, 255⟩,
          ⟨15, 15, 15, 255⟩] 3 2 2 1).r * fl64 4) = 3 / 2 - 1 / 2 ^ 51 ∧
    Binary64.expandDelta
        [⟨0, 0, 0, 255⟩, ⟨0, 0, 0, 255⟩, ⟨15, 15, 15, 255⟩, ⟨0, 0, 0, 255⟩, ⟨0, 0, 0, 255⟩,
          ⟨15, 15, 15, 255⟩] 3 2 2 1 = (1, 1, 1) ∧
    (Binary64.expandDelta
        [⟨0, 0, 0, 255⟩, ⟨0, 0, 0, 255⟩, ⟨15, 15, 15, 255⟩, ⟨0, 0, 0, 255⟩, ⟨0, 0, 0, 255⟩,
          ⟨15, 15, 15, 255⟩] 3 2 2 1).1 ≠
      rint (4 * zeroStuffedConv (fun p => p.r)
        [⟨0, 0, 0, 255⟩, ⟨0, 0, 0, 255⟩, ⟨15, 15, 15, 255⟩, ⟨0, 0, 0, 255⟩, ⟨0, 0, 0, 255⟩,
          ⟨15, 15, 15, 255⟩] 3 2 2 1) ∧
    (Binary64.expand
        [⟨0, 0, 0, 255⟩, ⟨0, 0, 0, 255⟩, ⟨15, 15, 15, 255⟩, ⟨0, 0, 0, 255⟩, ⟨0, 0, 0, 255⟩,
          ⟨15, 15, 15, 255⟩] 3 2 (List.replicate 24 ⟨100, 100, 100, 255⟩) 6 4 true).getD
      (1 * 6 + 2) default = ⟨101, 101, 101, 255⟩ := by
  decide!

/-- C5 (amended): for an output pixel of `expand` all of whose contributing taps fall
inside the source without clamping, with every `double` operation rounded to binary64,
the increment `(int16)rint(r * 4.0)` of each channel is an integer nearest to 4 times
the separable 5-tap convolution with `W` = 0.05, 0.25, 0.4, 0.25, 0.05 of the
zero-stuffed grid, that is at most 1/2 away from it; it is the round-to-nearest `rint`
of that value whenever the value does not lie exactly half-way between two integers; and
the destination channel becomes its previous value plus (add mode) or minus (subtract
mode) that increment, as a 16-bit value. -/
theorem expand_zero_stuffed (inp : List LPPixel) (inW inH : Nat) (out : List LPPixel)
    (outW outH : Nat) (add : Bool) (outX outY : Nat)
    (hx : outX < outW) (hy : outY < outH) (hlen : outW * outH ≤ out.length)
    (hvalid : ∀ p ∈ inp, p.Valid)
    (hinx : ∀ m : Nat, m < 5 → ((outX : Int) - ((m : Int) - 2)) % 2 = 0 →
      0 ≤ ((outX : Int) - ((m : Int) - 2)) / 2 ∧ ((outX : Int) - ((m : Int) - 2)) / 2 < inW)
    (hiny : ∀ n : Nat, n < 5 → ((outY : Int) - ((n : Int) - 2)) % 2 = 0 →
      0 ≤ ((outY : Int) - ((n : Int) - 2)) / 2 ∧ ((outY : Int) - ((n : Int) - 2)) / 2 < inH) :
    (|(((Binary64.expandDelta inp inW inH outX outY).1 : Int) : ℚ) -
        4 * zeroStuffedConv (fun p => p.r) inp inW inH outX outY| ≤ 1 / 2 ∧
      ((∀ k : Int, 4 * zeroStuffedConv (fun p => p.r) inp inW inH outX outY ≠
          (k : ℚ) + 1 / 2) →
        (Binary64.expandDelta inp inW inH outX outY).1 =
          rint (4 * zeroStuffedConv (fun p => p.r) inp inW inH outX outY))) ∧
    (|(((Binary64.expandDelta inp inW inH outX outY).2.1 : Int) : ℚ) -
        4 * zeroStuffedConv (fun p => p.g) inp inW inH outX outY| ≤ 1 / 2 ∧
      ((∀ k : Int, 4 * zeroStuffedConv (fun p => p.g) inp inW inH outX outY ≠
          (k : ℚ) + 1 / 2) →
        (Binary64.expandDelta inp inW inH outX outY).2.1 =
          rint (4 * zeroStuffedConv (fun p => p.g) inp inW inH outX outY))) ∧
    (|(((Binary64.expandDelta inp inW inH outX outY).2.2 : Int) : ℚ) -
        4 * zeroStuffedConv (fun p => p.b) inp inW inH outX outY| ≤ 1 / 2 ∧
      ((∀ k : Int, 4 * zeroStuffedConv (fun p => p.b) inp inW inH outX outY ≠
          (k : ℚ) + 1 / 2) →
        (Binary64.expandDelta inp inW inH outX outY).2.2 =
          rint (4 * zeroStuffedConv (fun p => p.b) inp inW inH outX outY))) ∧
    (Binary64.expand inp inW inH out outW outH add).getD (outY * outW + outX) default =
      (if add then
        { out.getD (outY * outW + outX) default with
          r := toInt16 ((out.getD (outY * outW + outX) default).r +
            (Binary64.expandDelta inp inW inH outX outY).1)
          g := toInt16 ((out.getD (outY * outW + outX) default).g +
            (Binary64.expandDelta inp inW inH outX outY).2.1)
          b := toInt16 ((out.getD (outY * outW + outX) default).b +
            (Binary64.expandDelta inp inW inH outX outY).2.2) }
      else
        { out.getD (outY * outW + outX) default with
          r := toInt16 ((out.getD (outY * outW + outX) default).r -
            (Binary64.expandDelta inp inW inH outX outY).1)
          g := toInt16 ((out.getD (outY * outW + outX) default).g -
            (Binary64.expandDelta inp inW inH outX outY).2.1)
          b := toInt16 ((out.getD (outY * outW + outX) default).b -
            (Binary64.expandDelta inp inW inH outX outY).2.2) }) := by
  have hsum : ∀ ch : LPPixel → Int, expandSum ch inp inW inH outX outY * 4 =
      4 * zeroStuffedConv ch inp inW inH outX outY := by
    intro ch
    rw [mul_comm]
    congr 1
    unfold expandSum zeroStuffedConv
    refine Finset.sum_congr rfl (fun m hm => Finset.sum_congr rfl (fun n hn => ?_))
    rw [Finset.mem_range] at hm hn
    exact expandTerm_zeroStuffed ch inp inW inH outX outY m n (hinx m hm) (hiny n hn)
  have hv := fun m n => expandTap_valid inp inW inH outX outY m n hvalid
  obtain ⟨er, eg, eb⟩ := expandAcc_eq inp inW inH outX outY
  obtain ⟨ar, ag, ab⟩ := expandAcc_near inp inW inH outX outY hvalid
  rw [er] at ar
  rw [eg] at ag
  rw [eb] at ab
  have cr := expand64_channel (fun p => p.r) inp inW inH outX outY
    (fun m n _ _ => (hv m n).1) _ ar
  have cg := expand64_channel (fun p => p.g) inp inW inH outX outY
    (fun m n _ _ => (hv m n).2.1) _ ag
  have cb := expand64_channel (fun p => p.b) inp inW inH outX outY
    (fun m n _ _ => (hv m n).2.2) _ ab
  rw [hsum] at cr cg cb
  refine ⟨cr, cg, cb, ?_⟩
  rw [expand64_at inp inW inH out outW outH add outX outY hx hy hlen]
  rfl

/-- Applying `expand_zero_stuffed` to output pixel `(2, 2)` of the expansion of a
3x3 raster into a 6x6 destination. -/
theorem expand_zero_stuffed_witness :
    ((2 < 6 ∧ 2 < 6 ∧ 6 * 6 ≤ (List.replicate 36 (⟨1, 1, 1, 255⟩ : LPPixel)).length) ∧
      (∀ p ∈ (List.range 9).map (fun i => (⟨i, 2 * i, 3 * i, 255⟩ : LPPixel)), p.Valid) ∧
      (∀ m : Nat, m < 5 → (((2 : Nat) : Int) - ((m : Int) - 2)) % 2 = 0 →
        0 ≤ (((2 : Nat) : Int) - ((m : Int) - 2)) / 2 ∧
          (((2 : Nat) : Int) - ((m : Int) - 2)) / 2 < (3 : Nat))) ∧
    |(((Binary64.expandDelta ((List.range 9).map (fun i => (⟨i, 2 * i, 3 * i, 255⟩ : LPPixel)))
        3 3 2 2).1 : Int) : ℚ) -
      4 * zeroStuffedConv (fun p => p.r)
        ((List.range 9).map (fun i => (⟨i, 2 * i, 3 * i, 255⟩ : LPPixel))) 3 3 2 2| ≤ 1 / 2 :=
  ⟨⟨⟨by decide, by decide, by decide⟩, by decide, by decide⟩,
    (expand_zero_stuffed ((List.range 9).map (fun i => (⟨i, 2 * i, 3 * i, 255⟩ : LPPixel)))
      3 3 (List.replicate 36 ⟨1, 1, 1, 255⟩) 6 6 true 2 2 (by decide) (by decide) (by decide)
      (by decide) (by decide) (by decide)).1.1⟩

end Enblend
